import Mathlib

/-!
# Shallow embedding of `grafo.c`

An undirected weighted graph read from a text stream, together with the
analyses of `grafo.c`: component count, bipartiteness, per-component
diameters, cut vertices and cut edges.

Conventions of the embedding.
* A C string is a `List Char` (one `Char` per byte, no terminating NUL).
* A C array together with its length is a `List`; reads use `List.getD`, writes
  use `List.set`.  On well-formed graphs every index is in range.
* `int` flags that only ever hold 0 or 1 are `Bool`; other `int`s are `Int`.
* Recursive C functions take an explicit recursion budget (`fuel`) and return
  `none` when the budget is exhausted; the top-level functions pass a budget
  that is shown to be sufficient.
* A run that leaves defined behaviour (a store outside an array, a number
  that `atoi` cannot represent) or that ends the process through `exit` gives
  no result: the function returns `none`.
* Memory is taken to be sufficient: `malloc` fails only for a request that no
  address space can hold (a negative count converted to `size_t`).
-/

namespace Grafo

/-! ## Data model (`grafo.h`) -/

/-- Node of an adjacency list (`struct adj_node`): neighbour index and weight.
The `next` pointer is the tail of the enclosing list. -/
structure adj_node where
  v : Nat
  weight : Int
deriving DecidableEq, Repr

/-- The graph record (`struct grafo`).  `name` is `none` for a NULL pointer. -/
structure grafo where
  name : Option (List Char)
  n_vertices : Nat
  n_arestas : Nat
  vertices : List (List Char)
  adj : List (List adj_node)
deriving DecidableEq, Repr

/-! ## String helpers (libc functions used by the loader) -/

/-- The C-locale `isspace`: space, and the control characters 9 to 13. -/
def isspace (c : Char) : Bool :=
  c.toNat == 32 || (9 ≤ c.toNat && c.toNat ≤ 13)

/-- Function `trim`: drops leading and trailing white space. -/
def trim (str : List Char) : List Char :=
  ((str.dropWhile isspace).reverse.dropWhile isspace).reverse

/-- Does `s` begin with `t`? -/
def starts_with : List Char → List Char → Bool
  | _, [] => true
  | [], _ :: _ => false
  | c :: cs, d :: ds => c == d && starts_with cs ds

/-- Function `strstr`: offset of the first occurrence of `needle`. -/
def strstr : List Char → List Char → Option Nat
  | [], needle => if needle.isEmpty then some 0 else none
  | c :: cs, needle =>
    if starts_with (c :: cs) needle then some 0
    else (strstr cs needle).map (· + 1)

/-- One call of `strtok`: skips delimiters, then returns the token and the
text after the delimiter that ended it; `none` when no token is left. -/
def strtok (s delim : List Char) : Option (List Char × List Char) :=
  let s1 := s.dropWhile (fun c => delim.contains c)
  if s1.isEmpty then none
  else some (s1.takeWhile (fun c => !delim.contains c),
             (s1.dropWhile (fun c => !delim.contains c)).drop 1)

/-- Decimal digits of `atoi`, most significant first. -/
def atoi_digits (s : List Char) : Nat :=
  (s.takeWhile Char.isDigit).foldl (fun acc c => acc * 10 + (c.toNat - 48)) 0

/-- The number denoted by the argument of `atoi`: optional white space,
optional sign, decimal digits. -/
def atoi_valor (s : List Char) : Int :=
  match s.dropWhile isspace with
  | [] => 0
  | c :: cs =>
    if c.toNat == 45 then - (atoi_digits cs : Int)
    else if c.toNat == 43 then (atoi_digits cs : Int)
    else (atoi_digits (c :: cs) : Int)

/-- Function `atoi`.  When the number is outside the range of `int` the
result cannot be represented and the behaviour is undefined in C: the model
gives no result. -/
def atoi (s : List Char) : Option Int :=
  if -2147483648 ≤ atoi_valor s ∧ atoi_valor s ≤ 2147483647 then some (atoi_valor s)
  else none

/-- Function `strcmp` as an ordering on byte strings. -/
def strcmp : List Char → List Char → Ordering
  | [], [] => Ordering.eq
  | [], _ :: _ => Ordering.lt
  | _ :: _, [] => Ordering.gt
  | c :: cs, d :: ds =>
    if c.toNat < d.toNat then Ordering.lt
    else if d.toNat < c.toNat then Ordering.gt
    else strcmp cs ds

/-- Output of `snprintf` with format `%d`, for a natural number. -/
def utoa : Nat → Nat → List Char
  | 0, _ => []
  | fuel + 1, n =>
    if n < 10 then [Char.ofNat (48 + n)]
    else utoa fuel (n / 10) ++ [Char.ofNat (48 + n % 10)]

/-- Output of `snprintf` with format `%d`. -/
def itoa (i : Int) : List Char :=
  if i < 0 then Char.ofNat 45 :: utoa (i.natAbs + 1) i.natAbs
  else utoa (i.natAbs + 1) i.natAbs

/-- Items separated by single spaces, as built by the `strcat` loops. -/
def join_sp : List (List Char) → List Char
  | [] => []
  | [x] => x
  | x :: y :: r => x ++ Char.ofNat 32 :: join_sp (y :: r)

/-! ## Graph store -/

/-- Function `find_vertex_index`; `none` stands for the result `-1`. -/
def find_vertex_index (g : grafo) (name : List Char) : Option Nat :=
  (List.range g.n_vertices).find? (fun i => strcmp (g.vertices.getD i []) name == Ordering.eq)

/-- Function `add_vertex`: appends the name and an empty adjacency list;
returns the new graph and the new index. -/
def add_vertex (g : grafo) (name : List Char) : grafo × Nat :=
  ({ g with vertices := g.vertices ++ [name], adj := g.adj ++ [[]],
            n_vertices := g.n_vertices + 1 }, g.n_vertices)

/-- Function `get_vertex_index`: index of the name, adding it when absent. -/
def get_vertex_index (g : grafo) (name : List Char) : grafo × Nat :=
  match find_vertex_index g name with
  | some idx => (g, idx)
  | none => add_vertex g name

/-- Function `add_edge`: pushes `(v, weight)` on the list of `u`, then
`(u, weight)` on the list of `v`, and increments the edge counter. -/
def add_edge (g : grafo) (u v : Nat) (weight : Int) : grafo :=
  let adj1 := g.adj.set u (⟨v, weight⟩ :: g.adj.getD u [])
  let adj2 := adj1.set v (⟨u, weight⟩ :: adj1.getD v [])
  { g with adj := adj2, n_arestas := g.n_arestas + 1 }

/-! ## Loader -/

/-- The successive buffers delivered by `fgets(buffer, size, f)` until end of
file: each holds at most `size - 1` characters and ends after a newline.
`k` is the room left in the current buffer and `acc` its content so far,
reversed. -/
def fgets_all (size : Nat) : Nat → List Char → List Char → List (List Char)
  | _, acc, [] => if acc.isEmpty then [] else [acc.reverse]
  | k, acc, c :: cs =>
    if c.toNat == 10 || k ≤ 1 then (c :: acc).reverse :: fgets_all size (size - 1) [] cs
    else fgets_all size (k - 1) (c :: acc) cs

/-- The text of a buffer as the loader sees it: the C string up to the first
NUL byte, cut at the first newline (`buffer[strcspn(buffer, "\n")] = 0`). -/
def chomp (buffer : List Char) : List Char :=
  buffer.takeWhile (fun c => !(c.toNat == 0 || c.toNat == 10))

/-- The empty graph allocated at the start of `le_grafo`. -/
def grafo_vazio : grafo :=
  { name := none, n_vertices := 0, n_arestas := 0, vertices := [], adj := [] }

/-- The edge branch of the loop body of `le_grafo`: `line` contains `--` at
offset `d`.  The first token `tok` of the right-hand side is copied with
`strcpy(vname2, tok)` into the array `char vname2[256]`: a token of 256 bytes
or more does not fit with its terminating NUL, the copy writes outside the
array and the behaviour is undefined (`none`).  The same holds for a weight
that `atoi` cannot represent. -/
def le_aresta (g : grafo) (line : List Char) (d : Nat) : Option grafo :=
  let v1 := trim (line.take d)
  let right := trim (line.drop (d + 2))
  match strtok right [Char.ofNat 32, Char.ofNat 9] with
  | none => some g
  | some (tok, rest) =>
    if 256 ≤ tok.length then none
    else
      let vname2 := tok
      let weight : Option Int :=
        match strtok rest [Char.ofNat 32, Char.ofNat 9] with
        | some (tok2, _) => atoi tok2
        | none => some 1
      match weight with
      | none => none
      | some weight =>
        let r1 := get_vertex_index g v1
        let r2 := get_vertex_index r1.1 vname2
        some (add_edge r2.1 r1.2 r2.2 weight)

/-- One iteration of the `while (fgets ...)` loop of `le_grafo`; the state is
the graph and the flag `have_name`. -/
def le_linha (st : grafo × Bool) (buffer : List Char) : Option (grafo × Bool) :=
  let g := st.1
  let line := trim (chomp buffer)
  if line.isEmpty || starts_with line [Char.ofNat 47, Char.ofNat 47] then some st
  else if !st.2 then some ({ g with name := some line }, true)
  else
    match strstr line [Char.ofNat 45, Char.ofNat 45] with
    | some d =>
      match le_aresta g line d with
      | none => none
      | some g1 => some (g1, true)
    | none =>
      match find_vertex_index g line with
      | some _ => some (g, true)
      | none => some ((add_vertex g line).1, true)

/-- The loop of `le_grafo` from the state `st` over a sequence of buffers. -/
def le_linhas_de : grafo × Bool → List (List Char) → Option (grafo × Bool)
  | st, [] => some st
  | st, b :: bs =>
    match le_linha st b with
    | none => none
    | some st1 => le_linhas_de st1 bs

/-- The loop of `le_grafo` over a sequence of buffers. -/
def le_linhas (bufs : List (List Char)) : Option grafo :=
  match le_linhas_de (grafo_vazio, false) bufs with
  | none => none
  | some st => some st.1

/-- Function `le_grafo`, on the content of the stream; `none` when the run
leaves defined behaviour. -/
def le_grafo (f : List Char) : Option grafo :=
  le_linhas (fgets_all 4096 4095 [] f)

/-- The graph returned by `le_grafo`, the empty graph standing in when
`le_grafo` gives no result. -/
def grafo_de (f : List Char) : grafo :=
  match le_grafo f with
  | some g => g
  | none => grafo_vazio

/-- Accessor `nome`. -/
def nome (g : grafo) : Option (List Char) := g.name

/-- Accessor `n_vertices`. -/
def n_vertices (g : grafo) : Nat := g.n_vertices

/-- Accessor `n_arestas`. -/
def n_arestas (g : grafo) : Nat := g.n_arestas

/-! ## Connected components -/

/-- Function `dfs_comp`: marks `u`, then walks the adjacency list of `u` and
recurses into every neighbour that is not yet marked. -/
def dfs_comp (g : grafo) : Nat → Nat → List Bool → Option (List Bool)
  | 0, _, _ => none
  | fuel + 1, u, visited =>
    (g.adj.getD u []).foldlM
      (fun vis p => if vis.getD p.v false then some vis else dfs_comp g fuel p.v vis)
      (visited.set u true)

/-- Loop of `n_componentes`; the state is the array `visited` and `count`. -/
def n_componentes_loop (g : grafo) (is : List Nat) (st : List Bool × Nat) :
    Option (List Bool × Nat) :=
  is.foldlM
    (fun st i =>
      if st.1.getD i false then some st
      else (dfs_comp g g.n_vertices i st.1).map (fun vis => (vis, st.2 + 1)))
    st

/-- Function `n_componentes`. -/
def n_componentes (g : grafo) : Option Nat :=
  (n_componentes_loop g (List.range g.n_vertices)
    (List.replicate g.n_vertices false, 0)).map (fun st => st.2)

/-! ## Bipartiteness -/

/-- The `while (p)` loop of `dfs_bipartite` at vertex `u`; `rec` is the
recursive call.  The result carries the return value and the array `color`. -/
def bip_loop (rec : Nat → List Int → Option (Bool × List Int)) (u : Nat) :
    List adj_node → List Int → Option (Bool × List Int)
  | [], color => some (true, color)
  | p :: ps, color =>
    if color.getD p.v 0 = -1 then
      match rec p.v (color.set p.v (1 - color.getD u 0)) with
      | none => none
      | some (false, c) => some (false, c)
      | some (true, c) => bip_loop rec u ps c
    else if color.getD p.v 0 = color.getD u 0 then some (false, color)
    else bip_loop rec u ps color

/-- Function `dfs_bipartite`. -/
def dfs_bipartite (g : grafo) : Nat → Nat → List Int → Option (Bool × List Int)
  | 0, _, _ => none
  | fuel + 1, u, color => bip_loop (dfs_bipartite g fuel) u (g.adj.getD u []) color

/-- Second `for` loop of `bipartido`. -/
def bipartido_loop (g : grafo) : List Nat → List Int → Option Bool
  | [], _ => some true
  | i :: is, color =>
    if color.getD i 0 = -1 then
      match dfs_bipartite g g.n_vertices i (color.set i 0) with
      | none => none
      | some (false, _) => some false
      | some (true, c) => bipartido_loop g is c
    else bipartido_loop g is color

/-- Function `bipartido`; `true` stands for 1 and `false` for 0. -/
def bipartido (g : grafo) : Option Bool :=
  bipartido_loop g (List.range g.n_vertices) (List.replicate g.n_vertices (-1))

/-! ## Shortest paths and diameters -/

/-- Addition of two `int`s, wrapping to 32 bits. -/
def add32 (a b : Int) : Int := (a + b + 2147483648) % 4294967296 - 2147483648

/-- The constant `INF = INT_MAX / 2`. -/
def INF : Int := 2147483647 / 2

/-- Inner `for (j ...)` loop of `dijkstra`: the unvisited vertex of least
tentative distance below `INF`, first index winning ties. -/
def dijkstra_min (dist : List Int) (visited : List Bool) (n : Nat) : Option Nat × Int :=
  (List.range n).foldl
    (fun (um : Option Nat × Int) j =>
      if !visited.getD j false && dist.getD j 0 < um.2 then (some j, dist.getD j 0) else um)
    (none, INF)

/-- Relaxation loop of `dijkstra` over the adjacency list of `u`. -/
def dijkstra_relax (u : Nat) (ps : List adj_node) (dist : List Int) : List Int :=
  ps.foldl
    (fun dist p =>
      if add32 (dist.getD u 0) p.weight < dist.getD p.v 0
      then dist.set p.v (add32 (dist.getD u 0) p.weight) else dist)
    dist

/-- Outer loop of `dijkstra`, at most `k` rounds, stopping at the first round
that finds no vertex. -/
def dijkstra_loop (g : grafo) : Nat → List Int → List Bool → List Int
  | 0, dist, _ => dist
  | k + 1, dist, visited =>
    match (dijkstra_min dist visited g.n_vertices).1 with
    | none => dist
    | some u => dijkstra_loop g k (dijkstra_relax u (g.adj.getD u []) dist) (visited.set u true)

/-- Function `dijkstra`. -/
def dijkstra (g : grafo) (src : Nat) : List Int :=
  dijkstra_loop g g.n_vertices ((List.replicate g.n_vertices INF).set src 0)
    (List.replicate g.n_vertices false)

/-- Scan of one adjacency list in the flood of `diametros`: unvisited
neighbours are marked, pushed on the stack and appended to `members`. -/
def flood_scan (ps : List adj_node) (st : List Bool × List Nat × List Nat) :
    List Bool × List Nat × List Nat :=
  ps.foldl
    (fun st p =>
      if st.1.getD p.v false then st
      else (st.1.set p.v true, p.v :: st.2.1, st.2.2 ++ [p.v]))
    st

/-- The `while (top)` loop of `diametros`; the state is `visited`, the stack
(top first) and `members`. -/
def flood (g : grafo) : Nat → List Bool × List Nat × List Nat →
    Option (List Bool × List Nat)
  | _, (visited, [], members) => some (visited, members)
  | 0, (_, _ :: _, _) => none
  | fuel + 1, (visited, u :: stack, members) =>
    flood g fuel (flood_scan (g.adj.getD u []) (visited, stack, members))

/-- Diameter of one component: the largest entry below `INF` found in the
Dijkstra rows of its members, restricted to its members. -/
def comp_maxdist (g : grafo) (members : List Nat) : Int :=
  members.foldl
    (fun maxdist u =>
      let dist := dijkstra g u
      members.foldl
        (fun maxdist v =>
          if dist.getD v 0 < INF && dist.getD v 0 > maxdist then dist.getD v 0 else maxdist)
        maxdist)
    0

/-- First loop of `diametros`: one diameter per component, in discovery
order. -/
def diametros_loop (g : grafo) (is : List Nat) (st : List Bool × List Int) :
    Option (List Bool × List Int) :=
  is.foldlM
    (fun st i =>
      if st.1.getD i false then some st
      else
        (flood g g.n_vertices (st.1.set i true, [i], [i])).map
          (fun r => (r.1, st.2 ++ [comp_maxdist g r.2])))
    st

/-- Exchanges the entries at positions `i` and `j`. -/
def swap {α : Type} (d : α) (a : List α) (i j : Nat) : List α :=
  (a.set i (a.getD j d)).set j (a.getD i d)

/-- The exchange sort used throughout `grafo.c`: for `i < j`, the entries at
`i` and `j` are exchanged when `gt a[i] a[j]`. -/
def exchange_sort {α : Type} (d : α) (gt : α → α → Bool) (a : List α) : List α :=
  (List.range (a.length - 1)).foldl
    (fun a i =>
      (List.range' (i + 1) (a.length - (i + 1))).foldl
        (fun a j => if gt (a.getD i d) (a.getD j d) then swap d a i j else a)
        a)
    a

/-- The diameters of `diametros` as integers, after sorting. -/
def diametros_vals (g : grafo) : Option (List Int) :=
  (diametros_loop g (List.range g.n_vertices) (List.replicate g.n_vertices false, [])).map
    (fun st => exchange_sort 0 (fun a b => decide (a > b)) st.2)

/-- Function `diametros`. -/
def diametros (g : grafo) : Option (List Char) :=
  (diametros_vals g).map (fun ds => join_sp (ds.map itoa))

/-! ## Cut vertices -/

/-- The conditional expression `(a < b) ? a : b`. -/
def imin (a b : Int) : Int := if a < b then a else b

/-- The arrays of `vertices_corte` together with the module-level counter
`time_dfs_ap`. -/
structure ap_state where
  time : Int
  visited : List Bool
  disc : List Int
  low : List Int
  parent : List Int
  ap : List Bool
deriving DecidableEq, Repr

/-- The `while (p)` loop of `ap_dfs` at vertex `u`; `rec` is the recursive
call and `children` the local counter. -/
def ap_loop (rec : Nat → ap_state → Option ap_state) (u : Nat) :
    List adj_node → Nat → ap_state → Option ap_state
  | [], _, s => some s
  | p :: ps, children, s =>
    if !s.visited.getD p.v false then
      match rec p.v { s with parent := s.parent.set p.v (Int.ofNat u) } with
      | none => none
      | some s1 =>
        let s2 := { s1 with low := s1.low.set u (imin (s1.low.getD u 0) (s1.low.getD p.v 0)) }
        let s3 := if s2.parent.getD u 0 = -1 ∧ children + 1 > 1
          then { s2 with ap := s2.ap.set u true } else s2
        let s4 := if s3.parent.getD u 0 ≠ -1 ∧ s3.low.getD p.v 0 ≥ s3.disc.getD u 0
          then { s3 with ap := s3.ap.set u true } else s3
        ap_loop rec u ps (children + 1) s4
    else if Int.ofNat p.v ≠ s.parent.getD u 0 then
      ap_loop rec u ps children { s with low := s.low.set u (imin (s.low.getD u 0) (s.disc.getD p.v 0)) }
    else ap_loop rec u ps children s

/-- Function `ap_dfs`. -/
def ap_dfs (g : grafo) : Nat → Nat → ap_state → Option ap_state
  | 0, _, _ => none
  | fuel + 1, u, s =>
    ap_loop (ap_dfs g fuel) u (g.adj.getD u []) 0
      { s with visited := s.visited.set u true, time := s.time + 1,
               disc := s.disc.set u (s.time + 1), low := s.low.set u (s.time + 1) }

/-- State of `vertices_corte` before its DFS loop.  The arrays `disc` and
`low` come from `malloc`; their cells are written before they are read, and
the model fills them with 0.  The counter is reset whatever it held. -/
def ap_init (g : grafo) (_time_dfs_ap : Int) : ap_state :=
  { time := 0,
    visited := List.replicate g.n_vertices false,
    disc := List.replicate g.n_vertices 0,
    low := List.replicate g.n_vertices 0,
    parent := List.replicate g.n_vertices (-1),
    ap := List.replicate g.n_vertices false }

/-- The DFS loop of `vertices_corte` over the roots `is`. -/
def ap_roots (g : grafo) (is : List Nat) (s : ap_state) : Option ap_state :=
  is.foldlM (fun s i => if s.visited.getD i false then some s else ap_dfs g g.n_vertices i s) s

/-- The array `ap` at the end of the DFS of `vertices_corte`; the first
argument is the value of `time_dfs_ap` left by earlier calls. -/
def vertices_corte_ap (time_dfs_ap : Int) (g : grafo) : Option (List Bool) :=
  (ap_roots g (List.range g.n_vertices) (ap_init g time_dfs_ap)).map (fun s => s.ap)

/-- The sorted array `names` of `vertices_corte`. -/
def vertices_corte_names (time_dfs_ap : Int) (g : grafo) : Option (List (List Char)) :=
  (vertices_corte_ap time_dfs_ap g).map (fun ap =>
    exchange_sort [] (fun a b => strcmp a b == Ordering.gt)
      (((List.range g.n_vertices).filter (fun i => ap.getD i false)).map
        (fun i => g.vertices.getD i [])))

/-- Function `vertices_corte`. -/
def vertices_corte (time_dfs_ap : Int) (g : grafo) : Option (List Char) :=
  (vertices_corte_names time_dfs_ap g).map join_sp

/-! ## Cut edges -/

/-- Record `edge_pair`: the two endpoint names of a bridge. -/
structure edge_pair where
  u : List Char
  v : List Char
deriving DecidableEq, Repr

/-- The arrays of `arestas_corte` together with the module-level counter
`time_dfs_br`; `bridges` holds the `bcount` pairs recorded so far. -/
structure br_state where
  time : Int
  visited : List Bool
  disc : List Int
  low : List Int
  parent : List Int
  bridges : List edge_pair
deriving DecidableEq, Repr

/-- The pair recorded for the bridge between `u` and `v`: the two names, the
smaller one (by `strcmp`) first. -/
def mk_pair (g : grafo) (u v : Nat) : edge_pair :=
  if strcmp (g.vertices.getD u []) (g.vertices.getD v []) == Ordering.lt
  then ⟨g.vertices.getD u [], g.vertices.getD v []⟩
  else ⟨g.vertices.getD v [], g.vertices.getD u []⟩

/-- The `while (p)` loop of `bridge_dfs` at vertex `u`; `rec` is the
recursive call. -/
def bridge_loop (g : grafo) (rec : Nat → br_state → Option br_state) (u : Nat) :
    List adj_node → br_state → Option br_state
  | [], s => some s
  | p :: ps, s =>
    if !s.visited.getD p.v false then
      match rec p.v { s with parent := s.parent.set p.v (Int.ofNat u) } with
      | none => none
      | some s1 =>
        let s2 := { s1 with low := s1.low.set u (imin (s1.low.getD u 0) (s1.low.getD p.v 0)) }
        let s3 := if s2.low.getD p.v 0 > s2.disc.getD u 0
          then { s2 with bridges := s2.bridges ++ [mk_pair g u p.v] }
          else s2
        bridge_loop g rec u ps s3
    else if Int.ofNat p.v ≠ s.parent.getD u 0 then
      bridge_loop g rec u ps { s with low := s.low.set u (imin (s.low.getD u 0) (s.disc.getD p.v 0)) }
    else bridge_loop g rec u ps s

/-- Function `bridge_dfs`. -/
def bridge_dfs (g : grafo) : Nat → Nat → br_state → Option br_state
  | 0, _, _ => none
  | fuel + 1, u, s =>
    bridge_loop g (bridge_dfs g fuel) u (g.adj.getD u [])
      { s with visited := s.visited.set u true, time := s.time + 1,
               disc := s.disc.set u (s.time + 1), low := s.low.set u (s.time + 1) }

/-- State of `arestas_corte` before its DFS loop (see `ap_init`). -/
def br_init (g : grafo) (_time_dfs_br : Int) : br_state :=
  { time := 0,
    visited := List.replicate g.n_vertices false,
    disc := List.replicate g.n_vertices 0,
    low := List.replicate g.n_vertices 0,
    parent := List.replicate g.n_vertices (-1),
    bridges := [] }

/-- The DFS loop of `arestas_corte` over the roots `is`. -/
def br_roots (g : grafo) (is : List Nat) (s : br_state) : Option br_state :=
  is.foldlM (fun s i => if s.visited.getD i false then some s else bridge_dfs g g.n_vertices i s) s

/-- The pairs that the DFS loop of `arestas_corte` stores through
`bridges[(*bcount)++] = ep`, in the order of the stores.  This is the sequence
of stores requested by the search, whatever the number of cells of the array
`bridges`; the allocation of the array and its bound are accounted for in
`arestas_corte_pairs`. -/
def arestas_corte_found (time_dfs_br : Int) (g : grafo) : Option (List edge_pair) :=
  (br_roots g (List.range g.n_vertices) (br_init g time_dfs_br)).map (fun s => s.bridges)

/-- The order test of the sort in `arestas_corte`. -/
def edge_pair_gt (a b : edge_pair) : Bool :=
  strcmp a.u b.u == Ordering.gt || (strcmp a.u b.u == Ordering.eq && strcmp a.v b.v == Ordering.gt)

/-- The value of an `int` expression whose mathematical value is `x`, with
two's-complement wrap-around on overflow. -/
def wrap32 (x : Int) : Int := (x + 2147483648) % 4294967296 - 2147483648

/-- The number of cells requested for the array `bridges` in `arestas_corte`:
the expression `n * (n - 1) / 2`, evaluated in `int` (the product wraps around
on overflow, the division truncates toward zero) before it is multiplied by
the cell size. -/
def bridges_cap (n : Nat) : Int :=
  Int.tdiv (wrap32 ((n : Int) * ((n : Int) - 1))) 2

/-- The sorted array `bridges` of `arestas_corte`.  The array is allocated
before the search with `bridges_cap n` cells.  A negative count, converted to
`size_t` and multiplied by the cell size, asks `malloc` for more memory than
an address space holds: `malloc` returns NULL and the function leaves through
`exit(EXIT_FAILURE)`.  A store at an index that is not below the number of
cells is outside the array, and the behaviour is undefined.  In both cases
the function gives no result (`none`). -/
def arestas_corte_pairs (time_dfs_br : Int) (g : grafo) : Option (List edge_pair) :=
  if bridges_cap g.n_vertices < 0 then none
  else
    match arestas_corte_found time_dfs_br g with
    | none => none
    | some found =>
      if bridges_cap g.n_vertices < (found.length : Int) then none
      else some (exchange_sort ⟨[], []⟩ edge_pair_gt found)

/-- Function `arestas_corte`. -/
def arestas_corte (time_dfs_br : Int) (g : grafo) : Option (List Char) :=
  (arestas_corte_pairs time_dfs_br g).map
    (fun bs => join_sp (bs.map (fun b => b.u ++ Char.ofNat 32 :: b.v)))

/-! ## Sample inputs -/

/-- The five-line sample input of the specification. -/
def exemplo_g1 : List Char := "G1\nA -- B\nB -- C 5\nC -- A\nD".toList

/-- Two vertices joined by two parallel edges. -/
def exemplo_paralelas : List Char := "P\nA -- B\nA -- B".toList

/-- Two vertices joined by one edge. -/
def exemplo_uma_aresta : List Char := "P\nA -- B".toList

/-! ## Specification-side notions -/

/-- Adjacency symmetry: every entry `(j, w)` in the list of `i` has a mirror
entry `(i, w)` in the list of `j`. -/
def SymAdj (g : grafo) : Prop :=
  ∀ i j w, (⟨j, w⟩ : adj_node) ∈ g.adj.getD i [] → (⟨i, w⟩ : adj_node) ∈ g.adj.getD j []

/-- The lines that survive the filter of the loader: trimmed buffers that are
neither blank nor comments. -/
def linhas_vivas (bufs : List (List Char)) : List (List Char) :=
  (bufs.map (fun b => trim (chomp b))).filter
    (fun l => !(l.isEmpty || starts_with l [Char.ofNat 47, Char.ofNat 47]))

/-- Well-formed graph: the two arrays have `n_vertices` cells, every
adjacency entry names a vertex index below `n_vertices`, and adjacency is
symmetric. -/
structure WF (g : grafo) : Prop where
  len_vertices : g.vertices.length = g.n_vertices
  len_adj : g.adj.length = g.n_vertices
  in_range : ∀ i p, p ∈ g.adj.getD i [] → p.v < g.n_vertices
  sym : SymAdj g

/-- Vertex `v` is adjacent to `u`: some entry of the list of `u` names `v`. -/
def Adj (g : grafo) (u v : Nat) : Prop := ∃ p ∈ g.adj.getD u [], p.v = v

/-- Vertices `u` and `v` are joined by a path of adjacency entries. -/
def Joined (g : grafo) (u v : Nat) : Prop := Relation.ReflTransGen (Adj g) u v

/-- The partition of the vertices into connected components: the equivalence
generated by adjacency on the indices below `n_vertices`. -/
def vertex_setoid (g : grafo) : Setoid (Fin g.n_vertices) where
  r a b := Relation.EqvGen (Adj g) a.val b.val
  iseqv := ⟨fun a => Relation.EqvGen.refl a.val, fun h => Relation.EqvGen.symm _ _ h,
    fun h1 h2 => Relation.EqvGen.trans _ _ _ h1 h2⟩

/-- Cell `v` of a flag array is set. -/
def Vis (vis : List Bool) (v : Nat) : Prop := vis.getD v false = true

/-- The indices below `n` whose flag is not set. -/
def unvisited (n : Nat) (vis : List Bool) : Finset Nat :=
  (Finset.range n).filter (fun v => vis.getD v false = false)

/-- What one call of a marking DFS from `u` achieves, from `vis` to `vis2`. -/
structure DfsPost (g : grafo) (u : Nat) (vis vis2 : List Bool) : Prop where
  len : vis2.length = vis.length
  mono : ∀ v, Vis vis v → Vis vis2 v
  reach : ∀ v, Vis vis2 v → ¬ Vis vis v → Joined g u v
  closed : ∀ v, Vis vis2 v → ¬ Vis vis v → ∀ p ∈ g.adj.getD v [], Vis vis2 p.v


/-- A flag array is closed under adjacency. -/
def Closed (g : grafo) (vis : List Bool) : Prop :=
  ∀ v, Vis vis v → ∀ p ∈ g.adj.getD v [], Vis vis p.v

/-- Invariant of the root loops: the marked vertices are exactly the
components of the roots found so far, and no two roots are joined. -/
structure CompInv (g : grafo) (vis : List Bool) (reps : List Nat) : Prop where
  len : vis.length = g.n_vertices
  closed : Closed g vis
  reps_vis : ∀ r ∈ reps, Vis vis r
  covered : ∀ v, Vis vis v → ∃ r ∈ reps, Joined g r v
  apart : reps.Pairwise (fun a b => ¬ Joined g a b)

/-- A proper two-colouring: every adjacency entry joins vertices of different
colours. -/
def ProperColoring (g : grafo) (c : Nat → Bool) : Prop :=
  ∀ u p, p ∈ g.adj.getD u [] → c u ≠ c p.v

/-- The graph admits a proper two-colouring. -/
def TwoColorable (g : grafo) : Prop := ∃ c, ProperColoring g c

/-- Vertex `v` is coloured and each of its adjacency entries points to a
vertex of the other colour. -/
def Good (g : grafo) (color : List Int) (v : Nat) : Prop :=
  (color.getD v 0 = 0 ∨ color.getD v 0 = 1) ∧
  ∀ p ∈ g.adj.getD v [], color.getD p.v 0 = 1 - color.getD v 0

/-- Every cell of the colour array holds -1, 0 or 1. -/
def Vals (color : List Int) : Prop :=
  ∀ v, color.getD v 0 = -1 ∨ color.getD v 0 = 0 ∨ color.getD v 0 = 1

/-- Array `color2` keeps every colour already present in `color`. -/
def Ext (color color2 : List Int) : Prop :=
  ∀ v, color.getD v 0 ≠ -1 → color2.getD v 0 = color.getD v 0

/-- Among the vertices coloured since `col0`, every proper colouring agrees
with `color` on which pairs have equal colours. -/
def Forced (g : grafo) (col0 color : List Int) : Prop :=
  ∀ c, ProperColoring g c → ∀ v w, col0.getD v 0 = -1 → col0.getD w 0 = -1 →
    color.getD v 0 ≠ -1 → color.getD w 0 ≠ -1 →
    (c v = c w ↔ color.getD v 0 = color.getD w 0)

/-- The indices below `n` that are not coloured. -/
def uncolored (n : Nat) (color : List Int) : Finset Nat :=
  (Finset.range n).filter (fun v => color.getD v 0 = -1)

/-- Precondition of the colouring DFS, relative to the array `col0` held
when the current root was started. -/
structure BipPre (g : grafo) (col0 color : List Int) : Prop where
  len : color.length = g.n_vertices
  vals : Vals color
  ext0 : Ext col0 color
  forced : Forced g col0 color

/-- Postcondition of the colouring DFS and of its loop. -/
structure BipPost (g : grafo) (col0 color : List Int) (b : Bool) (color2 : List Int) : Prop where
  pre : BipPre g col0 color2
  ext : Ext color color2
  ok : b = true → ∀ v, color.getD v 0 = -1 → color2.getD v 0 ≠ -1 → Good g color2 v
  bad : b = false → ¬ TwoColorable g


/-- Invariant of the root loop of `bipartido`: every coloured vertex is
`Good`. -/
structure BipInv (g : grafo) (color : List Int) : Prop where
  len : color.length = g.n_vertices
  vals : Vals color
  good : ∀ v, color.getD v 0 ≠ -1 → Good g color v

/-! ## Proof-side notions for the low-link searches -/

/-- The part of the state that `ap_dfs` and `bridge_dfs` have in common. -/
structure dfs_core where
  time : Int
  visited : List Bool
  disc : List Int
  low : List Int
  parent : List Int

/-- The common part of an `ap_state`. -/
def ap_state.core (s : ap_state) : dfs_core := ⟨s.time, s.visited, s.disc, s.low, s.parent⟩

/-- The common part of a `br_state`. -/
def br_state.core (s : br_state) : dfs_core := ⟨s.time, s.visited, s.disc, s.low, s.parent⟩

/-- The first writes of a search at `u`: mark, advance the counter, set
`disc[u]` and `low[u]`. -/
def dfs_core.enter (c : dfs_core) (u : Nat) : dfs_core :=
  ⟨c.time + 1, c.visited.set u true, c.disc.set u (c.time + 1), c.low.set u (c.time + 1),
    c.parent⟩

/-- The write `parent[v] = u`. -/
def dfs_core.set_parent (c : dfs_core) (v u : Nat) : dfs_core :=
  ⟨c.time, c.visited, c.disc, c.low, c.parent.set v (Int.ofNat u)⟩

/-- The write `low[u] = x`. -/
def dfs_core.set_low (c : dfs_core) (u : Nat) (x : Int) : dfs_core :=
  ⟨c.time, c.visited, c.disc, c.low.set u x, c.parent⟩

/-- Joined by a path all of whose steps satisfy `R`. -/
def JoinedR (g : grafo) (R : Nat → Nat → Prop) (a b : Nat) : Prop :=
  Relation.ReflTransGen (fun x y => Adj g x y ∧ R x y) a b

/-- Joined by a path inside the vertex set `S`. -/
def JoinedIn (g : grafo) (S : Nat → Prop) (a b : Nat) : Prop :=
  JoinedR g (fun x y => S x ∧ S y) a b

/-- Joined by a path that does not touch vertex `u`. -/
def JoinedAvoid (g : grafo) (u : Nat) (a b : Nat) : Prop :=
  JoinedR g (fun x y => x ≠ u ∧ y ≠ u) a b

/-- Joined by a path that uses no adjacency entry between `u` and `v`. -/
def JoinedMinus (g : grafo) (u v : Nat) (a b : Nat) : Prop :=
  JoinedR g (fun x y => ¬ (x = u ∧ y = v) ∧ ¬ (x = v ∧ y = u)) a b

/-- The vertices marked in `c` but not in `c0`. -/
def NewV (c0 c : dfs_core) (x : Nat) : Prop := Vis c.visited x ∧ ¬ Vis c0.visited x

/-- The value `parent[u]` must hold for a search whose ancestors are `A`. -/
def parOf (A : List Nat) : Int :=
  match A.getLast? with
  | some q => Int.ofNat q
  | none => -1

/-- The ancestors of the current vertex are joined to each other by paths
inside the ancestor set. -/
def StackConn (g : grafo) (A : List Nat) : Prop :=
  ∀ a ∈ A, ∀ b ∈ A, JoinedIn g (fun x => x ∈ A) a b

/-- State invariant of the low-link searches; `A` lists the vertices whose
search is in progress. -/
structure GInv (g : grafo) (A : List Nat) (c : dfs_core) : Prop where
  len_vis : c.visited.length = g.n_vertices
  len_disc : c.disc.length = g.n_vertices
  len_low : c.low.length = g.n_vertices
  len_par : c.parent.length = g.n_vertices
  fin : ∀ x, Vis c.visited x → x ∉ A → ∀ p ∈ g.adj.getD x [], Vis c.visited p.v
  stk : ∀ a ∈ A, Vis c.visited a
  dsc : ∀ x, Vis c.visited x → c.disc.getD x 0 ≤ c.time

/-- Precondition of a search at `u` below the ancestors `A`. -/
structure CorePre (g : grafo) (A : List Nat) (c : dfs_core) (u : Nat) : Prop where
  inv : GInv g A c
  sconn : StackConn g A
  lt : u < g.n_vertices
  nv : ¬ Vis c.visited u
  par : c.parent.getD u 0 = parOf A
  edge : ∀ q, A.getLast? = some q → Adj g q u

/-- Postcondition of a search at `u` below the ancestors `A`, from `c0` to
`c`. -/
structure CorePost (g : grafo) (A : List Nat) (c0 : dfs_core) (u : Nat) (c : dfs_core) :
    Prop where
  inv : GInv g A c
  mono : ∀ x, Vis c0.visited x → Vis c.visited x
  root : Vis c.visited u
  frame_disc : ∀ x, Vis c0.visited x → c.disc.getD x 0 = c0.disc.getD x 0
  frame_low : ∀ x, Vis c0.visited x → c.low.getD x 0 = c0.low.getD x 0
  frame_par : ∀ x, Vis c0.visited x ∨ x = u ∨ ¬ Vis c.visited x →
    c.parent.getD x 0 = c0.parent.getD x 0
  time : c0.time < c.time
  disc_new : ∀ x, NewV c0 c x → c0.time < c.disc.getD x 0
  conn : ∀ x, NewV c0 c x → JoinedIn g (NewV c0 c) u x
  parS : ∀ x, NewV c0 c x → x ≠ u → ∃ q, NewV c0 c q ∧ c.parent.getD x 0 = Int.ofNat q
  low1 : c.low.getD u 0 ≤ c.disc.getD u 0
  low2 : c.low.getD u 0 = c.disc.getD u 0 ∨
    ∃ x, NewV c0 c x ∧ ∃ p ∈ g.adj.getD x [], Int.ofNat p.v ≠ c.parent.getD x 0 ∧
      Vis c.visited p.v ∧ c.low.getD u 0 = c.disc.getD p.v 0
  low3 : ∀ x, NewV c0 c x → ∀ p ∈ g.adj.getD x [], Vis c0.visited p.v →
    Int.ofNat p.v ≠ c.parent.getD x 0 → c.low.getD u 0 ≤ c.disc.getD p.v 0

/-- Invariant of the adjacency loop of a search at `u`, entered in state `c0`;
`done` is the part of the adjacency list already processed. -/
structure CoreLoop (g : grafo) (A : List Nat) (c0 : dfs_core) (u : Nat) (c : dfs_core)
    (done : List adj_node) : Prop where
  inv : GInv g (A ++ [u]) c
  stk0 : ∀ a ∈ A, Vis c0.visited a
  dsc0 : ∀ x, Vis c0.visited x → c0.disc.getD x 0 ≤ c0.time
  sconn0 : StackConn g A
  sconn : StackConn g (A ++ [u])
  edge0 : ∀ q, A.getLast? = some q → Adj g q u
  mono : ∀ x, Vis c0.visited x → Vis c.visited x
  nv0 : ¬ Vis c0.visited u
  frame_disc : ∀ x, Vis c0.visited x → c.disc.getD x 0 = c0.disc.getD x 0
  frame_low : ∀ x, Vis c0.visited x → c.low.getD x 0 = c0.low.getD x 0
  frame_par : ∀ x, Vis c0.visited x ∨ x = u ∨ ¬ Vis c.visited x →
    c.parent.getD x 0 = c0.parent.getD x 0
  disc_u : c.disc.getD u 0 = c0.time + 1
  time : c0.time < c.time
  disc_new : ∀ x, NewV c0 c x → c0.time < c.disc.getD x 0
  done_vis : ∀ p ∈ done, Vis c.visited p.v
  conn : ∀ x, NewV c0 c x → JoinedIn g (NewV c0 c) u x
  parS : ∀ x, NewV c0 c x → x ≠ u → ∃ q, NewV c0 c q ∧ c.parent.getD x 0 = Int.ofNat q
  low1 : c.low.getD u 0 ≤ c.disc.getD u 0
  low2 : c.low.getD u 0 = c.disc.getD u 0 ∨
    ∃ x, NewV c0 c x ∧ ∃ p ∈ g.adj.getD x [], Int.ofNat p.v ≠ c.parent.getD x 0 ∧
      Vis c.visited p.v ∧ c.low.getD u 0 = c.disc.getD p.v 0
  low3 : ∀ x, NewV c0 c x → ∀ p ∈ g.adj.getD x [], (x = u → p ∈ done) → Vis c0.visited p.v →
    Int.ofNat p.v ≠ c.parent.getD x 0 → c.low.getD u 0 ≤ c.disc.getD p.v 0

/-- Facts shared by the proofs about the return from a child search. -/
structure ChildCtx (g : grafo) (A : List Nat) (c0 : dfs_core) (u : Nat) (c : dfs_core)
    (done : List adj_node) (p : adj_node) (c1 : dfs_core) : Prop where
  loop : CoreLoop g A c0 u c done
  mem : p ∈ g.adj.getD u []
  nv : ¬ Vis c.visited p.v
  post : CorePost g (A ++ [u]) (c.set_parent p.v u) p.v c1



/-- Vertex `u` separates two other vertices: they are joined in the graph but
every path between them passes through `u`. -/
def IsCutVertex (g : grafo) (u : Nat) : Prop :=
  ∃ a b, a ≠ u ∧ b ≠ u ∧ Joined g a b ∧ ¬ JoinedAvoid g u a b


/-- What the bridge search has recorded between the core states `c0` and `c`:
the list only grows, every new pair is a tree edge that disconnects, every
disconnecting edge among the new vertices is recorded, and there are fewer
new pairs than new vertices. -/
structure BrPost (g : grafo) (c0 c : dfs_core) (B0 B : List edge_pair) : Prop where
  sub : ∀ e ∈ B0, e ∈ B
  sound : ∀ e ∈ B, e ∈ B0 ∨ ∃ a b, NewV c0 c a ∧ NewV c0 c b ∧ e = mk_pair g a b ∧
    Adj g a b ∧ a ≠ b ∧ ¬ JoinedMinus g a b a b
  complete : ∀ a b, NewV c0 c a → NewV c0 c b → Adj g a b → a ≠ b →
    ¬ JoinedMinus g a b a b → mk_pair g a b ∈ B
  count : B.length + (unvisited g.n_vertices c.visited).card + 1 ≤
    B0.length + (unvisited g.n_vertices c0.visited).card


/-- State of `bridge_dfs` at `u` after the child `v` has returned in state
`s1`: the low-link update and the bridge test. -/
def br_after_child (g : grafo) (u v : Nat) (s1 : br_state) : br_state :=
  let s2 := { s1 with low := s1.low.set u (imin (s1.low.getD u 0) (s1.low.getD v 0)) }
  if s2.low.getD v 0 > s2.disc.getD u 0
  then { s2 with bridges := s2.bridges ++ [mk_pair g u v] }
  else s2


/-- Invariant of the root loop of `arestas_corte`. -/
structure BrTop (g : grafo) (s : br_state) : Prop where
  inv : GInv g [] s.core
  unv_par : ∀ x, x < g.n_vertices → ¬ Vis s.visited x → s.parent.getD x 0 = -1
  sound : ∀ e ∈ s.bridges, ∃ a b, Vis s.visited a ∧ Vis s.visited b ∧ e = mk_pair g a b ∧
    Adj g a b ∧ a ≠ b ∧ ¬ JoinedMinus g a b a b
  complete : ∀ a b, Vis s.visited a → Vis s.visited b → Adj g a b → a ≠ b →
    ¬ JoinedMinus g a b a b → mk_pair g a b ∈ s.bridges
  count : s.bridges.length + (unvisited g.n_vertices s.visited).card ≤ g.n_vertices
  count1 : (unvisited g.n_vertices s.visited).card < g.n_vertices →
    s.bridges.length + (unvisited g.n_vertices s.visited).card + 1 ≤ g.n_vertices

/-- Removes the first entry that names `v` from an adjacency list. -/
def erase_entry (v : Nat) : List adj_node → List adj_node
  | [] => []
  | p :: ps => if p.v = v then ps else p :: erase_entry v ps

/-- The graph without one edge between `u` and `v`: the reverse of `add_edge`,
dropping one entry for `v` from the list of `u` and one entry for `u` from the
list of `v`. -/
def remove_edge (g : grafo) (u v : Nat) : grafo :=
  let adj1 := g.adj.set u (erase_entry v (g.adj.getD u []))
  let adj2 := adj1.set v (erase_entry u (adj1.getD v []))
  { g with adj := adj2, n_arestas := g.n_arestas - 1 }

/-- No parallel edges: between two distinct vertices there is at most one
adjacency entry in each direction. -/
def NoParallel (g : grafo) : Prop :=
  ∀ u v, u ≠ v → (g.adj.getD u []).countP (fun p => p.v = v) ≤ 1

/-- Edge `u`-`v` is a cut edge: it is an edge and removing it leaves more
connected components than the graph has. -/
def IsBridge (g : grafo) (u v : Nat) : Prop :=
  Adj g u v ∧
    Nat.card (Quotient (vertex_setoid (remove_edge g u v))) >
      Nat.card (Quotient (vertex_setoid g))


/-- Three vertices on a path: A - B - C. -/
def exemplo_caminho : List Char := "P\nA -- B\nB -- C".toList

/-- Decidable check that no adjacency list names the same vertex twice. -/
def sem_repeticao (g : grafo) : Bool :=
  g.adj.all (fun l => decide ((l.map (fun p => p.v)).Nodup))

/-- State of `ap_dfs` at `u` after the child `v` has returned in state `s1`,
`children` being the counter before this child: the low-link update and the
two articulation tests. -/
def ap_after_child (u v : Nat) (children : Nat) (s1 : ap_state) : ap_state :=
  let s2 := { s1 with low := s1.low.set u (imin (s1.low.getD u 0) (s1.low.getD v 0)) }
  let s3 := if s2.parent.getD u 0 = -1 ∧ children + 1 > 1
    then { s2 with ap := s2.ap.set u true } else s2
  if s3.parent.getD u 0 ≠ -1 ∧ s3.low.getD v 0 ≥ s3.disc.getD u 0
  then { s3 with ap := s3.ap.set u true } else s3

/-- What the articulation search has established between the core states
`c0` and `c`: flags change only at new vertices, and the flag of every new
vertex tells whether it is a cut vertex. -/
structure ApPost (g : grafo) (c0 c : dfs_core) (ap0 ap : List Bool) : Prop where
  len : ap.length = g.n_vertices
  frame : ∀ x, ¬ NewV c0 c x → ap.getD x false = ap0.getD x false
  correct : ∀ x, NewV c0 c x → (ap.getD x false = true ↔ IsCutVertex g x)

/-- Invariant of the adjacency loop of `ap_dfs` at `u` for the flags. -/
structure ApLoop (g : grafo) (A : List Nat) (c0 : dfs_core) (u : Nat) (c : dfs_core)
    (ap0 ap : List Bool) (children : Nat) : Prop where
  len : ap.length = g.n_vertices
  frame : ∀ x, ¬ NewV c0 c x → ap.getD x false = ap0.getD x false
  desc : ∀ x, NewV c0 c x → x ≠ u → (ap.getD x false = true ↔ IsCutVertex g x)
  old_nbr : ∀ y, Vis c0.visited y → Adj g u y → y ∈ A
  unv0 : ∀ x, ¬ Vis c0.visited x → ap0.getD x false = false
  par0 : c0.parent.getD u 0 = parOf A
  nonroot : ∀ q, A.getLast? = some q →
    (ap.getD u false = true → IsCutVertex g u) ∧
    (ap.getD u false = false → ∀ x, NewV c0 c x → x ≠ u → JoinedAvoid g u x q)
  root : A = [] →
    (ap.getD u false = true ↔ 2 ≤ children) ∧
    (2 ≤ children → IsCutVertex g u) ∧
    (children ≤ 1 → ∀ x y, NewV c0 c x → NewV c0 c y → x ≠ u → y ≠ u →
      JoinedAvoid g u x y) ∧
    (children = 0 → ∀ x, NewV c0 c x → x = u) ∧
    (1 ≤ children → ∃ x, NewV c0 c x ∧ x ≠ u)


/-- Invariant of the root loop of `vertices_corte`. -/
structure ApTop (g : grafo) (s : ap_state) : Prop where
  inv : GInv g [] s.core
  unv_par : ∀ x, x < g.n_vertices → ¬ Vis s.visited x → s.parent.getD x 0 = -1
  len : s.ap.length = g.n_vertices
  unv_ap : ∀ x, ¬ Vis s.visited x → s.ap.getD x false = false
  correct : ∀ x, Vis s.visited x → (s.ap.getD x false = true ↔ IsCutVertex g x)

/-- The partition of the vertices other than `u` into the connected
components of the graph without `u` and its incident edges. -/
def avoid_setoid (g : grafo) (u : Nat) : Setoid {x : Fin g.n_vertices // x.val ≠ u} where
  r a b := Relation.EqvGen (fun x y => Adj g x y ∧ x ≠ u ∧ y ≠ u) a.val.val b.val.val
  iseqv := ⟨fun a => Relation.EqvGen.refl a.val.val, fun h => Relation.EqvGen.symm _ _ h,
    fun h1 h2 => Relation.EqvGen.trans _ _ _ h1 h2⟩

/-- Vertex `u` is an articulation point: deleting it together with its
incident edges leaves more connected components among the remaining vertices
than the graph has. -/
def IsArticulation (g : grafo) (u : Nat) : Prop :=
  Nat.card (Quotient (avoid_setoid g u)) > Nat.card (Quotient (vertex_setoid g))

/-! ## Proof-side notions for shortest paths -/

/-- A walk from `u` to `v` along adjacency entries, with its total weight. -/
inductive WalkW (g : grafo) : Nat → Nat → Int → Prop where
  | nil (u : Nat) : WalkW g u u 0
  | snoc {u x : Nat} {d : Int} (p : adj_node) : WalkW g u x d → p ∈ g.adj.getD x [] →
      WalkW g u p.v (d + p.weight)

/-- The shortest-path distance from `u` to `v` is `d`: some walk has weight
`d` and no walk is lighter. -/
def IsDist (g : grafo) (u v : Nat) (d : Int) : Prop :=
  WalkW g u v d ∧ ∀ d2, WalkW g u v d2 → d ≤ d2

/-- All edge weights are non-negative. -/
def NonNeg (g : grafo) : Prop := ∀ u p, p ∈ g.adj.getD u [] → 0 ≤ p.weight

/-- Path weights stay below `INF`: every single edge weighs less than `INF`,
and any two joined vertices are joined by a walk that weighs less than
`INF`. -/
def BelowINF (g : grafo) : Prop :=
  (∀ u p, p ∈ g.adj.getD u [] → p.weight < INF) ∧
  (∀ u v, Joined g u v → ∃ d, WalkW g u v d ∧ d < INF)

/-- Invariant of the outer loop of `dijkstra` from `src`. -/
structure DInv (g : grafo) (src : Nat) (dist : List Int) (vis : List Bool) : Prop where
  len_dist : dist.length = g.n_vertices
  len_vis : vis.length = g.n_vertices
  range : ∀ x, 0 ≤ dist.getD x 0 ∧ dist.getD x 0 ≤ INF
  src0 : dist.getD src 0 = 0
  edge : ∀ x, Vis vis x → ∀ p ∈ g.adj.getD x [], dist.getD p.v 0 ≤ dist.getD x 0 + p.weight
  order : ∀ x, Vis vis x → ∀ y, y < g.n_vertices → ¬ Vis vis y → dist.getD x 0 ≤ dist.getD y 0
  real : ∀ x, x < g.n_vertices → dist.getD x 0 = INF ∨ WalkW g src x (dist.getD x 0)

/-- What `dijkstra` from `src` returns: each entry is a lower bound of all walk
weights from `src`, and is `INF` or the weight of some walk. -/
structure DijkstraPost (g : grafo) (src : Nat) (dist : List Int) : Prop where
  len : dist.length = g.n_vertices
  range : ∀ x, 0 ≤ dist.getD x 0 ∧ dist.getD x 0 ≤ INF
  lower : ∀ v d, WalkW g src v d → dist.getD v 0 ≤ d
  real : ∀ x, x < g.n_vertices → dist.getD x 0 = INF ∨ WalkW g src x (dist.getD x 0)


/-- Effect of the relaxation loop at `u` over the entries `ps`, from `dist`
to `dist2`; `du` is the distance of `u`. -/
structure RelaxPost (u : Nat) (du : Int) (ps : List adj_node) (dist dist2 : List Int) :
    Prop where
  len : dist2.length = dist.length
  keep : dist2.getD u 0 = du
  le : ∀ y, dist2.getD y 0 ≤ dist.getD y 0
  ge : ∀ y, du ≤ dist.getD y 0 → du ≤ dist2.getD y 0
  nonneg : ∀ y, 0 ≤ dist2.getD y 0
  src : ∀ y, dist2.getD y 0 = dist.getD y 0 ∨
    ∃ p ∈ ps, p.v = y ∧ dist2.getD y 0 = du + p.weight
  done : ∀ p ∈ ps, dist2.getD p.v 0 ≤ du + p.weight


/-- Invariant of the flood of `diametros` from root `i`, where `vis0` is the
flag array before the root was marked. -/
structure FloodInv (g : grafo) (vis0 : List Bool) (i : Nat) (vis : List Bool)
    (stack members : List Nat) : Prop where
  len : vis.length = g.n_vertices
  mono : ∀ v, Vis vis0 v → Vis vis v
  mem : ∀ v, v ∈ members ↔ Vis vis v ∧ ¬ Vis vis0 v
  nodup : members.Nodup
  root : i ∈ members
  reach : ∀ v ∈ members, Joined g i v
  stack_sub : ∀ s ∈ stack, s ∈ members
  closed : ∀ v ∈ members, v ∉ stack → ∀ p ∈ g.adj.getD v [], Vis vis p.v

/-- The list `reps` names each connected component exactly once: its entries
are vertices, no two of them are joined, and every vertex is joined to one. -/
def Representantes (g : grafo) (reps : List Nat) : Prop :=
  (∀ r ∈ reps, r < g.n_vertices) ∧
  reps.Pairwise (fun a b => ¬ Joined g a b) ∧
  ∀ v, v < g.n_vertices → ∃ r ∈ reps, Joined g r v


/-- A path from `u` to `v`: a walk that visits no vertex twice, with the list
of its vertices (last first) and its total weight. -/
inductive PathW (g : grafo) : Nat → Nat → List Nat → Int → Prop where
  | nil (u : Nat) : PathW g u u [u] 0
  | snoc {u x : Nat} {vs : List Nat} {d : Int} (p : adj_node) : PathW g u x vs d →
      p ∈ g.adj.getD x [] → p.v ∉ vs → PathW g u p.v (p.v :: vs) (d + p.weight)

/-- Every adjacency entry has a weight between `lo` and `hi`. -/
def pesos_entre (lo hi : Int) (g : grafo) : Bool :=
  g.adj.all (fun l => l.all (fun p => decide (lo ≤ p.weight) && decide (p.weight ≤ hi)))

/-! ## Specification-side notions for the loader -/

/-- The vertex names a surviving line mentions: for an edge line with a
right-hand side, the left operand and then the right operand (the first
blank-delimited word after the first `--`); for an edge line without a
right-hand side, none; otherwise the whole line. -/
def nomes_da_linha (l : List Char) : List (List Char) :=
  match strstr l [Char.ofNat 45, Char.ofNat 45] with
  | some d =>
    if (l.drop (d + 2)).all isspace then []
    else [trim (l.take d),
          (trim (l.drop (d + 2))).takeWhile (fun c => !(c == Char.ofNat 32 || c == Char.ofNat 9))]
  | none => [l]

/-- The vertex names mentioned by the surviving lines after the name line, in
order of appearance. -/
def nomes_mencionados (bufs : List (List Char)) : List (List Char) :=
  (((linhas_vivas bufs).drop 1).map nomes_da_linha).flatten

/-- A list with its later repetitions removed: every entry is kept at its
first appearance only. -/
def sem_repeticoes {α : Type} [DecidableEq α] : List α → List α
  | [] => []
  | x :: xs => x :: (sem_repeticoes xs).filter (fun y => decide (y ≠ x))


/-- The vertex sequence after the name `x` is looked up and added when
absent. -/
def regista (vs : List (List Char)) (x : List Char) : List (List Char) :=
  if x ∈ vs then vs else vs ++ [x]


/-- A malformed edge line: the trimmed text of the buffer contains `--` and
only white space follows the first `--`. -/
def linha_malformada (b : List Char) : Bool :=
  match strstr (trim (chomp b)) [Char.ofNat 45, Char.ofNat 45] with
  | some d => ((trim (chomp b)).drop (d + 2)).all isspace
  | none => false

/-- Sample input with a malformed edge line naming Z on its left. -/
def exemplo_malformada : List Char := "G\nA -- B\nZ --   \nB -- C".toList

/-- The graph has zero edges: every adjacency list is empty. -/
def SemArestas (g : grafo) : Prop := ∀ l ∈ g.adj, l = []

/-- Four isolated vertices. -/
def exemplo_isolados : List Char := "I\nA\nB\nC\nD".toList


/-- A tree: a well-formed connected graph without self-loops or parallel
edges in which no edge lies on a cycle, that is, the two ends of an edge are
not joined by a path that avoids the edge. -/
structure Arvore (g : grafo) : Prop where
  wf : WF g
  conexo : ∀ u v, u < g.n_vertices → v < g.n_vertices → Joined g u v
  sem_laco : ∀ u, ¬ Adj g u u
  simples : NoParallel g
  aciclico : ∀ u v, Adj g u v → ¬ JoinedMinus g u v u v

/-- Adjacency in a list of vertex pairs, in either direction. -/
def AdjL (E : List (Nat × Nat)) (x y : Nat) : Prop := (x, y) ∈ E ∨ (y, x) ∈ E

/-- Joined by a path of pairs of `E`. -/
def JoinedL (E : List (Nat × Nat)) (a b : Nat) : Prop := Relation.ReflTransGen (AdjL E) a b

/-- Joined by a path of pairs of `E` that never steps between `u` and `v`. -/
def JoinedMinusL (E : List (Nat × Nat)) (u v : Nat) (a b : Nat) : Prop :=
  Relation.ReflTransGen
    (fun x y => AdjL E x y ∧ ¬ (x = u ∧ y = v) ∧ ¬ (x = v ∧ y = u)) a b

/-- The adjacency entries of the graph as a list of vertex pairs. -/
def pares (g : grafo) : List (Nat × Nat) :=
  ((List.range g.adj.length).map
    (fun u => (g.adj.getD u []).map (fun p => (u, p.v)))).flatten

/-- Decidable certificate that no edge lies on a cycle: for every adjacency
entry from `u` to `v`, the list `cert u v` contains `u`, does not contain `v`,
and is closed under every adjacency step other than the steps between `u` and
`v`. -/
def aciclico_cert (g : grafo) (cert : Nat → Nat → List Nat) : Bool :=
  (pares g).all (fun e =>
    (cert e.1 e.2).contains e.1 && !(cert e.1 e.2).contains e.2 &&
    (cert e.1 e.2).all (fun x =>
      (g.adj.getD x []).all (fun p =>
        (x == e.1 && p.v == e.2) || (x == e.2 && p.v == e.1) || (cert e.1 e.2).contains p.v)))

/-- A star with centre C and leaves A, B, D, the centre being inserted
third. -/
def exemplo_estrela : List Char := "S\nA -- C\nB -- C\nC -- D".toList

/-! ## Paths and cycles as graphs -/

/-- The adjacency entries of the vertex at position `i` of a path listed by
`ord`: the next vertex when there is one, and the previous vertex when there
is one, each with weight 1. -/
def vizinhos (ord : List Nat) (n i : Nat) : List adj_node :=
  (if i + 1 < n then [⟨ord.getD (i + 1) 0, 1⟩] else []) ++
  (if 0 < i then [⟨ord.getD (i - 1) 0, 1⟩] else [])

/-- The graph is a simple path with unit weights: `ord` lists all the
vertices once, and the adjacency list of each holds exactly one entry of
weight 1 for each of its neighbours on the path, in any order. -/
structure Caminho (g : grafo) (ord : List Nat) : Prop where
  perm : ord.Perm (List.range g.n_vertices)
  viz : ∀ i, i < g.n_vertices →
    (g.adj.getD (ord.getD i 0) []).Perm (vizinhos ord g.n_vertices i)

/-- The path on `k` vertices named 0, 1, ..., as `le_grafo` builds it from the
lines `0 -- 1`, `1 -- 2`, ... -/
def caminho (k : Nat) : grafo :=
  { name := some "caminho".toList,
    n_vertices := k,
    n_arestas := k - 1,
    vertices := (List.range k).map (fun i => itoa (Int.ofNat i)),
    adj := (List.range k).map (fun i => vizinhos (List.range k) k i) }


/-- A three-vertex path whose middle vertex is inserted first: B - C, then
A - B. -/
def exemplo_caminho_bca : List Char := "P\nB -- C\nA -- B".toList

/-- The graph is a simple cycle: `ord` lists all the vertices once, and the
adjacency list of each holds exactly two entries, of any weights, one for the
next vertex and one for the previous vertex in the cyclic order. -/
structure Ciclo (g : grafo) (ord : List Nat) : Prop where
  perm : ord.Perm (List.range g.n_vertices)
  viz : ∀ i, i < g.n_vertices →
    ((g.adj.getD (ord.getD i 0) []).map (fun p => p.v)).Perm
      [ord.getD ((i + 1) % g.n_vertices) 0, ord.getD ((i + g.n_vertices - 1) % g.n_vertices) 0]

/-- A cycle A - B - D - C - A with mixed weights, whose edges are not given in
cyclic order. -/
def exemplo_ciclo : List Char := "C\nA -- C 7\nB -- D\nA -- B 2\nC -- D".toList

/-- Bookkeeping of the bridge search between a flag array `vis0` with bridge
list `B0` and a later state `s`: flags are only set, and the pairs recorded
since are distinct and join vertices that were marked since. -/
structure BrAcc (g : grafo) (vis0 : List Bool) (B0 : List edge_pair) (s : br_state) : Prop where
  len : s.visited.length = vis0.length
  mono : ∀ x, Vis vis0 x → Vis s.visited x
  ext : ∃ new, s.bridges = B0 ++ new ∧ new.Nodup ∧
    ∀ e ∈ new, ∃ a b, a < g.n_vertices ∧ b < g.n_vertices ∧ a ≠ b ∧
      Vis s.visited a ∧ ¬ Vis vis0 a ∧ Vis s.visited b ∧ ¬ Vis vis0 b ∧ e = mk_pair g a b


/-! ## The module-level counters across calls -/

/-- The two module-level counters of `grafo.c`. -/
structure contadores where
  time_dfs_ap : Int
  time_dfs_br : Int
deriving DecidableEq, Repr

/-- The value left in `time_dfs_ap` when `vertices_corte` returns. -/
def time_dfs_ap_final (time_dfs_ap : Int) (g : grafo) : Option Int :=
  (ap_roots g (List.range g.n_vertices) (ap_init g time_dfs_ap)).map (fun s => s.time)

/-- The value left in `time_dfs_br` when `arestas_corte` returns. -/
def time_dfs_br_final (time_dfs_br : Int) (g : grafo) : Option Int :=
  (br_roots g (List.range g.n_vertices) (br_init g time_dfs_br)).map (fun s => s.time)

/-- One call of `vertices_corte` as a step on the module state: the returned
string and the counters after the call (`time_dfs_br` is not touched). -/
def chamada_vertices_corte (c : contadores) (g : grafo) : Option (List Char × contadores) :=
  match vertices_corte c.time_dfs_ap g, time_dfs_ap_final c.time_dfs_ap g with
  | some r, some t => some (r, { c with time_dfs_ap := t })
  | _, _ => none

/-- One call of `arestas_corte` as a step on the module state: the returned
string and the counters after the call (`time_dfs_ap` is not touched). -/
def chamada_arestas_corte (c : contadores) (g : grafo) : Option (List Char × contadores) :=
  match arestas_corte c.time_dfs_br g, time_dfs_br_final c.time_dfs_br g with
  | some r, some t => some (r, { c with time_dfs_br := t })
  | _, _ => none

/-! ## Large graphs -/

/-- The star with centre 0 and leaves 1, ..., `k`, as `le_grafo` builds it
from the lines `0 -- 1`, `0 -- 2`, ..., `0 -- k`. -/
def estrela (k : Nat) : grafo :=
  { name := some "estrela".toList,
    n_vertices := k + 1,
    n_arestas := k,
    vertices := (List.range (k + 1)).map (fun i => itoa (Int.ofNat i)),
    adj := ((List.range' 1 k).reverse.map (fun i => (⟨i, 1⟩ : adj_node))) ::
      List.replicate k [⟨0, 1⟩] }

/-- The cycle on `k` vertices named 0, 1, ..., as `le_grafo` builds it from
the lines `0 -- 1`, `1 -- 2`, ..., and last the line joining `k - 1` to 0. -/
def anel (k : Nat) : grafo :=
  { name := some "anel".toList,
    n_vertices := k,
    n_arestas := k,
    vertices := (List.range k).map (fun i => itoa (Int.ofNat i)),
    adj := (List.range k).map (fun i =>
      if i = 0 then [(⟨k - 1, 1⟩ : adj_node), ⟨1, 1⟩]
      else [⟨(i + 1) % k, 1⟩, ⟨i - 1, 1⟩]) }

/-- The lines of a text, as runs of characters between newline characters;
`acc` holds the current line so far, reversed. -/
def linhas_desde : List Char → List Char → List (List Char)
  | acc, [] => [acc.reverse]
  | acc, c :: cs =>
    if c.toNat == 10 then acc.reverse :: linhas_desde [] cs
    else linhas_desde (c :: acc) cs

/-- The lines of a text: the runs of characters between newline characters. -/
def linhas (f : List Char) : List (List Char) := linhas_desde [] f

/-- A malformed edge line of 4097 bytes: `Z`, 4094 spaces, then `--`. -/
def linha_malformada_longa : List Char :=
  "Z".toList ++ List.replicate 4094 (Char.ofNat 32) ++ "--".toList

/-- An input whose edge line has a right operand of 256 bytes. -/
def exemplo_operando_longo : List Char :=
  "G\nA -- ".toList ++ List.replicate 256 (Char.ofNat 120)

/-! # Theorems -/

/-! ## Lists -/

theorem getD_set_list {α : Type} (l : List α) (i j : Nat) (a d : α) :
    (l.set i a).getD j d = if i = j ∧ i < l.length then a else l.getD j d := by
  simp only [List.getD_eq_getElem?_getD, List.getElem?_set]
  by_cases h : i = j
  · subst h
    by_cases h2 : i < l.length
    · simp [h2]
    · have : l.length ≤ i := Nat.le_of_not_lt h2
      simp [h2, List.getElem?_eq_none this]
  · simp [h]

theorem mem_add_edge (g : grafo) (u v : Nat) (w : Int) (hu : u < g.adj.length)
    (hv : v < g.adj.length) (i : Nat) (x : adj_node) :
    x ∈ (add_edge g u v w).adj.getD i [] ↔
      x ∈ g.adj.getD i [] ∨ (i = u ∧ x = ⟨v, w⟩) ∨ (i = v ∧ x = ⟨u, w⟩) := by
  simp only [add_edge, getD_set_list, List.length_set]
  by_cases h1 : v = i
  · subst h1
    by_cases h2 : u = v
    · subst h2
      simp [hu]
      tauto
    · simp [hv, h2, Ne.symm h2]
      tauto
  · by_cases h2 : u = i
    · subst h2
      simp [hu, h1, Ne.symm h1]
      tauto
    · simp [h1, h2, Ne.symm h1, Ne.symm h2]

theorem SymAdj_add_edge (g : grafo) (u v : Nat) (w : Int) (hu : u < g.adj.length)
    (hv : v < g.adj.length) (h : SymAdj g) : SymAdj (add_edge g u v w) := by
  intro i j w2 hm
  rw [mem_add_edge g u v w hu hv] at hm ⊢
  rcases hm with hm | ⟨rfl, hx⟩ | ⟨rfl, hx⟩
  · exact Or.inl (h i j w2 hm)
  · simp only [adj_node.mk.injEq] at hx
    obtain ⟨rfl, rfl⟩ := hx
    exact Or.inr (Or.inr ⟨rfl, rfl⟩)
  · simp only [adj_node.mk.injEq] at hx
    obtain ⟨rfl, rfl⟩ := hx
    exact Or.inr (Or.inl ⟨rfl, rfl⟩)

/-! ## The loader builds well-formed graphs -/

theorem WF_grafo_vazio : WF grafo_vazio := by
  constructor <;> simp [grafo_vazio, SymAdj]

theorem getD_append_nil (l : List (List adj_node)) (i : Nat) :
    (l ++ [[]]).getD i [] = l.getD i [] := by
  simp only [List.getD_eq_getElem?_getD]
  by_cases h : i < l.length
  · rw [List.getElem?_append_left h]
  · have h1 : l.length ≤ i := Nat.le_of_not_lt h
    rw [List.getElem?_append_right h1, List.getElem?_eq_none h1]
    cases hk : i - l.length <;> simp

theorem WF_add_vertex (g : grafo) (name : List Char) (h : WF g) :
    WF (add_vertex g name).1 := by
  constructor
  · simp [add_vertex, h.len_vertices]
  · simp [add_vertex, h.len_adj]
  · intro i p hp
    simp only [add_vertex, getD_append_nil] at hp ⊢
    exact Nat.lt_succ_of_lt (h.in_range i p hp)
  · intro i j w hm
    simp only [add_vertex, getD_append_nil] at hm ⊢
    exact h.sym i j w hm

theorem find_vertex_index_lt (g : grafo) (name : List Char) (i : Nat)
    (h : find_vertex_index g name = some i) : i < g.n_vertices := by
  have := List.mem_of_find?_eq_some h
  simpa using this

theorem get_vertex_index_spec (g : grafo) (name : List Char) (h : WF g) :
    WF (get_vertex_index g name).1 ∧
    (get_vertex_index g name).2 < (get_vertex_index g name).1.n_vertices ∧
    g.n_vertices ≤ (get_vertex_index g name).1.n_vertices ∧
    (get_vertex_index g name).1.n_arestas = g.n_arestas := by
  unfold get_vertex_index
  cases hf : find_vertex_index g name with
  | some idx => exact ⟨h, find_vertex_index_lt g name idx hf, le_refl _, rfl⟩
  | none =>
    refine ⟨WF_add_vertex g name h, ?_, ?_, ?_⟩ <;> simp [add_vertex]

theorem WF_add_edge (g : grafo) (u v : Nat) (w : Int) (hu : u < g.n_vertices)
    (hv : v < g.n_vertices) (h : WF g) : WF (add_edge g u v w) := by
  have hu2 : u < g.adj.length := by rw [h.len_adj]; exact hu
  have hv2 : v < g.adj.length := by rw [h.len_adj]; exact hv
  constructor
  · exact h.len_vertices
  · simp [add_edge, h.len_adj]
  · intro i p hp
    rw [mem_add_edge g u v w hu2 hv2] at hp
    rcases hp with hp | ⟨_, rfl⟩ | ⟨_, rfl⟩
    · exact h.in_range i p hp
    · exact hv
    · exact hu
  · exact SymAdj_add_edge g u v w hu2 hv2 h.sym

theorem le_aresta_none (g : grafo) (line : List Char) (d : Nat)
    (h : strtok (trim (line.drop (d + 2))) [Char.ofNat 32, Char.ofNat 9] = none) :
    le_aresta g line d = some g := by
  simp only [le_aresta, h]

theorem le_aresta_some (g : grafo) (line : List Char) (d : Nat) (vname2 rest : List Char)
    (h : strtok (trim (line.drop (d + 2))) [Char.ofNat 32, Char.ofNat 9] = some (vname2, rest))
    (g1 : grafo) (hg : le_aresta g line d = some g1) :
    vname2.length < 256 ∧ ∃ w, g1 =
      add_edge (get_vertex_index (get_vertex_index g (trim (line.take d))).1 vname2).1
        (get_vertex_index g (trim (line.take d))).2
        (get_vertex_index (get_vertex_index g (trim (line.take d))).1 vname2).2 w := by
  simp only [le_aresta, h] at hg
  split at hg
  · cases hg
  · rename_i hlen
    split at hg
    · cases hg
    · exact ⟨Nat.lt_of_not_le hlen, _, (Option.some.inj hg).symm⟩

/-- The four ways in which one iteration of the loop of `le_grafo` ends with
a state: the buffer is blank or a comment; it is the name line; it is an
edge line on which `le_aresta` gives a graph; it is a vertex line. -/
theorem le_linha_cases (g : grafo) (hn : Bool) (b : List Char) (st1 : grafo × Bool)
    (h : le_linha (g, hn) b = some st1) :
    (((trim (chomp b)).isEmpty ||
        starts_with (trim (chomp b)) [Char.ofNat 47, Char.ofNat 47]) = true ∧ st1 = (g, hn)) ∨
    (((trim (chomp b)).isEmpty ||
        starts_with (trim (chomp b)) [Char.ofNat 47, Char.ofNat 47]) = false ∧
      ((hn = false ∧ st1 = ({ g with name := some (trim (chomp b)) }, true)) ∨
       (hn = true ∧ ∃ d g1, strstr (trim (chomp b)) [Char.ofNat 45, Char.ofNat 45] = some d ∧
          le_aresta g (trim (chomp b)) d = some g1 ∧ st1 = (g1, true)) ∨
       (hn = true ∧ strstr (trim (chomp b)) [Char.ofNat 45, Char.ofNat 45] = none ∧
          st1 = ((get_vertex_index g (trim (chomp b))).1, true)))) := by
  unfold le_linha at h
  simp only at h
  split at h
  · rename_i hl
    exact Or.inl ⟨hl, (Option.some.inj h).symm⟩
  · rename_i hl
    refine Or.inr ⟨by simpa using hl, ?_⟩
    split at h
    · rename_i hn2
      exact Or.inl ⟨by simpa using hn2, (Option.some.inj h).symm⟩
    · rename_i hn2
      have hn3 : hn = true := by simpa using hn2
      split at h
      · rename_i d hs
        split at h
        · cases h
        · rename_i g1 hg1
          exact Or.inr (Or.inl ⟨hn3, d, g1, hs, hg1, (Option.some.inj h).symm⟩)
      · rename_i hs
        refine Or.inr (Or.inr ⟨hn3, hs, ?_⟩)
        split at h
        · rename_i idx hf
          have e : get_vertex_index g (trim (chomp b)) = (g, idx) := by
            simp only [get_vertex_index, hf]
          rw [e]
          exact (Option.some.inj h).symm
        · rename_i hf
          have e : get_vertex_index g (trim (chomp b)) = add_vertex g (trim (chomp b)) := by
            simp only [get_vertex_index, hf]
          rw [e]
          exact (Option.some.inj h).symm

theorem le_linha_skip (st : grafo × Bool) (b : List Char)
    (hl : ((trim (chomp b)).isEmpty ||
        starts_with (trim (chomp b)) [Char.ofNat 47, Char.ofNat 47]) = true) :
    le_linha st b = some st := by
  unfold le_linha
  simp only
  rw [if_pos hl]

theorem le_linhas_de_cons (st st2 : grafo × Bool) (b : List Char) (bs : List (List Char))
    (h : le_linhas_de st (b :: bs) = some st2) :
    ∃ st1, le_linha st b = some st1 ∧ le_linhas_de st1 bs = some st2 := by
  rw [le_linhas_de] at h
  split at h
  · cases h
  · rename_i st1 h1
    exact ⟨st1, h1, h⟩

theorem le_linhas_de_cons_some (st st1 : grafo × Bool) (b : List Char) (bs : List (List Char))
    (h : le_linha st b = some st1) :
    le_linhas_de st (b :: bs) = le_linhas_de st1 bs := by
  rw [le_linhas_de, h]

theorem le_linhas_de_cons_none (st : grafo × Bool) (b : List Char) (bs : List (List Char))
    (h : le_linha st b = none) :
    le_linhas_de st (b :: bs) = none := by
  rw [le_linhas_de, h]

theorem le_linhas_de_append (bufs more : List (List Char)) (st : grafo × Bool) :
    le_linhas_de st (bufs ++ more) =
      match le_linhas_de st bufs with
      | none => none
      | some st1 => le_linhas_de st1 more := by
  induction bufs generalizing st with
  | nil => rfl
  | cons b bs ih =>
    rw [List.cons_append]
    cases h : le_linha st b with
    | none => rw [le_linhas_de_cons_none _ _ _ h, le_linhas_de_cons_none _ _ _ h]
    | some st1 => rw [le_linhas_de_cons_some _ _ _ _ h, le_linhas_de_cons_some _ _ _ _ h, ih]

/-- A property of the loader state that every iteration keeps holds at the
end of the loop. -/
theorem le_linhas_de_inv (P : grafo × Bool → Prop)
    (hstep : ∀ st b st1, P st → le_linha st b = some st1 → P st1)
    (bufs : List (List Char)) (st st2 : grafo × Bool) (h0 : P st)
    (h : le_linhas_de st bufs = some st2) : P st2 := by
  induction bufs generalizing st with
  | nil =>
    rw [le_linhas_de] at h
    cases h
    exact h0
  | cons b bs ih =>
    obtain ⟨st1, h1, h2⟩ := le_linhas_de_cons st st2 b bs h
    exact ih st1 (hstep st b st1 h0 h1) h2

theorem le_linhas_some (bufs : List (List Char)) (g : grafo) (h : le_linhas bufs = some g) :
    ∃ hn, le_linhas_de (grafo_vazio, false) bufs = some (g, hn) := by
  unfold le_linhas at h
  split at h
  · cases h
  · rename_i st hst
    cases Option.some.inj h
    exact ⟨st.2, hst⟩

theorem WF_le_aresta (g : grafo) (line : List Char) (d : Nat) (h : WF g) (g1 : grafo)
    (hg : le_aresta g line d = some g1) : WF g1 := by
  cases hs : strtok (trim (line.drop (d + 2))) [Char.ofNat 32, Char.ofNat 9] with
  | none =>
    rw [le_aresta_none g line d hs] at hg
    cases hg
    exact h
  | some r =>
    obtain ⟨vname2, rest⟩ := r
    obtain ⟨_, w, hw⟩ := le_aresta_some g line d vname2 rest hs g1 hg
    rw [hw]
    have h1 := get_vertex_index_spec g (trim (line.take d)) h
    have h2 := get_vertex_index_spec (get_vertex_index g (trim (line.take d))).1 vname2 h1.1
    exact WF_add_edge _ _ _ _ (Nat.lt_of_lt_of_le h1.2.1 h2.2.2.1) h2.2.1 h2.1

theorem WF_le_linha (st : grafo × Bool) (buffer : List Char) (st1 : grafo × Bool)
    (h : WF st.1) (h1 : le_linha st buffer = some st1) : WF st1.1 := by
  obtain ⟨g, hn⟩ := st
  rcases le_linha_cases g hn buffer st1 h1 with ⟨_, e⟩ | ⟨_, ⟨_, e⟩ | ⟨_, d, g1, _, hg, e⟩ | ⟨_, _, e⟩⟩
  · rw [e]; exact h
  · rw [e]; exact ⟨h.len_vertices, h.len_adj, h.in_range, h.sym⟩
  · rw [e]; exact WF_le_aresta g _ d h g1 hg
  · rw [e]; exact (get_vertex_index_spec g _ h).1

theorem WF_le_linhas_de (bufs : List (List Char)) (st st2 : grafo × Bool) (h : WF st.1)
    (h2 : le_linhas_de st bufs = some st2) : WF st2.1 :=
  le_linhas_de_inv (fun s => WF s.1) (fun s b s1 hs h1 => WF_le_linha s b s1 hs h1)
    bufs st st2 h h2

theorem WF_le_linhas (bufs : List (List Char)) (g : grafo) (h : le_linhas bufs = some g) :
    WF g := by
  obtain ⟨hn, h2⟩ := le_linhas_some bufs g h
  exact WF_le_linhas_de bufs _ _ WF_grafo_vazio h2

theorem WF_le_grafo (f : List Char) (g : grafo) (h : le_grafo f = some g) : WF g :=
  WF_le_linhas _ g h

theorem WF_grafo_de (f : List Char) : WF (grafo_de f) := by
  unfold grafo_de
  split
  · rename_i g h
    exact WF_le_grafo f g h
  · exact WF_grafo_vazio

theorem le_grafo_grafo_de (f : List Char) (h : (le_grafo f).isSome = true) :
    le_grafo f = some (grafo_de f) := by
  unfold grafo_de
  cases hg : le_grafo f with
  | none => rw [hg] at h; cases h
  | some g => rfl

/-! ## Edge count of the loader -/

theorem dropWhile_append_last {α : Type} (p : α → Bool) (l : List α) (c : α) (hc : p c = false) :
    (l ++ [c]).dropWhile p = l.dropWhile p ++ [c] := by
  induction l with
  | nil => simp [List.dropWhile, hc]
  | cons a t ih =>
    by_cases ha : p a = true
    · simp [List.dropWhile, ha, ih]
    · simp [List.dropWhile, ha]

theorem dropWhile_head_false {α : Type} (p : α → Bool) (l : List α) (c : α) (t : List α)
    (h : l.dropWhile p = c :: t) : p c = false := by
  induction l with
  | nil => simp at h
  | cons a r ih =>
    by_cases ha : p a = true
    · simp [List.dropWhile, ha] at h
      exact ih h
    · simp [List.dropWhile, ha] at h
      rw [← h.1]
      simpa using ha

theorem trim_cases (r : List Char) :
    (r.all isspace = true ∧ trim r = []) ∨
    (∃ c t, isspace c = false ∧ trim r = c :: t ∧ r.all isspace = false) := by
  cases hd : r.dropWhile isspace with
  | nil =>
    left
    refine ⟨?_, by simp [trim, hd]⟩
    rw [List.dropWhile_eq_nil_iff] at hd
    simpa using hd
  | cons c t =>
    right
    have hc := dropWhile_head_false isspace r c t hd
    refine ⟨c, (t.reverse.dropWhile isspace).reverse, hc, ?_, ?_⟩
    · simp [trim, hd, dropWhile_append_last isspace t.reverse c hc]
    · cases hall : r.all isspace with
      | false => rfl
      | true =>
        have : r.dropWhile isspace = [] := by
          rw [List.dropWhile_eq_nil_iff]
          simpa using hall
        rw [this] at hd
        cases hd

theorem strtok_trim_none_iff (r : List Char) :
    strtok (trim r) [Char.ofNat 32, Char.ofNat 9] = none ↔ r.all isspace = true := by
  rcases trim_cases r with ⟨h1, h2⟩ | ⟨c, t, hc, h2, h3⟩
  · rw [h2, h1]
    simp [strtok]
  · rw [h2, h3]
    have hc2 : (decide (c = Char.ofNat 32) || decide (c = Char.ofNat 9)) = false := by
      simp only [Bool.or_eq_false_iff, decide_eq_false_iff_not]
      constructor
      · rintro rfl
        revert hc
        decide
      · rintro rfl
        revert hc
        decide
    simp [strtok, List.dropWhile, hc2]

theorem linhas_vivas_cons_skip (b : List Char) (bs : List (List Char))
    (hl : ((trim (chomp b)).isEmpty ||
        starts_with (trim (chomp b)) [Char.ofNat 47, Char.ofNat 47]) = true) :
    linhas_vivas (b :: bs) = linhas_vivas bs := by
  simp only [linhas_vivas, List.map_cons, List.filter_cons, hl]
  simp

theorem linhas_vivas_cons_keep (b : List Char) (bs : List (List Char))
    (hl : ((trim (chomp b)).isEmpty ||
        starts_with (trim (chomp b)) [Char.ofNat 47, Char.ofNat 47]) = false) :
    linhas_vivas (b :: bs) = trim (chomp b) :: linhas_vivas bs := by
  simp only [linhas_vivas, List.map_cons, List.filter_cons, hl]
  simp

theorem chomp_append_nl (l : List Char) (c : Char) (hc : (c.toNat == 10) = true) :
    chomp (l ++ [c]) = chomp l := by
  unfold chomp
  induction l with
  | nil =>
    rw [List.nil_append, List.takeWhile_cons, List.takeWhile_nil]
    simp [hc]
  | cons x xs ih =>
    rw [List.cons_append, List.takeWhile_cons, List.takeWhile_cons, ih]

theorem linhas_desde_first (f : List Char) :
    ∀ acc : List Char, ∃ l ∈ linhas_desde acc f, acc.length ≤ l.length := by
  induction f with
  | nil =>
    intro acc
    exact ⟨acc.reverse, by rw [linhas_desde]; exact List.mem_singleton.2 rfl,
      by rw [List.length_reverse]⟩
  | cons c cs ih =>
    intro acc
    rw [linhas_desde]
    split
    · exact ⟨acc.reverse, List.mem_cons_self _ _, by rw [List.length_reverse]⟩
    · obtain ⟨l, hl, hlen⟩ := ih (c :: acc)
      exact ⟨l, hl, by rw [List.length_cons] at hlen; omega⟩

/-- When every line is shorter than the buffer, `fgets` delivers the lines
one by one: the texts of the buffers are the texts of the lines, up to an
empty last line. -/
theorem linhas_fgets (f : List Char) :
    ∀ (acc : List Char) (k : Nat), k + acc.length = 4095 →
      (∀ l ∈ linhas_desde acc f, l.length < 4095) →
      ∃ t : List (List Char), (t = [] ∨ t = [[]]) ∧
        (linhas_desde acc f).map chomp = (fgets_all 4096 k acc f).map chomp ++ t := by
  induction f with
  | nil =>
    intro acc k _ _
    rw [linhas_desde, fgets_all]
    cases acc with
    | nil => exact ⟨[[]], Or.inr rfl, rfl⟩
    | cons a as => exact ⟨[], Or.inl rfl, by simp⟩
  | cons c cs ih =>
    intro acc k hk hall
    rw [linhas_desde] at hall ⊢
    rw [fgets_all]
    by_cases hc : (c.toNat == 10) = true
    · rw [if_pos hc] at hall ⊢
      rw [if_pos (by rw [hc]; rfl)]
      obtain ⟨t, ht, e⟩ := ih [] 4095 rfl (fun l hl => hall l (List.mem_cons_of_mem _ hl))
      refine ⟨t, ht, ?_⟩
      rw [List.map_cons, List.map_cons, e, List.reverse_cons, chomp_append_nl _ _ hc]
      rfl
    · rw [if_neg hc] at hall ⊢
      obtain ⟨l, hl, hlen⟩ := linhas_desde_first cs (c :: acc)
      have h1 := hall l hl
      rw [List.length_cons] at hlen
      have hk1 : ¬ k ≤ 1 := by omega
      rw [if_neg (by simp [hc, hk1])]
      exact ih (c :: acc) (k - 1) (by rw [List.length_cons]; omega) hall

theorem linhas_vivas_eq (bufs : List (List Char)) :
    linhas_vivas bufs = ((bufs.map chomp).map trim).filter
      (fun l => !(l.isEmpty || starts_with l [Char.ofNat 47, Char.ofNat 47])) := by
  unfold linhas_vivas
  rw [List.map_map]
  rfl

theorem linhas_vivas_linhas (f : List Char) (h : ∀ l ∈ linhas f, l.length < 4095) :
    linhas_vivas (linhas f) = linhas_vivas (fgets_all 4096 4095 [] f) := by
  obtain ⟨t, ht, e⟩ := linhas_fgets f [] 4095 rfl h
  rw [linhas_vivas_eq, linhas_vivas_eq]
  unfold linhas
  rw [e, List.map_append, List.filter_append]
  rcases ht with ht | ht
  · rw [ht]
    simp
  · rw [ht]
    have : trim [] = [] := rfl
    simp [this]

theorem ap_init_time (g : grafo) (t : Int) : ap_init g t = ap_init g 0 := rfl

theorem br_init_time (g : grafo) (t : Int) : br_init g t = br_init g 0 := rfl

theorem vertices_corte_time (g : grafo) (t : Int) : vertices_corte t g = vertices_corte 0 g := rfl

theorem arestas_corte_time (g : grafo) (t : Int) : arestas_corte t g = arestas_corte 0 g := rfl

/-- C5, the code at the failing input: with two parallel edges between A and
B, `arestas_corte` lists the pair A B, although one edge between A and B alone
yields the same component count, so removing a single one of the two edges
does not disconnect anything. -/
theorem arestas_corte_paralelas :
    ∃ g h, le_grafo exemplo_paralelas = some g ∧ le_grafo exemplo_uma_aresta = some h ∧
      ((∀ t, arestas_corte t g = some "A B".toList) ∧
      n_componentes g = some 1 ∧
      n_componentes h = some 1 ∧
      g.vertices = h.vertices ∧
      g.adj = [[⟨1, 1⟩, ⟨1, 1⟩], [⟨0, 1⟩, ⟨0, 1⟩]] ∧
      h.adj = [[⟨1, 1⟩], [⟨0, 1⟩]]) :=
  ⟨grafo_de exemplo_paralelas, grafo_de exemplo_uma_aresta,
    le_grafo_grafo_de exemplo_paralelas (by decide),
    le_grafo_grafo_de exemplo_uma_aresta (by decide),
    (by
      refine ⟨fun t => ?_, by decide, by decide, by decide, by decide, by decide⟩
      rw [arestas_corte_time]
      decide)⟩

/-- C7 as stated fails: on the sample input `diametros` does not return
the string 0 5. -/
theorem diametros_exemplo_not_0_5 :
    ∃ g, le_grafo exemplo_g1 = some g ∧
      (diametros g ≠ some "0 5".toList) :=
  ⟨grafo_de exemplo_g1, le_grafo_grafo_de exemplo_g1 (by decide),
    (by
      decide)⟩

/-- C7 amended: on the sample input `diametros` returns the string 0 2 (the
shortest path from B to C goes through A and weighs 2). -/
theorem diametros_exemplo :
    ∃ g, le_grafo exemplo_g1 = some g ∧
      (diametros g = some "0 2".toList) :=
  ⟨grafo_de exemplo_g1, le_grafo_grafo_de exemplo_g1 (by decide),
    (by
      decide)⟩

/-- C8: on the sample input the name is G1, there are 4 vertices, 3 edges
and 2 components, the graph is not bipartite, and both cut outputs are the
empty string, whatever the counters held before. -/
theorem exemplo_resumo :
    ∃ g, le_grafo exemplo_g1 = some g ∧
      (nome g = some "G1".toList ∧
      n_vertices g = 4 ∧
      n_arestas g = 3 ∧
      n_componentes g = some 2 ∧
      bipartido g = some false ∧
      (∀ t, vertices_corte t g = some []) ∧
      (∀ t, arestas_corte t g = some [])) :=
  ⟨grafo_de exemplo_g1, le_grafo_grafo_de exemplo_g1 (by decide),
    (by
      refine ⟨by decide, by decide, by decide, by decide, by decide, fun t => ?_, fun t => ?_⟩
      · rw [vertices_corte_time]; decide
      · rw [arestas_corte_time]; decide)⟩

/-- C9: adjacency symmetry holds for the empty graph, is preserved by
`add_edge` at in-range indices for every weight, and holds for every graph
returned by `le_grafo`. -/
theorem adj_symmetry_invariant :
    SymAdj grafo_vazio ∧
    (∀ (g : grafo) (u v : Nat) (w : Int), g.adj.length = g.n_vertices →
      u < g.n_vertices → v < g.n_vertices → SymAdj g → SymAdj (add_edge g u v w)) ∧
    (∀ (f : List Char) (g : grafo), le_grafo f = some g → ∀ i j w,
      (⟨j, w⟩ : adj_node) ∈ g.adj.getD i [] → (⟨i, w⟩ : adj_node) ∈ g.adj.getD j []) := by
  refine ⟨WF_grafo_vazio.sym, ?_, fun f g h => (WF_le_grafo f g h).sym⟩
  intro g u v w hlen hu hv hs
  exact SymAdj_add_edge g u v w (hlen ▸ hu) (hlen ▸ hv) hs

/-- C9 at a concrete input: the graph returned for the sample input is
symmetric, and so is the graph after one more edge is added to it. -/
theorem adj_symmetry_invariant_witness :
    ∃ g, le_grafo exemplo_g1 = some g ∧ SymAdj g ∧ SymAdj (add_edge g 0 3 7) :=
  have hg : le_grafo exemplo_g1 = some (grafo_de exemplo_g1) :=
    le_grafo_grafo_de exemplo_g1 (by decide)
  ⟨grafo_de exemplo_g1, hg, adj_symmetry_invariant.2.2 exemplo_g1 _ hg,
    adj_symmetry_invariant.2.1 (grafo_de exemplo_g1) 0 3 7 (by decide) (by decide) (by decide)
      (adj_symmetry_invariant.2.2 exemplo_g1 _ hg)⟩

theorem Vis_set (vis : List Bool) (u v : Nat) :
    Vis (vis.set u true) v ↔ (u = v ∧ u < vis.length) ∨ Vis vis v := by
  unfold Vis
  rw [getD_set_list]
  by_cases h : u = v ∧ u < vis.length
  · simp [h]
  · simp [h]

theorem Vis_lt (vis : List Bool) (v : Nat) (h : Vis vis v) : v < vis.length := by
  unfold Vis at h
  by_contra hn
  rw [List.getD_eq_default _ _ (Nat.le_of_not_lt hn)] at h
  cases h

theorem unvisited_mono (n : Nat) (vis vis2 : List Bool) (h : ∀ v, Vis vis v → Vis vis2 v) :
    unvisited n vis2 ⊆ unvisited n vis := by
  intro v hv
  simp only [unvisited, Finset.mem_filter, Finset.mem_range] at hv ⊢
  refine ⟨hv.1, ?_⟩
  cases hx : vis.getD v false with
  | false => rfl
  | true =>
    have := h v hx
    unfold Vis at this
    rw [this] at hv
    cases hv.2

theorem unvisited_set_card (n : Nat) (vis : List Bool) (u : Nat) (hu : u < n)
    (hlen : vis.length = n) (hnv : ¬ Vis vis u) :
    (unvisited n (vis.set u true)).card < (unvisited n vis).card := by
  apply Finset.card_lt_card
  rw [Finset.ssubset_iff_of_subset]
  · refine ⟨u, ?_, ?_⟩
    · simp only [unvisited, Finset.mem_filter, Finset.mem_range]
      refine ⟨hu, ?_⟩
      unfold Vis at hnv
      simpa using hnv
    · simp only [unvisited, Finset.mem_filter, Finset.mem_range, not_and]
      intro _
      have : Vis (vis.set u true) u := (Vis_set vis u u).2 (Or.inl ⟨rfl, hlen ▸ hu⟩)
      unfold Vis at this
      rw [this]
      simp
  · exact unvisited_mono n vis _ (fun v hv => (Vis_set vis u v).2 (Or.inr hv))

theorem dfs_comp_succ (g : grafo) (fuel u : Nat) (vis : List Bool) :
    dfs_comp g (fuel + 1) u vis =
      (g.adj.getD u []).foldlM
        (fun vis p => if vis.getD p.v false then some vis else dfs_comp g fuel p.v vis)
        (vis.set u true) := rfl

theorem Joined_step (g : grafo) (u : Nat) (p : adj_node) (v : Nat)
    (hp : p ∈ g.adj.getD u []) (h : Joined g p.v v) : Joined g u v :=
  Relation.ReflTransGen.head ⟨p, hp, rfl⟩ h

theorem dfs_comp_spec (g : grafo) (hwf : WF g) (fuel : Nat) :
    ∀ (u : Nat) (vis : List Bool), vis.length = g.n_vertices → u < g.n_vertices →
      ¬ Vis vis u → (unvisited g.n_vertices vis).card ≤ fuel →
      ∃ vis2, dfs_comp g fuel u vis = some vis2 ∧ DfsPost g u vis vis2 ∧ Vis vis2 u := by
  induction fuel with
  | zero =>
    intro u vis hlen hu hnv hcard
    exfalso
    have hmem : u ∈ unvisited g.n_vertices vis := by
      simp only [unvisited, Finset.mem_filter, Finset.mem_range]
      refine ⟨hu, ?_⟩
      unfold Vis at hnv
      simpa using hnv
    have := Finset.card_pos.2 ⟨u, hmem⟩
    omega
  | succ fuel ih =>
    intro u vis hlen hu hnv hcard
    rw [dfs_comp_succ]
    have hcard0 : (unvisited g.n_vertices (vis.set u true)).card ≤ fuel := by
      have := unvisited_set_card g.n_vertices vis u hu hlen hnv
      omega
    have loop : ∀ (ps : List adj_node) (vis1 : List Bool),
        (∀ p ∈ ps, p ∈ g.adj.getD u []) → vis1.length = g.n_vertices →
        (∀ v, Vis (vis.set u true) v → Vis vis1 v) →
        ∃ vis2, ps.foldlM
            (fun vis p => if vis.getD p.v false then some vis else dfs_comp g fuel p.v vis)
            vis1 = some vis2 ∧
          DfsPost g u vis1 vis2 ∧ ∀ p ∈ ps, Vis vis2 p.v := by
      intro ps
      induction ps with
      | nil =>
        intro vis1 _ _ _
        refine ⟨vis1, rfl, ⟨rfl, fun v hv => hv, ?_, ?_⟩, ?_⟩
        · intro v hv hnv; exact absurd hv hnv
        · intro v hv hnv; exact absurd hv hnv
        · intro p hp; cases hp
      | cons p ps ihps =>
        intro vis1 hsub hlen1 hmono1
        rw [List.foldlM_cons]
        have hsub2 : ∀ q ∈ ps, q ∈ g.adj.getD u [] :=
          fun q hq => hsub q (List.mem_cons_of_mem _ hq)
        have hpu : p ∈ g.adj.getD u [] := hsub p (List.mem_cons_self _ _)
        by_cases hv1 : vis1.getD p.v false = true
        · rw [if_pos hv1]
          obtain ⟨vis2, h2, hpost, hall⟩ := ihps vis1 hsub2 hlen1 hmono1
          refine ⟨vis2, h2, hpost, ?_⟩
          intro q hq
          rcases List.mem_cons.1 hq with rfl | hq
          · exact hpost.mono _ hv1
          · exact hall q hq
        · rw [if_neg hv1]
          have hc1 : (unvisited g.n_vertices vis1).card ≤ fuel :=
            le_trans (Finset.card_le_card (unvisited_mono _ _ _ hmono1)) hcard0
          obtain ⟨visa, ha, hposta, hroota⟩ :=
            ih p.v vis1 hlen1 (hwf.in_range u p hpu) hv1 hc1
          have hlena : visa.length = g.n_vertices := by rw [hposta.len, hlen1]
          obtain ⟨vis2, h2, hpost, hall⟩ :=
            ihps visa hsub2 hlena (fun v hv => hposta.mono v (hmono1 v hv))
          refine ⟨vis2, by rw [ha]; exact h2, ⟨?_, ?_, ?_, ?_⟩, ?_⟩
          · rw [hpost.len, hposta.len]
          · exact fun v hv => hpost.mono v (hposta.mono v hv)
          · intro v hv hnv1
            by_cases hva : Vis visa v
            · exact Joined_step g u p v hpu (hposta.reach v hva hnv1)
            · exact hpost.reach v hv hva
          · intro v hv hnv1 q hq
            by_cases hva : Vis visa v
            · exact hpost.mono _ (hposta.closed v hva hnv1 q hq)
            · exact hpost.closed v hv hva q hq
          · intro q hq
            rcases List.mem_cons.1 hq with rfl | hq
            · exact hpost.mono _ hroota
            · exact hall q hq
    have hlen0 : (vis.set u true).length = g.n_vertices := by simp [hlen]
    obtain ⟨vis2, h2, hpost, hall⟩ :=
      loop (g.adj.getD u []) (vis.set u true) (fun p hp => hp) hlen0 (fun v hv => hv)
    have hu0 : Vis (vis.set u true) u := (Vis_set vis u u).2 (Or.inl ⟨rfl, hlen ▸ hu⟩)
    refine ⟨vis2, h2, ⟨?_, ?_, ?_, ?_⟩, hpost.mono u hu0⟩
    · rw [hpost.len]; simp
    · exact fun v hv => hpost.mono v ((Vis_set vis u v).2 (Or.inr hv))
    · intro v hv hnv2
      by_cases hv0 : Vis (vis.set u true) v
      · rcases (Vis_set vis u v).1 hv0 with ⟨rfl, _⟩ | hvv
        · exact Relation.ReflTransGen.refl
        · exact absurd hvv hnv2
      · exact hpost.reach v hv hv0
    · intro v hv hnv2 q hq
      by_cases hv0 : Vis (vis.set u true) v
      · rcases (Vis_set vis u v).1 hv0 with ⟨rfl, _⟩ | hvv
        · exact hall q hq
        · exact absurd hvv hnv2
      · exact hpost.closed v hv hv0 q hq


theorem Closed_joined (g : grafo) (vis : List Bool) (hc : Closed g vis) (u v : Nat)
    (hu : Vis vis u) (h : Joined g u v) : Vis vis v := by
  induction h with
  | refl => exact hu
  | tail _ hbc ih =>
    obtain ⟨p, hp, rfl⟩ := hbc
    exact hc _ ih p hp

theorem Vis_replicate_false (n v : Nat) : ¬ Vis (List.replicate n false) v := by
  unfold Vis
  rw [List.getD_eq_getElem?_getD, List.getElem?_replicate]
  split <;> simp

theorem CompInv_init (g : grafo) : CompInv g (List.replicate g.n_vertices false) [] where
  len := by simp
  closed := fun v hv => absurd hv (Vis_replicate_false _ _)
  reps_vis := fun r hr => by cases hr
  covered := fun v hv => absurd hv (Vis_replicate_false _ _)
  apart := List.Pairwise.nil

theorem CompInv_step (g : grafo) (vis vis2 : List Bool) (reps : List Nat) (i : Nat)
    (hinv : CompInv g vis reps) (hni : ¬ Vis vis i) (hpost : DfsPost g i vis vis2)
    (hroot : Vis vis2 i) : CompInv g vis2 (reps ++ [i]) where
  len := by rw [hpost.len, hinv.len]
  closed := by
    intro v hv p hp
    by_cases hv0 : Vis vis v
    · exact hpost.mono _ (hinv.closed v hv0 p hp)
    · exact hpost.closed v hv hv0 p hp
  reps_vis := by
    intro r hr
    rcases List.mem_append.1 hr with hr | hr
    · exact hpost.mono _ (hinv.reps_vis r hr)
    · rw [List.mem_singleton.1 hr]; exact hroot
  covered := by
    intro v hv
    by_cases hv0 : Vis vis v
    · obtain ⟨r, hr, hj⟩ := hinv.covered v hv0
      exact ⟨r, List.mem_append_left _ hr, hj⟩
    · exact ⟨i, List.mem_append_right _ (List.mem_singleton_self i), hpost.reach v hv hv0⟩
  apart := by
    rw [List.pairwise_append]
    refine ⟨hinv.apart, List.pairwise_singleton _ _, ?_⟩
    intro a ha b hb hj
    rw [List.mem_singleton.1 hb] at hj
    exact hni (Closed_joined g vis hinv.closed a i (hinv.reps_vis a ha) hj)

theorem n_componentes_loop_spec (g : grafo) (hwf : WF g) :
    ∀ (is : List Nat) (vis : List Bool) (reps : List Nat), (∀ i ∈ is, i < g.n_vertices) →
      CompInv g vis reps →
      ∃ vis2 reps2, n_componentes_loop g is (vis, reps.length) = some (vis2, reps2.length) ∧
        CompInv g vis2 reps2 ∧ (∀ v, Vis vis v → Vis vis2 v) ∧ ∀ i ∈ is, Vis vis2 i := by
  intro is
  induction is with
  | nil =>
    intro vis reps _ hinv
    exact ⟨vis, reps, rfl, hinv, fun v hv => hv, fun i hi => by cases hi⟩
  | cons i is ih =>
    intro vis reps hlt hinv
    have hlt2 : ∀ j ∈ is, j < g.n_vertices := fun j hj => hlt j (List.mem_cons_of_mem _ hj)
    unfold n_componentes_loop
    rw [List.foldlM_cons]
    by_cases hvi : vis.getD i false = true
    · obtain ⟨vis2, reps2, h2, hinv2, hmono, hall⟩ := ih vis reps hlt2 hinv
      refine ⟨vis2, reps2, ?_, hinv2, hmono, ?_⟩
      · simp only [hvi, if_true]
        exact h2
      · intro j hj
        rcases List.mem_cons.1 hj with rfl | hj
        · exact hmono _ hvi
        · exact hall j hj
    · have hcard : (unvisited g.n_vertices vis).card ≤ g.n_vertices := by
        have := Finset.card_filter_le (Finset.range g.n_vertices)
          (fun v => vis.getD v false = false)
        simpa [unvisited] using this
      obtain ⟨visa, ha, hposta, hroota⟩ :=
        dfs_comp_spec g hwf g.n_vertices i vis hinv.len (hlt i (List.mem_cons_self _ _)) hvi hcard
      have hinva := CompInv_step g vis visa reps i hinv hvi hposta hroota
      obtain ⟨vis2, reps2, h2, hinv2, hmono, hall⟩ := ih visa (reps ++ [i]) hlt2 hinva
      refine ⟨vis2, reps2, ?_, hinv2, fun v hv => hmono v (hposta.mono v hv), ?_⟩
      · simp only [hvi, Bool.false_eq_true, if_false, ha, Option.map_some']
        rw [List.length_append, List.length_singleton] at h2
        exact h2
      · intro j hj
        rcases List.mem_cons.1 hj with rfl | hj
        · exact hmono _ hroota
        · exact hall j hj

theorem Adj_symm (g : grafo) (hs : SymAdj g) (u v : Nat) (h : Adj g u v) : Adj g v u := by
  obtain ⟨p, hp, rfl⟩ := h
  exact ⟨⟨u, p.weight⟩, hs u p.v p.weight hp, rfl⟩

theorem Joined_symm (g : grafo) (hs : SymAdj g) (u v : Nat) (h : Joined g u v) :
    Joined g v u := by
  induction h with
  | refl => exact Relation.ReflTransGen.refl
  | tail _ hbc ih => exact Relation.ReflTransGen.head (Adj_symm g hs _ _ hbc) ih

theorem Joined_trans (g : grafo) (u v w : Nat) (h1 : Joined g u v) (h2 : Joined g v w) :
    Joined g u w := Relation.ReflTransGen.trans h1 h2

theorem EqvGen_iff_Joined (g : grafo) (hs : SymAdj g) (u v : Nat) :
    Relation.EqvGen (Adj g) u v ↔ Joined g u v := by
  constructor
  · intro h
    induction h with
    | rel _ _ h => exact Relation.ReflTransGen.single h
    | refl _ => exact Relation.ReflTransGen.refl
    | symm _ _ _ ih => exact Joined_symm g hs _ _ ih
    | trans _ _ _ _ _ ih1 ih2 => exact Joined_trans g _ _ _ ih1 ih2
  · intro h
    induction h with
    | refl => exact Relation.EqvGen.refl _
    | tail _ hbc ih => exact Relation.EqvGen.trans _ _ _ ih (Relation.EqvGen.rel _ _ hbc)

theorem card_components (g : grafo) (hs : SymAdj g) (reps : List Nat)
    (hlt : ∀ r ∈ reps, r < g.n_vertices)
    (hapart : reps.Pairwise (fun a b => ¬ Joined g a b))
    (hcov : ∀ v, v < g.n_vertices → ∃ r ∈ reps, Joined g r v) :
    Nat.card (Quotient (vertex_setoid g)) = reps.length := by
  let f : Fin reps.length → Quotient (vertex_setoid g) :=
    fun i => Quotient.mk (vertex_setoid g) ⟨reps.get i, hlt _ (List.get_mem reps i.1 i.2)⟩
  have hinj : Function.Injective f := by
    intro a b hab
    have hr : Relation.EqvGen (Adj g) (reps.get a) (reps.get b) := Quotient.exact hab
    have hj := (EqvGen_iff_Joined g hs _ _).1 hr
    by_contra hne
    rcases Nat.lt_or_gt_of_ne (fun h => hne (Fin.ext h)) with hlt2 | hlt2
    · exact List.pairwise_iff_get.1 hapart a b hlt2 hj
    · exact List.pairwise_iff_get.1 hapart b a hlt2 (Joined_symm g hs _ _ hj)
  have hsurj : Function.Surjective f := by
    intro q
    induction q using Quotient.inductionOn with
    | _ v =>
      obtain ⟨r, hr, hj⟩ := hcov v.1 v.2
      obtain ⟨i, hi⟩ := List.get_of_mem hr
      refine ⟨i, Quotient.sound ?_⟩
      show Relation.EqvGen (Adj g) (reps.get i) v.1
      rw [hi]
      exact (EqvGen_iff_Joined g hs _ _).2 hj
  have := Nat.card_eq_of_bijective f ⟨hinj, hsurj⟩
  rw [← this]
  simp


/-- C1: on a well-formed graph `n_componentes` returns the number of
connected components, that is the number of classes of the vertices under
the relation joined by a path of adjacency entries. -/
theorem n_componentes_correct (g : grafo) (hwf : WF g) :
    n_componentes g = some (Nat.card (Quotient (vertex_setoid g))) ∧
    ∀ a b : Fin g.n_vertices, (vertex_setoid g).r a b ↔ Joined g a.val b.val := by
  refine ⟨?_, fun a b => EqvGen_iff_Joined g hwf.sym _ _⟩
  obtain ⟨vis2, reps2, h2, hinv2, _, hall⟩ :=
    n_componentes_loop_spec g hwf (List.range g.n_vertices) _ []
      (fun i hi => List.mem_range.1 hi) (CompInv_init g)
  have hcard := card_components g hwf.sym reps2
    (fun r hr => hinv2.len ▸ Vis_lt vis2 r (hinv2.reps_vis r hr)) hinv2.apart
    (fun v hv => hinv2.covered v (hall v (List.mem_range.2 hv)))
  unfold n_componentes
  rw [List.length_nil] at h2
  rw [h2, hcard]
  rfl

/-- C1 on the sample input: two components (the triangle and the isolated
vertex). -/
theorem n_componentes_correct_witness :
    ∃ g, le_grafo exemplo_g1 = some g ∧
      (n_componentes g =
          some (Nat.card (Quotient (vertex_setoid g))) ∧
        n_componentes g = some 2) :=
  ⟨grafo_de exemplo_g1,
    le_grafo_grafo_de exemplo_g1 (by decide),
    (⟨(n_componentes_correct (grafo_de exemplo_g1) (WF_grafo_de exemplo_g1)).1, by decide⟩)⟩

theorem Good_ext (g : grafo) (color color2 : List Int) (v : Nat) (he : Ext color color2)
    (h : Good g color v) : Good g color2 v := by
  obtain ⟨h1, h2⟩ := h
  have hv : color2.getD v 0 = color.getD v 0 := he v (by omega)
  refine ⟨by rw [hv]; exact h1, ?_⟩
  intro p hp
  have := h2 p hp
  have hp2 : color2.getD p.v 0 = color.getD p.v 0 := he p.v (by omega)
  rw [hp2, hv]
  exact this

theorem Ext_refl (color : List Int) : Ext color color := fun _ _ => rfl

theorem Ext_trans (a b c : List Int) (h1 : Ext a b) (h2 : Ext b c) : Ext a c := by
  intro v hv
  have e1 := h1 v hv
  have e2 := h2 v (by rw [e1]; exact hv)
  rw [e2, e1]

theorem Ext_set (color : List Int) (v : Nat) (x : Int) (h : color.getD v 0 = -1) :
    Ext color (color.set v x) := by
  intro w hw
  rw [getD_set_list]
  split
  · rename_i hc
    rw [hc.1] at h
    exact absurd h hw
  · rfl

theorem uncolored_mono (n : Nat) (color color2 : List Int) (h : Ext color color2) :
    uncolored n color2 ⊆ uncolored n color := by
  intro v hv
  simp only [uncolored, Finset.mem_filter, Finset.mem_range] at hv ⊢
  refine ⟨hv.1, ?_⟩
  by_contra hne
  have := h v hne
  rw [hv.2] at this
  exact hne this.symm

theorem uncolored_set_card (n : Nat) (color : List Int) (v : Nat) (x : Int) (hv : v < n)
    (hlen : color.length = n) (hc : color.getD v 0 = -1) (hx : x ≠ -1) :
    (uncolored n (color.set v x)).card < (uncolored n color).card := by
  apply Finset.card_lt_card
  rw [Finset.ssubset_iff_of_subset (uncolored_mono n _ _ (Ext_set color v x hc))]
  refine ⟨v, ?_, ?_⟩
  · simp only [uncolored, Finset.mem_filter, Finset.mem_range]
    exact ⟨hv, hc⟩
  · simp only [uncolored, Finset.mem_filter, Finset.mem_range, not_and]
    intro _
    rw [getD_set_list, if_pos ⟨rfl, hlen ▸ hv⟩]
    exact hx

theorem dfs_bipartite_succ (g : grafo) (fuel u : Nat) (color : List Int) :
    dfs_bipartite g (fuel + 1) u color =
      bip_loop (dfs_bipartite g fuel) u (g.adj.getD u []) color := rfl


theorem bool_flip (a b c : Bool) (x y : Int) (hab : a ≠ b) (hx : x = 0 ∨ x = 1)
    (hy : y = 0 ∨ y = 1) (h : a = c ↔ x = y) : (b = c ↔ 1 - x = y) := by
  cases a <;> cases b <;> cases c <;> simp at hab h ⊢ <;> omega

theorem Forced_set (g : grafo) (col0 color : List Int) (u : Nat) (p : adj_node)
    (hf : Forced g col0 color) (hvals : Vals color) (hu0 : col0.getD u 0 = -1)
    (hu : color.getD u 0 ≠ -1) (hp : p ∈ g.adj.getD u []) :
    Forced g col0 (color.set p.v (1 - color.getD u 0)) := by
  have hux : color.getD u 0 = 0 ∨ color.getD u 0 = 1 := by
    rcases hvals u with h | h | h
    · exact absurd h hu
    · exact Or.inl h
    · exact Or.inr h
  have hval2 : ∀ w, color.getD w 0 ≠ -1 → (color.getD w 0 = 0 ∨ color.getD w 0 = 1) := by
    intro w hw
    rcases hvals w with h | h | h
    · exact absurd h hw
    · exact Or.inl h
    · exact Or.inr h
  intro c hc v w hv0 hw0 hv hw
  have hcup : c u ≠ c p.v := hc u p hp
  rw [getD_set_list] at hv hw ⊢
  rw [getD_set_list]
  by_cases e1 : p.v = v ∧ p.v < color.length
  · by_cases e2 : p.v = w ∧ p.v < color.length
    · rw [if_pos e1, if_pos e2, ← e1.1, ← e2.1]
      simp
    · rw [if_pos e1, if_neg e2, ← e1.1]
      rw [if_neg e2] at hw
      exact bool_flip _ _ _ _ _ hcup hux (hval2 w hw) (hf c hc u w hu0 hw0 hu hw)
  · by_cases e2 : p.v = w ∧ p.v < color.length
    · rw [if_neg e1, if_pos e2, ← e2.1]
      rw [if_neg e1] at hv
      have := bool_flip _ _ _ _ _ hcup hux (hval2 v hv) (hf c hc u v hu0 hv0 hu hv)
      constructor
      · intro h; exact (this.1 h.symm).symm
      · intro h; exact (this.2 h.symm).symm
    · rw [if_neg e1, if_neg e2]
      rw [if_neg e1] at hv
      rw [if_neg e2] at hw
      exact hf c hc v w hv0 hw0 hv hw

theorem Vals_set (color : List Int) (v : Nat) (x : Int) (h : Vals color)
    (hx : x = -1 ∨ x = 0 ∨ x = 1) : Vals (color.set v x) := by
  intro w
  rw [getD_set_list]
  split
  · exact hx
  · exact h w

theorem BipPre_set (g : grafo) (col0 color : List Int) (u : Nat) (p : adj_node)
    (hpre : BipPre g col0 color) (hu0 : col0.getD u 0 = -1)
    (hu : color.getD u 0 ≠ -1) (hp : p ∈ g.adj.getD u []) (hpc : color.getD p.v 0 = -1) :
    BipPre g col0 (color.set p.v (1 - color.getD u 0)) where
  len := by simp [hpre.len]
  vals := by
    apply Vals_set _ _ _ hpre.vals
    rcases hpre.vals u with h | h | h
    · exact absurd h hu
    · rw [h]; simp
    · rw [h]; simp
  ext0 := Ext_trans _ _ _ hpre.ext0 (Ext_set color p.v _ hpc)
  forced := Forced_set g col0 color u p hpre.forced hpre.vals hu0 hu hp


theorem dfs_bipartite_spec (g : grafo) (hwf : WF g) (col0 : List Int)
    (hold : ∀ v, col0.getD v 0 ≠ -1 → ∀ p ∈ g.adj.getD v [], col0.getD p.v 0 ≠ -1)
    (fuel : Nat) :
    ∀ (u : Nat) (color : List Int), BipPre g col0 color → u < g.n_vertices →
      col0.getD u 0 = -1 → color.getD u 0 ≠ -1 →
      (uncolored g.n_vertices color).card < fuel →
      ∃ b color2, dfs_bipartite g fuel u color = some (b, color2) ∧
        BipPost g col0 color b color2 ∧
        (b = true → ∀ p ∈ g.adj.getD u [], color2.getD p.v 0 = 1 - color2.getD u 0) := by
  induction fuel with
  | zero =>
    intro u color _ _ _ _ hcard
    exact absurd hcard (Nat.not_lt_zero _)
  | succ fuel ih =>
    intro u color hpre hu hu0 huc hcard
    rw [dfs_bipartite_succ]
    have loop : ∀ (ps : List adj_node) (color1 : List Int),
        (∀ p ∈ ps, p ∈ g.adj.getD u []) → BipPre g col0 color1 → color1.getD u 0 ≠ -1 →
        (uncolored g.n_vertices color1).card ≤ fuel →
        ∃ b color2, bip_loop (dfs_bipartite g fuel) u ps color1 = some (b, color2) ∧
          BipPost g col0 color1 b color2 ∧
          (b = true → ∀ p ∈ ps, color2.getD p.v 0 = 1 - color2.getD u 0) := by
      intro ps
      induction ps with
      | nil =>
        intro color1 _ hpre1 _ _
        refine ⟨true, color1, rfl, ⟨hpre1, Ext_refl _, ?_, ?_⟩, ?_⟩
        · intro _ v h1 h2; exact absurd h1 h2
        · intro h; cases h
        · intro _ p hp; cases hp
      | cons p ps ihps =>
        intro color1 hsub hpre1 huc1 hcard1
        have hsub2 : ∀ q ∈ ps, q ∈ g.adj.getD u [] :=
          fun q hq => hsub q (List.mem_cons_of_mem _ hq)
        have hpu : p ∈ g.adj.getD u [] := hsub p (List.mem_cons_self _ _)
        have hpv : p.v < g.n_vertices := hwf.in_range u p hpu
        by_cases hc1 : color1.getD p.v 0 = -1
        · -- uncoloured neighbour: colour it and recurse
          have hpre2 := BipPre_set g col0 color1 u p hpre1 hu0 huc1 hpu hc1
          have hne : (1 - color1.getD u 0) ≠ -1 := by
            rcases hpre1.vals u with h | h | h <;> omega
          have hcard2 : (uncolored g.n_vertices (color1.set p.v (1 - color1.getD u 0))).card
              < fuel := by
            have := uncolored_set_card g.n_vertices color1 p.v _ hpv hpre1.len hc1 hne
            omega
          have hpv0 : col0.getD p.v 0 = -1 := by
            by_contra hx
            have := hpre1.ext0 p.v hx
            rw [hc1] at this
            exact hx this.symm
          have hpvc : (color1.set p.v (1 - color1.getD u 0)).getD p.v 0 ≠ -1 := by
            rw [getD_set_list, if_pos ⟨rfl, by rw [hpre1.len]; exact hpv⟩]
            exact hne
          obtain ⟨b, color3, h3, hpost3, hgood3⟩ :=
            ih p.v _ hpre2 hpv hpv0 hpvc hcard2
          have hext13 : Ext color1 color3 :=
            Ext_trans _ _ _ (Ext_set color1 p.v _ hc1) hpost3.ext
          cases b with
          | false =>
            refine ⟨false, color3, ?_, ⟨hpost3.pre, hext13, ?_, hpost3.bad⟩, ?_⟩
            · rw [bip_loop, if_pos hc1, h3]
            · intro h; cases h
            · intro h; cases h
          | true =>
            have huc3 : color3.getD u 0 ≠ -1 := by
              rw [hext13 u huc1]; exact huc1
            have hcard3 : (uncolored g.n_vertices color3).card ≤ fuel :=
              le_trans (Finset.card_le_card (uncolored_mono _ _ _ hext13)) hcard1
            obtain ⟨b, color4, h4, hpost4, hall4⟩ := ihps color3 hsub2 hpost3.pre huc3 hcard3
            refine ⟨b, color4, ?_, ⟨hpost4.pre, Ext_trans _ _ _ hext13 hpost4.ext, ?_,
              hpost4.bad⟩, ?_⟩
            · rw [bip_loop, if_pos hc1, h3]
              exact h4
            · intro hb v hv1 hv4
              by_cases hv3 : color3.getD v 0 = -1
              · exact hpost4.ok hb v hv3 hv4
              · apply Good_ext g color3 color4 v hpost4.ext
                by_cases hvp : v = p.v
                · subst hvp
                  refine ⟨?_, hgood3 rfl⟩
                  rcases hpost3.pre.vals p.v with h | h | h
                  · exact absurd h hv3
                  · exact Or.inl h
                  · exact Or.inr h
                · apply hpost3.ok rfl v _ hv3
                  rw [getD_set_list, if_neg (fun h => hvp h.1.symm)]
                  exact hv1
            · intro hb q hq
              rcases List.mem_cons.1 hq with rfl | hq
              · have e3 : color3.getD q.v 0 = 1 - color1.getD u 0 := by
                  rw [hpost3.ext q.v hpvc, getD_set_list,
                    if_pos ⟨rfl, by rw [hpre1.len]; exact hpv⟩]
                have e3n : color3.getD q.v 0 ≠ -1 := by rw [e3]; exact hne
                rw [hpost4.ext q.v e3n, hpost4.ext u huc3, e3, hext13 u huc1]
              · exact hall4 hb q hq
        · by_cases hc2 : color1.getD p.v 0 = color1.getD u 0
          · -- same colour on both ends: no proper colouring exists
            refine ⟨false, color1, ?_, ⟨hpre1, Ext_refl _, ?_, ?_⟩, ?_⟩
            · rw [bip_loop, if_neg hc1, if_pos hc2]
            · intro h; cases h
            · intro _ ⟨c, hc⟩
              have hpv0 : col0.getD p.v 0 = -1 := by
                by_contra hx
                have hmir : (⟨u, p.weight⟩ : adj_node) ∈ g.adj.getD p.v [] :=
                  hwf.sym u p.v p.weight hpu
                exact hold p.v hx _ hmir hu0
              have := (hpre1.forced c hc u p.v hu0 hpv0 huc1 hc1).2 hc2.symm
              exact hc u p hpu this
            · intro h; cases h
          · -- different colours: continue
            obtain ⟨b, color4, h4, hpost4, hall4⟩ := ihps color1 hsub2 hpre1 huc1 hcard1
            refine ⟨b, color4, ?_, hpost4, ?_⟩
            · rw [bip_loop, if_neg hc1, if_neg hc2]
              exact h4
            · intro hb q hq
              rcases List.mem_cons.1 hq with rfl | hq
              · rw [hpost4.ext q.v hc1, hpost4.ext u huc1]
                rcases hpre1.vals u with h | h | h <;>
                  rcases hpre1.vals q.v with h2 | h2 | h2 <;> omega
              · exact hall4 hb q hq
    have hcard1 : (uncolored g.n_vertices color).card ≤ fuel := by omega
    exact loop (g.adj.getD u []) color (fun p hp => hp) hpre huc hcard1


theorem adj_getD_lt (g : grafo) (hwf : WF g) (u : Nat) (p : adj_node)
    (hp : p ∈ g.adj.getD u []) : u < g.n_vertices := by
  by_contra h
  rw [List.getD_eq_default _ _ (by rw [hwf.len_adj]; exact Nat.le_of_not_lt h)] at hp
  cases hp

theorem bipartido_loop_spec (g : grafo) (hwf : WF g) :
    ∀ (is : List Nat) (color : List Int), (∀ i ∈ is, i < g.n_vertices) → BipInv g color →
      ∃ b, bipartido_loop g is color = some b ∧ (b = false → ¬ TwoColorable g) ∧
        (b = true → ∃ color2, BipInv g color2 ∧ Ext color color2 ∧
          ∀ i ∈ is, color2.getD i 0 ≠ -1) := by
  intro is
  induction is with
  | nil =>
    intro color _ hinv
    exact ⟨true, rfl, fun h => (by cases h),
      fun _ => ⟨color, hinv, Ext_refl _, fun i hi => (by cases hi)⟩⟩
  | cons i is ih =>
    intro color hlt hinv
    have hlt2 : ∀ j ∈ is, j < g.n_vertices := fun j hj => hlt j (List.mem_cons_of_mem _ hj)
    have hi : i < g.n_vertices := hlt i (List.mem_cons_self _ _)
    by_cases hci : color.getD i 0 = -1
    · have hold : ∀ v, color.getD v 0 ≠ -1 → ∀ p ∈ g.adj.getD v [], color.getD p.v 0 ≠ -1 := by
        intro v hv p hp
        obtain ⟨h1, h2⟩ := hinv.good v hv
        rw [h2 p hp]
        omega
      have hset : ∀ v, (color.set i 0).getD v 0 ≠ -1 → color.getD v 0 = -1 → v = i := by
        intro v hv hv0
        rw [getD_set_list] at hv
        by_contra hne
        rw [if_neg (fun h => hne h.1.symm)] at hv
        exact hv hv0
      have hpre : BipPre g color (color.set i 0) :=
        { len := by simp [hinv.len]
          vals := Vals_set _ _ _ hinv.vals (Or.inr (Or.inl rfl))
          ext0 := Ext_set color i 0 hci
          forced := by
            intro c _ v w hv0 hw0 hv hw
            rw [hset v hv hv0, hset w hw hw0]
            simp }
      have hic : (color.set i 0).getD i 0 ≠ -1 := by
        rw [getD_set_list, if_pos ⟨rfl, by rw [hinv.len]; exact hi⟩]
        decide
      have hcard : (uncolored g.n_vertices (color.set i 0)).card < g.n_vertices := by
        have h1 := uncolored_set_card g.n_vertices color i 0 hi hinv.len hci (by decide)
        have h2 : (uncolored g.n_vertices color).card ≤ g.n_vertices := by
          have := Finset.card_filter_le (Finset.range g.n_vertices)
            (fun v => color.getD v 0 = -1)
          simpa [uncolored] using this
        omega
      obtain ⟨b, color2, h2, hpost, hgood⟩ :=
        dfs_bipartite_spec g hwf color hold g.n_vertices i _ hpre hi hci hic hcard
      cases b with
      | false =>
        refine ⟨false, ?_, hpost.bad, fun h => (by cases h)⟩
        rw [bipartido_loop, if_pos hci, h2]
      | true =>
        have hext : Ext color color2 := hpost.pre.ext0
        have hinv2 : BipInv g color2 :=
          { len := hpost.pre.len
            vals := hpost.pre.vals
            good := by
              intro v hv
              by_cases hv0 : color.getD v 0 = -1
              · by_cases hvi : v = i
                · subst hvi
                  refine ⟨?_, hgood rfl⟩
                  rcases hpost.pre.vals v with h | h | h
                  · exact absurd h hv
                  · exact Or.inl h
                  · exact Or.inr h
                · apply hpost.ok rfl v _ hv
                  rw [getD_set_list, if_neg (fun h => hvi h.1.symm)]
                  exact hv0
              · exact Good_ext g color color2 v hext (hinv.good v hv0) }
        obtain ⟨b, h3, hbad, hok⟩ := ih color2 hlt2 hinv2
        refine ⟨b, ?_, hbad, ?_⟩
        · rw [bipartido_loop, if_pos hci, h2]
          exact h3
        · intro hb
          obtain ⟨color3, hinv3, hext3, hall3⟩ := hok hb
          refine ⟨color3, hinv3, Ext_trans _ _ _ hext hext3, ?_⟩
          intro j hj
          rcases List.mem_cons.1 hj with rfl | hj
          · have e2 : color2.getD j 0 ≠ -1 := by
              rw [hpost.ext j hic]; exact hic
            rw [hext3 j e2]; exact e2
          · exact hall3 j hj
    · obtain ⟨b, h3, hbad, hok⟩ := ih color hlt2 hinv
      refine ⟨b, ?_, hbad, ?_⟩
      · rw [bipartido_loop, if_neg hci]
        exact h3
      · intro hb
        obtain ⟨color3, hinv3, hext3, hall3⟩ := hok hb
        refine ⟨color3, hinv3, hext3, ?_⟩
        intro j hj
        rcases List.mem_cons.1 hj with rfl | hj
        · rw [hext3 j hci]; exact hci
        · exact hall3 j hj

theorem BipInv_init (g : grafo) (hwf : WF g) : BipInv g (List.replicate g.n_vertices (-1)) := by
  have key : ∀ v, (List.replicate g.n_vertices (-1 : Int)).getD v 0 = -1 ∨
      (List.replicate g.n_vertices (-1 : Int)).getD v 0 = 0 := by
    intro v
    rw [List.getD_eq_getElem?_getD, List.getElem?_replicate]
    split <;> simp
  refine ⟨by simp, ?_, ?_⟩
  · intro v
    rcases key v with h | h
    · exact Or.inl h
    · exact Or.inr (Or.inl h)
  · intro v hv
    rcases key v with h | h
    · exact absurd h hv
    · have hlt : ¬ v < g.n_vertices := by
        intro hlt
        rw [List.getD_eq_getElem?_getD, List.getElem?_replicate, if_pos hlt] at h
        simp at h
      exact ⟨Or.inl h, fun p hp => absurd (adj_getD_lt g hwf v p hp) hlt⟩


/-- C2: on a well-formed graph `bipartido` returns 1 exactly when the graph has
a proper two-colouring (every adjacency entry joins vertices of different
colours) and 0 otherwise; in particular a self-loop forces the result 0. -/
theorem bipartido_correct (g : grafo) (hwf : WF g) :
    (TwoColorable g → bipartido g = some true) ∧
    (¬ TwoColorable g → bipartido g = some false) ∧
    (bipartido g = some true → TwoColorable g) ∧
    (∀ u w, (⟨u, w⟩ : adj_node) ∈ g.adj.getD u [] → bipartido g = some false) := by
  obtain ⟨b, hb, hbad, hok⟩ :=
    bipartido_loop_spec g hwf (List.range g.n_vertices) _
      (fun i hi => List.mem_range.1 hi) (BipInv_init g hwf)
  have hb2 : bipartido g = some b := hb
  have htrue : b = true → TwoColorable g := by
    intro h
    obtain ⟨color2, hinv, _, hall⟩ := hok h
    refine ⟨fun v => decide (color2.getD v 0 = 1), ?_⟩
    intro u p hp
    have hu : u < g.n_vertices := adj_getD_lt g hwf u p hp
    obtain ⟨h1, h2⟩ := hinv.good u (hall u (List.mem_range.2 hu))
    have h3 := h2 p hp
    show decide (color2.getD u 0 = 1) ≠ decide (color2.getD p.v 0 = 1)
    rcases h1 with h1 | h1
    · rw [h3, h1]
      decide
    · rw [h3, h1]
      decide
  have hfalse : ¬ TwoColorable g → bipartido g = some false := by
    intro hn
    cases b with
    | false => exact hb2
    | true => exact absurd (htrue rfl) hn
  refine ⟨?_, hfalse, ?_, ?_⟩
  · intro h2c
    cases b with
    | true => exact hb2
    | false => exact absurd h2c (hbad rfl)
  · intro h
    rw [hb2] at h
    exact htrue (Option.some.inj h)
  · intro u w hmem
    apply hfalse
    rintro ⟨c, hc⟩
    exact hc u _ hmem rfl

/-- C2 on the sample input: the triangle A-B-C has no proper two-colouring
and `bipartido` returns 0. -/
theorem bipartido_correct_witness :
    ∃ g, le_grafo exemplo_g1 = some g ∧
      (¬ TwoColorable g ∧ bipartido g = some false) :=
  ⟨grafo_de exemplo_g1,
    le_grafo_grafo_de exemplo_g1 (by decide),
    (by
      have h := bipartido_correct (grafo_de exemplo_g1) (WF_grafo_de exemplo_g1)
      have hf : bipartido (grafo_de exemplo_g1) = some false := by decide
      refine ⟨fun h2 => ?_, hf⟩
      have := h.1 h2
      rw [hf] at this
      cases this)⟩

theorem JoinedR_mono (g : grafo) (R R2 : Nat → Nat → Prop) (h : ∀ x y, Adj g x y → R x y → R2 x y)
    (a b : Nat) (hj : JoinedR g R a b) : JoinedR g R2 a b := by
  induction hj with
  | refl => exact Relation.ReflTransGen.refl
  | tail _ hbc ih => exact Relation.ReflTransGen.tail ih ⟨hbc.1, h _ _ hbc.1 hbc.2⟩

theorem JoinedR_trans (g : grafo) (R : Nat → Nat → Prop) (a b c : Nat)
    (h1 : JoinedR g R a b) (h2 : JoinedR g R b c) : JoinedR g R a c :=
  Relation.ReflTransGen.trans h1 h2

theorem JoinedR_step (g : grafo) (R : Nat → Nat → Prop) (a b : Nat)
    (h1 : Adj g a b) (h2 : R a b) : JoinedR g R a b :=
  Relation.ReflTransGen.single ⟨h1, h2⟩

theorem JoinedR_symm (g : grafo) (hs : SymAdj g) (R : Nat → Nat → Prop)
    (hR : ∀ x y, R x y → R y x) (a b : Nat) (h : JoinedR g R a b) : JoinedR g R b a := by
  induction h with
  | refl => exact Relation.ReflTransGen.refl
  | tail _ hbc ih =>
    exact Relation.ReflTransGen.head ⟨Adj_symm g hs _ _ hbc.1, hR _ _ hbc.2⟩ ih

theorem JoinedR_joined (g : grafo) (R : Nat → Nat → Prop) (a b : Nat)
    (h : JoinedR g R a b) : Joined g a b := by
  induction h with
  | refl => exact Relation.ReflTransGen.refl
  | tail _ hbc ih => exact Relation.ReflTransGen.tail ih hbc.1

/-- A set closed under the steps allowed by `R` is not left by an `R`-path. -/
theorem JoinedR_closed (g : grafo) (R : Nat → Nat → Prop) (S : Nat → Prop)
    (hc : ∀ x y, S x → Adj g x y → R x y → S y) (a b : Nat) (ha : S a)
    (h : JoinedR g R a b) : S b := by
  induction h with
  | refl => exact ha
  | tail _ hbc ih => exact hc _ _ ih hbc.1 hbc.2

theorem JoinedIn_mono (g : grafo) (S S2 : Nat → Prop) (h : ∀ x, S x → S2 x) (a b : Nat)
    (hj : JoinedIn g S a b) : JoinedIn g S2 a b :=
  JoinedR_mono g _ _ (fun _ _ _ hxy => ⟨h _ hxy.1, h _ hxy.2⟩) a b hj

theorem JoinedIn_avoid (g : grafo) (S : Nat → Prop) (u : Nat) (hu : ¬ S u) (a b : Nat)
    (hj : JoinedIn g S a b) : JoinedAvoid g u a b :=
  JoinedR_mono g _ _
    (fun x y _ hxy => ⟨fun h => hu (h ▸ hxy.1), fun h => hu (h ▸ hxy.2)⟩) a b hj

theorem JoinedIn_minus (g : grafo) (S : Nat → Prop) (u v : Nat) (hu : ¬ S u) (a b : Nat)
    (hj : JoinedIn g S a b) : JoinedMinus g u v a b :=
  JoinedR_mono g _ _
    (fun x y _ hxy => ⟨fun h => hu (h.1 ▸ hxy.1), fun h => hu (h.2 ▸ hxy.2)⟩) a b hj

theorem JoinedMinus_swap (g : grafo) (u v a b : Nat) (h : JoinedMinus g u v a b) :
    JoinedMinus g v u a b :=
  JoinedR_mono g _ _ (fun _ _ _ hxy => ⟨hxy.2, hxy.1⟩) a b h

theorem JoinedMinus_symm (g : grafo) (hs : SymAdj g) (u v a b : Nat)
    (h : JoinedMinus g u v a b) : JoinedMinus g u v b a :=
  JoinedR_symm g hs _ (fun x y hxy => ⟨fun h => hxy.2 ⟨h.2, h.1⟩, fun h => hxy.1 ⟨h.2, h.1⟩⟩)
    a b h

theorem JoinedAvoid_symm (g : grafo) (hs : SymAdj g) (u a b : Nat)
    (h : JoinedAvoid g u a b) : JoinedAvoid g u b a :=
  JoinedR_symm g hs _ (fun _ _ hxy => ⟨hxy.2, hxy.1⟩) a b h

theorem JoinedIn_symm (g : grafo) (hs : SymAdj g) (S : Nat → Prop) (a b : Nat)
    (h : JoinedIn g S a b) : JoinedIn g S b a :=
  JoinedR_symm g hs _ (fun _ _ hxy => ⟨hxy.2, hxy.1⟩) a b h

theorem imin_le_left (a b : Int) : imin a b ≤ a := by
  unfold imin; split <;> omega

theorem imin_le_right (a b : Int) : imin a b ≤ b := by
  unfold imin; split <;> omega

theorem imin_cases (a b : Int) : (imin a b = a ∧ a ≤ b) ∨ (imin a b = b ∧ b ≤ a) := by
  unfold imin; split
  · left; constructor <;> omega
  · right; constructor <;> omega

theorem parOf_append (A : List Nat) (u : Nat) : parOf (A ++ [u]) = Int.ofNat u := by
  simp [parOf]

theorem parOf_nil : parOf [] = -1 := rfl


theorem getLast_mem_of_some (A : List Nat) (q : Nat) (h : A.getLast? = some q) : q ∈ A := by
  cases A with
  | nil => simp at h
  | cons a t =>
    rw [List.getLast?_eq_getLast (a :: t) (by simp)] at h
    rw [← Option.some.inj h]
    exact List.getLast_mem _

theorem getLast_some_of_ne_nil (A : List Nat) (h : A ≠ []) : ∃ q, A.getLast? = some q :=
  ⟨A.getLast h, List.getLast?_eq_getLast A h⟩

theorem StackConn_push (g : grafo) (hs : SymAdj g) (A : List Nat) (u : Nat)
    (hc : StackConn g A) (he : ∀ q, A.getLast? = some q → Adj g q u) :
    StackConn g (A ++ [u]) := by
  have hmono : ∀ a b, JoinedIn g (fun x => x ∈ A) a b →
      JoinedIn g (fun x => x ∈ A ++ [u]) a b :=
    fun a b h => JoinedIn_mono g _ _ (fun x hx => List.mem_append_left _ hx) a b h
  have hup : ∀ a ∈ A, JoinedIn g (fun x => x ∈ A ++ [u]) a u := by
    intro a ha
    obtain ⟨q, hq⟩ := getLast_some_of_ne_nil A (List.ne_nil_of_mem ha)
    have hqA := getLast_mem_of_some A q hq
    exact JoinedR_trans g _ a q u (hmono a q (hc a ha q hqA))
      (JoinedR_step g _ q u (he q hq)
        ⟨List.mem_append_left _ hqA, List.mem_append_right _ (List.mem_singleton_self u)⟩)
  intro a ha b hb
  rcases List.mem_append.1 ha with ha | ha
  · rcases List.mem_append.1 hb with hb | hb
    · exact hmono a b (hc a ha b hb)
    · rw [List.mem_singleton.1 hb]
      exact hup a ha
  · rw [List.mem_singleton.1 ha]
    rcases List.mem_append.1 hb with hb | hb
    · exact JoinedIn_symm g hs _ b u (hup b hb)
    · rw [List.mem_singleton.1 hb]
      exact Relation.ReflTransGen.refl

theorem NewV_enter (c0 : dfs_core) (u x : Nat) (h : NewV c0 (c0.enter u) x) : x = u := by
  obtain ⟨h1, h2⟩ := h
  rcases (Vis_set c0.visited u x).1 h1 with ⟨rfl, _⟩ | h3
  · rfl
  · exact absurd h3 h2

theorem core_enter (g : grafo) (hwf : WF g) (A : List Nat) (c0 : dfs_core) (u : Nat)
    (hpre : CorePre g A c0 u) : CoreLoop g A c0 u (c0.enter u) [] := by
  have hul : u < c0.visited.length := by rw [hpre.inv.len_vis]; exact hpre.lt
  have hvu : Vis (c0.enter u).visited u := (Vis_set c0.visited u u).2 (Or.inl ⟨rfl, hul⟩)
  have hne : ∀ x, Vis c0.visited x → ¬ (u = x ∧ u < c0.disc.length) :=
    fun x hx h => hpre.nv (h.1 ▸ hx)
  have hne2 : ∀ x, Vis c0.visited x → ¬ (u = x ∧ u < c0.low.length) :=
    fun x hx h => hpre.nv (h.1 ▸ hx)
  have hdu : (c0.enter u).disc.getD u 0 = c0.time + 1 := by
    show (c0.disc.set u (c0.time + 1)).getD u 0 = c0.time + 1
    rw [getD_set_list, if_pos ⟨rfl, by rw [hpre.inv.len_disc]; exact hpre.lt⟩]
  have hlu : (c0.enter u).low.getD u 0 = c0.time + 1 := by
    show (c0.low.set u (c0.time + 1)).getD u 0 = c0.time + 1
    rw [getD_set_list, if_pos ⟨rfl, by rw [hpre.inv.len_low]; exact hpre.lt⟩]
  refine
    { inv := ?_, stk0 := hpre.inv.stk, dsc0 := hpre.inv.dsc, sconn0 := hpre.sconn,
      sconn := StackConn_push g hwf.sym A u hpre.sconn hpre.edge, edge0 := hpre.edge,
      mono := ?_, nv0 := hpre.nv, frame_disc := ?_, frame_low := ?_,
      frame_par := fun _ _ => rfl, disc_u := hdu, time := ?_, disc_new := ?_,
      done_vis := ?_, conn := ?_, parS := ?_, low1 := ?_, low2 := ?_, low3 := ?_ }
  · refine
      { len_vis := ?_, len_disc := ?_, len_low := ?_, len_par := hpre.inv.len_par,
        fin := ?_, stk := ?_, dsc := ?_ }
    · show (c0.visited.set u true).length = _
      rw [List.length_set]; exact hpre.inv.len_vis
    · show (c0.disc.set u _).length = _
      rw [List.length_set]; exact hpre.inv.len_disc
    · show (c0.low.set u _).length = _
      rw [List.length_set]; exact hpre.inv.len_low
    · intro x hx hxA p hp
      have hxu : x ≠ u := fun h =>
        hxA (by rw [h]; exact List.mem_append_right _ (List.mem_singleton_self u))
      have hx0 : Vis c0.visited x := by
        rcases (Vis_set c0.visited u x).1 hx with ⟨h, _⟩ | h
        · exact absurd h.symm hxu
        · exact h
      exact (Vis_set c0.visited u p.v).2
        (Or.inr (hpre.inv.fin x hx0 (fun h => hxA (List.mem_append_left _ h)) p hp))
    · intro a ha
      rcases List.mem_append.1 ha with ha | ha
      · exact (Vis_set c0.visited u a).2 (Or.inr (hpre.inv.stk a ha))
      · rw [List.mem_singleton.1 ha]; exact hvu
    · intro x hx
      show (c0.disc.set u (c0.time + 1)).getD x 0 ≤ c0.time + 1
      rw [getD_set_list]
      split
      · exact le_refl _
      · rename_i hn
        rcases (Vis_set c0.visited u x).1 hx with ⟨h, _⟩ | h
        · exact absurd ⟨h, by rw [hpre.inv.len_disc]; exact hpre.lt⟩ hn
        · have := hpre.inv.dsc x h
          omega
  · exact fun x hx => (Vis_set c0.visited u x).2 (Or.inr hx)
  · intro x hx
    show (c0.disc.set u (c0.time + 1)).getD x 0 = _
    rw [getD_set_list, if_neg (hne x hx)]
  · intro x hx
    show (c0.low.set u (c0.time + 1)).getD x 0 = _
    rw [getD_set_list, if_neg (hne2 x hx)]
  · show c0.time < c0.time + 1
    omega
  · intro x hx
    rw [NewV_enter c0 u x hx, hdu]
    omega
  · intro p hp; cases hp
  · intro x hx
    rw [NewV_enter c0 u x hx]
    exact Relation.ReflTransGen.refl
  · intro x hx hxu
    exact absurd (NewV_enter c0 u x hx) hxu
  · rw [hdu, hlu]
  · left; rw [hdu, hlu]
  · intro x hx p _ hd _ _
    cases hd (NewV_enter c0 u x hx)


theorem core_child_pre (g : grafo) (hwf : WF g) (A : List Nat) (c0 : dfs_core) (u : Nat)
    (c : dfs_core) (done : List adj_node) (hl : CoreLoop g A c0 u c done)
    (p : adj_node) (hp : p ∈ g.adj.getD u [])
    (hnv : ¬ Vis c.visited p.v) : CorePre g (A ++ [u]) (c.set_parent p.v u) p.v where
  inv :=
    { len_vis := hl.inv.len_vis
      len_disc := hl.inv.len_disc
      len_low := hl.inv.len_low
      len_par := by
        show (c.parent.set p.v _).length = _
        rw [List.length_set]; exact hl.inv.len_par
      fin := hl.inv.fin
      stk := hl.inv.stk
      dsc := hl.inv.dsc }
  sconn := hl.sconn
  lt := hwf.in_range u p hp
  nv := hnv
  par := by
    show (c.parent.set p.v (Int.ofNat u)).getD p.v 0 = _
    rw [getD_set_list, if_pos ⟨rfl, by rw [hl.inv.len_par]; exact hwf.in_range u p hp⟩,
      parOf_append]
  edge := by
    intro q hq
    rw [List.getLast?_append, List.getLast?_singleton] at hq
    simp at hq
    rw [← hq]
    exact ⟨p, hp, rfl⟩

theorem core_skip (g : grafo) (A : List Nat) (c0 : dfs_core) (u : Nat)
    (c : dfs_core) (done : List adj_node) (hl : CoreLoop g A c0 u c done)
    (p : adj_node) (hv : Vis c.visited p.v) (hpar : ¬ Int.ofNat p.v ≠ c.parent.getD u 0) :
    CoreLoop g A c0 u c (done ++ [p]) :=
  { hl with
    done_vis := by
      intro q hq
      rcases List.mem_append.1 hq with hq | hq
      · exact hl.done_vis q hq
      · rw [List.mem_singleton.1 hq]; exact hv
    low3 := by
      intro x hx q hq hd hq0 hne
      by_cases hxu : x = u
      · rcases List.mem_append.1 (hd hxu) with hq1 | hq1
        · exact hl.low3 x hx q hq (fun _ => hq1) hq0 hne
        · rw [List.mem_singleton.1 hq1, hxu] at hne
          exact absurd hne hpar
      · exact hl.low3 x hx q hq (fun h => absurd h hxu) hq0 hne }

theorem core_exit (g : grafo) (A : List Nat) (c0 : dfs_core) (u : Nat)
    (c : dfs_core) (hl : CoreLoop g A c0 u c (g.adj.getD u [])) :
    CorePost g A c0 u c where
  inv :=
    { len_vis := hl.inv.len_vis
      len_disc := hl.inv.len_disc
      len_low := hl.inv.len_low
      len_par := hl.inv.len_par
      fin := by
        intro x hx hxA p hp
        by_cases hxu : x = u
        · rw [hxu] at hp
          exact hl.done_vis p hp
        · apply hl.inv.fin x hx _ p hp
          intro h
          rcases List.mem_append.1 h with h | h
          · exact hxA h
          · exact hxu (List.mem_singleton.1 h)
      stk := fun a ha => hl.mono a (hl.stk0 a ha)
      dsc := hl.inv.dsc }
  mono := hl.mono
  root := hl.inv.stk u (List.mem_append_right _ (List.mem_singleton_self u))
  frame_disc := hl.frame_disc
  frame_low := hl.frame_low
  frame_par := hl.frame_par
  time := hl.time
  disc_new := hl.disc_new
  conn := hl.conn
  parS := hl.parS
  low1 := hl.low1
  low2 := hl.low2
  low3 := fun x hx p hp => hl.low3 x hx p hp (fun h => h ▸ hp)


theorem set_low_getD (c : dfs_core) (u : Nat) (x : Int) (hu : u < c.low.length) :
    (c.set_low u x).low.getD u 0 = x := by
  show (c.low.set u x).getD u 0 = x
  rw [getD_set_list, if_pos ⟨rfl, hu⟩]

theorem set_low_getD_ne (c : dfs_core) (u : Nat) (x : Int) (y : Nat) (h : y ≠ u) :
    (c.set_low u x).low.getD y 0 = c.low.getD y 0 := by
  show (c.low.set u x).getD y 0 = _
  rw [getD_set_list, if_neg (fun hh => h hh.1.symm)]

theorem set_parent_getD_ne (c : dfs_core) (v u : Nat) (y : Nat) (h : y ≠ v) :
    (c.set_parent v u).parent.getD y 0 = c.parent.getD y 0 := by
  show (c.parent.set v _).getD y 0 = _
  rw [getD_set_list, if_neg (fun hh => h hh.1.symm)]

theorem set_parent_getD (c : dfs_core) (v u : Nat) (h : v < c.parent.length) :
    (c.set_parent v u).parent.getD v 0 = Int.ofNat u := by
  show (c.parent.set v _).getD v 0 = _
  rw [getD_set_list, if_pos ⟨rfl, h⟩]

theorem CoreLoop_u_vis (g : grafo) (A : List Nat) (c0 : dfs_core) (u : Nat) (c : dfs_core)
    (done : List adj_node) (hl : CoreLoop g A c0 u c done) : Vis c.visited u :=
  hl.inv.stk u (List.mem_append_right _ (List.mem_singleton_self u))

theorem CoreLoop_u_lt (g : grafo) (A : List Nat) (c0 : dfs_core) (u : Nat) (c : dfs_core)
    (done : List adj_node) (hl : CoreLoop g A c0 u c done) : u < g.n_vertices := by
  have := Vis_lt _ _ (CoreLoop_u_vis g A c0 u c done hl)
  rw [hl.inv.len_vis] at this
  exact this

theorem core_back (g : grafo) (A : List Nat) (c0 : dfs_core) (u : Nat)
    (c : dfs_core) (done : List adj_node) (hl : CoreLoop g A c0 u c done)
    (p : adj_node) (hp : p ∈ g.adj.getD u []) (hv : Vis c.visited p.v)
    (hpar : Int.ofNat p.v ≠ c.parent.getD u 0) :
    CoreLoop g A c0 u (c.set_low u (imin (c.low.getD u 0) (c.disc.getD p.v 0)))
      (done ++ [p]) := by
  have hul : u < c.low.length := by
    rw [hl.inv.len_low]; exact CoreLoop_u_lt g A c0 u c done hl
  have hlow : (c.set_low u (imin (c.low.getD u 0) (c.disc.getD p.v 0))).low.getD u 0 =
      imin (c.low.getD u 0) (c.disc.getD p.v 0) := set_low_getD c u _ hul
  have hunew : NewV c0 c u := ⟨CoreLoop_u_vis g A c0 u c done hl, hl.nv0⟩
  refine
    { inv := ?_, stk0 := hl.stk0, dsc0 := hl.dsc0, sconn0 := hl.sconn0, sconn := hl.sconn,
      edge0 := hl.edge0, mono := hl.mono, nv0 := hl.nv0, frame_disc := hl.frame_disc,
      frame_low := ?_, frame_par := hl.frame_par, disc_u := hl.disc_u, time := hl.time,
      disc_new := hl.disc_new, done_vis := ?_, conn := hl.conn, parS := hl.parS,
      low1 := ?_, low2 := ?_, low3 := ?_ }
  · exact
      { len_vis := hl.inv.len_vis
        len_disc := hl.inv.len_disc
        len_low := by
          show (c.low.set u _).length = _
          rw [List.length_set]; exact hl.inv.len_low
        len_par := hl.inv.len_par
        fin := hl.inv.fin
        stk := hl.inv.stk
        dsc := hl.inv.dsc }
  · intro x hx
    rw [set_low_getD_ne c u _ x (fun h => hl.nv0 (h ▸ hx))]
    exact hl.frame_low x hx
  · intro q hq
    rcases List.mem_append.1 hq with hq | hq
    · exact hl.done_vis q hq
    · rw [List.mem_singleton.1 hq]; exact hv
  · rw [hlow]
    exact le_trans (imin_le_left _ _) hl.low1
  · rw [hlow]
    rcases imin_cases (c.low.getD u 0) (c.disc.getD p.v 0) with ⟨h1, _⟩ | ⟨h1, _⟩
    · rw [h1]
      exact hl.low2
    · rw [h1]
      exact Or.inr ⟨u, hunew, p, hp, hpar, hv, rfl⟩
  · intro x hx q hq hd hq0 hne
    rw [hlow]
    by_cases hxu : x = u
    · rcases List.mem_append.1 (hd hxu) with hq1 | hq1
      · exact le_trans (imin_le_left _ _) (hl.low3 x hx q hq (fun _ => hq1) hq0 hne)
      · rw [List.mem_singleton.1 hq1]
        exact imin_le_right _ _
    · exact le_trans (imin_le_left _ _) (hl.low3 x hx q hq (fun h => absurd h hxu) hq0 hne)


theorem ChildCtx.new_cases {g : grafo} {A : List Nat} {c0 : dfs_core} {u : Nat}
    {c : dfs_core} {done : List adj_node} {p : adj_node} {c1 : dfs_core}
    (h : ChildCtx g A c0 u c done p c1) (x : Nat) (hx : NewV c0 c1 x) :
    NewV c0 c x ∨ NewV (c.set_parent p.v u) c1 x := by
  by_cases hc : Vis c.visited x
  · exact Or.inl ⟨hc, hx.2⟩
  · exact Or.inr ⟨hx.1, hc⟩

theorem ChildCtx.new_old {g : grafo} {A : List Nat} {c0 : dfs_core} {u : Nat}
    {c : dfs_core} {done : List adj_node} {p : adj_node} {c1 : dfs_core}
    (h : ChildCtx g A c0 u c done p c1) (x : Nat) (hx : NewV c0 c x) : NewV c0 c1 x :=
  ⟨h.post.mono x hx.1, hx.2⟩

theorem ChildCtx.new_sub {g : grafo} {A : List Nat} {c0 : dfs_core} {u : Nat}
    {c : dfs_core} {done : List adj_node} {p : adj_node} {c1 : dfs_core}
    (h : ChildCtx g A c0 u c done p c1) (x : Nat) (hx : NewV (c.set_parent p.v u) c1 x) :
    NewV c0 c1 x :=
  ⟨hx.1, fun h0 => hx.2 (h.loop.mono x h0)⟩

theorem ChildCtx.u_vis {g : grafo} {A : List Nat} {c0 : dfs_core} {u : Nat}
    {c : dfs_core} {done : List adj_node} {p : adj_node} {c1 : dfs_core}
    (h : ChildCtx g A c0 u c done p c1) : Vis c.visited u :=
  CoreLoop_u_vis g A c0 u c done h.loop

theorem ChildCtx.u_ne {g : grafo} {A : List Nat} {c0 : dfs_core} {u : Nat}
    {c : dfs_core} {done : List adj_node} {p : adj_node} {c1 : dfs_core}
    (h : ChildCtx g A c0 u c done p c1) : u ≠ p.v :=
  fun e => h.nv (e ▸ h.u_vis)

theorem ChildCtx.disc_old {g : grafo} {A : List Nat} {c0 : dfs_core} {u : Nat}
    {c : dfs_core} {done : List adj_node} {p : adj_node} {c1 : dfs_core}
    (h : ChildCtx g A c0 u c done p c1) (x : Nat) (hx : Vis c.visited x) :
    c1.disc.getD x 0 = c.disc.getD x 0 :=
  h.post.frame_disc x hx

theorem ChildCtx.low_old {g : grafo} {A : List Nat} {c0 : dfs_core} {u : Nat}
    {c : dfs_core} {done : List adj_node} {p : adj_node} {c1 : dfs_core}
    (h : ChildCtx g A c0 u c done p c1) (x : Nat) (hx : Vis c.visited x) :
    c1.low.getD x 0 = c.low.getD x 0 :=
  h.post.frame_low x hx

theorem ChildCtx.par_old {g : grafo} {A : List Nat} {c0 : dfs_core} {u : Nat}
    {c : dfs_core} {done : List adj_node} {p : adj_node} {c1 : dfs_core}
    (h : ChildCtx g A c0 u c done p c1) (x : Nat) (hx : Vis c.visited x) :
    c1.parent.getD x 0 = c.parent.getD x 0 := by
  rw [h.post.frame_par x (Or.inl hx)]
  exact set_parent_getD_ne c p.v u x (fun e => h.nv (e ▸ hx))

theorem ChildCtx.par_child {g : grafo} {A : List Nat} {c0 : dfs_core} {u : Nat}
    {c : dfs_core} {done : List adj_node} {p : adj_node} {c1 : dfs_core}
    (h : ChildCtx g A c0 u c done p c1) (hwf : WF g) :
    c1.parent.getD p.v 0 = Int.ofNat u := by
  rw [h.post.frame_par p.v (Or.inr (Or.inl rfl))]
  exact set_parent_getD c p.v u (by rw [h.loop.inv.len_par]; exact hwf.in_range u p h.mem)

theorem ChildCtx.disc_child {g : grafo} {A : List Nat} {c0 : dfs_core} {u : Nat}
    {c : dfs_core} {done : List adj_node} {p : adj_node} {c1 : dfs_core}
    (h : ChildCtx g A c0 u c done p c1) (x : Nat) (hx : NewV (c.set_parent p.v u) c1 x) :
    c1.disc.getD u 0 < c1.disc.getD x 0 := by
  rw [h.disc_old u h.u_vis, h.loop.disc_u]
  have h1 := h.post.disc_new x hx
  have h2 := h.loop.time
  have h3 : (c.set_parent p.v u).time = c.time := rfl
  omega


theorem core_child_post (g : grafo) (hwf : WF g) (A : List Nat) (c0 : dfs_core) (u : Nat)
    (c : dfs_core) (done : List adj_node) (p : adj_node) (c1 : dfs_core)
    (h : ChildCtx g A c0 u c done p c1) :
    CoreLoop g A c0 u (c1.set_low u (imin (c1.low.getD u 0) (c1.low.getD p.v 0)))
      (done ++ [p]) := by
  have hl := h.loop
  have hpost := h.post
  have hult : u < g.n_vertices := CoreLoop_u_lt g A c0 u c done hl
  have hul : u < c1.low.length := by rw [hpost.inv.len_low]; exact hult
  have hlow : (c1.set_low u (imin (c1.low.getD u 0) (c1.low.getD p.v 0))).low.getD u 0 =
      imin (c1.low.getD u 0) (c1.low.getD p.v 0) := set_low_getD c1 u _ hul
  have hu1 : Vis c1.visited u := hpost.mono u h.u_vis
  have hunew : NewV c0 c1 u := ⟨hu1, hl.nv0⟩
  have hpnew : NewV (c.set_parent p.v u) c1 p.v := ⟨hpost.root, h.nv⟩
  have hlow_u : c1.low.getD u 0 = c.low.getD u 0 := h.low_old u h.u_vis
  have hdisc_u : c1.disc.getD u 0 = c.disc.getD u 0 := h.disc_old u h.u_vis
  refine
    { inv := ?_, stk0 := hl.stk0, dsc0 := hl.dsc0, sconn0 := hl.sconn0, sconn := hl.sconn,
      edge0 := hl.edge0, mono := fun x hx => hpost.mono x (hl.mono x hx), nv0 := hl.nv0,
      frame_disc := ?_, frame_low := ?_, frame_par := ?_, disc_u := ?_, time := ?_,
      disc_new := ?_, done_vis := ?_, conn := ?_, parS := ?_,
      low1 := ?_, low2 := ?_, low3 := ?_ }
  · exact
      { len_vis := hpost.inv.len_vis
        len_disc := hpost.inv.len_disc
        len_low := by
          show (c1.low.set u _).length = _
          rw [List.length_set]; exact hpost.inv.len_low
        len_par := hpost.inv.len_par
        fin := hpost.inv.fin
        stk := hpost.inv.stk
        dsc := hpost.inv.dsc }
  · intro x hx
    show c1.disc.getD x 0 = _
    rw [h.disc_old x (hl.mono x hx)]
    exact hl.frame_disc x hx
  · intro x hx
    rw [set_low_getD_ne c1 u _ x (fun e => hl.nv0 (e ▸ hx)), h.low_old x (hl.mono x hx)]
    exact hl.frame_low x hx
  · intro x hx
    show c1.parent.getD x 0 = _
    have hxp : x ≠ p.v := by
      rcases hx with hx | hx | hx
      · exact fun e => h.nv (e ▸ hl.mono x hx)
      · rw [hx]; exact h.u_ne
      · exact fun e => hx (e ▸ hpost.root)
    have e1 : c1.parent.getD x 0 = (c.set_parent p.v u).parent.getD x 0 := by
      apply hpost.frame_par
      rcases hx with hx | hx | hx
      · exact Or.inl (hl.mono x hx)
      · rw [hx]; exact Or.inl h.u_vis
      · exact Or.inr (Or.inr hx)
    rw [e1, set_parent_getD_ne c p.v u x hxp]
    apply hl.frame_par
    rcases hx with hx | hx | hx
    · exact Or.inl hx
    · exact Or.inr (Or.inl hx)
    · exact Or.inr (Or.inr (fun hc => hx (hpost.mono x hc)))
  · show c1.disc.getD u 0 = _
    rw [hdisc_u]; exact hl.disc_u
  · have h1 := hl.time
    have h2 := hpost.time
    have h3 : (c.set_parent p.v u).time = c.time := rfl
    show c0.time < c1.time
    omega
  · intro x hx
    show c0.time < c1.disc.getD x 0
    rcases h.new_cases x hx with hx1 | hx1
    · rw [h.disc_old x hx1.1]; exact hl.disc_new x hx1
    · have h1 := hpost.disc_new x hx1
      have h2 := hl.time
      have h3 : (c.set_parent p.v u).time = c.time := rfl
      omega
  · intro q hq
    rcases List.mem_append.1 hq with hq | hq
    · exact hpost.mono _ (hl.done_vis q hq)
    · rw [List.mem_singleton.1 hq]; exact hpost.root
  · intro x hx
    rcases h.new_cases x hx with hx1 | hx1
    · exact JoinedIn_mono g _ _ (fun y hy => h.new_old y hy) u x (hl.conn x hx1)
    · exact JoinedR_trans g _ u p.v x
        (JoinedR_step g _ u p.v ⟨p, h.mem, rfl⟩ ⟨hunew, h.new_sub p.v hpnew⟩)
        (JoinedIn_mono g _ _ (fun y hy => h.new_sub y hy) p.v x (hpost.conn x hx1))
  · intro x hx hxu
    show ∃ q, NewV c0 c1 q ∧ c1.parent.getD x 0 = Int.ofNat q
    rcases h.new_cases x hx with hx1 | hx1
    · obtain ⟨q, hq, hqe⟩ := hl.parS x hx1 hxu
      exact ⟨q, h.new_old q hq, by rw [h.par_old x hx1.1]; exact hqe⟩
    · by_cases hxp : x = p.v
      · rw [hxp]
        exact ⟨u, hunew, h.par_child hwf⟩
      · obtain ⟨q, hq, hqe⟩ := hpost.parS x hx1 hxp
        exact ⟨q, h.new_sub q hq, hqe⟩
  · rw [hlow]
    show _ ≤ c1.disc.getD u 0
    rw [hdisc_u]
    have := imin_le_left (c1.low.getD u 0) (c1.low.getD p.v 0)
    have h2 := hl.low1
    omega
  · rw [hlow]
    show _ = c1.disc.getD u 0 ∨ ∃ x, NewV c0 c1 x ∧ ∃ q ∈ g.adj.getD x [],
      Int.ofNat q.v ≠ c1.parent.getD x 0 ∧ Vis c1.visited q.v ∧ _ = c1.disc.getD q.v 0
    rcases imin_cases (c1.low.getD u 0) (c1.low.getD p.v 0) with ⟨h1, _⟩ | ⟨h1, h2⟩
    · rw [h1, hlow_u, hdisc_u]
      rcases hl.low2 with h3 | ⟨x, hx, q, hq, hne, hqv, he⟩
      · exact Or.inl h3
      · refine Or.inr ⟨x, h.new_old x hx, q, hq, ?_, hpost.mono _ hqv, ?_⟩
        · rw [h.par_old x hx.1]; exact hne
        · rw [h.disc_old q.v hqv]; exact he
    · rw [h1]
      rcases hpost.low2 with h3 | ⟨x, hx, q, hq, hne, hqv, he⟩
      · exfalso
        have h4 := h.disc_child p.v hpnew
        have h5 := hl.low1
        omega
      · exact Or.inr ⟨x, h.new_sub x hx, q, hq, hne, hqv, he⟩
  · intro x hx q hq hd hq0 hne
    rw [hlow]
    show _ ≤ c1.disc.getD q.v 0
    rcases h.new_cases x hx with hx1 | hx1
    · have hne2 : Int.ofNat q.v ≠ c.parent.getD x 0 := by
        rw [← h.par_old x hx1.1]; exact hne
      have hd2 : x = u → q ∈ done := by
        intro hxu
        rcases List.mem_append.1 (hd hxu) with hq1 | hq1
        · exact hq1
        · exfalso
          rw [List.mem_singleton.1 hq1] at hq0
          exact h.nv (hl.mono _ hq0)
      have h1 := hl.low3 x hx1 q hq hd2 hq0 hne2
      rw [h.disc_old q.v (hl.mono _ hq0)]
      have h2 := imin_le_left (c1.low.getD u 0) (c1.low.getD p.v 0)
      omega
    · have h1 := hpost.low3 x hx1 q hq (hl.mono _ hq0) hne
      have h2 := imin_le_right (c1.low.getD u 0) (c1.low.getD p.v 0)
      omega


theorem Adj_of_mem (g : grafo) (x : Nat) (q : adj_node) (hq : q ∈ g.adj.getD x []) :
    Adj g x q.v := ⟨q, hq, rfl⟩

theorem ChildCtx.not_stack {g : grafo} {A : List Nat} {c0 : dfs_core} {u : Nat}
    {c : dfs_core} {done : List adj_node} {p : adj_node} {c1 : dfs_core}
    (h : ChildCtx g A c0 u c done p c1) (x : Nat) (hx : ¬ Vis c.visited x) :
    x ∉ A ++ [u] :=
  fun hm => hx (h.loop.inv.stk x hm)

/-- An entry from the child's subtree into the vertices marked before the
child started ends on the stack. -/
theorem ChildCtx.target_stack {g : grafo} {A : List Nat} {c0 : dfs_core} {u : Nat}
    {c : dfs_core} {done : List adj_node} {p : adj_node} {c1 : dfs_core}
    (h : ChildCtx g A c0 u c done p c1) (hwf : WF g) (x y : Nat)
    (hx : ¬ Vis c.visited x) (hxy : Adj g x y) (hy : Vis c.visited y) :
    y ∈ A ++ [u] := by
  by_contra hn
  obtain ⟨q, hq, hqe⟩ := Adj_symm g hwf.sym x y hxy
  have := h.loop.inv.fin y hy hn q hq
  rw [hqe] at this
  exact hx this

theorem ChildCtx.stack_disc {g : grafo} {A : List Nat} {c0 : dfs_core} {u : Nat}
    {c : dfs_core} {done : List adj_node} {p : adj_node} {c1 : dfs_core}
    (h : ChildCtx g A c0 u c done p c1) (y : Nat) (hy : y ∈ A) :
    c1.disc.getD y 0 < c1.disc.getD u 0 := by
  have hy0 := h.loop.stk0 y hy
  rw [h.disc_old y (h.loop.mono y hy0), h.loop.frame_disc y hy0,
    h.disc_old u h.u_vis, h.loop.disc_u]
  have := h.loop.dsc0 y hy0
  omega

theorem ChildCtx.u_not_A {g : grafo} {A : List Nat} {c0 : dfs_core} {u : Nat}
    {c : dfs_core} {done : List adj_node} {p : adj_node} {c1 : dfs_core}
    (h : ChildCtx g A c0 u c done p c1) : u ∉ A :=
  fun hm => h.loop.nv0 (h.loop.stk0 u hm)

/-- Where an entry leaving a vertex of the child's subtree can lead when the
low-link of the child is not below the bound `d`: back into the subtree, or
from the child to its parent `u`, or to a stack vertex with `disc` at least
`d`. -/
theorem ChildCtx.exits {g : grafo} {A : List Nat} {c0 : dfs_core} {u : Nat}
    {c : dfs_core} {done : List adj_node} {p : adj_node} {c1 : dfs_core}
    (h : ChildCtx g A c0 u c done p c1) (hwf : WF g) (x : Nat)
    (hx : NewV (c.set_parent p.v u) c1 x) (q : adj_node) (hq : q ∈ g.adj.getD x []) :
    NewV (c.set_parent p.v u) c1 q.v ∨ (x = p.v ∧ q.v = u) ∨
      (q.v ∈ A ++ [u] ∧ c1.low.getD p.v 0 ≤ c1.disc.getD q.v 0) := by
  have hx1 : Vis c1.visited x := hx.1
  have hxc : ¬ Vis c.visited x := hx.2
  have hqv : Vis c1.visited q.v := h.post.inv.fin x hx1 (h.not_stack x hxc) q hq
  by_cases hqc : Vis c.visited q.v
  · right
    have hst := h.target_stack hwf x q.v hxc (Adj_of_mem g x q hq) hqc
    by_cases hpar : Int.ofNat q.v = c1.parent.getD x 0
    · left
      by_cases hxp : x = p.v
      · refine ⟨hxp, ?_⟩
        rw [hxp, h.par_child hwf] at hpar
        exact Int.ofNat.inj hpar
      · exfalso
        obtain ⟨r, hr, hre⟩ := h.post.parS x hx hxp
        rw [hre] at hpar
        have : q.v = r := Int.ofNat.inj hpar
        rw [this] at hqc
        exact hr.2 hqc
    · right
      exact ⟨hst, h.post.low3 x hx q hq hqc hpar⟩
  · exact Or.inl ⟨hqv, hqc⟩

/-- The bridge test, soundness: when `low[v] > disc[u]` the child `v` cannot
reach `u` without an entry between `u` and `v`. -/
theorem ChildCtx.bridge_sound {g : grafo} {A : List Nat} {c0 : dfs_core} {u : Nat}
    {c : dfs_core} {done : List adj_node} {p : adj_node} {c1 : dfs_core}
    (h : ChildCtx g A c0 u c done p c1) (hwf : WF g)
    (hlow : c1.low.getD p.v 0 > c1.disc.getD u 0) : ¬ JoinedMinus g u p.v u p.v := by
  intro hj
  have hj2 := JoinedMinus_symm g hwf.sym u p.v u p.v hj
  have hclosed : ∀ x y, NewV (c.set_parent p.v u) c1 x → Adj g x y →
      (¬ (x = u ∧ y = p.v) ∧ ¬ (x = p.v ∧ y = u)) → NewV (c.set_parent p.v u) c1 y := by
    intro x y hx hxy hR
    obtain ⟨q, hq, rfl⟩ := hxy
    rcases h.exits hwf x hx q hq with h1 | h1 | ⟨h1, h2⟩
    · exact h1
    · exact absurd h1 hR.2
    · exfalso
      rcases List.mem_append.1 h1 with h3 | h3
      · have := h.stack_disc q.v h3
        omega
      · rw [List.mem_singleton.1 h3] at h2
        omega
  have := JoinedR_closed g _ _ hclosed p.v u ⟨h.post.root, h.nv⟩ hj2
  exact this.2 h.u_vis

/-- The bridge test, completeness: when `low[v] <= disc[u]` the child `v`
reaches `u` without using an entry between `u` and `v`. -/
theorem ChildCtx.bridge_complete {g : grafo} {A : List Nat} {c0 : dfs_core} {u : Nat}
    {c : dfs_core} {done : List adj_node} {p : adj_node} {c1 : dfs_core}
    (h : ChildCtx g A c0 u c done p c1) (hwf : WF g)
    (hlow : ¬ c1.low.getD p.v 0 > c1.disc.getD u 0) : JoinedMinus g u p.v u p.v := by
  have hpnew : NewV (c.set_parent p.v u) c1 p.v := ⟨h.post.root, h.nv⟩
  have hdc := h.disc_child p.v hpnew
  rcases h.post.low2 with h3 | ⟨x, hx, q, hq, hne, hqv, he⟩
  · omega
  · have hqold : Vis c.visited q.v := by
      by_contra hn
      have := h.disc_child q.v ⟨hqv, hn⟩
      omega
    have hst := h.target_stack hwf x q.v hx.2 (Adj_of_mem g x q hq) hqold
    have hpst : ¬ (p.v ∈ A ++ [u]) := h.not_stack p.v h.nv
    have hunew : ¬ NewV (c.set_parent p.v u) c1 u := fun hn => hn.2 h.u_vis
    -- u to q.v inside the stack
    have j1 : JoinedMinus g u p.v u q.v :=
      JoinedMinus_swap g p.v u u q.v
        (JoinedIn_minus g _ p.v u hpst u q.v
          (h.loop.sconn u (List.mem_append_right _ (List.mem_singleton_self u)) q.v hst))
    -- q.v to x by the mirror entry
    have j2 : JoinedMinus g u p.v q.v x := by
      apply JoinedR_step g _ q.v x (Adj_symm g hwf.sym x q.v (Adj_of_mem g x q hq))
      constructor
      · rintro ⟨e1, e2⟩
        rw [e2, e1, h.par_child hwf] at hne
        exact hne rfl
      · rintro ⟨e1, _⟩
        rw [e1] at hst
        exact hpst hst
    -- x to p.v inside the subtree
    have j3 : JoinedMinus g u p.v x p.v :=
      JoinedIn_minus g _ u p.v hunew x p.v
        (JoinedIn_symm g hwf.sym _ p.v x (h.post.conn x hx))
    exact JoinedR_trans g _ u q.v p.v j1 (JoinedR_trans g _ q.v x p.v j2 j3)


theorem strcmp_swap (a b : List Char) : strcmp b a = (strcmp a b).swap := by
  induction a generalizing b with
  | nil => cases b <;> rfl
  | cons x xs ih =>
    cases b with
    | nil => rfl
    | cons y ys =>
      simp only [strcmp]
      by_cases h1 : x.toNat < y.toNat
      · have h2 : ¬ y.toNat < x.toNat := by omega
        rw [if_neg h2, if_pos h1, if_pos h1]
        rfl
      · by_cases h2 : y.toNat < x.toNat
        · rw [if_pos h2, if_neg h1, if_pos h2]
          rfl
        · rw [if_neg h2, if_neg h1, if_neg h1, if_neg h2]
          exact ih ys

theorem strcmp_eq_iff (a b : List Char) : strcmp a b = Ordering.eq ↔ a = b := by
  induction a generalizing b with
  | nil => cases b <;> simp [strcmp]
  | cons x xs ih =>
    cases b with
    | nil => simp [strcmp]
    | cons y ys =>
      simp only [strcmp]
      by_cases h1 : x.toNat < y.toNat
      · simp only [h1, if_true]
        constructor
        · intro h; cases h
        · intro h
          have : x = y := (List.cons.inj h).1
          rw [this] at h1
          omega
      · by_cases h2 : y.toNat < x.toNat
        · simp only [h1, h2, if_true, if_false]
          constructor
          · intro h; cases h
          · intro h
            have : x = y := (List.cons.inj h).1
            rw [this] at h2
            omega
        · simp only [h1, h2, if_false]
          rw [ih ys]
          have hxy : x = y := by
            apply Char.ext
            apply UInt32.ext
            have : x.toNat = y.toNat := by omega
            exact this
          constructor
          · intro h; rw [hxy, h]
          · intro h; exact (List.cons.inj h).2

theorem mk_pair_symm (g : grafo) (u v : Nat) : mk_pair g v u = mk_pair g u v := by
  unfold mk_pair
  rw [strcmp_swap (g.vertices.getD u []) (g.vertices.getD v [])]
  cases h : strcmp (g.vertices.getD u []) (g.vertices.getD v [])
  · rfl
  · rw [(strcmp_eq_iff _ _).1 h]
    rfl
  · rfl

theorem JoinedMinus_flip (g : grafo) (hs : SymAdj g) (a b : Nat)
    (h : JoinedMinus g a b a b) : JoinedMinus g b a b a :=
  JoinedMinus_swap g a b b a (JoinedMinus_symm g hs a b a b h)

theorem BrPost_refl (g : grafo) (c0 c : dfs_core) (B : List edge_pair)
    (hnew : ∀ x, NewV c0 c x → ∀ y, NewV c0 c y → x = y)
    (hcard : (unvisited g.n_vertices c.visited).card + 1 ≤
      (unvisited g.n_vertices c0.visited).card) : BrPost g c0 c B B where
  sub := fun _ h => h
  sound := fun _ h => Or.inl h
  complete := fun a b ha hb _ hne _ => absurd (hnew a ha b hb) hne
  count := by omega

theorem BrPost_same_vis (g : grafo) (c0 c c2 : dfs_core) (B0 B : List edge_pair)
    (hv : c2.visited = c.visited) (h : BrPost g c0 c B0 B) : BrPost g c0 c2 B0 B where
  sub := h.sub
  sound := by
    intro e he
    rcases h.sound e he with h1 | ⟨a, b, ha, hb, hrest⟩
    · exact Or.inl h1
    · exact Or.inr ⟨a, b, ⟨by rw [hv]; exact ha.1, ha.2⟩, ⟨by rw [hv]; exact hb.1, hb.2⟩, hrest⟩
  complete := by
    intro a b ha hb
    exact h.complete a b ⟨by rw [← hv]; exact ha.1, ha.2⟩ ⟨by rw [← hv]; exact hb.1, hb.2⟩
  count := by rw [hv]; exact h.count


/-- An edge from the child's subtree to an older new vertex ends at `u`. -/
theorem ChildCtx.cross_u {g : grafo} {A : List Nat} {c0 : dfs_core} {u : Nat}
    {c : dfs_core} {done : List adj_node} {p : adj_node} {c1 : dfs_core}
    (h : ChildCtx g A c0 u c done p c1) (hwf : WF g) (a b : Nat)
    (ha : NewV (c.set_parent p.v u) c1 a) (hb : NewV c0 c b) (hab : Adj g a b) : b = u := by
  have hst := h.target_stack hwf a b ha.2 hab hb.1
  rcases List.mem_append.1 hst with h1 | h1
  · exact absurd (h.loop.stk0 b h1) hb.2
  · exact List.mem_singleton.1 h1

/-- A vertex of the child's subtree other than the child reaches `u` without
the entries between itself and `u`. -/
theorem ChildCtx.back_joined {g : grafo} {A : List Nat} {c0 : dfs_core} {u : Nat}
    {c : dfs_core} {done : List adj_node} {p : adj_node} {c1 : dfs_core}
    (h : ChildCtx g A c0 u c done p c1) (hwf : WF g) (a : Nat)
    (ha : NewV (c.set_parent p.v u) c1 a) (hne : a ≠ p.v) : JoinedMinus g a u a u := by
  have hunew : ¬ NewV (c.set_parent p.v u) c1 u := fun hn => hn.2 h.u_vis
  have j1 : JoinedMinus g a u a p.v :=
    JoinedMinus_swap g u a a p.v
      (JoinedIn_minus g _ u a hunew a p.v (JoinedIn_symm g hwf.sym _ p.v a (h.post.conn a ha)))
  have j2 : JoinedMinus g a u p.v u := by
    apply JoinedR_step g _ p.v u (Adj_symm g hwf.sym u p.v (Adj_of_mem g u p h.mem))
    exact ⟨fun e => hne e.1.symm, fun e => h.u_ne e.1.symm⟩
  exact JoinedR_trans g _ a p.v u j1 j2

theorem ChildCtx.br_child {g : grafo} {A : List Nat} {c0 : dfs_core} {u : Nat}
    {c : dfs_core} {done : List adj_node} {p : adj_node} {c1 : dfs_core}
    (h : ChildCtx g A c0 u c done p c1) (hwf : WF g) (B0 B B1 : List edge_pair)
    (hloop : BrPost g c0 c B0 B) (hchild : BrPost g (c.set_parent p.v u) c1 B B1)
    (c2 : dfs_core) (hv : c2.visited = c1.visited) :
    BrPost g c0 c2 B0
      (if c1.low.getD p.v 0 > c1.disc.getD u 0 then B1 ++ [mk_pair g u p.v] else B1) := by
  generalize hL : (if c1.low.getD p.v 0 > c1.disc.getD u 0
    then B1 ++ [mk_pair g u p.v] else B1) = L
  have hsubB : ∀ e ∈ B1, e ∈ L := by
    intro e he
    rw [← hL]
    split
    · exact List.mem_append_left _ he
    · exact he
  have hnew2 : ∀ x, NewV c0 c1 x → NewV c0 c2 x := fun x hx => ⟨by rw [hv]; exact hx.1, hx.2⟩
  have hnew2r : ∀ x, NewV c0 c2 x → NewV c0 c1 x := fun x hx => ⟨by rw [← hv]; exact hx.1, hx.2⟩
  have hunew : NewV c0 c1 u := ⟨h.post.mono u h.u_vis, h.loop.nv0⟩
  have hpnew : NewV (c.set_parent p.v u) c1 p.v := ⟨h.post.root, h.nv⟩
  -- the tree edge, in either orientation of the question
  have htree : ¬ JoinedMinus g u p.v u p.v → mk_pair g u p.v ∈ L := by
    intro hnj
    rw [← hL]
    by_cases hlow : c1.low.getD p.v 0 > c1.disc.getD u 0
    · rw [if_pos hlow]
      exact List.mem_append_right _ (List.mem_singleton_self _)
    · exact absurd (h.bridge_complete hwf hlow) hnj
  -- an edge between the child's subtree and `u`
  have hhalf : ∀ a, NewV (c.set_parent p.v u) c1 a → ¬ JoinedMinus g a u a u →
      mk_pair g a u ∈ L := by
    intro a ha hnj
    by_cases hap : a = p.v
    · rw [hap, mk_pair_symm]
      apply htree
      intro hj
      apply hnj
      rw [hap]
      exact JoinedMinus_flip g hwf.sym u p.v hj
    · exact absurd (h.back_joined hwf a ha hap) hnj
  refine ⟨?_, ?_, ?_, ?_⟩
  · exact fun e he => hsubB e (hchild.sub e (hloop.sub e he))
  · intro e he
    have he1 : e ∈ B1 ∨ (c1.low.getD p.v 0 > c1.disc.getD u 0 ∧ e = mk_pair g u p.v) := by
      rw [← hL] at he
      by_cases hlow : c1.low.getD p.v 0 > c1.disc.getD u 0
      · rw [if_pos hlow] at he
        rcases List.mem_append.1 he with h1 | h1
        · exact Or.inl h1
        · exact Or.inr ⟨hlow, List.mem_singleton.1 h1⟩
      · rw [if_neg hlow] at he
        exact Or.inl he
    rcases he1 with h1 | ⟨hlow, h1⟩
    · rcases hchild.sound e h1 with h2 | ⟨a, b, ha, hb, hrest⟩
      · rcases hloop.sound e h2 with h3 | ⟨a, b, ha, hb, hrest⟩
        · exact Or.inl h3
        · exact Or.inr ⟨a, b, hnew2 a (h.new_old a ha), hnew2 b (h.new_old b hb), hrest⟩
      · exact Or.inr ⟨a, b, hnew2 a (h.new_sub a ha), hnew2 b (h.new_sub b hb), hrest⟩
    · exact Or.inr ⟨u, p.v, hnew2 u hunew, hnew2 p.v (h.new_sub p.v hpnew), h1,
        Adj_of_mem g u p h.mem, h.u_ne, h.bridge_sound hwf hlow⟩
  · intro a b ha hb hab hne hnj
    rcases h.new_cases a (hnew2r a ha) with ha1 | ha1
    · rcases h.new_cases b (hnew2r b hb) with hb1 | hb1
      · exact hsubB _ (hchild.sub _ (hloop.complete a b ha1 hb1 hab hne hnj))
      · have hau : a = u := h.cross_u hwf b a hb1 ha1 (Adj_symm g hwf.sym a b hab)
        rw [hau, ← mk_pair_symm]
        apply hhalf b hb1
        intro hj
        apply hnj
        rw [hau]
        exact JoinedMinus_flip g hwf.sym b u hj
    · rcases h.new_cases b (hnew2r b hb) with hb1 | hb1
      · have hbu : b = u := h.cross_u hwf a b ha1 hb1 hab
        rw [hbu]
        apply hhalf a ha1
        rw [← hbu]
        exact hnj
      · exact hsubB _ (hchild.complete a b ha1 hb1 hab hne hnj)
  · have h1 := hloop.count
    have h2 := hchild.count
    have h3 : (c.set_parent p.v u).visited = c.visited := rfl
    rw [h3] at h2
    rw [hv, ← hL]
    split
    · rw [List.length_append, List.length_singleton]
      omega
    · omega


theorem not_vis_cond (vis : List Bool) (v : Nat) (h : ¬ Vis vis v) :
    (!vis.getD v false) = true := by
  unfold Vis at h
  cases hx : vis.getD v false
  · rfl
  · exact absurd hx h

theorem vis_cond (vis : List Bool) (v : Nat) (h : Vis vis v) :
    ¬ ((!vis.getD v false) = true) := by
  unfold Vis at h
  rw [h]
  decide

theorem bridge_loop_new (g : grafo) (rec : Nat → br_state → Option br_state) (u : Nat)
    (p : adj_node) (ps : List adj_node) (s : br_state) (h : ¬ Vis s.visited p.v) :
    bridge_loop g rec u (p :: ps) s =
      match rec p.v { s with parent := s.parent.set p.v (Int.ofNat u) } with
      | none => none
      | some s1 => bridge_loop g rec u ps (br_after_child g u p.v s1) := by
  rw [bridge_loop, if_pos (not_vis_cond _ _ h)]
  rfl

theorem bridge_loop_back (g : grafo) (rec : Nat → br_state → Option br_state) (u : Nat)
    (p : adj_node) (ps : List adj_node) (s : br_state) (h : Vis s.visited p.v)
    (hpar : Int.ofNat p.v ≠ s.parent.getD u 0) :
    bridge_loop g rec u (p :: ps) s =
      bridge_loop g rec u ps
        { s with low := s.low.set u (imin (s.low.getD u 0) (s.disc.getD p.v 0)) } := by
  rw [bridge_loop, if_neg (vis_cond _ _ h), if_pos hpar]

theorem bridge_loop_skip (g : grafo) (rec : Nat → br_state → Option br_state) (u : Nat)
    (p : adj_node) (ps : List adj_node) (s : br_state) (h : Vis s.visited p.v)
    (hpar : ¬ Int.ofNat p.v ≠ s.parent.getD u 0) :
    bridge_loop g rec u (p :: ps) s = bridge_loop g rec u ps s := by
  rw [bridge_loop, if_neg (vis_cond _ _ h), if_neg hpar]

theorem br_after_child_core (g : grafo) (u v : Nat) (s1 : br_state) :
    (br_after_child g u v s1).core =
      s1.core.set_low u (imin (s1.core.low.getD u 0) (s1.core.low.getD v 0)) := by
  unfold br_after_child
  simp only
  split <;> rfl

theorem br_after_child_bridges (g : grafo) (u v : Nat) (s1 : br_state) (hne : v ≠ u) :
    (br_after_child g u v s1).bridges =
      if s1.core.low.getD v 0 > s1.core.disc.getD u 0
      then s1.bridges ++ [mk_pair g u v] else s1.bridges := by
  have e : (s1.low.set u (imin (s1.low.getD u 0) (s1.low.getD v 0))).getD v 0 =
      s1.low.getD v 0 := by
    rw [getD_set_list, if_neg (fun h => hne h.1.symm)]
  unfold br_after_child
  simp only [e]
  show _ = if s1.low.getD v 0 > s1.disc.getD u 0 then _ else _
  split <;> rfl


theorem bridge_dfs_succ (g : grafo) (fuel u : Nat) (s : br_state) :
    bridge_dfs g (fuel + 1) u s =
      bridge_loop g (bridge_dfs g fuel) u (g.adj.getD u [])
        { s with visited := s.visited.set u true, time := s.time + 1,
                 disc := s.disc.set u (s.time + 1), low := s.low.set u (s.time + 1) } := rfl

theorem CorePre_unvisited_pos (g : grafo) (A : List Nat) (c : dfs_core) (u : Nat)
    (hpre : CorePre g A c u) : 0 < (unvisited g.n_vertices c.visited).card := by
  apply Finset.card_pos.2
  refine ⟨u, ?_⟩
  simp only [unvisited, Finset.mem_filter, Finset.mem_range]
  refine ⟨hpre.lt, ?_⟩
  have := hpre.nv
  unfold Vis at this
  simpa using this

theorem bridge_dfs_spec (g : grafo) (hwf : WF g) (fuel : Nat) :
    ∀ (A : List Nat) (u : Nat) (s : br_state), CorePre g A s.core u →
      (unvisited g.n_vertices s.visited).card ≤ fuel →
      ∃ s2, bridge_dfs g fuel u s = some s2 ∧ CorePost g A s.core u s2.core ∧
        BrPost g s.core s2.core s.bridges s2.bridges := by
  induction fuel with
  | zero =>
    intro A u s hpre hcard
    have := CorePre_unvisited_pos g A s.core u hpre
    have e : s.core.visited = s.visited := rfl
    rw [e] at this
    omega
  | succ fuel ih =>
    intro A u s hpre hcard
    rw [bridge_dfs_succ]
    have loop : ∀ (ps done : List adj_node) (s1 : br_state),
        g.adj.getD u [] = done ++ ps → CoreLoop g A s.core u s1.core done →
        BrPost g s.core s1.core s.bridges s1.bridges →
        (unvisited g.n_vertices s1.visited).card ≤ fuel →
        ∃ s2, bridge_loop g (bridge_dfs g fuel) u ps s1 = some s2 ∧
          CoreLoop g A s.core u s2.core (g.adj.getD u []) ∧
          BrPost g s.core s2.core s.bridges s2.bridges := by
      intro ps
      induction ps with
      | nil =>
        intro done s1 hsplit hl hbr _
        rw [List.append_nil] at hsplit
        rw [hsplit]
        exact ⟨s1, rfl, hl, hbr⟩
      | cons p ps ihps =>
        intro done s1 hsplit hl hbr hc1
        have hsplit2 : g.adj.getD u [] = (done ++ [p]) ++ ps := by
          rw [hsplit, List.append_assoc]; rfl
        have hpu : p ∈ g.adj.getD u [] := by
          rw [hsplit]; exact List.mem_append_right _ (List.mem_cons_self _ _)
        by_cases hv : Vis s1.visited p.v
        · by_cases hpar : Int.ofNat p.v ≠ s1.parent.getD u 0
          · rw [bridge_loop_back g _ u p ps s1 hv hpar]
            have hl2 := core_back g A s.core u s1.core done hl p hpu hv hpar
            exact ihps (done ++ [p]) _ hsplit2 hl2
              (BrPost_same_vis g s.core s1.core _ _ _ rfl hbr) hc1
          · rw [bridge_loop_skip g _ u p ps s1 hv hpar]
            exact ihps (done ++ [p]) s1 hsplit2
              (core_skip g A s.core u s1.core done hl p hv hpar) hbr hc1
        · rw [bridge_loop_new g _ u p ps s1 hv]
          have hpre2 := core_child_pre g hwf A s.core u s1.core done hl p hpu hv
          obtain ⟨sa, ha, hposta, hbra⟩ :=
            ih (A ++ [u]) p.v { s1 with parent := s1.parent.set p.v (Int.ofNat u) } hpre2 hc1
          rw [ha]
          have hctx : ChildCtx g A s.core u s1.core done p sa.core := ⟨hl, hpu, hv, hposta⟩
          have hl2 := core_child_post g hwf A s.core u s1.core done p sa.core hctx
          rw [← br_after_child_core g u p.v sa] at hl2
          have hbr2 := hctx.br_child hwf s.bridges s1.bridges sa.bridges hbr hbra
            (br_after_child g u p.v sa).core (by rw [br_after_child_core]; rfl)
          rw [← br_after_child_bridges g u p.v sa (fun e => hctx.u_ne e.symm)] at hbr2
          have hc2 : (unvisited g.n_vertices (br_after_child g u p.v sa).visited).card
              ≤ fuel := by
            have e : (br_after_child g u p.v sa).visited = sa.visited := by
              have := congrArg dfs_core.visited (br_after_child_core g u p.v sa)
              exact this
            rw [e]
            exact le_trans (Finset.card_le_card
              (unvisited_mono _ _ _ (fun x hx => hposta.mono x hx))) hc1
          exact ihps (done ++ [p]) _ hsplit2 hl2 hbr2 hc2
    have hl0 := core_enter g hwf A s.core u hpre
    have hcard0 : (unvisited g.n_vertices (s.visited.set u true)).card ≤ fuel := by
      have := unvisited_set_card g.n_vertices s.visited u hpre.lt hpre.inv.len_vis hpre.nv
      omega
    have hbr0 : BrPost g s.core (s.core.enter u) s.bridges s.bridges := by
      apply BrPost_refl
      · intro x hx y hy
        rw [NewV_enter s.core u x hx, NewV_enter s.core u y hy]
      · have := unvisited_set_card g.n_vertices s.visited u hpre.lt hpre.inv.len_vis hpre.nv
        show (unvisited g.n_vertices (s.visited.set u true)).card + 1 ≤
          (unvisited g.n_vertices s.visited).card
        omega
    obtain ⟨s2, h2, hl2, hbr2⟩ := loop (g.adj.getD u []) []
      { s with visited := s.visited.set u true, time := s.time + 1,
               disc := s.disc.set u (s.time + 1), low := s.low.set u (s.time + 1) }
      rfl hl0 hbr0 hcard0
    exact ⟨s2, h2, core_exit g A s.core u s2.core hl2, hbr2⟩


theorem StackConn_nil (g : grafo) : StackConn g [] := fun a ha => by cases ha

theorem unvisited_card_le (n : Nat) (vis : List Bool) : (unvisited n vis).card ≤ n := by
  have := Finset.card_filter_le (Finset.range n) (fun v => vis.getD v false = false)
  simpa [unvisited] using this

theorem unvisited_replicate (n : Nat) : (unvisited n (List.replicate n false)).card = n := by
  have : unvisited n (List.replicate n false) = Finset.range n := by
    apply Finset.filter_true_of_mem
    intro v _
    have := Vis_replicate_false n v
    unfold Vis at this
    cases hx : (List.replicate n false).getD v false
    · rfl
    · exact absurd hx this
  rw [this, Finset.card_range]

theorem BrTop_init (g : grafo) (t : Int) : BrTop g (br_init g t) where
  inv :=
    { len_vis := by simp [br_init, br_state.core]
      len_disc := by simp [br_init, br_state.core]
      len_low := by simp [br_init, br_state.core]
      len_par := by simp [br_init, br_state.core]
      fin := fun x hx => absurd hx (Vis_replicate_false _ _)
      stk := fun a ha => by cases ha
      dsc := fun x hx => absurd hx (Vis_replicate_false _ _) }
  unv_par := by
    intro x hx _
    show (List.replicate g.n_vertices (-1 : Int)).getD x 0 = -1
    rw [List.getD_eq_getElem?_getD, List.getElem?_replicate, if_pos hx]
    rfl
  sound := fun e he => by cases he
  complete := fun a b ha => absurd ha (Vis_replicate_false _ _)
  count := by
    show 0 + (unvisited g.n_vertices (List.replicate g.n_vertices false)).card ≤ _
    rw [unvisited_replicate]; omega
  count1 := by
    intro h
    exfalso
    have : (unvisited g.n_vertices (List.replicate g.n_vertices false)).card = g.n_vertices :=
      unvisited_replicate _
    have h2 : (br_init g t).visited = List.replicate g.n_vertices false := rfl
    rw [h2] at h
    omega


theorem BrTop_step (g : grafo) (hwf : WF g) (s s2 : br_state) (i : Nat)
    (hi : i < g.n_vertices) (hni : ¬ Vis s.visited i) (htop : BrTop g s)
    (hpost : CorePost g [] s.core i s2.core)
    (hbr : BrPost g s.core s2.core s.bridges s2.bridges) : BrTop g s2 where
  inv := hpost.inv
  unv_par := by
    intro x hx hnx
    have e : s2.parent.getD x 0 = s.parent.getD x 0 := hpost.frame_par x (Or.inr (Or.inr hnx))
    rw [e]
    exact htop.unv_par x hx (fun h => hnx (hpost.mono x h))
  sound := by
    intro e he
    rcases hbr.sound e he with h1 | ⟨a, b, ha, hb, hrest⟩
    · obtain ⟨a, b, ha, hb, hrest⟩ := htop.sound e h1
      exact ⟨a, b, hpost.mono a ha, hpost.mono b hb, hrest⟩
    · exact ⟨a, b, ha.1, hb.1, hrest⟩
  complete := by
    intro a b ha hb hab hne hnj
    have hold : ∀ x y, Vis s.visited x → Adj g x y → Vis s.visited y := by
      intro x y hx hxy
      obtain ⟨q, hq, rfl⟩ := hxy
      exact htop.inv.fin x hx (List.not_mem_nil x) q hq
    by_cases ha0 : Vis s.visited a
    · have hb0 : Vis s.visited b := hold a b ha0 hab
      exact hbr.sub _ (htop.complete a b ha0 hb0 hab hne hnj)
    · by_cases hb0 : Vis s.visited b
      · exact absurd (hold b a hb0 (Adj_symm g hwf.sym a b hab)) ha0
      · exact hbr.complete a b ⟨ha, ha0⟩ ⟨hb, hb0⟩ hab hne hnj
  count := by
    have h1 := hbr.count
    have h2 := htop.count
    have e1 : s2.core.visited = s2.visited := rfl
    have e2 : s.core.visited = s.visited := rfl
    rw [e1, e2] at h1
    omega
  count1 := by
    intro _
    have h1 := hbr.count
    have h2 := htop.count
    have e1 : s2.core.visited = s2.visited := rfl
    have e2 : s.core.visited = s.visited := rfl
    rw [e1, e2] at h1
    omega

theorem br_roots_spec (g : grafo) (hwf : WF g) :
    ∀ (is : List Nat) (s : br_state), (∀ i ∈ is, i < g.n_vertices) → BrTop g s →
      ∃ s2, br_roots g is s = some s2 ∧ BrTop g s2 ∧
        (∀ x, Vis s.visited x → Vis s2.visited x) ∧ ∀ i ∈ is, Vis s2.visited i := by
  intro is
  induction is with
  | nil =>
    intro s _ htop
    exact ⟨s, rfl, htop, fun x hx => hx, fun i hi => (by cases hi)⟩
  | cons i is ih =>
    intro s hlt htop
    have hlt2 : ∀ j ∈ is, j < g.n_vertices := fun j hj => hlt j (List.mem_cons_of_mem _ hj)
    have hi : i < g.n_vertices := hlt i (List.mem_cons_self _ _)
    unfold br_roots
    rw [List.foldlM_cons]
    by_cases hvi : s.visited.getD i false = true
    · obtain ⟨s2, h2, htop2, hmono, hall⟩ := ih s hlt2 htop
      refine ⟨s2, ?_, htop2, hmono, ?_⟩
      · rw [if_pos hvi]
        exact h2
      · intro j hj
        rcases List.mem_cons.1 hj with rfl | hj
        · exact hmono _ hvi
        · exact hall j hj
    · have hpre : CorePre g [] s.core i :=
        { inv := htop.inv
          sconn := StackConn_nil g
          lt := hi
          nv := hvi
          par := htop.unv_par i hi hvi
          edge := fun q hq => by cases hq }
      obtain ⟨sa, ha, hposta, hbra⟩ :=
        bridge_dfs_spec g hwf g.n_vertices [] i s hpre (unvisited_card_le _ _)
      have htopa := BrTop_step g hwf s sa i hi hvi htop hposta hbra
      obtain ⟨s2, h2, htop2, hmono, hall⟩ := ih sa hlt2 htopa
      refine ⟨s2, ?_, htop2, fun x hx => hmono x (hposta.mono x hx), ?_⟩
      · rw [if_neg hvi, ha]
        exact h2
      · intro j hj
        rcases List.mem_cons.1 hj with rfl | hj
        · exact hmono _ hposta.root
        · exact hall j hj

/-- The pairs recorded by the bridge search of `arestas_corte`: exactly the
pairs of adjacent distinct vertices that are no longer joined once the
entries between them are taken away; fewer than `n_vertices` of them. -/
theorem arestas_corte_found_spec (g : grafo) (hwf : WF g) (t : Int) :
    ∃ B, arestas_corte_found t g = some B ∧
      (∀ e ∈ B, ∃ a b, a < g.n_vertices ∧ b < g.n_vertices ∧ e = mk_pair g a b ∧
        Adj g a b ∧ a ≠ b ∧ ¬ JoinedMinus g a b a b) ∧
      (∀ a b, a < g.n_vertices → b < g.n_vertices → Adj g a b → a ≠ b →
        ¬ JoinedMinus g a b a b → mk_pair g a b ∈ B) ∧
      B.length + 1 ≤ g.n_vertices + (if g.n_vertices = 0 then 1 else 0) := by
  obtain ⟨s2, h2, htop, _, hall⟩ :=
    br_roots_spec g hwf (List.range g.n_vertices) (br_init g t)
      (fun i hi => List.mem_range.1 hi) (BrTop_init g t)
  have hlt : ∀ x, Vis s2.visited x → x < g.n_vertices := by
    intro x hx
    have := Vis_lt _ _ hx
    have e : s2.visited.length = g.n_vertices := htop.inv.len_vis
    rw [e] at this
    exact this
  refine ⟨s2.bridges, ?_, ?_, ?_, ?_⟩
  · unfold arestas_corte_found
    rw [h2]; rfl
  · intro e he
    obtain ⟨a, b, ha, hb, hrest⟩ := htop.sound e he
    exact ⟨a, b, hlt a ha, hlt b hb, hrest⟩
  · intro a b ha hb
    exact htop.complete a b (hall a (List.mem_range.2 ha)) (hall b (List.mem_range.2 hb))
  · have hunv : (unvisited g.n_vertices s2.visited).card = 0 := by
      rw [Finset.card_eq_zero, Finset.eq_empty_iff_forall_not_mem]
      intro x hx
      simp only [unvisited, Finset.mem_filter, Finset.mem_range] at hx
      have := hall x (List.mem_range.2 hx.1)
      unfold Vis at this
      rw [this] at hx
      cases hx.2
    have h1 := htop.count
    have h3 := htop.count1
    rw [hunv] at h1 h3
    split
    · omega
    · have := h3 (by omega)
      omega

theorem bridges_cap_small (n : Nat) (h : n ≤ 46341) :
    bridges_cap n = ((n * (n - 1) / 2 : Nat) : Int) := by
  have hm : n * (n - 1) ≤ 46341 * 46340 := Nat.mul_le_mul h (by omega)
  have e : (n : Int) * ((n : Int) - 1) = ((n * (n - 1) : Nat) : Int) := by
    rcases Nat.eq_zero_or_pos n with h0 | hpos
    · rw [h0]
      rfl
    · rw [Nat.cast_mul, Nat.cast_sub hpos]
      rfl
  unfold bridges_cap
  rw [e]
  generalize n * (n - 1) = m at hm
  have hw : wrap32 (m : Int) = (m : Int) := by
    unfold wrap32
    omega
  rw [hw]
  rfl

/-- The number of pairs recorded by the search of `arestas_corte` is at most
`n_vertices - 1` (none for the graph without vertices), and this fits the
array `bridges` as long as `n * (n - 1)` does not overflow. -/
theorem arestas_corte_found_bound (g : grafo) (hwf : WF g) (t : Int) :
    ∃ B, arestas_corte_found t g = some B ∧ B.length ≤ g.n_vertices - 1 ∧
      (g.n_vertices ≤ 46341 → (B.length : Int) ≤ bridges_cap g.n_vertices) := by
  obtain ⟨B, hB, _, _, hcount⟩ := arestas_corte_found_spec g hwf t
  have hlen : B.length ≤ g.n_vertices - 1 := by
    split at hcount <;> omega
  refine ⟨B, hB, hlen, ?_⟩
  intro hsmall
  rw [bridges_cap_small g.n_vertices hsmall]
  have h2 : g.n_vertices - 1 ≤ g.n_vertices * (g.n_vertices - 1) / 2 := by
    rcases Nat.lt_or_ge g.n_vertices 2 with h | h
    · have : g.n_vertices - 1 = 0 := by omega
      rw [this]
      exact Nat.zero_le _
    · rw [Nat.le_div_iff_mul_le (by decide), Nat.mul_comm]
      exact Nat.mul_le_mul_right _ h
  exact_mod_cast le_trans hlen h2

theorem arestas_corte_pairs_of_found (g : grafo) (t : Int) (B : List edge_pair)
    (hB : arestas_corte_found t g = some B) (h0 : 0 ≤ bridges_cap g.n_vertices)
    (hle : (B.length : Int) ≤ bridges_cap g.n_vertices) :
    arestas_corte_pairs t g = some (exchange_sort ⟨[], []⟩ edge_pair_gt B) := by
  unfold arestas_corte_pairs
  rw [if_neg (not_lt.2 h0), hB]
  exact if_neg (not_lt.2 hle)

theorem arestas_corte_pairs_some (g : grafo) (t : Int) (pairs : List edge_pair)
    (h : arestas_corte_pairs t g = some pairs) :
    ∃ B, arestas_corte_found t g = some B ∧
      pairs = exchange_sort ⟨[], []⟩ edge_pair_gt B ∧
      0 ≤ bridges_cap g.n_vertices ∧ (B.length : Int) ≤ bridges_cap g.n_vertices := by
  unfold arestas_corte_pairs at h
  split at h
  · cases h
  · rename_i h0
    split at h
    · cases h
    · rename_i B hB
      split at h
      · cases h
      · rename_i hle
        exact ⟨B, hB, (Option.some.inj h).symm, not_lt.1 h0, not_lt.1 hle⟩

/-- The function gives no result when the cell count of `bridges` is
negative. -/
theorem arestas_corte_cap_neg (g : grafo) (t : Int) (h : bridges_cap g.n_vertices < 0) :
    arestas_corte t g = none := by
  unfold arestas_corte arestas_corte_pairs
  rw [if_pos h]
  rfl

/-- The function gives no result when the search stores more pairs than the
array `bridges` has cells. -/
theorem arestas_corte_cap_lt (g : grafo) (t : Int) (B : List edge_pair)
    (hB : arestas_corte_found t g = some B) (h : bridges_cap g.n_vertices < (B.length : Int)) :
    arestas_corte t g = none := by
  unfold arestas_corte arestas_corte_pairs
  split
  · rfl
  · rw [hB]
    show Option.map _ (if _ then none else _) = none
    rw [if_pos h]
    rfl

theorem bridges_cap_nonneg (n : Nat) (h : n ≤ 46341) : 0 ≤ bridges_cap n := by
  rw [bridges_cap_small n h]
  exact Int.ofNat_nonneg _

/-- On a well-formed graph of at most 46341 vertices the array `bridges` is
large enough: the sorted array is the sorted sequence of recorded pairs. -/
theorem arestas_corte_pairs_small (g : grafo) (hwf : WF g) (hn : g.n_vertices ≤ 46341)
    (t : Int) (B : List edge_pair) (hB : arestas_corte_found t g = some B) :
    arestas_corte_pairs t g = some (exchange_sort ⟨[], []⟩ edge_pair_gt B) := by
  obtain ⟨B2, hB2, _, hle⟩ := arestas_corte_found_bound g hwf t
  rw [hB] at hB2
  cases Option.some.inj hB2
  exact arestas_corte_pairs_of_found g t B hB (bridges_cap_nonneg _ hn) (hle hn)

theorem getD_eq_getElem_lt {α : Type} (l : List α) (i : Nat) (d : α) (h : i < l.length) :
    l.getD i d = l.get ⟨i, h⟩ := by
  rw [List.getD_eq_getElem?_getD, List.getElem?_eq_getElem h]
  rfl

theorem swap_length {α : Type} (d : α) (a : List α) (i j : Nat) :
    (swap d a i j).length = a.length := by
  simp [swap]

theorem swap_perm {α : Type} [DecidableEq α] (d : α) (a : List α) (i j : Nat)
    (hi : i < a.length) (hj : j < a.length) (hij : i ≠ j) : (swap d a i j).Perm a := by
  rw [List.perm_iff_count]
  intro b
  have hj2 : j < (a.set i (a.getD j d)).length := by rw [List.length_set]; exact hj
  unfold swap
  rw [List.count_set _ _ _ _ hj2, List.count_set _ _ _ _ hi]
  have e1 : (a.set i (a.getD j d))[j] = a[j] := by
    rw [List.getElem_set]
    rw [if_neg hij]
  have e2 : a.getD j d = a[j] := getD_eq_getElem_lt a j d hj
  have e3 : a.getD i d = a[i] := getD_eq_getElem_lt a i d hi
  rw [e1, e2, e3]
  have h1 : (if (a[i] == b) = true then 1 else 0) ≤ a.count b := by
    have := List.boole_getElem_le_countP (fun x => x == b) a i hi
    rw [List.count_eq_countP]
    exact this
  generalize (if (a[i] == b) = true then 1 else 0) = x at h1 ⊢
  generalize (if (a[j] == b) = true then 1 else 0) = y
  omega

theorem exchange_inner_perm {α : Type} [DecidableEq α] (d : α) (gt : α → α → Bool) (i : Nat) :
    ∀ (js : List Nat) (a : List α), (∀ j ∈ js, i < j ∧ j < a.length) →
      (js.foldl (fun a j => if gt (a.getD i d) (a.getD j d) then swap d a i j else a) a).Perm
        a := by
  intro js
  induction js with
  | nil => intro a _; exact List.Perm.refl a
  | cons j js ih =>
    intro a hj
    rw [List.foldl_cons]
    have hj0 := hj j (List.mem_cons_self _ _)
    have hstep : (if gt (a.getD i d) (a.getD j d) then swap d a i j else a).Perm a := by
      split
      · exact swap_perm d a i j (by omega) hj0.2 (by omega)
      · exact List.Perm.refl a
    refine List.Perm.trans (ih _ ?_) hstep
    intro k hk
    rw [hstep.length_eq]
    exact hj k (List.mem_cons_of_mem _ hk)

theorem exchange_outer_perm {α : Type} [DecidableEq α] (d : α) (gt : α → α → Bool) :
    ∀ (is : List Nat) (a : List α),
      (is.foldl
        (fun a i =>
          (List.range' (i + 1) (a.length - (i + 1))).foldl
            (fun a j => if gt (a.getD i d) (a.getD j d) then swap d a i j else a)
            a)
        a).Perm a := by
  intro is
  induction is with
  | nil => intro a; exact List.Perm.refl a
  | cons i is ih =>
    intro a
    rw [List.foldl_cons]
    refine List.Perm.trans (ih _) ?_
    apply exchange_inner_perm
    intro j hj
    rw [List.mem_range'_1] at hj
    omega

theorem exchange_sort_perm {α : Type} [DecidableEq α] (d : α) (gt : α → α → Bool)
    (a : List α) : (exchange_sort d gt a).Perm a :=
  exchange_outer_perm d gt _ a


theorem mem_erase_entry_sub (v : Nat) (l : List adj_node) (q : adj_node)
    (h : q ∈ erase_entry v l) : q ∈ l := by
  induction l with
  | nil => exact h
  | cons p ps ih =>
    unfold erase_entry at h
    split at h
    · exact List.mem_cons_of_mem _ h
    · rcases List.mem_cons.1 h with h1 | h1
      · rw [h1]; exact List.mem_cons_self _ _
      · exact List.mem_cons_of_mem _ (ih h1)

theorem mem_erase_entry_of_ne (v : Nat) (l : List adj_node) (q : adj_node)
    (h : q ∈ l) (hne : q.v ≠ v) : q ∈ erase_entry v l := by
  induction l with
  | nil => exact h
  | cons p ps ih =>
    unfold erase_entry
    rcases List.mem_cons.1 h with h1 | h1
    · rw [← h1, if_neg hne]
      exact List.mem_cons_self _ _
    · split
      · exact h1
      · exact List.mem_cons_of_mem _ (ih h1)

theorem mem_erase_entry_ne (v : Nat) (l : List adj_node) (q : adj_node)
    (hc : l.countP (fun p => p.v = v) ≤ 1) (h : q ∈ erase_entry v l) : q.v ≠ v := by
  induction l with
  | nil => cases h
  | cons p ps ih =>
    unfold erase_entry at h
    rw [List.countP_cons] at hc
    by_cases hp : p.v = v
    · rw [if_pos hp] at h
      have hz : ps.countP (fun p => p.v = v) = 0 := by
        simp only [hp, decide_True, if_true] at hc
        omega
      rw [List.countP_eq_zero] at hz
      have := hz q h
      simpa using this
    · rw [if_neg hp] at h
      rcases List.mem_cons.1 h with h1 | h1
      · rw [h1]; exact hp
      · apply ih _ h1
        simp only [hp, decide_False] at hc
        exact Nat.le_trans (Nat.le_add_right _ _) hc

theorem remove_edge_adj_getD (g : grafo) (u v x : Nat) :
    (remove_edge g u v).adj.getD x [] =
      if v = x ∧ v < g.adj.length then
        erase_entry u (if u = v ∧ u < g.adj.length then erase_entry v (g.adj.getD u [])
          else g.adj.getD v [])
      else if u = x ∧ u < g.adj.length then erase_entry v (g.adj.getD u [])
      else g.adj.getD x [] := by
  simp only [remove_edge, getD_set_list, List.length_set]

theorem mem_of_remove (g : grafo) (u v x : Nat) (q : adj_node)
    (h : q ∈ (remove_edge g u v).adj.getD x []) : q ∈ g.adj.getD x [] := by
  rw [remove_edge_adj_getD] at h
  split at h
  · rename_i h1
    have hq1 := mem_erase_entry_sub _ _ _ h
    split at hq1
    · rename_i h2
      rw [← h1.1, ← h2.1]
      exact mem_erase_entry_sub _ _ _ hq1
    · rw [← h1.1]; exact hq1
  · split at h
    · rename_i h2
      rw [← h2.1]
      exact mem_erase_entry_sub _ _ _ h
    · exact h

theorem Adj_remove_edge_sub (g : grafo) (u v x y : Nat) (h : Adj (remove_edge g u v) x y) :
    Adj g x y := by
  obtain ⟨q, hq, hqy⟩ := h
  rw [remove_edge_adj_getD] at hq
  refine ⟨q, ?_, hqy⟩
  split at hq
  · rename_i h1
    have hq1 := mem_erase_entry_sub _ _ _ hq
    split at hq1
    · rename_i h2
      rw [← h1.1, ← h2.1]
      exact mem_erase_entry_sub _ _ _ hq1
    · rw [← h1.1]; exact hq1
  · split at hq
    · rename_i h2
      rw [← h2.1]
      exact mem_erase_entry_sub _ _ _ hq
    · exact hq

theorem Adj_remove_edge_of (g : grafo) (u v x y : Nat) (h : Adj g x y)
    (h1 : ¬ (x = u ∧ y = v)) (h2 : ¬ (x = v ∧ y = u)) : Adj (remove_edge g u v) x y := by
  obtain ⟨q, hq, hqy⟩ := h
  refine ⟨q, ?_, hqy⟩
  rw [remove_edge_adj_getD]
  split
  · rename_i e1
    have hyu : q.v ≠ u := fun e => h2 ⟨e1.1.symm, by rw [← hqy]; exact e⟩
    apply mem_erase_entry_of_ne _ _ _ _ hyu
    split
    · rename_i e2
      have hyv : q.v ≠ v := fun e => h1 ⟨by rw [← e1.1, e2.1], by rw [← hqy]; exact e⟩
      apply mem_erase_entry_of_ne _ _ _ _ hyv
      rw [e2.1, e1.1]; exact hq
    · rw [e1.1]; exact hq
  · split
    · rename_i e2
      have hyv : q.v ≠ v := fun e => h1 ⟨e2.1.symm, by rw [← hqy]; exact e⟩
      apply mem_erase_entry_of_ne _ _ _ _ hyv
      rw [e2.1]; exact hq
    · exact hq

theorem Adj_remove_edge_ne (g : grafo) (hwf : WF g) (hs : NoParallel g) (u v x y : Nat)
    (huv : u ≠ v) (h : Adj (remove_edge g u v) x y) :
    ¬ (x = u ∧ y = v) ∧ ¬ (x = v ∧ y = u) := by
  obtain ⟨q, hq, hqy⟩ := h
  have hxl : x < g.adj.length := by
    rw [hwf.len_adj]
    exact adj_getD_lt g hwf x q (mem_of_remove g u v x q hq)
  rw [remove_edge_adj_getD] at hq
  constructor
  · rintro ⟨e1, e2⟩
    rw [e1] at hq hxl
    rw [if_neg (fun e => huv e.1.symm), if_pos ⟨rfl, hxl⟩] at hq
    exact mem_erase_entry_ne _ _ _ (hs u v huv) hq (hqy.trans e2)
  · rintro ⟨e1, e2⟩
    rw [e1] at hq hxl
    rw [if_pos ⟨rfl, hxl⟩, if_neg (fun e => huv e.1)] at hq
    exact mem_erase_entry_ne _ _ _ (hs v u (Ne.symm huv)) hq (hqy.trans e2)


theorem card_quot_le_of_surj {α β : Type} [Finite α] (s : Setoid α) (t : Setoid β)
    (f : α → β) (hf : Function.Surjective f) (hr : ∀ a b, s.r a b → t.r (f a) (f b)) :
    Nat.card (Quotient t) ≤ Nat.card (Quotient s) := by
  let F : Quotient s → Quotient t :=
    Quotient.lift (fun a => Quotient.mk t (f a)) (fun a b h => Quotient.sound (hr a b h))
  have hF : Function.Surjective F := by
    intro q
    induction q using Quotient.inductionOn with
    | _ b =>
      obtain ⟨a, rfl⟩ := hf b
      exact ⟨Quotient.mk s a, rfl⟩
  exact Finite.card_le_of_surjective F hF

theorem card_quot_lt_of_surj {α β : Type} [Finite α] (s : Setoid α) (t : Setoid β)
    (f : α → β) (hf : Function.Surjective f) (hr : ∀ a b, s.r a b → t.r (f a) (f b))
    (hsep : ∃ a b, t.r (f a) (f b) ∧ ¬ s.r a b) :
    Nat.card (Quotient t) < Nat.card (Quotient s) := by
  let F : Quotient s → Quotient t :=
    Quotient.lift (fun a => Quotient.mk t (f a)) (fun a b h => Quotient.sound (hr a b h))
  have hF : Function.Surjective F := by
    intro q
    induction q using Quotient.inductionOn with
    | _ b =>
      obtain ⟨a, rfl⟩ := hf b
      exact ⟨Quotient.mk s a, rfl⟩
  have hnot : ¬ Function.Injective F := by
    intro hinj
    obtain ⟨a, b, hab, hnab⟩ := hsep
    have : F (Quotient.mk s a) = F (Quotient.mk s b) := Quotient.sound hab
    exact hnab (Quotient.exact (hinj this))
  haveI : Finite β := Finite.of_surjective f hf
  haveI := Fintype.ofFinite (Quotient s)
  haveI := Fintype.ofFinite (Quotient t)
  rw [Nat.card_eq_fintype_card, Nat.card_eq_fintype_card]
  exact Fintype.card_lt_of_surjective_not_injective F hF hnot

theorem EqvGen_remove_iff (g : grafo) (hwf : WF g) (hs : NoParallel g) (u v : Nat)
    (huv : u ≠ v) (a b : Nat) :
    Relation.EqvGen (Adj (remove_edge g u v)) a b ↔ JoinedMinus g u v a b := by
  constructor
  · intro h
    induction h with
    | rel x y h =>
      exact JoinedR_step g _ x y (Adj_remove_edge_sub g u v x y h)
        (Adj_remove_edge_ne g hwf hs u v x y huv h)
    | refl _ => exact Relation.ReflTransGen.refl
    | symm _ _ _ ih => exact JoinedMinus_symm g hwf.sym u v _ _ ih
    | trans _ _ _ _ _ ih1 ih2 => exact JoinedR_trans g _ _ _ _ ih1 ih2
  · intro h
    induction h with
    | refl => exact Relation.EqvGen.refl _
    | tail _ hbc ih =>
      exact Relation.EqvGen.trans _ _ _ ih
        (Relation.EqvGen.rel _ _ (Adj_remove_edge_of g u v _ _ hbc.1 hbc.2.1 hbc.2.2))

theorem EqvGen_remove_sub (g : grafo) (u v : Nat) (a b : Nat)
    (h : Relation.EqvGen (Adj (remove_edge g u v)) a b) : Relation.EqvGen (Adj g) a b := by
  induction h with
  | rel x y h => exact Relation.EqvGen.rel _ _ (Adj_remove_edge_sub g u v x y h)
  | refl _ => exact Relation.EqvGen.refl _
  | symm _ _ _ ih => exact Relation.EqvGen.symm _ _ ih
  | trans _ _ _ _ _ ih1 ih2 => exact Relation.EqvGen.trans _ _ _ ih1 ih2

theorem card_remove_ge (g : grafo) (u v : Nat) :
    Nat.card (Quotient (vertex_setoid g)) ≤
      Nat.card (Quotient (vertex_setoid (remove_edge g u v))) :=
  card_quot_le_of_surj (vertex_setoid (remove_edge g u v)) (vertex_setoid g)
    (fun x => x) (fun x => ⟨x, rfl⟩) (fun a b h => EqvGen_remove_sub g u v a.val b.val h)

theorem card_remove_eq (g : grafo) (u v : Nat)
    (h : ∀ a b, Relation.EqvGen (Adj g) a b → Relation.EqvGen (Adj (remove_edge g u v)) a b) :
    Nat.card (Quotient (vertex_setoid (remove_edge g u v))) =
      Nat.card (Quotient (vertex_setoid g)) := by
  apply Nat.le_antisymm
  · exact card_quot_le_of_surj (vertex_setoid g) (vertex_setoid (remove_edge g u v))
      (fun x => x) (fun x => ⟨x, rfl⟩) (fun a b hab => h a.val b.val hab)
  · exact card_remove_ge g u v

/-- Removing the edge between two adjacent distinct vertices of a graph
without parallel edges raises the component count exactly when the two are
no longer joined. -/
theorem bridge_card_iff (g : grafo) (hwf : WF g) (hs : NoParallel g) (u v : Nat)
    (hu : u < g.n_vertices) (hv : v < g.n_vertices) (huv : u ≠ v) (hadj : Adj g u v) :
    Nat.card (Quotient (vertex_setoid (remove_edge g u v))) >
        Nat.card (Quotient (vertex_setoid g)) ↔
      ¬ JoinedMinus g u v u v := by
  constructor
  · intro hgt hj
    have heq := card_remove_eq g u v (by
      intro a b hab
      rw [EqvGen_remove_iff g hwf hs u v huv]
      have hj2 := (EqvGen_iff_Joined g hwf.sym a b).1 hab
      clear hab
      induction hj2 with
      | refl => exact Relation.ReflTransGen.refl
      | @tail x y _ hbc ih =>
        by_cases e1 : x = u ∧ y = v
        · rw [e1.1] at ih
          rw [e1.2]
          exact JoinedR_trans g _ _ _ _ ih hj
        · by_cases e2 : x = v ∧ y = u
          · rw [e2.1] at ih
            rw [e2.2]
            exact JoinedR_trans g _ _ _ _ ih (JoinedMinus_symm g hwf.sym u v u v hj)
          · exact Relation.ReflTransGen.tail ih ⟨hbc, e1, e2⟩)
    omega
  · intro hnj
    apply card_quot_lt_of_surj (vertex_setoid (remove_edge g u v)) (vertex_setoid g)
      (fun x => x) (fun x => ⟨x, rfl⟩) (fun a b h => EqvGen_remove_sub g u v a.val b.val h)
    refine ⟨⟨u, hu⟩, ⟨v, hv⟩, Relation.EqvGen.rel _ _ hadj, ?_⟩
    intro h
    exact hnj ((EqvGen_remove_iff g hwf hs u v huv u v).1 h)

theorem not_bridge_self (g : grafo) (u : Nat) : ¬ IsBridge g u u := by
  rintro ⟨_, hgt⟩
  have heq := card_remove_eq g u u (by
    intro a b hab
    induction hab with
    | rel x y h =>
      by_cases e : x = u ∧ y = u
      · rw [e.1, e.2]; exact Relation.EqvGen.refl _
      · exact Relation.EqvGen.rel _ _ (Adj_remove_edge_of g u u x y h e e)
    | refl _ => exact Relation.EqvGen.refl _
    | symm _ _ _ ih => exact Relation.EqvGen.symm _ _ ih
    | trans _ _ _ _ _ ih1 ih2 => exact Relation.EqvGen.trans _ _ _ ih1 ih2)
  omega


theorem names_inj (g : grafo) (hwf : WF g) (hn : g.vertices.Nodup) (i j : Nat)
    (hi : i < g.n_vertices) (hj : j < g.n_vertices)
    (h : g.vertices.getD i [] = g.vertices.getD j []) : i = j := by
  have hi2 : i < g.vertices.length := by rw [hwf.len_vertices]; exact hi
  have hj2 : j < g.vertices.length := by rw [hwf.len_vertices]; exact hj
  rw [getD_eq_getElem_lt _ _ _ hi2, getD_eq_getElem_lt _ _ _ hj2] at h
  have := (List.nodup_iff_injective_get.1 hn) h
  exact Fin.mk.inj this

theorem mk_pair_cases (g : grafo) (u v : Nat) :
    mk_pair g u v = ⟨g.vertices.getD u [], g.vertices.getD v []⟩ ∨
    mk_pair g u v = ⟨g.vertices.getD v [], g.vertices.getD u []⟩ := by
  unfold mk_pair
  split
  · exact Or.inl rfl
  · exact Or.inr rfl

theorem mk_pair_inj (g : grafo) (hwf : WF g) (hn : g.vertices.Nodup) (u v a b : Nat)
    (hu : u < g.n_vertices) (hv : v < g.n_vertices) (ha : a < g.n_vertices)
    (hb : b < g.n_vertices) (h : mk_pair g u v = mk_pair g a b) :
    (u = a ∧ v = b) ∨ (u = b ∧ v = a) := by
  have key : ∀ x y z w : Nat, x < g.n_vertices → y < g.n_vertices → z < g.n_vertices →
      w < g.n_vertices →
      (⟨g.vertices.getD x [], g.vertices.getD y []⟩ : edge_pair) =
        ⟨g.vertices.getD z [], g.vertices.getD w []⟩ → x = z ∧ y = w := by
    intro x y z w hx hy hz hw e
    simp only [edge_pair.mk.injEq] at e
    exact ⟨names_inj g hwf hn x z hx hz e.1, names_inj g hwf hn y w hy hw e.2⟩
  rcases mk_pair_cases g u v with e1 | e1 <;> rcases mk_pair_cases g a b with e2 | e2 <;>
    rw [e1, e2] at h
  · exact Or.inl (key u v a b hu hv ha hb h)
  · have := key u v b a hu hv hb ha h
    exact Or.inr this
  · have := key v u a b hv hu ha hb h
    exact Or.inr ⟨this.2, this.1⟩
  · have := key v u b a hv hu hb ha h
    exact Or.inl ⟨this.2, this.1⟩

/-- Cut edges within the capacity of `bridges`: on a well-formed graph of at
most 46341 vertices with distinct vertex names and no parallel edges, the
pair of names of `u` and `v` is among the pairs printed by `arestas_corte`
exactly when `u`-`v` is an edge whose removal raises the number of connected
components. -/
theorem arestas_corte_correct (g : grafo) (hwf : WF g) (hnames : g.vertices.Nodup)
    (hsimple : NoParallel g) (hcap : g.n_vertices ≤ 46341) (t : Int) :
    ∃ pairs, arestas_corte_pairs t g = some pairs ∧
      arestas_corte t g = some (join_sp (pairs.map (fun b => b.u ++ Char.ofNat 32 :: b.v))) ∧
      ∀ u v, u < g.n_vertices → v < g.n_vertices →
        (mk_pair g u v ∈ pairs ↔ IsBridge g u v) := by
  obtain ⟨B, hB, hsound, hcomplete, _⟩ := arestas_corte_found_spec g hwf t
  have hperm := exchange_sort_perm (⟨[], []⟩ : edge_pair) edge_pair_gt B
  have hpairs := arestas_corte_pairs_small g hwf hcap t B hB
  refine ⟨exchange_sort ⟨[], []⟩ edge_pair_gt B, hpairs, ?_, ?_⟩
  · unfold arestas_corte
    rw [hpairs]; rfl
  · intro u v hu hv
    rw [hperm.mem_iff]
    constructor
    · intro hmem
      obtain ⟨a, b, ha, hb, he, hadj, hne, hnj⟩ := hsound _ hmem
      have hcase := mk_pair_inj g hwf hnames u v a b hu hv ha hb he
      have huv : u ≠ v := by
        rcases hcase with ⟨e1, e2⟩ | ⟨e1, e2⟩
        · rw [e1, e2]; exact hne
        · rw [e1, e2]; exact Ne.symm hne
      have hadj2 : Adj g u v := by
        rcases hcase with ⟨e1, e2⟩ | ⟨e1, e2⟩
        · rw [e1, e2]; exact hadj
        · rw [e1, e2]; exact Adj_symm g hwf.sym a b hadj
      have hnj2 : ¬ JoinedMinus g u v u v := by
        rcases hcase with ⟨e1, e2⟩ | ⟨e1, e2⟩
        · rw [e1, e2]; exact hnj
        · rw [e1, e2]
          exact fun hj => hnj (JoinedMinus_flip g hwf.sym b a hj)
      exact ⟨hadj2, (bridge_card_iff g hwf hsimple u v hu hv huv hadj2).2 hnj2⟩
    · intro hbr
      have huv : u ≠ v := by
        intro e
        rw [e] at hbr
        exact not_bridge_self g v hbr
      exact hcomplete u v hu hv hbr.1 huv
        ((bridge_card_iff g hwf hsimple u v hu hv huv hbr.1).1 hbr.2)


theorem NoParallel_of_check (g : grafo) (h : sem_repeticao g = true) : NoParallel g := by
  intro u v _
  have hl : (g.adj.getD u []) = [] ∨ (g.adj.getD u []) ∈ g.adj := by
    by_cases hu : u < g.adj.length
    · right
      rw [getD_eq_getElem_lt _ _ _ hu]
      exact List.get_mem _ _ _
    · left
      exact List.getD_eq_default _ _ (Nat.le_of_not_lt hu)
  rcases hl with hl | hl
  · rw [hl]; simp
  · unfold sem_repeticao at h
    rw [List.all_eq_true] at h
    have hnd := of_decide_eq_true (h _ hl)
    have hc := List.nodup_iff_count_le_one.1 hnd v
    have e : (g.adj.getD u []).countP (fun p => decide (p.v = v)) =
        ((g.adj.getD u []).map (fun p => p.v)).count v := by
      rw [List.count_eq_countP, List.countP_map]
      congr 1
    rw [e]
    exact hc

/-- Cut edges of the path A - B - C: the edge between A and B is a cut edge,
and its pair of names is printed. -/
theorem arestas_corte_correct_witness :
    ∃ g, le_grafo exemplo_caminho = some g ∧
      (IsBridge g 0 1 ∧
        arestas_corte 0 g = some "A B B C".toList) :=
  ⟨grafo_de exemplo_caminho,
    le_grafo_grafo_de exemplo_caminho (by decide),
    (by
      obtain ⟨pairs, hp, _, hiff⟩ :=
        arestas_corte_correct (grafo_de exemplo_caminho) (WF_grafo_de exemplo_caminho)
          (by decide) (NoParallel_of_check _ (by decide)) (by decide) 0
      have hval : arestas_corte_pairs 0 (grafo_de exemplo_caminho) =
          some [⟨"A".toList, "B".toList⟩, ⟨"B".toList, "C".toList⟩] := by decide
      rw [hval] at hp
      have hp2 := Option.some.inj hp
      refine ⟨(hiff 0 1 (by decide) (by decide)).1 ?_, by decide⟩
      rw [← hp2]
      decide)⟩

theorem JoinedAvoid_trans (g : grafo) (u a b c : Nat) (h1 : JoinedAvoid g u a b)
    (h2 : JoinedAvoid g u b c) : JoinedAvoid g u a c :=
  JoinedR_trans g _ a b c h1 h2

/-- If the neighbours of `u` are pairwise joined without `u`, then `u` is not
a cut vertex. -/
theorem not_cut_of_nbrs (g : grafo) (hs : SymAdj g) (u : Nat)
    (h : ∀ y1 y2, Adj g u y1 → Adj g u y2 → y1 ≠ u → y2 ≠ u → JoinedAvoid g u y1 y2) :
    ¬ IsCutVertex g u := by
  rintro ⟨a, b, ha, hb, hj, hnj⟩
  apply hnj
  have key : ∀ z, Joined g a z →
      (z ≠ u → JoinedAvoid g u a z) ∧
      (z = u → ∃ y, Adj g u y ∧ y ≠ u ∧ JoinedAvoid g u a y) := by
    intro z hz
    induction hz with
    | refl =>
      exact ⟨fun _ => Relation.ReflTransGen.refl, fun e => absurd e ha⟩
    | @tail x y _ hxy ih =>
      constructor
      · intro hy
        by_cases hx : x = u
        · obtain ⟨w, hw1, hw2, hw3⟩ := ih.2 hx
          rw [hx] at hxy
          exact JoinedAvoid_trans g u a w y hw3 (h w y hw1 hxy hw2 hy)
        · exact Relation.ReflTransGen.tail (ih.1 hx) ⟨hxy, hx, hy⟩
      · intro hy
        by_cases hx : x = u
        · exact ih.2 hx
        · refine ⟨x, ?_, hx, ih.1 hx⟩
          rw [hy] at hxy
          exact Adj_symm g hs x u hxy
  exact (key b hj).1 hb

/-- Articulation test at a non-root vertex, soundness. -/
theorem ChildCtx.ap_cut_nonroot {g : grafo} {A : List Nat} {c0 : dfs_core} {u : Nat}
    {c : dfs_core} {done : List adj_node} {p : adj_node} {c1 : dfs_core}
    (h : ChildCtx g A c0 u c done p c1) (hwf : WF g) (q : Nat) (hq : A.getLast? = some q)
    (hlow : c1.low.getD p.v 0 ≥ c1.disc.getD u 0) : IsCutVertex g u := by
  have hqA : q ∈ A := getLast_mem_of_some A q hq
  have hqu : q ≠ u := fun e => h.u_not_A (e ▸ hqA)
  refine ⟨p.v, q, fun e => h.u_ne e.symm, hqu, ?_, ?_⟩
  · exact Relation.ReflTransGen.head (Adj_symm g hwf.sym u p.v (Adj_of_mem g u p h.mem))
      (Relation.ReflTransGen.single (Adj_symm g hwf.sym q u (h.loop.edge0 q hq)))
  · intro hj
    have hclosed : ∀ x y, NewV (c.set_parent p.v u) c1 x → Adj g x y →
        (x ≠ u ∧ y ≠ u) → NewV (c.set_parent p.v u) c1 y := by
      intro x y hx hxy hR
      obtain ⟨r, hr, rfl⟩ := hxy
      rcases h.exits hwf x hx r hr with h1 | h1 | ⟨h1, h2⟩
      · exact h1
      · exact absurd h1.2 hR.2
      · exfalso
        rcases List.mem_append.1 h1 with h3 | h3
        · have := h.stack_disc r.v h3
          omega
        · exact hR.2 (List.mem_singleton.1 h3)
    have := JoinedR_closed g _ _ hclosed p.v q ⟨h.post.root, h.nv⟩ hj
    exact this.2 (h.loop.mono q (h.loop.stk0 q hqA))

/-- Articulation test at a non-root vertex, completeness: a subtree whose
low-link is below `disc[u]` reaches the parent of `u` without `u`. -/
theorem ChildCtx.ap_join_nonroot {g : grafo} {A : List Nat} {c0 : dfs_core} {u : Nat}
    {c : dfs_core} {done : List adj_node} {p : adj_node} {c1 : dfs_core}
    (h : ChildCtx g A c0 u c done p c1) (hwf : WF g) (q : Nat) (hq : A.getLast? = some q)
    (hlow : ¬ c1.low.getD p.v 0 ≥ c1.disc.getD u 0) (x : Nat)
    (hx : NewV (c.set_parent p.v u) c1 x) : JoinedAvoid g u x q := by
  have hqA : q ∈ A := getLast_mem_of_some A q hq
  have hpnew : NewV (c.set_parent p.v u) c1 p.v := ⟨h.post.root, h.nv⟩
  have hdc := h.disc_child p.v hpnew
  have hunew : ¬ NewV (c.set_parent p.v u) c1 u := fun hn => hn.2 h.u_vis
  rcases h.post.low2 with h3 | ⟨z, hz, r, hr, _, hrv, he⟩
  · omega
  · have hrold : Vis c.visited r.v := by
      by_contra hn
      have := h.disc_child r.v ⟨hrv, hn⟩
      omega
    have hst := h.target_stack hwf z r.v hz.2 (Adj_of_mem g z r hr) hrold
    have hru : r.v ≠ u := by
      intro e
      rw [e] at he
      omega
    have hrA : r.v ∈ A := by
      rcases List.mem_append.1 hst with h1 | h1
      · exact h1
      · exact absurd (List.mem_singleton.1 h1) hru
    have j1 : JoinedAvoid g u x z :=
      JoinedIn_avoid g _ u hunew x z
        (JoinedR_trans g _ x p.v z (JoinedIn_symm g hwf.sym _ p.v x (h.post.conn x hx))
          (h.post.conn z hz))
    have j2 : JoinedAvoid g u z r.v :=
      JoinedR_step g _ z r.v (Adj_of_mem g z r hr) ⟨fun e => hunew (e ▸ hz), hru⟩
    have j3 : JoinedAvoid g u r.v q :=
      JoinedIn_avoid g _ u h.u_not_A r.v q (h.loop.sconn0 r.v hrA q hqA)
    exact JoinedAvoid_trans g u x z q j1 (JoinedAvoid_trans g u z r.v q j2 j3)

/-- Two vertices of the child's subtree are joined without `u`. -/
theorem ChildCtx.ap_inside {g : grafo} {A : List Nat} {c0 : dfs_core} {u : Nat}
    {c : dfs_core} {done : List adj_node} {p : adj_node} {c1 : dfs_core}
    (h : ChildCtx g A c0 u c done p c1) (hwf : WF g) (x y : Nat)
    (hx : NewV (c.set_parent p.v u) c1 x) (hy : NewV (c.set_parent p.v u) c1 y) :
    JoinedAvoid g u x y :=
  JoinedIn_avoid g _ u (fun hn => hn.2 h.u_vis) x y
    (JoinedR_trans g _ x p.v y (JoinedIn_symm g hwf.sym _ p.v x (h.post.conn x hx))
      (h.post.conn y hy))

/-- A root that starts a further child after some vertex was already reached
is a cut vertex. -/
theorem ap_cut_root (g : grafo) (hwf : WF g) (c0 : dfs_core) (u : Nat) (c : dfs_core)
    (done : List adj_node) (hl : CoreLoop g [] c0 u c done) (p : adj_node)
    (hp : p ∈ g.adj.getD u []) (hnv : ¬ Vis c.visited p.v) (x1 : Nat)
    (hx1 : NewV c0 c x1) (hx1u : x1 ≠ u) : IsCutVertex g u := by
  have hpu : p.v ≠ u := fun e => hnv (e ▸ CoreLoop_u_vis g [] c0 u c done hl)
  refine ⟨x1, p.v, hx1u, hpu, ?_, ?_⟩
  · exact Relation.ReflTransGen.tail
      (Joined_symm g hwf.sym u x1 (JoinedR_joined g _ u x1 (hl.conn x1 hx1)))
      (Adj_of_mem g u p hp)
  · intro hj
    have hclosed : ∀ x y, (Vis c.visited x ∧ x ≠ u) → Adj g x y → (x ≠ u ∧ y ≠ u) →
        (Vis c.visited y ∧ y ≠ u) := by
      intro x y hx hxy hR
      obtain ⟨r, hr, rfl⟩ := hxy
      refine ⟨hl.inv.fin x hx.1 ?_ r hr, hR.2⟩
      intro hm
      rw [List.nil_append, List.mem_singleton] at hm
      exact hx.2 hm
    have := JoinedR_closed g _ (fun x => Vis c.visited x ∧ x ≠ u) hclosed x1 p.v
      ⟨hx1.1, hx1u⟩ hj
    exact hnv this.1


theorem getD_set_bool (l : List Bool) (i j : Nat) (a : Bool) :
    (l.set i a).getD j false = if i = j ∧ i < l.length then a else l.getD j false :=
  getD_set_list l i j a false

theorem parOf_some (A : List Nat) (q : Nat) (h : A.getLast? = some q) :
    parOf A = Int.ofNat q := by
  unfold parOf
  rw [h]

theorem parOf_some_ne (A : List Nat) (q : Nat) (h : A.getLast? = some q) : parOf A ≠ -1 := by
  rw [parOf_some A q h]
  intro e
  have : (0 : Int) ≤ Int.ofNat q := Int.ofNat_nonneg q
  omega

theorem ApLoop_same_vis (g : grafo) (A : List Nat) (c0 : dfs_core) (u : Nat)
    (c c2 : dfs_core) (ap0 ap : List Bool) (k : Nat) (hv : c2.visited = c.visited)
    (h : ApLoop g A c0 u c ap0 ap k) : ApLoop g A c0 u c2 ap0 ap k := by
  have e : NewV c0 c2 = NewV c0 c := by
    funext x
    unfold NewV
    rw [hv]
  exact
    { len := h.len
      frame := by rw [e]; exact h.frame
      desc := by rw [e]; exact h.desc
      old_nbr := h.old_nbr
      unv0 := h.unv0
      par0 := h.par0
      nonroot := by rw [e]; exact h.nonroot
      root := by rw [e]; exact h.root }

theorem ApLoop_enter (g : grafo) (hwf : WF g) (A : List Nat) (c0 : dfs_core) (u : Nat)
    (ap0 : List Bool) (hpre : CorePre g A c0 u) (hlen : ap0.length = g.n_vertices)
    (hunv : ∀ x, ¬ Vis c0.visited x → ap0.getD x false = false) :
    ApLoop g A c0 u (c0.enter u) ap0 ap0 0 where
  len := hlen
  frame := fun _ _ => rfl
  desc := fun x hx hxu => absurd (NewV_enter c0 u x hx) hxu
  old_nbr := by
    intro y hy hadj
    by_contra hn
    obtain ⟨r, hr, hre⟩ := Adj_symm g hwf.sym u y hadj
    have := hpre.inv.fin y hy hn r hr
    rw [hre] at this
    exact hpre.nv this
  unv0 := hunv
  par0 := hpre.par
  nonroot := by
    intro q _
    have hf := hunv u hpre.nv
    constructor
    · intro ht; rw [hf] at ht; cases ht
    · intro _ x hx hxu
      exact absurd (NewV_enter c0 u x hx) hxu
  root := by
    intro _
    have hf := hunv u hpre.nv
    refine ⟨?_, ?_, ?_, ?_, ?_⟩
    · constructor
      · intro ht; rw [hf] at ht; cases ht
      · intro h2; omega
    · intro h2; omega
    · intro _ x y hx _ hxu _
      exact absurd (NewV_enter c0 u x hx) hxu
    · intro _ x hx
      exact NewV_enter c0 u x hx
    · intro h1; omega

theorem ApLoop_exit (g : grafo) (hwf : WF g) (A : List Nat) (c0 : dfs_core) (u : Nat)
    (c : dfs_core) (ap0 ap : List Bool) (k : Nat)
    (hl : CoreLoop g A c0 u c (g.adj.getD u [])) (h : ApLoop g A c0 u c ap0 ap k) :
    ApPost g c0 c ap0 ap where
  len := h.len
  frame := h.frame
  correct := by
    intro x hx
    by_cases hxu : x = u
    · rw [hxu]
      have hnbr : ∀ y, Adj g u y → y ≠ u → Vis c0.visited y ∨ NewV c0 c y := by
        intro y hy _
        obtain ⟨r, hr, rfl⟩ := hy
        by_cases h0 : Vis c0.visited r.v
        · exact Or.inl h0
        · exact Or.inr ⟨hl.done_vis r hr, h0⟩
      cases hA : A.getLast? with
      | some q =>
        have hqA := getLast_mem_of_some A q hA
        obtain ⟨h1, h2⟩ := h.nonroot q hA
        constructor
        · exact h1
        · intro hcut
          by_contra hne
          have hf : ap.getD u false = false := by
            cases hb : ap.getD u false
            · rfl
            · exact absurd hb hne
          have hq : ∀ y, Adj g u y → y ≠ u → JoinedAvoid g u y q := by
            intro y hy hyu
            rcases hnbr y hy hyu with h0 | h0
            · exact JoinedIn_avoid g _ u (fun hm => hl.nv0 (hl.stk0 u hm)) y q
                (hl.sconn0 y (h.old_nbr y h0 hy) q hqA)
            · exact h2 hf y h0 hyu
          exact not_cut_of_nbrs g hwf.sym u
            (fun y1 y2 hy1 hy2 hn1 hn2 =>
              JoinedAvoid_trans g u y1 q y2 (hq y1 hy1 hn1)
                (JoinedAvoid_symm g hwf.sym u y2 q (hq y2 hy2 hn2))) hcut
      | none =>
        have hAnil : A = [] := by
          cases A with
          | nil => rfl
          | cons a t =>
            rw [List.getLast?_eq_getLast (a :: t) (by simp)] at hA
            cases hA
        obtain ⟨h1, h2, h3, _, _⟩ := h.root hAnil
        constructor
        · intro ht
          exact h2 (h1.1 ht)
        · intro hcut
          by_contra hne
          have hk : k ≤ 1 := by
            by_contra hk
            exact hne (h1.2 (by omega))
          have hnew : ∀ y, Adj g u y → y ≠ u → NewV c0 c y := by
            intro y hy hyu
            rcases hnbr y hy hyu with h0 | h0
            · have := h.old_nbr y h0 hy
              rw [hAnil] at this
              cases this
            · exact h0
          exact not_cut_of_nbrs g hwf.sym u
            (fun y1 y2 hy1 hy2 hn1 hn2 =>
              h3 hk y1 y2 (hnew y1 hy1 hn1) (hnew y2 hy2 hn2) hn1 hn2) hcut
    · exact h.desc x hx hxu


theorem ChildCtx.ap_child {g : grafo} {A : List Nat} {c0 : dfs_core} {u : Nat}
    {c : dfs_core} {done : List adj_node} {p : adj_node} {c1 : dfs_core}
    (h : ChildCtx g A c0 u c done p c1) (hwf : WF g) (ap0 ap ap1 : List Bool) (k : Nat)
    (hloop : ApLoop g A c0 u c ap0 ap k)
    (hchild : ApPost g (c.set_parent p.v u) c1 ap ap1)
    (c2 : dfs_core) (hv : c2.visited = c1.visited) :
    ApLoop g A c0 u c2 ap0
      (if (c1.parent.getD u 0 = -1 ∧ k + 1 > 1) ∨
          (c1.parent.getD u 0 ≠ -1 ∧ c1.low.getD p.v 0 ≥ c1.disc.getD u 0)
        then ap1.set u true else ap1) (k + 1) := by
  have hult : u < g.n_vertices := CoreLoop_u_lt g A c0 u c done h.loop
  have hpar : c1.parent.getD u 0 = parOf A := by
    rw [h.par_old u h.u_vis, h.loop.frame_par u (Or.inr (Or.inl rfl))]
    exact hloop.par0
  have hnew2 : ∀ x, NewV c0 c1 x → NewV c0 c2 x := fun x hx => ⟨by rw [hv]; exact hx.1, hx.2⟩
  have hnew2r : ∀ x, NewV c0 c2 x → NewV c0 c1 x := fun x hx => ⟨by rw [← hv]; exact hx.1, hx.2⟩
  have hunew : NewV c0 c1 u := ⟨h.post.mono u h.u_vis, h.loop.nv0⟩
  have huS : ¬ NewV (c.set_parent p.v u) c1 u := fun hn => hn.2 h.u_vis
  have hpnew : NewV (c.set_parent p.v u) c1 p.v := ⟨h.post.root, h.nv⟩
  have hap1u : ap1.getD u false = ap.getD u false := hchild.frame u huS
  generalize hL : (if (c1.parent.getD u 0 = -1 ∧ k + 1 > 1) ∨
          (c1.parent.getD u 0 ≠ -1 ∧ c1.low.getD p.v 0 ≥ c1.disc.getD u 0)
        then ap1.set u true else ap1) = ap2
  have hne : ∀ x, x ≠ u → ap2.getD x false = ap1.getD x false := by
    intro x hx
    rw [← hL]
    split
    · rw [getD_set_bool, if_neg (fun e => hx e.1.symm)]
    · rfl
  have hset : (c1.parent.getD u 0 = -1 ∧ k + 1 > 1) ∨
      (c1.parent.getD u 0 ≠ -1 ∧ c1.low.getD p.v 0 ≥ c1.disc.getD u 0) →
      ap2.getD u false = true := by
    intro hc
    rw [← hL, if_pos hc, getD_set_bool, if_pos ⟨rfl, by rw [hchild.len]; exact hult⟩]
  have hkeep : ¬ ((c1.parent.getD u 0 = -1 ∧ k + 1 > 1) ∨
      (c1.parent.getD u 0 ≠ -1 ∧ c1.low.getD p.v 0 ≥ c1.disc.getD u 0)) →
      ap2.getD u false = ap.getD u false := by
    intro hc
    rw [← hL, if_neg hc, hap1u]
  refine
    { len := ?_, frame := ?_, desc := ?_, old_nbr := hloop.old_nbr, unv0 := hloop.unv0,
      par0 := hloop.par0, nonroot := ?_, root := ?_ }
  · rw [← hL]
    split
    · rw [List.length_set]; exact hchild.len
    · exact hchild.len
  · intro x hx
    have hxu : x ≠ u := fun e => hx (e ▸ hnew2 u hunew)
    rw [hne x hxu, hchild.frame x (fun hn => hx (hnew2 x (h.new_sub x hn)))]
    exact hloop.frame x (fun hn => hx (hnew2 x (h.new_old x hn)))
  · intro x hx hxu
    rw [hne x hxu]
    rcases h.new_cases x (hnew2r x hx) with hx1 | hx1
    · rw [hchild.frame x (fun hn => hn.2 hx1.1)]
      exact hloop.desc x hx1 hxu
    · exact hchild.correct x hx1
  · intro q hq
    have hpne : c1.parent.getD u 0 ≠ -1 := by rw [hpar]; exact parOf_some_ne A q hq
    obtain ⟨h1, h2⟩ := hloop.nonroot q hq
    by_cases hlow : c1.low.getD p.v 0 ≥ c1.disc.getD u 0
    · have ht := hset (Or.inr ⟨hpne, hlow⟩)
      constructor
      · intro _
        exact h.ap_cut_nonroot hwf q hq hlow
      · intro hf
        rw [ht] at hf
        cases hf
    · have hk := hkeep (by
        rintro (⟨e, _⟩ | ⟨_, e⟩)
        · exact hpne e
        · exact hlow e)
      rw [hk]
      constructor
      · exact h1
      · intro hf x hx hxu
        rcases h.new_cases x (hnew2r x hx) with hx1 | hx1
        · exact h2 hf x hx1 hxu
        · exact h.ap_join_nonroot hwf q hq hlow x hx1
  · intro hA
    have hpe : c1.parent.getD u 0 = -1 := by rw [hpar, hA]; rfl
    obtain ⟨h1, h2, h3, h4, h5⟩ := hloop.root hA
    refine ⟨?_, ?_, ?_, ?_, ?_⟩
    · by_cases hk : 1 ≤ k
      · have ht := hset (Or.inl ⟨hpe, by omega⟩)
        constructor
        · intro _; omega
        · intro _; exact ht
      · have hk2 := hkeep (by
          rintro (⟨_, e⟩ | ⟨e, _⟩)
          · omega
          · exact e hpe)
        rw [hk2]
        constructor
        · intro ht
          have := h1.1 ht
          omega
        · intro h2k; omega
    · intro hk
      obtain ⟨x1, hx1, hx1u⟩ := h5 (by omega)
      have hl := h.loop
      rw [hA] at hl
      exact ap_cut_root g hwf c0 u c done hl p h.mem h.nv x1 hx1 hx1u
    · intro hk x y hx hy hxu hyu
      have hk0 : k = 0 := by omega
      have hin : ∀ z, NewV c0 c2 z → z ≠ u → NewV (c.set_parent p.v u) c1 z := by
        intro z hz hzu
        rcases h.new_cases z (hnew2r z hz) with hz1 | hz1
        · exact absurd (h4 hk0 z hz1) hzu
        · exact hz1
      exact h.ap_inside hwf x y (hin x hx hxu) (hin y hy hyu)
    · intro hk; omega
    · intro _
      exact ⟨p.v, hnew2 p.v (h.new_sub p.v hpnew), fun e => h.u_ne e.symm⟩


theorem ap_loop_new (rec : Nat → ap_state → Option ap_state) (u : Nat)
    (p : adj_node) (ps : List adj_node) (k : Nat) (s : ap_state) (h : ¬ Vis s.visited p.v) :
    ap_loop rec u (p :: ps) k s =
      match rec p.v { s with parent := s.parent.set p.v (Int.ofNat u) } with
      | none => none
      | some s1 => ap_loop rec u ps (k + 1) (ap_after_child u p.v k s1) := by
  rw [ap_loop, if_pos (not_vis_cond _ _ h)]
  rfl

theorem ap_loop_back (rec : Nat → ap_state → Option ap_state) (u : Nat)
    (p : adj_node) (ps : List adj_node) (k : Nat) (s : ap_state) (h : Vis s.visited p.v)
    (hpar : Int.ofNat p.v ≠ s.parent.getD u 0) :
    ap_loop rec u (p :: ps) k s =
      ap_loop rec u ps k
        { s with low := s.low.set u (imin (s.low.getD u 0) (s.disc.getD p.v 0)) } := by
  rw [ap_loop, if_neg (vis_cond _ _ h), if_pos hpar]

theorem ap_loop_skip (rec : Nat → ap_state → Option ap_state) (u : Nat)
    (p : adj_node) (ps : List adj_node) (k : Nat) (s : ap_state) (h : Vis s.visited p.v)
    (hpar : ¬ Int.ofNat p.v ≠ s.parent.getD u 0) :
    ap_loop rec u (p :: ps) k s = ap_loop rec u ps k s := by
  rw [ap_loop, if_neg (vis_cond _ _ h), if_neg hpar]

theorem ap_after_child_core (u v k : Nat) (s1 : ap_state) :
    (ap_after_child u v k s1).core =
      s1.core.set_low u (imin (s1.core.low.getD u 0) (s1.core.low.getD v 0)) := by
  unfold ap_after_child
  simp only
  split <;> split <;> rfl

theorem ap_after_child_ap (u v k : Nat) (s1 : ap_state) (hne : v ≠ u) :
    (ap_after_child u v k s1).ap =
      if (s1.core.parent.getD u 0 = -1 ∧ k + 1 > 1) ∨
          (s1.core.parent.getD u 0 ≠ -1 ∧ s1.core.low.getD v 0 ≥ s1.core.disc.getD u 0)
        then s1.ap.set u true else s1.ap := by
  have e : (s1.low.set u (imin (s1.low.getD u 0) (s1.low.getD v 0))).getD v 0 =
      s1.low.getD v 0 := by
    rw [getD_set_list, if_neg (fun h => hne h.1.symm)]
  show _ = if (s1.parent.getD u 0 = -1 ∧ k + 1 > 1) ∨
      (s1.parent.getD u 0 ≠ -1 ∧ s1.low.getD v 0 ≥ s1.disc.getD u 0)
    then s1.ap.set u true else s1.ap
  unfold ap_after_child
  simp only
  by_cases h1 : s1.parent.getD u 0 = -1 ∧ k + 1 > 1
  · have h2 : ¬ (s1.parent.getD u 0 ≠ -1 ∧ s1.low.getD v 0 ≥ s1.disc.getD u 0) :=
      fun hh => hh.1 h1.1
    rw [if_pos h1, if_pos (Or.inl h1)]
    simp only [e]
    rw [if_neg h2]
  · rw [if_neg h1]
    simp only [e]
    by_cases h2 : s1.parent.getD u 0 ≠ -1 ∧ s1.low.getD v 0 ≥ s1.disc.getD u 0
    · rw [if_pos h2, if_pos (Or.inr h2)]
    · rw [if_neg h2, if_neg (fun hh => hh.elim h1 h2)]

theorem ap_dfs_succ (g : grafo) (fuel u : Nat) (s : ap_state) :
    ap_dfs g (fuel + 1) u s =
      ap_loop (ap_dfs g fuel) u (g.adj.getD u []) 0
        { s with visited := s.visited.set u true, time := s.time + 1,
                 disc := s.disc.set u (s.time + 1), low := s.low.set u (s.time + 1) } := rfl

theorem ap_dfs_spec (g : grafo) (hwf : WF g) (fuel : Nat) :
    ∀ (A : List Nat) (u : Nat) (s : ap_state), CorePre g A s.core u →
      s.ap.length = g.n_vertices →
      (∀ x, ¬ Vis s.visited x → s.ap.getD x false = false) →
      (unvisited g.n_vertices s.visited).card ≤ fuel →
      ∃ s2, ap_dfs g fuel u s = some s2 ∧ CorePost g A s.core u s2.core ∧
        ApPost g s.core s2.core s.ap s2.ap := by
  induction fuel with
  | zero =>
    intro A u s hpre _ _ hcard
    have := CorePre_unvisited_pos g A s.core u hpre
    have e : s.core.visited = s.visited := rfl
    rw [e] at this
    omega
  | succ fuel ih =>
    intro A u s hpre hlen hunv hcard
    rw [ap_dfs_succ]
    have loop : ∀ (ps done : List adj_node) (k : Nat) (s1 : ap_state),
        g.adj.getD u [] = done ++ ps → CoreLoop g A s.core u s1.core done →
        ApLoop g A s.core u s1.core s.ap s1.ap k →
        (unvisited g.n_vertices s1.visited).card ≤ fuel →
        ∃ s2 k2, ap_loop (ap_dfs g fuel) u ps k s1 = some s2 ∧
          CoreLoop g A s.core u s2.core (g.adj.getD u []) ∧
          ApLoop g A s.core u s2.core s.ap s2.ap k2 := by
      intro ps
      induction ps with
      | nil =>
        intro done k s1 hsplit hl hap _
        rw [List.append_nil] at hsplit
        rw [hsplit]
        exact ⟨s1, k, rfl, hl, hap⟩
      | cons p ps ihps =>
        intro done k s1 hsplit hl hap hc1
        have hsplit2 : g.adj.getD u [] = (done ++ [p]) ++ ps := by
          rw [hsplit, List.append_assoc]; rfl
        have hpu : p ∈ g.adj.getD u [] := by
          rw [hsplit]; exact List.mem_append_right _ (List.mem_cons_self _ _)
        by_cases hv : Vis s1.visited p.v
        · by_cases hpar : Int.ofNat p.v ≠ s1.parent.getD u 0
          · rw [ap_loop_back _ u p ps k s1 hv hpar]
            have hl2 := core_back g A s.core u s1.core done hl p hpu hv hpar
            exact ihps (done ++ [p]) k _ hsplit2 hl2
              (ApLoop_same_vis g A s.core u s1.core _ s.ap s1.ap k rfl hap) hc1
          · rw [ap_loop_skip _ u p ps k s1 hv hpar]
            exact ihps (done ++ [p]) k s1 hsplit2
              (core_skip g A s.core u s1.core done hl p hv hpar) hap hc1
        · rw [ap_loop_new _ u p ps k s1 hv]
          have hpre2 := core_child_pre g hwf A s.core u s1.core done hl p hpu hv
          have hunv1 : ∀ x, ¬ Vis s1.visited x → s1.ap.getD x false = false := by
            intro x hx
            rw [hap.frame x (fun hn => hx hn.1)]
            exact hunv x (fun h0 => hx (hl.mono x h0))
          obtain ⟨sa, ha, hposta, hapa⟩ :=
            ih (A ++ [u]) p.v { s1 with parent := s1.parent.set p.v (Int.ofNat u) } hpre2
              hap.len hunv1 hc1
          rw [ha]
          have hctx : ChildCtx g A s.core u s1.core done p sa.core := ⟨hl, hpu, hv, hposta⟩
          have hl2 := core_child_post g hwf A s.core u s1.core done p sa.core hctx
          rw [← ap_after_child_core u p.v k sa] at hl2
          have hap2 := hctx.ap_child hwf s.ap s1.ap sa.ap k hap hapa
            (ap_after_child u p.v k sa).core (by rw [ap_after_child_core]; rfl)
          rw [← ap_after_child_ap u p.v k sa (fun e => hctx.u_ne e.symm)] at hap2
          have hc2 : (unvisited g.n_vertices (ap_after_child u p.v k sa).visited).card
              ≤ fuel := by
            have e : (ap_after_child u p.v k sa).visited = sa.visited :=
              congrArg dfs_core.visited (ap_after_child_core u p.v k sa)
            rw [e]
            exact le_trans (Finset.card_le_card
              (unvisited_mono _ _ _ (fun x hx => hposta.mono x hx))) hc1
          exact ihps (done ++ [p]) (k + 1) _ hsplit2 hl2 hap2 hc2
    have hl0 := core_enter g hwf A s.core u hpre
    have hcard0 : (unvisited g.n_vertices (s.visited.set u true)).card ≤ fuel := by
      have := unvisited_set_card g.n_vertices s.visited u hpre.lt hpre.inv.len_vis hpre.nv
      omega
    have hap0 := ApLoop_enter g hwf A s.core u s.ap hpre hlen hunv
    obtain ⟨s2, k2, h2, hl2, hap2⟩ := loop (g.adj.getD u []) [] 0
      { s with visited := s.visited.set u true, time := s.time + 1,
               disc := s.disc.set u (s.time + 1), low := s.low.set u (s.time + 1) }
      rfl hl0 hap0 hcard0
    exact ⟨s2, h2, core_exit g A s.core u s2.core hl2,
      ApLoop_exit g hwf A s.core u s2.core s.ap s2.ap k2 hl2 hap2⟩


theorem ApTop_init (g : grafo) (t : Int) : ApTop g (ap_init g t) where
  inv :=
    { len_vis := by simp [ap_init, ap_state.core]
      len_disc := by simp [ap_init, ap_state.core]
      len_low := by simp [ap_init, ap_state.core]
      len_par := by simp [ap_init, ap_state.core]
      fin := fun x hx => absurd hx (Vis_replicate_false _ _)
      stk := fun a ha => by cases ha
      dsc := fun x hx => absurd hx (Vis_replicate_false _ _) }
  unv_par := by
    intro x hx _
    show (List.replicate g.n_vertices (-1 : Int)).getD x 0 = -1
    rw [List.getD_eq_getElem?_getD, List.getElem?_replicate, if_pos hx]
    rfl
  len := by simp [ap_init]
  unv_ap := by
    intro x _
    have := Vis_replicate_false g.n_vertices x
    unfold Vis at this
    show (List.replicate g.n_vertices false).getD x false = false
    cases hb : (List.replicate g.n_vertices false).getD x false
    · rfl
    · exact absurd hb this
  correct := fun x hx => absurd hx (Vis_replicate_false _ _)

theorem ApTop_step (g : grafo) (s s2 : ap_state) (htop : ApTop g s)
    (i : Nat) (hpost : CorePost g [] s.core i s2.core)
    (hap : ApPost g s.core s2.core s.ap s2.ap) : ApTop g s2 where
  inv := hpost.inv
  unv_par := by
    intro x hx hnx
    have e : s2.parent.getD x 0 = s.parent.getD x 0 := hpost.frame_par x (Or.inr (Or.inr hnx))
    rw [e]
    exact htop.unv_par x hx (fun h => hnx (hpost.mono x h))
  len := hap.len
  unv_ap := by
    intro x hx
    rw [hap.frame x (fun hn => hx hn.1)]
    exact htop.unv_ap x (fun h => hx (hpost.mono x h))
  correct := by
    intro x hx
    by_cases h0 : Vis s.visited x
    · rw [hap.frame x (fun hn => hn.2 h0)]
      exact htop.correct x h0
    · exact hap.correct x ⟨hx, h0⟩

theorem ap_roots_spec (g : grafo) (hwf : WF g) :
    ∀ (is : List Nat) (s : ap_state), (∀ i ∈ is, i < g.n_vertices) → ApTop g s →
      ∃ s2, ap_roots g is s = some s2 ∧ ApTop g s2 ∧
        (∀ x, Vis s.visited x → Vis s2.visited x) ∧ ∀ i ∈ is, Vis s2.visited i := by
  intro is
  induction is with
  | nil =>
    intro s _ htop
    exact ⟨s, rfl, htop, fun x hx => hx, fun i hi => (by cases hi)⟩
  | cons i is ih =>
    intro s hlt htop
    have hlt2 : ∀ j ∈ is, j < g.n_vertices := fun j hj => hlt j (List.mem_cons_of_mem _ hj)
    have hi : i < g.n_vertices := hlt i (List.mem_cons_self _ _)
    unfold ap_roots
    rw [List.foldlM_cons]
    by_cases hvi : s.visited.getD i false = true
    · obtain ⟨s2, h2, htop2, hmono, hall⟩ := ih s hlt2 htop
      refine ⟨s2, ?_, htop2, hmono, ?_⟩
      · rw [if_pos hvi]
        exact h2
      · intro j hj
        rcases List.mem_cons.1 hj with rfl | hj
        · exact hmono _ hvi
        · exact hall j hj
    · have hpre : CorePre g [] s.core i :=
        { inv := htop.inv
          sconn := StackConn_nil g
          lt := hi
          nv := hvi
          par := htop.unv_par i hi hvi
          edge := fun q hq => by cases hq }
      obtain ⟨sa, ha, hposta, hapa⟩ :=
        ap_dfs_spec g hwf g.n_vertices [] i s hpre htop.len htop.unv_ap
          (unvisited_card_le _ _)
      have htopa := ApTop_step g s sa htop i hposta hapa
      obtain ⟨s2, h2, htop2, hmono, hall⟩ := ih sa hlt2 htopa
      refine ⟨s2, ?_, htop2, fun x hx => hmono x (hposta.mono x hx), ?_⟩
      · rw [if_neg hvi, ha]
        exact h2
      · intro j hj
        rcases List.mem_cons.1 hj with rfl | hj
        · exact hmono _ hposta.root
        · exact hall j hj

/-- The flags computed by `vertices_corte`: the flag of a vertex is set
exactly when the vertex separates two other vertices. -/
theorem vertices_corte_ap_spec (g : grafo) (hwf : WF g) (t : Int) :
    ∃ ap, vertices_corte_ap t g = some ap ∧
      ∀ x, x < g.n_vertices → (ap.getD x false = true ↔ IsCutVertex g x) := by
  obtain ⟨s2, h2, htop, _, hall⟩ :=
    ap_roots_spec g hwf (List.range g.n_vertices) (ap_init g t)
      (fun i hi => List.mem_range.1 hi) (ApTop_init g t)
  refine ⟨s2.ap, ?_, fun x hx => htop.correct x (hall x (List.mem_range.2 hx))⟩
  unfold vertices_corte_ap
  rw [h2]; rfl


theorem EqvGen_avoid_iff (g : grafo) (hs : SymAdj g) (u a b : Nat) :
    Relation.EqvGen (fun x y => Adj g x y ∧ x ≠ u ∧ y ≠ u) a b ↔ JoinedAvoid g u a b := by
  constructor
  · intro h
    induction h with
    | rel x y h => exact Relation.ReflTransGen.single h
    | refl _ => exact Relation.ReflTransGen.refl
    | symm _ _ _ ih => exact JoinedAvoid_symm g hs u _ _ ih
    | trans _ _ _ _ _ ih1 ih2 => exact JoinedAvoid_trans g u _ _ _ ih1 ih2
  · intro h
    induction h with
    | refl => exact Relation.EqvGen.refl _
    | tail _ hbc ih => exact Relation.EqvGen.trans _ _ _ ih (Relation.EqvGen.rel _ _ hbc)

theorem Joined_lt (g : grafo) (hwf : WF g) (a b : Nat) (h : Joined g a b) :
    a = b ∨ (a < g.n_vertices ∧ b < g.n_vertices) := by
  induction h with
  | refl => exact Or.inl rfl
  | @tail x y _ hxy ih =>
    obtain ⟨q, hq, rfl⟩ := hxy
    have hx := adj_getD_lt g hwf x q hq
    have hy := hwf.in_range x q hq
    rcases ih with e | ⟨h1, _⟩
    · right; rw [e]; exact ⟨hx, hy⟩
    · right; exact ⟨h1, hy⟩

theorem Joined_avoid_or (g : grafo) (u a z : Nat) (h : Joined g a z) :
    JoinedAvoid g u a z ∨ Joined g a u := by
  induction h with
  | refl => exact Or.inl Relation.ReflTransGen.refl
  | @tail x y hax hxy ih =>
    rcases ih with h1 | h1
    · by_cases hx : x = u
      · right; rw [← hx]; exact hax
      · by_cases hy : y = u
        · right; rw [← hy]; exact Relation.ReflTransGen.tail hax hxy
        · left; exact Relation.ReflTransGen.tail h1 ⟨hxy, hx, hy⟩
    · exact Or.inr h1

theorem card_quot_lt_of_cover {α β : Type} [Finite α] [Finite β] (s : Setoid α)
    (t : Setoid β) (f : α → β) (hf : ∀ b, ∃ a, t.r (f a) b)
    (hr : ∀ a b, s.r a b → t.r (f a) (f b))
    (hsep : ∃ a b, t.r (f a) (f b) ∧ ¬ s.r a b) :
    Nat.card (Quotient t) < Nat.card (Quotient s) := by
  let F : Quotient s → Quotient t :=
    Quotient.lift (fun a => Quotient.mk t (f a)) (fun a b h => Quotient.sound (hr a b h))
  have hF : Function.Surjective F := by
    intro q
    induction q using Quotient.inductionOn with
    | _ b =>
      obtain ⟨a, ha⟩ := hf b
      exact ⟨Quotient.mk s a, Quotient.sound ha⟩
  have hnot : ¬ Function.Injective F := by
    intro hinj
    obtain ⟨a, b, hab, hnab⟩ := hsep
    have : F (Quotient.mk s a) = F (Quotient.mk s b) := Quotient.sound hab
    exact hnab (Quotient.exact (hinj this))
  haveI := Fintype.ofFinite (Quotient s)
  haveI := Fintype.ofFinite (Quotient t)
  rw [Nat.card_eq_fintype_card, Nat.card_eq_fintype_card]
  exact Fintype.card_lt_of_surjective_not_injective F hF hnot

/-- Counting form of the cut-vertex property. -/
theorem articulation_iff_cut (g : grafo) (hwf : WF g) (u : Nat) :
    IsArticulation g u ↔ IsCutVertex g u := by
  have hr : ∀ a b : {x : Fin g.n_vertices // x.val ≠ u},
      (avoid_setoid g u).r a b → (vertex_setoid g).r a.val b.val := by
    intro a b h
    have : JoinedAvoid g u a.val.val b.val.val := (EqvGen_avoid_iff g hwf.sym u _ _).1 h
    exact (EqvGen_iff_Joined g hwf.sym _ _).2 (JoinedR_joined g _ _ _ this)
  constructor
  · intro hart
    by_contra hnc
    let F : Quotient (avoid_setoid g u) → Quotient (vertex_setoid g) :=
      Quotient.lift (fun a => Quotient.mk (vertex_setoid g) a.val)
        (fun a b h => Quotient.sound (hr a b h))
    have hinj : Function.Injective F := by
      intro qa qb
      induction qa using Quotient.inductionOn with
      | _ a =>
        induction qb using Quotient.inductionOn with
        | _ b =>
          intro hab
          apply Quotient.sound
          have h1 : Relation.EqvGen (Adj g) a.val.val b.val.val := Quotient.exact hab
          have h2 := (EqvGen_iff_Joined g hwf.sym _ _).1 h1
          show Relation.EqvGen (fun x y => Adj g x y ∧ x ≠ u ∧ y ≠ u) a.val.val b.val.val
          rw [EqvGen_avoid_iff g hwf.sym]
          by_contra hnj
          exact hnc ⟨a.val.val, b.val.val, a.property, b.property, h2, hnj⟩
    have := Finite.card_le_of_injective F hinj
    unfold IsArticulation at hart
    omega
  · rintro ⟨a, b, ha, hb, hj, hnj⟩
    have hab : a ≠ b := by
      intro e
      rw [e] at hnj
      exact hnj Relation.ReflTransGen.refl
    have hlt : a < g.n_vertices ∧ b < g.n_vertices := by
      rcases Joined_lt g hwf a b hj with e | h
      · exact absurd e hab
      · exact h
    have hau : Joined g a u := by
      rcases Joined_avoid_or g u a b hj with h | h
      · exact absurd h hnj
      · exact h
    apply card_quot_lt_of_cover (avoid_setoid g u) (vertex_setoid g)
      (fun x => x.val) ?_ hr
    · refine ⟨⟨⟨a, hlt.1⟩, ha⟩, ⟨⟨b, hlt.2⟩, hb⟩, ?_, ?_⟩
      · exact (EqvGen_iff_Joined g hwf.sym _ _).2 hj
      · intro h
        exact hnj ((EqvGen_avoid_iff g hwf.sym u _ _).1 h)
    · intro x
      by_cases hx : x.val = u
      · refine ⟨⟨⟨a, hlt.1⟩, ha⟩, ?_⟩
        show Relation.EqvGen (Adj g) a x.val
        rw [hx]
        exact (EqvGen_iff_Joined g hwf.sym _ _).2 hau
      · exact ⟨⟨x, hx⟩, Relation.EqvGen.refl _⟩


theorem INF_val : INF = 1073741823 := by decide

theorem add32_eq (a b : Int) (h0 : 0 ≤ a + b) (h1 : a + b < 2147483648) :
    add32 a b = a + b := by
  unfold add32
  omega

/-- Result of the selection loop of `dijkstra`. -/
theorem dijkstra_min_spec (dist : List Int) (vis : List Bool) (n : Nat) :
    (dijkstra_min dist vis n).1 = none ∧
        (∀ y, y < n → ¬ Vis vis y → INF ≤ dist.getD y 0) ∨
    ∃ u, (dijkstra_min dist vis n).1 = some u ∧ u < n ∧ ¬ Vis vis u ∧ dist.getD u 0 < INF ∧
      ∀ y, y < n → ¬ Vis vis y → dist.getD u 0 ≤ dist.getD y 0 := by
  unfold dijkstra_min
  induction n with
  | zero =>
    left
    exact ⟨rfl, fun y hy => absurd hy (Nat.not_lt_zero _)⟩
  | succ n ih =>
    rw [List.range_succ, List.foldl_append, List.foldl_cons, List.foldl_nil]
    generalize hst : (List.range n).foldl
      (fun (um : Option Nat × Int) j =>
        if !vis.getD j false && dist.getD j 0 < um.2 then (some j, dist.getD j 0) else um)
      (none, INF) = st at ih
    have hsnd : (st.1 = none → st.2 = INF) ∧ (∀ u, st.1 = some u → st.2 = dist.getD u 0) := by
      rw [← hst]
      clear hst ih
      induction n with
      | zero => exact ⟨fun _ => rfl, fun u hu => (by cases hu)⟩
      | succ m ihm =>
        rw [List.range_succ, List.foldl_append, List.foldl_cons, List.foldl_nil]
        split
        · exact ⟨fun h => (by cases h), fun u hu => (by rw [← Option.some.inj hu])⟩
        · exact ihm
    by_cases hc : (!vis.getD n false && decide (dist.getD n 0 < st.2)) = true
    · rw [if_pos hc]
      right
      simp only [Bool.and_eq_true, Bool.not_eq_true', decide_eq_true_eq] at hc
      have hnv : ¬ Vis vis n := by unfold Vis; rw [hc.1]; decide
      have hle : st.2 ≤ INF := by
        rcases ih with ⟨h1, _⟩ | ⟨u, h1, _, _, h4, _⟩
        · rw [hsnd.1 h1]
        · rw [hsnd.2 u h1]; omega
      refine ⟨n, rfl, Nat.lt_succ_self n, hnv, by omega, ?_⟩
      intro y hy hyv
      rcases Nat.lt_succ_iff_lt_or_eq.1 hy with hy1 | hy1
      · rcases ih with ⟨h1, h2⟩ | ⟨u, h1, _, _, _, h5⟩
        · have := h2 y hy1 hyv
          rw [hsnd.1 h1] at hc
          omega
        · have := h5 y hy1 hyv
          rw [hsnd.2 u h1] at hc
          omega
      · rw [hy1]
    · rw [if_neg hc]
      have hn : Vis vis n ∨ st.2 ≤ dist.getD n 0 := by
        simp only [Bool.and_eq_true, Bool.not_eq_true', decide_eq_true_eq, not_and,
          not_lt] at hc
        by_cases hv : vis.getD n false = false
        · exact Or.inr (hc hv)
        · left
          unfold Vis
          cases hb : vis.getD n false
          · exact absurd hb hv
          · rfl
      rcases ih with ⟨h1, h2⟩ | ⟨u, h1, h2, h3, h4, h5⟩
      · left
        refine ⟨h1, ?_⟩
        intro y hy hyv
        rcases Nat.lt_succ_iff_lt_or_eq.1 hy with hy1 | hy1
        · exact h2 y hy1 hyv
        · rw [hy1] at hyv ⊢
          rcases hn with hn | hn
          · exact absurd hn hyv
          · rw [hsnd.1 h1] at hn
            exact hn
      · right
        refine ⟨u, h1, Nat.lt_succ_of_lt h2, h3, h4, ?_⟩
        intro y hy hyv
        rcases Nat.lt_succ_iff_lt_or_eq.1 hy with hy1 | hy1
        · exact h5 y hy1 hyv
        · rw [hy1] at hyv ⊢
          rcases hn with hn | hn
          · exact absurd hn hyv
          · rw [hsnd.2 u h1] at hn
            exact hn


theorem dijkstra_relax_cons (u : Nat) (p : adj_node) (ps : List adj_node) (dist : List Int) :
    dijkstra_relax u (p :: ps) dist = dijkstra_relax u ps
      (if add32 (dist.getD u 0) p.weight < dist.getD p.v 0
       then dist.set p.v (add32 (dist.getD u 0) p.weight) else dist) := rfl

theorem dijkstra_relax_spec (u : Nat) (du : Int) (hdu0 : 0 ≤ du) (hdu : du < INF) :
    ∀ (ps : List adj_node) (dist : List Int), dist.getD u 0 = du →
      (∀ p ∈ ps, 0 ≤ p.weight ∧ p.weight < INF ∧ p.v < dist.length) →
      (∀ y, 0 ≤ dist.getD y 0) →
      RelaxPost u du ps dist (dijkstra_relax u ps dist) := by
  intro ps
  induction ps with
  | nil =>
    intro dist hu _ h0
    exact
      { len := rfl
        keep := hu
        le := fun _ => le_refl _
        ge := fun _ h => h
        nonneg := h0
        src := fun _ => Or.inl rfl
        done := fun p hp => by cases hp }
  | cons p ps ih =>
    intro dist hu hps h0
    have hp := hps p (List.mem_cons_self _ _)
    have hadd : add32 (dist.getD u 0) p.weight = du + p.weight := by
      rw [hu]
      apply add32_eq
      · omega
      · have := INF_val
        omega
    rw [dijkstra_relax_cons, hadd]
    by_cases hc : du + p.weight < dist.getD p.v 0
    · rw [if_pos hc]
      have hne : p.v ≠ u := by
        intro e
        rw [e, hu] at hc
        omega
      have hu2 : (dist.set p.v (du + p.weight)).getD u 0 = du := by
        rw [getD_set_list, if_neg (fun h => hne h.1)]
        exact hu
      have hget : ∀ y, (dist.set p.v (du + p.weight)).getD y 0 =
          if p.v = y then du + p.weight else dist.getD y 0 := by
        intro y
        rw [getD_set_list]
        by_cases e : p.v = y
        · rw [if_pos ⟨e, hp.2.2⟩, if_pos e]
        · rw [if_neg (fun h => e h.1), if_neg e]
      have h := ih (dist.set p.v (du + p.weight)) hu2
        (fun q hq => by
          have := hps q (List.mem_cons_of_mem _ hq)
          rw [List.length_set]
          exact this)
        (fun y => by
          rw [hget]
          split
          · omega
          · exact h0 y)
      exact
        { len := by rw [h.len, List.length_set]
          keep := h.keep
          le := by
            intro y
            have h1 := h.le y
            rw [hget] at h1
            split at h1
            · rename_i e
              subst e
              omega
            · exact h1
          ge := by
            intro y hy
            apply h.ge y
            rw [hget]
            split
            · omega
            · exact hy
          nonneg := h.nonneg
          src := by
            intro y
            rcases h.src y with h1 | ⟨q, hq, h2, h3⟩
            · rw [hget] at h1
              split at h1
              · rename_i e
                exact Or.inr ⟨p, List.mem_cons_self _ _, e, h1⟩
              · exact Or.inl h1
            · exact Or.inr ⟨q, List.mem_cons_of_mem _ hq, h2, h3⟩
          done := by
            intro q hq
            rcases List.mem_cons.1 hq with e | hq
            · rw [e]
              have h1 := h.le p.v
              rw [hget, if_pos rfl] at h1
              exact h1
            · exact h.done q hq }
    · rw [if_neg hc]
      have h := ih dist hu (fun q hq => hps q (List.mem_cons_of_mem _ hq)) h0
      exact
        { len := h.len
          keep := h.keep
          le := h.le
          ge := h.ge
          nonneg := h.nonneg
          src := by
            intro y
            rcases h.src y with h1 | ⟨q, hq, h2, h3⟩
            · exact Or.inl h1
            · exact Or.inr ⟨q, List.mem_cons_of_mem _ hq, h2, h3⟩
          done := by
            intro q hq
            rcases List.mem_cons.1 hq with e | hq
            · rw [e]
              have h1 := h.le p.v
              omega
            · exact h.done q hq }


theorem getD_replicate_int (n x : Nat) (a : Int) :
    (List.replicate n a).getD x 0 = if x < n then a else 0 := by
  rw [List.getD_eq_getElem?_getD, List.getElem?_replicate]
  split <;> rfl

theorem DInv_init (g : grafo) (src : Nat) (hsrc : src < g.n_vertices) :
    DInv g src ((List.replicate g.n_vertices INF).set src 0)
      (List.replicate g.n_vertices false) := by
  have hget : ∀ x, ((List.replicate g.n_vertices INF).set src 0).getD x 0 =
      if src = x then 0 else if x < g.n_vertices then INF else 0 := by
    intro x
    rw [getD_set_list, getD_replicate_int, List.length_replicate]
    by_cases e : src = x
    · rw [if_pos ⟨e, hsrc⟩, if_pos e]
    · rw [if_neg (fun h => e h.1), if_neg e]
  have hINF := INF_val
  exact
    { len_dist := by rw [List.length_set, List.length_replicate]
      len_vis := List.length_replicate _ _
      range := by
        intro x
        rw [hget]
        split
        · omega
        · split <;> omega
      src0 := by rw [hget, if_pos rfl]
      edge := fun x hx => absurd hx (Vis_replicate_false _ _)
      order := fun x hx => absurd hx (Vis_replicate_false _ _)
      real := by
        intro x hx
        rw [hget]
        by_cases e : src = x
        · right
          rw [if_pos e, ← e]
          exact WalkW.nil src
        · left
          rw [if_neg e, if_pos hx] }

theorem DInv_step (g : grafo) (hwf : WF g) (hnn : NonNeg g)
    (hw : ∀ u p, p ∈ g.adj.getD u [] → p.weight < INF) (src : Nat)
    (dist : List Int) (vis : List Bool) (u : Nat) (hinv : DInv g src dist vis)
    (hu : u < g.n_vertices) (hnv : ¬ Vis vis u) (hdu : dist.getD u 0 < INF)
    (hmin : ∀ y, y < g.n_vertices → ¬ Vis vis y → dist.getD u 0 ≤ dist.getD y 0) :
    DInv g src (dijkstra_relax u (g.adj.getD u []) dist) (vis.set u true) := by
  have hr := dijkstra_relax_spec u (dist.getD u 0) (hinv.range u).1 hdu (g.adj.getD u []) dist rfl
    (fun p hp => ⟨hnn u p hp, hw u p hp, by rw [hinv.len_dist]; exact hwf.in_range u p hp⟩)
    (fun y => (hinv.range y).1)
  have hlow : ∀ y, dist.getD u 0 ≤ dist.getD y 0 →
      (dijkstra_relax u (g.adj.getD u []) dist).getD y 0 = dist.getD y 0 ∨
      dist.getD u 0 ≤ (dijkstra_relax u (g.adj.getD u []) dist).getD y 0 := by
    intro y hy
    exact Or.inr (hr.ge y hy)
  have hold : ∀ x, Vis vis x →
      (dijkstra_relax u (g.adj.getD u []) dist).getD x 0 = dist.getD x 0 := by
    intro x hx
    have h1 := hr.le x
    have h2 := hinv.order x hx u hu hnv
    rcases hr.src x with h3 | ⟨p, hp, _, h3⟩
    · exact h3
    · have := hnn u p hp
      omega
  have hvis : ∀ x, Vis (vis.set u true) x ↔ x = u ∨ Vis vis x := by
    intro x
    rw [Vis_set]
    constructor
    · rintro (⟨e, _⟩ | h)
      · exact Or.inl e.symm
      · exact Or.inr h
    · rintro (e | h)
      · exact Or.inl ⟨e.symm, by rw [hinv.len_vis]; exact hu⟩
      · exact Or.inr h
  exact
    { len_dist := by rw [hr.len, hinv.len_dist]
      len_vis := by rw [List.length_set, hinv.len_vis]
      range := fun x => ⟨hr.nonneg x, le_trans (hr.le x) (hinv.range x).2⟩
      src0 := by
        have h1 := hr.le src
        have h2 := hr.nonneg src
        have h3 := hinv.src0
        omega
      edge := by
        intro x hx p hp
        rcases (hvis x).1 hx with e | hx
        · rw [e] at hp ⊢
          rw [hr.keep]
          exact hr.done p hp
        · rw [hold x hx]
          exact le_trans (hr.le p.v) (hinv.edge x hx p hp)
      order := by
        intro x hx y hy hny
        have hny2 : ¬ Vis vis y := fun h => hny ((hvis y).2 (Or.inr h))
        have hyu : dist.getD u 0 ≤ (dijkstra_relax u (g.adj.getD u []) dist).getD y 0 :=
          hr.ge y (hmin y hy hny2)
        rcases (hvis x).1 hx with e | hx
        · rw [e, hr.keep]
          exact hyu
        · rw [hold x hx]
          exact le_trans (hinv.order x hx u hu hnv) hyu
      real := by
        intro x hx
        rcases hr.src x with h3 | ⟨p, hp, e, h3⟩
        · rw [h3]
          exact hinv.real x hx
        · right
          rw [h3, ← e]
          rcases hinv.real u hu with h4 | h4
          · omega
          · exact WalkW.snoc p h4 hp }

theorem dijkstra_loop_spec (g : grafo) (hwf : WF g) (hnn : NonNeg g)
    (hw : ∀ u p, p ∈ g.adj.getD u [] → p.weight < INF) (src : Nat) :
    ∀ (k : Nat) (dist : List Int) (vis : List Bool), DInv g src dist vis →
      (unvisited g.n_vertices vis).card ≤ k →
      ∃ vis2, DInv g src (dijkstra_loop g k dist vis) vis2 ∧
        ∀ y, y < g.n_vertices → ¬ Vis vis2 y → INF ≤ (dijkstra_loop g k dist vis).getD y 0 := by
  intro k
  induction k with
  | zero =>
    intro dist vis hinv hcard
    refine ⟨vis, hinv, ?_⟩
    intro y hy hny
    exfalso
    have hmem : y ∈ unvisited g.n_vertices vis := by
      simp only [unvisited, Finset.mem_filter, Finset.mem_range]
      refine ⟨hy, ?_⟩
      unfold Vis at hny
      simpa using hny
    have := Finset.card_pos.2 ⟨y, hmem⟩
    omega
  | succ k ih =>
    intro dist vis hinv hcard
    rcases dijkstra_min_spec dist vis g.n_vertices with ⟨hnone, hall⟩ | ⟨u, hsome, hu, hnv, hdu, hmin⟩
    · refine ⟨vis, ?_, ?_⟩
      · rw [dijkstra_loop, hnone]
        exact hinv
      · rw [dijkstra_loop, hnone]
        exact hall
    · rw [dijkstra_loop, hsome]
      apply ih _ _ (DInv_step g hwf hnn hw src dist vis u hinv hu hnv hdu hmin)
      have := unvisited_set_card g.n_vertices vis u hu hinv.len_vis hnv
      omega

theorem dijkstra_spec (g : grafo) (hwf : WF g) (hnn : NonNeg g)
    (hw : ∀ u p, p ∈ g.adj.getD u [] → p.weight < INF) (src : Nat) (hsrc : src < g.n_vertices) :
    DijkstraPost g src (dijkstra g src) := by
  have hcard : (unvisited g.n_vertices (List.replicate g.n_vertices false)).card ≤
      g.n_vertices := by
    have h1 : (unvisited g.n_vertices (List.replicate g.n_vertices false)).card ≤
        (Finset.range g.n_vertices).card := Finset.card_le_card (Finset.filter_subset _ _)
    rw [Finset.card_range] at h1
    exact h1
  obtain ⟨vis2, hinv, hfin⟩ := dijkstra_loop_spec g hwf hnn hw src g.n_vertices _ _
    (DInv_init g src hsrc) hcard
  have hlower : ∀ v d, WalkW g src v d → (dijkstra g src).getD v 0 ≤ d := by
    intro v d h
    induction h with
    | nil =>
      have := hinv.src0
      unfold dijkstra
      omega
    | @snoc x d p hwalk hp ih =>
      have hx : x < g.n_vertices := adj_getD_lt g hwf x p hp
      have hpw := hnn x p hp
      by_cases hvx : Vis vis2 x
      · have := hinv.edge x hvx p hp
        unfold dijkstra at ih ⊢
        omega
      · have h1 := hfin x hx hvx
        have h2 := (hinv.range p.v).2
        unfold dijkstra at ih ⊢
        omega
  exact
    { len := hinv.len_dist
      range := hinv.range
      lower := hlower
      real := hinv.real }


theorem flood_scan_cons (p : adj_node) (ps : List adj_node)
    (st : List Bool × List Nat × List Nat) :
    flood_scan (p :: ps) st = flood_scan ps
      (if st.1.getD p.v false then st
       else (st.1.set p.v true, p.v :: st.2.1, st.2.2 ++ [p.v])) := rfl

theorem flood_scan_spec (n : Nat) :
    ∀ (ps : List adj_node) (vis : List Bool) (stack members : List Nat),
      vis.length = n → (∀ p ∈ ps, p.v < n) →
      ∃ vis2 new, flood_scan ps (vis, stack, members) =
          (vis2, new.reverse ++ stack, members ++ new) ∧
        vis2.length = n ∧
        (∀ v, Vis vis2 v ↔ Vis vis v ∨ ∃ p ∈ ps, p.v = v) ∧
        new.Nodup ∧ (∀ v, v ∈ new ↔ Vis vis2 v ∧ ¬ Vis vis v) := by
  intro ps
  induction ps with
  | nil =>
    intro vis stack members hlen _
    refine ⟨vis, [], by simp [flood_scan], hlen, ?_, List.nodup_nil, ?_⟩
    · intro v
      constructor
      · exact fun h => Or.inl h
      · rintro (h | ⟨p, hp, _⟩)
        · exact h
        · cases hp
    · intro v
      constructor
      · intro h
        cases h
      · intro h
        exact absurd h.1 h.2
  | cons p ps ih =>
    intro vis stack members hlen hps
    have hp := hps p (List.mem_cons_self _ _)
    have hps2 : ∀ q ∈ ps, q.v < n := fun q hq => hps q (List.mem_cons_of_mem _ hq)
    rw [flood_scan_cons]
    by_cases hc : vis.getD p.v false = true
    · rw [if_pos hc]
      obtain ⟨vis2, new, h1, h2, h3, h4, h5⟩ := ih vis stack members hlen hps2
      refine ⟨vis2, new, h1, h2, ?_, h4, h5⟩
      intro v
      rw [h3]
      constructor
      · rintro (h | ⟨q, hq, e⟩)
        · exact Or.inl h
        · exact Or.inr ⟨q, List.mem_cons_of_mem _ hq, e⟩
      · rintro (h | ⟨q, hq, e⟩)
        · exact Or.inl h
        · rcases List.mem_cons.1 hq with e2 | hq
          · left
            rw [← e, e2]
            exact hc
          · exact Or.inr ⟨q, hq, e⟩
    · rw [if_neg hc]
      obtain ⟨vis2, new, h1, h2, h3, h4, h5⟩ := ih (vis.set p.v true) (p.v :: stack)
        (members ++ [p.v]) (by rw [List.length_set, hlen]) hps2
      have hvp : Vis (vis.set p.v true) p.v := (Vis_set vis p.v p.v).2 (Or.inl ⟨rfl, hlen ▸ hp⟩)
      have hnew : p.v ∉ new := fun h => ((h5 p.v).1 h).2 hvp
      refine ⟨vis2, p.v :: new, ?_, h2, ?_, List.nodup_cons.2 ⟨hnew, h4⟩, ?_⟩
      · rw [h1]
        simp
      · intro v
        rw [h3, Vis_set]
        constructor
        · rintro ((⟨e, _⟩ | h) | ⟨q, hq, e⟩)
          · exact Or.inr ⟨p, List.mem_cons_self _ _, e⟩
          · exact Or.inl h
          · exact Or.inr ⟨q, List.mem_cons_of_mem _ hq, e⟩
        · rintro (h | ⟨q, hq, e⟩)
          · exact Or.inl (Or.inr h)
          · rcases List.mem_cons.1 hq with e2 | hq
            · left
              left
              rw [← e, e2]
              exact ⟨rfl, hlen ▸ hp⟩
            · exact Or.inr ⟨q, hq, e⟩
      · intro v
        rw [List.mem_cons, h5, Vis_set]
        constructor
        · rintro (e | ⟨h6, h7⟩)
          · rw [e]
            refine ⟨(h3 p.v).2 (Or.inl hvp), hc⟩
          · exact ⟨h6, fun h => h7 (Or.inr h)⟩
        · rintro ⟨h6, h7⟩
          by_cases e : v = p.v
          · exact Or.inl e
          · right
            refine ⟨h6, ?_⟩
            rintro (⟨e2, _⟩ | h)
            · exact e e2.symm
            · exact h7 h

theorem nodup_lt_length (l : List Nat) (n : Nat) (hn : l.Nodup) (h : ∀ x ∈ l, x < n) :
    l.length ≤ n := by
  have h1 : l.toFinset ⊆ Finset.range n := by
    intro x hx
    exact Finset.mem_range.2 (h x (List.mem_toFinset.1 hx))
  have h2 := Finset.card_le_card h1
  rw [List.toFinset_card_of_nodup hn, Finset.card_range] at h2
  exact h2

theorem flood_nil (g : grafo) (fuel : Nat) (vis : List Bool) (members : List Nat) :
    flood g fuel (vis, [], members) = some (vis, members) := by
  cases fuel <;> rfl

theorem flood_spec (g : grafo) (hwf : WF g) (vis0 : List Bool) (i : Nat) :
    ∀ (fuel : Nat) (vis : List Bool) (stack members : List Nat),
      FloodInv g vis0 i vis stack members →
      g.n_vertices + stack.length ≤ members.length + fuel →
      ∃ vis2 members2, flood g fuel (vis, stack, members) = some (vis2, members2) ∧
        FloodInv g vis0 i vis2 [] members2 := by
  intro fuel
  induction fuel with
  | zero =>
    intro vis stack members hinv hfuel
    cases stack with
    | nil => exact ⟨vis, members, flood_nil g 0 vis members, hinv⟩
    | cons u stack =>
      exfalso
      have := nodup_lt_length members g.n_vertices hinv.nodup
        (fun x hx => hinv.len ▸ Vis_lt vis x ((hinv.mem x).1 hx).1)
      simp only [List.length_cons] at hfuel
      omega
  | succ fuel ih =>
    intro vis stack members hinv hfuel
    cases stack with
    | nil => exact ⟨vis, members, flood_nil g _ vis members, hinv⟩
    | cons u stack =>
      have hum : u ∈ members := hinv.stack_sub u (List.mem_cons_self _ _)
      obtain ⟨vis2, new, h1, h2, h3, h4, h5⟩ := flood_scan_spec g.n_vertices (g.adj.getD u [])
        vis stack members hinv.len (fun p hp => hwf.in_range u p hp)
      show ∃ vis2 members2,
        flood g fuel (flood_scan (g.adj.getD u []) (vis, stack, members)) =
          some (vis2, members2) ∧ _
      rw [h1]
      apply ih
      · exact
          { len := h2
            mono := fun v hv => (h3 v).2 (Or.inl (hinv.mono v hv))
            mem := by
              intro v
              rw [List.mem_append, hinv.mem, h5]
              constructor
              · rintro (⟨h6, h7⟩ | ⟨h6, h7⟩)
                · exact ⟨(h3 v).2 (Or.inl h6), h7⟩
                · exact ⟨h6, fun h => h7 (hinv.mono v h)⟩
              · rintro ⟨h6, h7⟩
                by_cases hv : Vis vis v
                · exact Or.inl ⟨hv, h7⟩
                · exact Or.inr ⟨h6, hv⟩
            nodup := by
              rw [List.nodup_append]
              refine ⟨hinv.nodup, h4, ?_⟩
              intro a ha hb
              exact ((h5 a).1 hb).2 ((hinv.mem a).1 ha).1
            root := List.mem_append_left _ hinv.root
            reach := by
              intro v hv
              rcases List.mem_append.1 hv with hv | hv
              · exact hinv.reach v hv
              · rcases (h3 v).1 ((h5 v).1 hv).1 with h6 | ⟨p, hp, e⟩
                · exact absurd h6 ((h5 v).1 hv).2
                · exact Relation.ReflTransGen.tail (hinv.reach u hum) ⟨p, hp, e⟩
            stack_sub := by
              intro s hs
              rcases List.mem_append.1 hs with hs | hs
              · exact List.mem_append_right _ (List.mem_reverse.1 hs)
              · exact List.mem_append_left _ (hinv.stack_sub s (List.mem_cons_of_mem _ hs))
            closed := by
              intro v hv hns p hp
              by_cases e : v = u
              · rw [e] at hp
                exact (h3 p.v).2 (Or.inr ⟨p, hp, rfl⟩)
              · rcases List.mem_append.1 hv with hv | hv
                · apply (h3 p.v).2
                  left
                  apply hinv.closed v hv _ p hp
                  intro hs
                  rcases List.mem_cons.1 hs with e2 | hs
                  · exact e e2
                  · exact hns (List.mem_append_right _ hs)
                · exact absurd (List.mem_append_left _ (List.mem_reverse.2 hv)) hns }
      · simp only [List.length_append, List.length_reverse, List.length_cons] at hfuel ⊢
        omega


theorem maxdist_inner_spec (dist : List Int) :
    ∀ (ms : List Nat) (m : Int),
      m ≤ ms.foldl (fun maxdist v =>
          if dist.getD v 0 < INF && dist.getD v 0 > maxdist then dist.getD v 0 else maxdist) m ∧
      (∀ v ∈ ms, dist.getD v 0 < INF → dist.getD v 0 ≤ ms.foldl (fun maxdist v =>
          if dist.getD v 0 < INF && dist.getD v 0 > maxdist then dist.getD v 0 else maxdist) m) ∧
      (ms.foldl (fun maxdist v =>
          if dist.getD v 0 < INF && dist.getD v 0 > maxdist then dist.getD v 0 else maxdist) m = m ∨
        ∃ v ∈ ms, dist.getD v 0 < INF ∧ ms.foldl (fun maxdist v =>
          if dist.getD v 0 < INF && dist.getD v 0 > maxdist then dist.getD v 0 else maxdist) m =
            dist.getD v 0) := by
  intro ms
  induction ms with
  | nil =>
    intro m
    exact ⟨le_refl _, fun v hv => (by cases hv), Or.inl rfl⟩
  | cons a ms ih =>
    intro m
    rw [List.foldl_cons]
    by_cases hc : dist.getD a 0 < INF ∧ dist.getD a 0 > m
    · have hif : (if (decide (dist.getD a 0 < INF) && decide (dist.getD a 0 > m)) = true
          then dist.getD a 0 else m) = dist.getD a 0 := by
        rw [if_pos]
        rw [Bool.and_eq_true, decide_eq_true_eq, decide_eq_true_eq]
        exact hc
      rw [hif]
      obtain ⟨h1, h2, h3⟩ := ih (dist.getD a 0)
      refine ⟨by omega, ?_, ?_⟩
      · intro v hv hlt
        rcases List.mem_cons.1 hv with e | hv
        · rw [e]
          exact h1
        · exact h2 v hv hlt
      · right
        rcases h3 with h3 | ⟨v, hv, h4, h5⟩
        · exact ⟨a, List.mem_cons_self _ _, hc.1, h3⟩
        · exact ⟨v, List.mem_cons_of_mem _ hv, h4, h5⟩
    · have hif : (if (decide (dist.getD a 0 < INF) && decide (dist.getD a 0 > m)) = true
          then dist.getD a 0 else m) = m := by
        rw [if_neg]
        rw [Bool.and_eq_true, decide_eq_true_eq, decide_eq_true_eq]
        exact hc
      rw [hif]
      obtain ⟨h1, h2, h3⟩ := ih m
      refine ⟨h1, ?_, ?_⟩
      · intro v hv hlt
        rcases List.mem_cons.1 hv with e | hv
        · rw [e]
          have : ¬ dist.getD a 0 > m := fun h => hc ⟨by rw [← e]; exact hlt, h⟩
          omega
        · exact h2 v hv hlt
      · rcases h3 with h3 | ⟨v, hv, h4, h5⟩
        · exact Or.inl h3
        · exact Or.inr ⟨v, List.mem_cons_of_mem _ hv, h4, h5⟩

theorem maxdist_outer_spec (g : grafo) (ms : List Nat) :
    ∀ (us : List Nat) (m : Int),
      m ≤ us.foldl (fun maxdist u =>
          let dist := dijkstra g u
          ms.foldl (fun maxdist v =>
            if dist.getD v 0 < INF && dist.getD v 0 > maxdist then dist.getD v 0 else maxdist)
            maxdist) m ∧
      (∀ u ∈ us, ∀ v ∈ ms, (dijkstra g u).getD v 0 < INF →
        (dijkstra g u).getD v 0 ≤ us.foldl (fun maxdist u =>
          let dist := dijkstra g u
          ms.foldl (fun maxdist v =>
            if dist.getD v 0 < INF && dist.getD v 0 > maxdist then dist.getD v 0 else maxdist)
            maxdist) m) ∧
      (us.foldl (fun maxdist u =>
          let dist := dijkstra g u
          ms.foldl (fun maxdist v =>
            if dist.getD v 0 < INF && dist.getD v 0 > maxdist then dist.getD v 0 else maxdist)
            maxdist) m = m ∨
        ∃ u ∈ us, ∃ v ∈ ms, (dijkstra g u).getD v 0 < INF ∧ us.foldl (fun maxdist u =>
          let dist := dijkstra g u
          ms.foldl (fun maxdist v =>
            if dist.getD v 0 < INF && dist.getD v 0 > maxdist then dist.getD v 0 else maxdist)
            maxdist) m = (dijkstra g u).getD v 0) := by
  intro us
  induction us with
  | nil =>
    intro m
    exact ⟨le_refl _, fun u hu => (by cases hu), Or.inl rfl⟩
  | cons a us ih =>
    intro m
    rw [List.foldl_cons]
    obtain ⟨h1, h2, h3⟩ := maxdist_inner_spec (dijkstra g a) ms m
    generalize hm2 : (ms.foldl (fun maxdist v =>
        if (dijkstra g a).getD v 0 < INF && (dijkstra g a).getD v 0 > maxdist
        then (dijkstra g a).getD v 0 else maxdist) m) = m2 at h1 h2 h3
    show m ≤ us.foldl _ m2 ∧ (∀ u ∈ a :: us, ∀ v ∈ ms, (dijkstra g u).getD v 0 < INF →
        (dijkstra g u).getD v 0 ≤ us.foldl _ m2) ∧
      (us.foldl _ m2 = m ∨ ∃ u ∈ a :: us, ∃ v ∈ ms, (dijkstra g u).getD v 0 < INF ∧
        us.foldl _ m2 = (dijkstra g u).getD v 0)
    obtain ⟨k1, k2, k3⟩ := ih m2
    refine ⟨le_trans h1 k1, ?_, ?_⟩
    · intro u hu v hv hlt
      rcases List.mem_cons.1 hu with e | hu
      · rw [e]
        exact le_trans (h2 v hv (by rw [← e]; exact hlt)) k1
      · exact k2 u hu v hv hlt
    · rcases k3 with k3 | ⟨u, hu, v, hv, k4, k5⟩
      · rcases h3 with h3 | ⟨v, hv, h4, h5⟩
        · left
          rw [k3, h3]
        · right
          refine ⟨a, List.mem_cons_self _ _, v, hv, h4, ?_⟩
          rw [k3, h5]
      · exact Or.inr ⟨u, List.mem_cons_of_mem _ hu, v, hv, k4, k5⟩

theorem comp_maxdist_spec (g : grafo) (ms : List Nat) :
    0 ≤ comp_maxdist g ms ∧
    (∀ u ∈ ms, ∀ v ∈ ms, (dijkstra g u).getD v 0 < INF →
      (dijkstra g u).getD v 0 ≤ comp_maxdist g ms) ∧
    (comp_maxdist g ms = 0 ∨
      ∃ u ∈ ms, ∃ v ∈ ms, (dijkstra g u).getD v 0 < INF ∧
        comp_maxdist g ms = (dijkstra g u).getD v 0) :=
  maxdist_outer_spec g ms ms 0


theorem Joined_lt_right (g : grafo) (hwf : WF g) (u v : Nat) (hu : u < g.n_vertices)
    (h : Joined g u v) : v < g.n_vertices := by
  rcases Joined_lt g hwf u v h with e | h2
  · rw [← e]
    exact hu
  · exact h2.2

theorem IsDist_dijkstra (g : grafo) (hwf : WF g) (hnn : NonNeg g) (hb : BelowINF g)
    (u v : Nat) (hu : u < g.n_vertices) (hj : Joined g u v) :
    (dijkstra g u).getD v 0 < INF ∧ IsDist g u v ((dijkstra g u).getD v 0) := by
  have hpost := dijkstra_spec g hwf hnn hb.1 u hu
  obtain ⟨d, hd, hlt⟩ := hb.2 u v hj
  have h1 := hpost.lower v d hd
  have h2 : (dijkstra g u).getD v 0 < INF := lt_of_le_of_lt h1 hlt
  refine ⟨h2, ?_, hpost.lower v⟩
  rcases hpost.real v (Joined_lt_right g hwf u v hu hj) with h3 | h3
  · omega
  · exact h3

theorem FloodInv_init (g : grafo) (vis0 : List Bool) (i : Nat) (hlen : vis0.length = g.n_vertices)
    (hi : i < g.n_vertices) (hni : ¬ Vis vis0 i) :
    FloodInv g vis0 i (vis0.set i true) [i] [i] where
  len := by rw [List.length_set, hlen]
  mono := fun v hv => (Vis_set vis0 i v).2 (Or.inr hv)
  mem := by
    intro v
    rw [List.mem_singleton, Vis_set]
    constructor
    · intro e
      rw [e]
      exact ⟨Or.inl ⟨rfl, hlen ▸ hi⟩, hni⟩
    · rintro ⟨h1 | h1, h2⟩
      · exact h1.1.symm
      · exact absurd h1 h2
  nodup := List.nodup_singleton i
  root := List.mem_singleton_self i
  reach := by
    intro v hv
    rw [List.mem_singleton.1 hv]
    exact Relation.ReflTransGen.refl
  stack_sub := fun s hs => hs
  closed := fun v hv hns => absurd hv hns

theorem FloodInv_post (g : grafo) (vis0 : List Bool) (i : Nat) (vis2 : List Bool)
    (ms : List Nat) (hlen : vis0.length = g.n_vertices) (h : FloodInv g vis0 i vis2 [] ms) :
    DfsPost g i vis0 vis2 ∧ Vis vis2 i where
  left :=
    { len := by rw [h.len, hlen]
      mono := h.mono
      reach := fun v hv hnv => h.reach v ((h.mem v).2 ⟨hv, hnv⟩)
      closed := fun v hv hnv p hp =>
        h.closed v ((h.mem v).2 ⟨hv, hnv⟩) (List.not_mem_nil v) p hp }
  right := ((h.mem i).1 h.root).1

theorem FloodInv_members (g : grafo) (hwf : WF g) (vis0 : List Bool) (reps : List Nat)
    (i : Nat) (vis2 : List Bool) (ms : List Nat) (hinv : CompInv g vis0 reps)
    (hni : ¬ Vis vis0 i) (h : FloodInv g vis0 i vis2 [] ms) (v : Nat) :
    v ∈ ms ↔ Joined g i v := by
  constructor
  · exact h.reach v
  · intro hj
    obtain ⟨hpost, hroot⟩ := FloodInv_post g vis0 i vis2 ms hinv.len h
    have hinv2 := CompInv_step g vis0 vis2 reps i hinv hni hpost hroot
    refine (h.mem v).2 ⟨Closed_joined g vis2 hinv2.closed i v hroot hj, ?_⟩
    intro hv
    exact hni (Closed_joined g vis0 hinv.closed v i hv (Joined_symm g hwf.sym i v hj))

theorem PathW_walk (g : grafo) (u v : Nat) (vs : List Nat) (d : Int) (h : PathW g u v vs d) :
    WalkW g u v d := by
  induction h with
  | nil => exact WalkW.nil u
  | snoc p _ hp _ ih => exact WalkW.snoc p ih hp

theorem PathW_upto (g : grafo) (u v : Nat) (vs : List Nat) (d : Int) (h : PathW g u v vs d) :
    ∀ y ∈ vs, ∃ vs2 d2, PathW g u y vs2 d2 := by
  induction h with
  | nil =>
    intro y hy
    rw [List.mem_singleton.1 hy]
    exact ⟨[u], 0, PathW.nil u⟩
  | @snoc x vs d p hpath hp hnot ih =>
    intro y hy
    rcases List.mem_cons.1 hy with e | hy
    · rw [e]
      exact ⟨_, _, PathW.snoc p hpath hp hnot⟩
    · exact ih y hy

theorem PathW_last (g : grafo) (u v : Nat) (vs : List Nat) (d : Int) (h : PathW g u v vs d) :
    v ∈ vs := by
  cases h with
  | nil => exact List.mem_singleton_self _
  | snoc p _ _ _ => exact List.mem_cons_self _ _

theorem PathW_of_joined (g : grafo) (u v : Nat) (h : Joined g u v) :
    ∃ vs d, PathW g u v vs d := by
  induction h with
  | refl => exact ⟨[u], 0, PathW.nil u⟩
  | @tail x y _ hxy ih =>
    obtain ⟨p, hp, rfl⟩ := hxy
    obtain ⟨vs, d, hpath⟩ := ih
    by_cases hin : p.v ∈ vs
    · exact PathW_upto g u x vs d hpath p.v hin
    · exact ⟨_, _, PathW.snoc p hpath hp hin⟩

/-- If every edge and every path weighs less than `INF`, the graph is
`BelowINF`. -/
theorem BelowINF_of_paths (g : grafo) (hedge : ∀ u p, p ∈ g.adj.getD u [] → p.weight < INF)
    (hpath : ∀ u v vs d, PathW g u v vs d → d < INF) : BelowINF g := by
  refine ⟨hedge, ?_⟩
  intro u v hj
  obtain ⟨vs, d, h⟩ := PathW_of_joined g u v hj
  exact ⟨d, PathW_walk g u v vs d h, hpath u v vs d h⟩

theorem PathW_bound (g : grafo) (hwf : WF g) (W : Int)
    (hW : ∀ u p, p ∈ g.adj.getD u [] → p.weight ≤ W) (u v : Nat) (vs : List Nat) (d : Int)
    (hu : u < g.n_vertices) (h : PathW g u v vs d) :
    vs.Nodup ∧ (∀ x ∈ vs, x < g.n_vertices) ∧ d + W ≤ (vs.length : Int) * W := by
  induction h with
  | nil =>
    refine ⟨List.nodup_singleton u, ?_, ?_⟩
    · intro x hx
      rw [List.mem_singleton.1 hx]
      exact hu
    · simp
  | @snoc x vs d p _ hp hnot ih =>
    obtain ⟨h1, h2, h3⟩ := ih
    refine ⟨List.nodup_cons.2 ⟨hnot, h1⟩, ?_, ?_⟩
    · intro y hy
      rcases List.mem_cons.1 hy with e | hy
      · rw [e]
        exact hwf.in_range x p hp
      · exact h2 y hy
    · have := hW x p hp
      rw [List.length_cons]
      push_cast
      linarith

/-- A sufficient condition for `BelowINF`: all weights lie in `0 .. W` and
`n_vertices * W` is less than `INF`. -/
theorem BelowINF_of_bound (g : grafo) (hwf : WF g) (W : Int) (hW0 : 0 ≤ W)
    (hW : ∀ u p, p ∈ g.adj.getD u [] → p.weight ≤ W)
    (hn : (g.n_vertices : Int) * W < INF) : BelowINF g := by
  constructor
  · intro u p hp
    have hu := adj_getD_lt g hwf u p hp
    have h1 := hW u p hp
    have h2 : (1 : Int) ≤ (g.n_vertices : Int) := by omega
    have h3 : 1 * W ≤ (g.n_vertices : Int) * W := mul_le_mul_of_nonneg_right h2 hW0
    linarith
  · intro u v hj
    rcases Joined_lt g hwf u v hj with e | ⟨hu, _⟩
    · rw [← e]
      exact ⟨0, WalkW.nil u, by rw [INF_val]; decide⟩
    · obtain ⟨vs, d, h⟩ := PathW_of_joined g u v hj
      obtain ⟨h1, h2, h3⟩ := PathW_bound g hwf W hW u v vs d hu h
      have h4 := nodup_lt_length vs g.n_vertices h1 h2
      have h5 : (vs.length : Int) ≤ (g.n_vertices : Int) := by omega
      have h6 : (vs.length : Int) * W ≤ (g.n_vertices : Int) * W :=
        mul_le_mul_of_nonneg_right h5 hW0
      exact ⟨d, PathW_walk g u v vs d h, by linarith⟩

theorem pesos_entre_spec (lo hi : Int) (g : grafo) (h : pesos_entre lo hi g = true) :
    ∀ u p, p ∈ g.adj.getD u [] → lo ≤ p.weight ∧ p.weight ≤ hi := by
  intro u p hp
  have hl : g.adj.getD u [] ∈ g.adj := by
    by_cases hu : u < g.adj.length
    · rw [List.getD_eq_getElem _ _ hu]
      exact List.getElem_mem hu
    · rw [List.getD_eq_default _ _ (Nat.le_of_not_lt hu)] at hp
      cases hp
  unfold pesos_entre at h
  rw [List.all_eq_true] at h
  have h2 := h _ hl
  rw [List.all_eq_true] at h2
  have h3 := h2 p hp
  rw [Bool.and_eq_true, decide_eq_true_eq, decide_eq_true_eq] at h3
  exact h3

theorem ordering_beq_eq (o : Ordering) : (o == Ordering.eq) = true ↔ o = Ordering.eq := by
  cases o <;> decide

theorem find_vertex_index_none_iff (g : grafo) (hlen : g.vertices.length = g.n_vertices)
    (name : List Char) : find_vertex_index g name = none ↔ name ∉ g.vertices := by
  unfold find_vertex_index
  rw [List.find?_eq_none]
  constructor
  · intro h hmem
    obtain ⟨i, hi, e⟩ := List.getElem_of_mem hmem
    have h1 := h i (List.mem_range.2 (hlen ▸ hi))
    apply h1
    rw [ordering_beq_eq, strcmp_eq_iff, List.getD_eq_getElem _ _ hi]
    exact e
  · intro h i hi hc
    rw [ordering_beq_eq, strcmp_eq_iff] at hc
    apply h
    rw [← hc, List.getD_eq_getElem _ _ (hlen ▸ List.mem_range.1 hi)]
    exact List.getElem_mem _

theorem vertices_get_vertex_index (g : grafo) (hlen : g.vertices.length = g.n_vertices)
    (name : List Char) :
    (get_vertex_index g name).1.vertices = regista g.vertices name ∧
    (get_vertex_index g name).1.vertices.length = (get_vertex_index g name).1.n_vertices := by
  unfold get_vertex_index regista
  cases hf : find_vertex_index g name with
  | some idx =>
    have hmem : name ∈ g.vertices := by
      by_contra hn
      rw [(find_vertex_index_none_iff g hlen name).2 hn] at hf
      cases hf
    rw [if_pos hmem]
    exact ⟨rfl, hlen⟩
  | none =>
    rw [if_neg ((find_vertex_index_none_iff g hlen name).1 hf)]
    refine ⟨rfl, ?_⟩
    show (g.vertices ++ [name]).length = g.n_vertices + 1
    rw [List.length_append, List.length_singleton, hlen]

theorem strtok_trim_some (r : List Char) (tok rest : List Char)
    (h : strtok (trim r) [Char.ofNat 32, Char.ofNat 9] = some (tok, rest)) :
    tok = (trim r).takeWhile (fun c => !(c == Char.ofNat 32 || c == Char.ofNat 9)) := by
  have hfun : (fun c : Char => !(c == Char.ofNat 32 || c == Char.ofNat 9)) =
      (fun c => !(List.contains [Char.ofNat 32, Char.ofNat 9] c)) := by
    funext c
    cases h1 : c == Char.ofNat 32 <;> cases h2 : c == Char.ofNat 9 <;>
      simp [List.contains, List.elem, h1, h2]
  rw [hfun]
  rcases trim_cases r with ⟨h1, h2⟩ | ⟨c, t, hc, h2, _⟩
  · rw [h2] at h
    simp [strtok] at h
  · rw [h2] at h ⊢
    have hcont : [Char.ofNat 32, Char.ofNat 9].contains c = false := by
      simp only [List.contains_cons, List.contains_nil, Bool.or_false, Bool.or_eq_false_iff,
        beq_eq_false_iff_ne]
      constructor
      · rintro rfl
        revert hc
        decide
      · rintro rfl
        revert hc
        decide
    have hd : (c :: t).dropWhile (fun c => [Char.ofNat 32, Char.ofNat 9].contains c) = c :: t := by
      rw [List.dropWhile_cons_of_neg]
      rw [hcont]
      simp
    simp only [strtok, hd, List.isEmpty_cons, Bool.false_eq_true, if_false] at h
    exact ((Prod.mk.inj (Option.some.inj h)).1).symm

theorem nomes_da_linha_some (l : List Char) (d : Nat)
    (hs : strstr l [Char.ofNat 45, Char.ofNat 45] = some d) :
    nomes_da_linha l =
      if (l.drop (d + 2)).all isspace then []
      else [trim (l.take d),
        (trim (l.drop (d + 2))).takeWhile (fun c => !(c == Char.ofNat 32 || c == Char.ofNat 9))] := by
  simp only [nomes_da_linha, hs]

theorem vertices_le_aresta (g : grafo) (hlen : g.vertices.length = g.n_vertices)
    (line : List Char) (d : Nat)
    (hs : strstr line [Char.ofNat 45, Char.ofNat 45] = some d) (g1 : grafo)
    (hg : le_aresta g line d = some g1) :
    g1.vertices = (nomes_da_linha line).foldl regista g.vertices ∧
    g1.vertices.length = g1.n_vertices := by
  rw [nomes_da_linha_some line d hs]
  cases hk : strtok (trim (line.drop (d + 2))) [Char.ofNat 32, Char.ofNat 9] with
  | none =>
    rw [le_aresta_none g line d hk] at hg
    cases hg
    rw [strtok_trim_none_iff] at hk
    rw [if_pos hk]
    exact ⟨rfl, hlen⟩
  | some r =>
    obtain ⟨vname2, rest⟩ := r
    obtain ⟨_, w, hw⟩ := le_aresta_some g line d vname2 rest hk g1 hg
    have hne : ¬ ((line.drop (d + 2)).all isspace = true) := by
      intro hall
      rw [← strtok_trim_none_iff] at hall
      rw [hall] at hk
      cases hk
    have htok := strtok_trim_some _ vname2 rest hk
    obtain ⟨h1, h2⟩ := vertices_get_vertex_index g hlen (trim (line.take d))
    obtain ⟨h3, h4⟩ := vertices_get_vertex_index (get_vertex_index g (trim (line.take d))).1 h2
      vname2
    rw [hw, if_neg hne]
    refine ⟨?_, h4⟩
    show (get_vertex_index (get_vertex_index g (trim (line.take d))).1 vname2).1.vertices = _
    rw [h3, h1, ← htok]
    rfl

theorem len_vertices_le_linha (st st1 : grafo × Bool) (b : List Char)
    (hlen : st.1.vertices.length = st.1.n_vertices) (h1 : le_linha st b = some st1) :
    st1.1.vertices.length = st1.1.n_vertices := by
  obtain ⟨g, hn⟩ := st
  rcases le_linha_cases g hn b st1 h1 with
    ⟨_, e⟩ | ⟨_, ⟨_, e⟩ | ⟨_, d, g1, hs, hg, e⟩ | ⟨_, _, e⟩⟩
  · rw [e]; exact hlen
  · rw [e]; exact hlen
  · rw [e]; exact (vertices_le_aresta g hlen _ d hs g1 hg).2
  · rw [e]; exact (vertices_get_vertex_index g hlen _).2

theorem vertices_foldl (bufs : List (List Char)) (st st2 : grafo × Bool)
    (hlen : st.1.vertices.length = st.1.n_vertices)
    (h : le_linhas_de st bufs = some st2) :
    st2.1.vertices =
      ((((linhas_vivas bufs).drop (if st.2 then 0 else 1)).map nomes_da_linha).flatten).foldl
        regista st.1.vertices := by
  induction bufs generalizing st with
  | nil =>
    rw [le_linhas_de] at h
    cases h
    simp [linhas_vivas]
  | cons b bs ih =>
    obtain ⟨st1, h1, h2⟩ := le_linhas_de_cons st st2 b bs h
    rw [ih st1 (len_vertices_le_linha st st1 b hlen h1) h2]
    obtain ⟨g, hn⟩ := st
    rcases le_linha_cases g hn b st1 h1 with
      ⟨hl, e⟩ | ⟨hl, ⟨e0, e⟩ | ⟨e0, d, g1, hs, hg, e⟩ | ⟨e0, hs, e⟩⟩
    · rw [e, linhas_vivas_cons_skip b bs hl]
    · rw [e, linhas_vivas_cons_keep b bs hl, e0]
      simp
    · rw [e, linhas_vivas_cons_keep b bs hl, e0]
      simp only [if_true, List.drop_zero, List.map_cons, List.flatten_cons, List.foldl_append]
      rw [(vertices_le_aresta g hlen _ d hs g1 hg).1]
    · have hnl : nomes_da_linha (trim (chomp b)) = [trim (chomp b)] := by
        simp only [nomes_da_linha, hs]
      rw [e, linhas_vivas_cons_keep b bs hl, e0]
      simp only [if_true, List.drop_zero, List.map_cons, List.flatten_cons, List.foldl_append,
        hnl, List.foldl_cons, List.foldl_nil]
      rw [(vertices_get_vertex_index g hlen _).1]


theorem foldl_regista (ns : List (List Char)) :
    ∀ vs : List (List Char), ns.foldl regista vs =
      vs ++ (sem_repeticoes ns).filter (fun y => decide (y ∉ vs)) := by
  induction ns with
  | nil =>
    intro vs
    simp [sem_repeticoes]
  | cons x xs ih =>
    intro vs
    rw [List.foldl_cons, ih]
    unfold regista
    by_cases hx : x ∈ vs
    · rw [if_pos hx]
      congr 1
      rw [sem_repeticoes, List.filter_cons_of_neg (by simpa using hx), List.filter_filter]
      apply List.filter_congr
      intro y _
      by_cases hy : y ∈ vs
      · simp [hy]
      · have : y ≠ x := fun e => hy (e ▸ hx)
        simp [hy, this]
    · rw [if_neg hx, List.append_assoc]
      congr 1
      rw [sem_repeticoes, List.filter_cons_of_pos (by simpa using hx), List.filter_filter,
        List.singleton_append]
      congr 1
      apply List.filter_congr
      intro y _
      by_cases hy : y ∈ vs
      · simp [hy]
      · by_cases e : y = x
        · simp [e]
        · simp [hy, e]

theorem mem_sem_repeticoes {α : Type} [DecidableEq α] (l : List α) (a : α) :
    a ∈ sem_repeticoes l ↔ a ∈ l := by
  induction l with
  | nil => simp [sem_repeticoes]
  | cons x xs ih =>
    rw [sem_repeticoes, List.mem_cons, List.mem_cons, List.mem_filter, ih]
    by_cases e : a = x
    · simp [e]
    · simp [e]

theorem nodup_sem_repeticoes {α : Type} [DecidableEq α] (l : List α) :
    (sem_repeticoes l).Nodup := by
  induction l with
  | nil => exact List.nodup_nil
  | cons x xs ih =>
    rw [sem_repeticoes, List.nodup_cons]
    refine ⟨?_, ih.filter _⟩
    intro h
    have := (List.mem_filter.1 h).2
    simp at this

theorem vertices_le_linhas (bufs : List (List Char)) (g : grafo)
    (hg : le_linhas bufs = some g) :
    g.vertices = sem_repeticoes (nomes_mencionados bufs) := by
  obtain ⟨hn, h2⟩ := le_linhas_some bufs g hg
  have h := vertices_foldl bufs (grafo_vazio, false) (g, hn) rfl h2
  unfold nomes_mencionados
  rw [h, foldl_regista]
  show [] ++ _ = _
  rw [List.nil_append]
  simp [grafo_vazio]

theorem find?_congr_mem {α : Type} (p q : α → Bool) (l : List α) (h : ∀ x ∈ l, p x = q x) :
    l.find? p = l.find? q := by
  induction l with
  | nil => rfl
  | cons a t ih =>
    rw [List.find?_cons, List.find?_cons, h a (List.mem_cons_self _ _),
      ih (fun x hx => h x (List.mem_cons_of_mem _ hx))]

theorem getD_add_vertex (g : grafo) (name : List Char) (i : Nat) (hi : i < g.vertices.length) :
    (add_vertex g name).1.vertices.getD i [] = g.vertices.getD i [] := by
  show (g.vertices ++ [name]).getD i [] = _
  rw [List.getD_eq_getElem?_getD, List.getD_eq_getElem?_getD, List.getElem?_append_left hi]

theorem find_add_vertex (g : grafo) (hlen : g.vertices.length = g.n_vertices)
    (name x : List Char) (i : Nat) (h : find_vertex_index g x = some i) :
    find_vertex_index (add_vertex g name).1 x = some i := by
  unfold find_vertex_index at h ⊢
  show (List.range (g.n_vertices + 1)).find? _ = _
  rw [List.range_succ, List.find?_append]
  have e : (List.range g.n_vertices).find?
      (fun j => strcmp ((add_vertex g name).1.vertices.getD j []) x == Ordering.eq) =
      (List.range g.n_vertices).find?
        (fun j => strcmp (g.vertices.getD j []) x == Ordering.eq) := by
    apply find?_congr_mem
    intro j hj
    rw [getD_add_vertex g name j (hlen ▸ List.mem_range.1 hj)]
  rw [e, h]
  rfl


/-- Reading more buffers only extends the vertex sequence. -/
theorem vertices_le_linhas_append (bufs more : List (List Char)) (g g2 : grafo)
    (hg : le_linhas bufs = some g) (hg2 : le_linhas (bufs ++ more) = some g2) :
    ∃ t, g2.vertices = g.vertices ++ t := by
  obtain ⟨hn, h1⟩ := le_linhas_some bufs g hg
  obtain ⟨hn2, h2⟩ := le_linhas_some (bufs ++ more) g2 hg2
  rw [le_linhas_de_append, h1] at h2
  have hlen := (WF_le_linhas_de bufs _ _ WF_grafo_vazio h1).len_vertices
  have h3 := vertices_foldl more (g, hn) (g2, hn2) hlen h2
  rw [foldl_regista] at h3
  exact ⟨_, h3⟩

theorem getD_get_vertex_index (g : grafo) (name : List Char) (i : Nat)
    (hi : i < g.vertices.length) :
    (get_vertex_index g name).1.vertices.getD i [] = g.vertices.getD i [] := by
  unfold get_vertex_index
  cases find_vertex_index g name with
  | some idx => rfl
  | none => exact getD_add_vertex g name i hi

theorem find_get_vertex_index (g : grafo) (hlen : g.vertices.length = g.n_vertices)
    (name x : List Char) (i : Nat) (h : find_vertex_index g x = some i) :
    find_vertex_index (get_vertex_index g name).1 x = some i := by
  unfold get_vertex_index
  cases find_vertex_index g name with
  | some idx => exact h
  | none => exact find_add_vertex g hlen name x i h

/-- On every input whose lines are shorter than 4095 bytes and on which
`le_grafo` returns, the vertex sequence has no duplicate and is the list of
the names mentioned by the surviving lines after the name line (left
operand, then right operand of an edge line with a right-hand side; the whole
line otherwise) with later repetitions removed; the same holds of the
buffers delivered by `fgets` in general. -/
theorem vertices_le_grafo :
    (∀ (f : List Char) (g : grafo), (∀ l ∈ linhas f, l.length < 4095) →
      le_grafo f = some g →
      g.vertices.Nodup ∧ g.vertices = sem_repeticoes (nomes_mencionados (linhas f))) ∧
    (∀ (bufs : List (List Char)) (g : grafo), le_linhas bufs = some g →
      g.vertices.Nodup ∧ g.vertices = sem_repeticoes (nomes_mencionados bufs)) := by
  have key : ∀ (bufs : List (List Char)) (g : grafo), le_linhas bufs = some g →
      g.vertices.Nodup ∧ g.vertices = sem_repeticoes (nomes_mencionados bufs) := by
    intro bufs g hg
    rw [vertices_le_linhas bufs g hg]
    exact ⟨nodup_sem_repeticoes _, rfl⟩
  refine ⟨?_, key⟩
  intro f g hlen hg
  have h := key _ g hg
  unfold nomes_mencionados at h ⊢
  rw [linhas_vivas_linhas f hlen]
  exact h

/-- Adding a vertex, or looking one up, changes neither the name stored at
an earlier index nor the index found for an earlier name. -/
theorem vertices_estaveis :
    (∀ (g : grafo) (name : List Char) (i : Nat), i < g.vertices.length →
      (add_vertex g name).1.vertices.getD i [] = g.vertices.getD i [] ∧
      (get_vertex_index g name).1.vertices.getD i [] = g.vertices.getD i []) ∧
    (∀ (g : grafo) (name x : List Char) (i : Nat), g.vertices.length = g.n_vertices →
      find_vertex_index g x = some i →
      find_vertex_index (add_vertex g name).1 x = some i ∧
      find_vertex_index (get_vertex_index g name).1 x = some i) :=
  ⟨fun g name i hi => ⟨getD_add_vertex g name i hi, getD_get_vertex_index g name i hi⟩,
    fun g name x i hlen h =>
      ⟨find_add_vertex g hlen name x i h, find_get_vertex_index g hlen name x i h⟩⟩

/-- C11 fails on the code: the input is the name line followed by the edge
line `A -- x...x` whose right operand has 256 bytes.  The lines mention the
names A and x...x, in this order, but the copy of the operand into the array
`vname2` of 256 bytes writes 257 bytes: the run leaves defined behaviour and
`le_grafo` gives no vertex sequence. -/
theorem vertices_operando_longo :
    le_grafo exemplo_operando_longo = none ∧
    (∀ l ∈ linhas exemplo_operando_longo, l.length < 4095) ∧
    sem_repeticoes (nomes_mencionados (linhas exemplo_operando_longo)) =
      ["A".toList, List.replicate 256 (Char.ofNat 120)] :=
  ⟨by decide!, by decide!, by decide!⟩

/-! ## Malformed edge lines -/

theorem le_linha_malformada (g : grafo) (b : List Char) (h : linha_malformada b = true) :
    le_linha (g, true) b = some (g, true) := by
  unfold linha_malformada at h
  by_cases hl : ((trim (chomp b)).isEmpty ||
      starts_with (trim (chomp b)) [Char.ofNat 47, Char.ofNat 47]) = true
  · exact le_linha_skip _ b hl
  · cases hs : strstr (trim (chomp b)) [Char.ofNat 45, Char.ofNat 45] with
    | none =>
      rw [hs] at h
      cases h
    | some d =>
      rw [hs] at h
      simp only [le_linha, hl, hs]
      rw [le_aresta_none g _ d ((strtok_trim_none_iff _).2 h)]
      rfl

theorem have_name_foldl (bufs : List (List Char)) (st st2 : grafo × Bool)
    (h : le_linhas_de st bufs = some st2) :
    st2.2 = (st.2 || !(linhas_vivas bufs).isEmpty) := by
  induction bufs generalizing st with
  | nil =>
    rw [le_linhas_de] at h
    cases h
    simp [linhas_vivas]
  | cons b bs ih =>
    obtain ⟨st1, h1, h2⟩ := le_linhas_de_cons st st2 b bs h
    rw [ih st1 h2]
    obtain ⟨g, hn⟩ := st
    rcases le_linha_cases g hn b st1 h1 with
      ⟨hl, e⟩ | ⟨hl, ⟨_, e⟩ | ⟨_, d, g1, _, _, e⟩ | ⟨_, _, e⟩⟩
    · rw [e, linhas_vivas_cons_skip b bs hl]
    · rw [e, linhas_vivas_cons_keep b bs hl]
      simp
    · rw [e, linhas_vivas_cons_keep b bs hl]
      simp
    · rw [e, linhas_vivas_cons_keep b bs hl]
      simp

theorem le_linhas_malformada (pre post : List (List Char)) (b : List Char)
    (hname : (linhas_vivas pre).isEmpty = false) (h : linha_malformada b = true) :
    le_linhas (pre ++ b :: post) = le_linhas (pre ++ post) := by
  unfold le_linhas
  rw [le_linhas_de_append, le_linhas_de_append]
  cases h1 : le_linhas_de (grafo_vazio, false) pre with
  | none => rfl
  | some st1 =>
    have h2 := have_name_foldl pre (grafo_vazio, false) st1 h1
    rw [hname] at h2
    have h3 : st1 = (st1.1, true) := Prod.ext rfl h2
    simp only
    rw [h3, le_linhas_de_cons_some _ _ b post (le_linha_malformada st1.1 b h)]


theorem fgets_all_line (size : Nat) (rest : List Char) :
    ∀ (l : List Char) (k : Nat) (acc : List Char), Char.ofNat 10 ∉ l → l.length < k →
      fgets_all size k acc (l ++ Char.ofNat 10 :: rest) =
        (acc.reverse ++ l ++ [Char.ofNat 10]) :: fgets_all size (size - 1) [] rest := by
  intro l
  induction l with
  | nil =>
    intro k acc _ _
    rw [List.nil_append, fgets_all]
    simp
  | cons c cs ih =>
    intro k acc hnl hk
    have hc : c ≠ Char.ofNat 10 := fun e => hnl (e ▸ List.mem_cons_self _ _)
    have hc2 : ¬ (c.toNat == 10 || decide (k ≤ 1)) = true := by
      rw [Bool.or_eq_true, beq_iff_eq, decide_eq_true_eq]
      rintro (h | h)
      · apply hc
        apply Char.ext
        apply UInt32.ext
        exact h
      · rw [List.length_cons] at hk
        omega
    rw [List.cons_append, fgets_all, if_neg hc2,
      ih (k - 1) (c :: acc) (fun h => hnl (List.mem_cons_of_mem _ h))
        (by rw [List.length_cons] at hk; omega)]
    simp

theorem fgets_all_append (size : Nat) (rest : List Char) :
    ∀ (f1 : List Char) (k : Nat) (acc : List Char), f1.getLast? = some (Char.ofNat 10) →
      fgets_all size k acc (f1 ++ rest) =
        fgets_all size k acc f1 ++ fgets_all size (size - 1) [] rest := by
  intro f1
  induction f1 with
  | nil =>
    intro k acc h
    cases h
  | cons c cs ih =>
    intro k acc h
    cases cs with
    | nil =>
      have hc : c = Char.ofNat 10 := by
        simpa using h
      rw [hc]
      simp [fgets_all]
    | cons c2 cs2 =>
      have h2 : (c2 :: cs2).getLast? = some (Char.ofNat 10) := by
        rw [List.getLast?_cons_cons] at h
        exact h
      rw [List.cons_append, fgets_all, fgets_all]
      by_cases hc : (c.toNat == 10 || decide (k ≤ 1)) = true
      · rw [if_pos hc, if_pos hc, ih _ _ h2]
        rfl
      · rw [if_neg hc, if_neg hc, ih _ _ h2]

theorem le_grafo_malformada (pre l post : List Char)
    (hpre : pre.getLast? = some (Char.ofNat 10))
    (hname : (linhas_vivas (fgets_all 4096 4095 [] pre)).isEmpty = false)
    (hnl : Char.ofNat 10 ∉ l) (hlen : l.length < 4095)
    (h : linha_malformada (l ++ [Char.ofNat 10]) = true) :
    le_grafo (pre ++ (l ++ Char.ofNat 10 :: post)) = le_grafo (pre ++ post) := by
  unfold le_grafo
  rw [fgets_all_append 4096 _ pre 4095 [] hpre, fgets_all_append 4096 _ pre 4095 [] hpre,
    fgets_all_line 4096 post l (4096 - 1) [] hnl hlen]
  exact le_linhas_malformada _ _ _ hname h

/-- C12 as stated fails: the line `Z`, 4094 spaces, `--` contains `--` and
has nothing to the right of it, and it follows the name line; `fgets`
delivers its first 4095 bytes in a buffer of their own, which is read as a
vertex line, so the graph loaded with the line has the vertex Z, and the
graph loaded without the line has not. -/
theorem linha_malformada_longa_cria_vertice :
    linha_malformada (linha_malformada_longa ++ [Char.ofNat 10]) = true ∧
    Char.ofNat 10 ∉ linha_malformada_longa ∧
    linha_malformada_longa.length = 4097 ∧
    (∃ g, le_grafo ("G\n".toList ++
        (linha_malformada_longa ++ Char.ofNat 10 :: "A -- B".toList)) = some g ∧
      g.vertices = ["Z".toList, "A".toList, "B".toList]) ∧
    (∃ g, le_grafo ("G\n".toList ++ "A -- B".toList) = some g ∧
      g.vertices = ["A".toList, "B".toList]) ∧
    le_grafo ("G\n".toList ++ (linha_malformada_longa ++ Char.ofNat 10 :: "A -- B".toList)) ≠
      le_grafo ("G\n".toList ++ "A -- B".toList) :=
  ⟨by decide!, by decide!, by decide!,
    ⟨grafo_de ("G\n".toList ++ (linha_malformada_longa ++ Char.ofNat 10 :: "A -- B".toList)),
      le_grafo_grafo_de _ (by decide!), by decide!⟩,
    ⟨grafo_de ("G\n".toList ++ "A -- B".toList), le_grafo_grafo_de _ (by decide), by decide⟩,
    by decide!⟩

/-- C12 amended: a malformed edge line after the name line has no effect
when it is shorter than 4095 bytes.  On the sequence of buffers read, the
result of the load with the buffer is the result of the load without it (all
fields: name, vertices, adjacency, edge count); the same holds for the stream
content when the line, shorter than a buffer and ended by a newline, follows
a newline. -/
theorem linha_malformada_ignorada :
    (∀ (pre post : List (List Char)) (b : List Char), (linhas_vivas pre).isEmpty = false →
      linha_malformada b = true → le_linhas (pre ++ b :: post) = le_linhas (pre ++ post)) ∧
    (∀ (pre l post : List Char), pre.getLast? = some (Char.ofNat 10) →
      (linhas_vivas (fgets_all 4096 4095 [] pre)).isEmpty = false →
      Char.ofNat 10 ∉ l → l.length < 4095 → linha_malformada (l ++ [Char.ofNat 10]) = true →
      le_grafo (pre ++ (l ++ Char.ofNat 10 :: post)) = le_grafo (pre ++ post)) :=
  ⟨le_linhas_malformada, le_grafo_malformada⟩

/-- C12 amended, on a sample: the line `Z --` is dropped, and no vertex Z
exists in the loaded graph. -/
theorem linha_malformada_ignorada_witness :
    le_grafo ("G\nA -- B\n".toList ++ ("Z --   ".toList ++ Char.ofNat 10 :: "B -- C".toList)) =
      le_grafo ("G\nA -- B\n".toList ++ "B -- C".toList) ∧
    ∃ g, le_grafo exemplo_malformada = some g ∧
      g.vertices = ["A".toList, "B".toList, "C".toList] :=
  ⟨linha_malformada_ignorada.2 "G\nA -- B\n".toList "Z --   ".toList "B -- C".toList
      (by decide) (by decide) (by decide) (by decide) (by decide),
    grafo_de exemplo_malformada, le_grafo_grafo_de exemplo_malformada (by decide), by decide⟩

/-! ## Graphs without edges -/

theorem SemArestas_getD (g : grafo) (h : SemArestas g) (u : Nat) : g.adj.getD u [] = [] := by
  by_cases hu : u < g.adj.length
  · rw [List.getD_eq_getElem _ _ hu]
    exact h _ (List.getElem_mem hu)
  · exact List.getD_eq_default _ _ (Nat.le_of_not_lt hu)

theorem SemArestas_of_check (g : grafo) (h : g.adj.all (fun l => l.isEmpty) = true) :
    SemArestas g := by
  intro l hl
  rw [List.all_eq_true] at h
  exact List.isEmpty_iff.1 (h l hl)

theorem dfs_comp_sem_arestas (g : grafo) (h : SemArestas g) (fuel u : Nat) (vis : List Bool) :
    dfs_comp g (fuel + 1) u vis = some (vis.set u true) := by
  rw [dfs_comp_succ, SemArestas_getD g h u]
  rfl

theorem n_componentes_loop_sem_arestas (g : grafo) (h : SemArestas g) :
    ∀ (is : List Nat) (vis : List Bool) (c : Nat), is.Nodup →
      (∀ i ∈ is, i < g.n_vertices ∧ ¬ Vis vis i) →
      ∃ vis2, n_componentes_loop g is (vis, c) = some (vis2, c + is.length) := by
  intro is
  induction is with
  | nil =>
    intro vis c _ _
    exact ⟨vis, rfl⟩
  | cons i is ih =>
    intro vis c hnd hall
    obtain ⟨hi, hvi⟩ := hall i (List.mem_cons_self _ _)
    obtain ⟨k, hk⟩ : ∃ k, g.n_vertices = k + 1 := ⟨g.n_vertices - 1, by omega⟩
    have hvi2 : vis.getD i false = false := by
      unfold Vis at hvi
      simpa using hvi
    obtain ⟨vis2, h2⟩ := ih (vis.set i true) (c + 1) (List.nodup_cons.1 hnd).2
      (fun j hj => by
        obtain ⟨hj1, hj2⟩ := hall j (List.mem_cons_of_mem _ hj)
        refine ⟨hj1, ?_⟩
        rw [Vis_set]
        rintro (⟨e, _⟩ | hv)
        · exact (List.nodup_cons.1 hnd).1 (e ▸ hj)
        · exact hj2 hv)
    refine ⟨vis2, ?_⟩
    unfold n_componentes_loop at h2 ⊢
    rw [List.foldlM_cons]
    simp only [hvi2, Bool.false_eq_true, if_false]
    have hd : dfs_comp g g.n_vertices i vis = some (vis.set i true) := by
      rw [hk]
      exact dfs_comp_sem_arestas g h k i vis
    rw [hd]
    simp only [Option.map_some', Option.some_bind, Option.bind_eq_bind]
    rw [h2, List.length_cons]
    congr 2
    omega

/-- C13: on a graph whose adjacency lists are all empty, `n_componentes`
returns `n_vertices`. -/
theorem n_componentes_sem_arestas (g : grafo) (h : SemArestas g) :
    n_componentes g = some (n_vertices g) := by
  obtain ⟨vis2, h2⟩ := n_componentes_loop_sem_arestas g h (List.range g.n_vertices)
    (List.replicate g.n_vertices false) 0 (List.nodup_range _)
    (fun i hi => ⟨List.mem_range.1 hi, Vis_replicate_false _ _⟩)
  unfold n_componentes
  rw [h2, List.length_range, Nat.zero_add]
  rfl

/-- C13 on four isolated vertices. -/
theorem n_componentes_sem_arestas_witness :
    ∃ g, le_grafo exemplo_isolados = some g ∧
      (SemArestas g ∧ n_componentes g = some 4) :=
  ⟨grafo_de exemplo_isolados,
    le_grafo_grafo_de exemplo_isolados (by decide),
    (⟨SemArestas_of_check _ (by decide),
        n_componentes_sem_arestas (grafo_de exemplo_isolados) (SemArestas_of_check _ (by decide))⟩)⟩


/-! ## Bipartiteness of edgeless graphs and trees -/

theorem bipartido_loop_sem_arestas (g : grafo) (h : SemArestas g) :
    ∀ (is : List Nat) (color : List Int), (∀ i ∈ is, i < g.n_vertices) →
      bipartido_loop g is color = some true := by
  intro is
  induction is with
  | nil =>
    intro color _
    rfl
  | cons i is ih =>
    intro color hall
    have hi := hall i (List.mem_cons_self _ _)
    obtain ⟨k, hk⟩ : ∃ k, g.n_vertices = k + 1 := ⟨g.n_vertices - 1, by omega⟩
    have hd : ∀ c, dfs_bipartite g g.n_vertices i c = some (true, c) := by
      intro c
      rw [hk, dfs_bipartite, SemArestas_getD g h i]
      rfl
    rw [bipartido_loop]
    by_cases hc : color.getD i 0 = -1
    · rw [if_pos hc, hd]
      exact ih _ (fun j hj => hall j (List.mem_cons_of_mem _ hj))
    · rw [if_neg hc]
      exact ih _ (fun j hj => hall j (List.mem_cons_of_mem _ hj))

theorem AdjL_symm (E : List (Nat × Nat)) (x y : Nat) (h : AdjL E x y) : AdjL E y x :=
  Or.symm h

theorem JoinedL_symm (E : List (Nat × Nat)) (a b : Nat) (h : JoinedL E a b) : JoinedL E b a := by
  induction h with
  | refl => exact Relation.ReflTransGen.refl
  | tail _ hbc ih => exact Relation.ReflTransGen.head (AdjL_symm E _ _ hbc) ih

theorem JoinedMinusL_cons (e : Nat × Nat) (E : List (Nat × Nat)) (u v a b : Nat)
    (h : JoinedMinusL E u v a b) : JoinedMinusL (e :: E) u v a b := by
  induction h with
  | refl => exact Relation.ReflTransGen.refl
  | tail _ hbc ih =>
    refine Relation.ReflTransGen.tail ih ⟨?_, hbc.2⟩
    rcases hbc.1 with h1 | h1
    · exact Or.inl (List.mem_cons_of_mem _ h1)
    · exact Or.inr (List.mem_cons_of_mem _ h1)

theorem JoinedMinusL_of_absent (E : List (Nat × Nat)) (u v a b : Nat)
    (hno : ¬ AdjL E u v) (h : JoinedL E a b) : JoinedMinusL E u v a b := by
  induction h with
  | refl => exact Relation.ReflTransGen.refl
  | @tail x y _ hbc ih =>
    refine Relation.ReflTransGen.tail ih ⟨hbc, ?_, ?_⟩
    · rintro ⟨e1, e2⟩
      rw [e1, e2] at hbc
      exact hno hbc
    · rintro ⟨e1, e2⟩
      rw [e1, e2] at hbc
      exact hno (AdjL_symm E _ _ hbc)

/-- A list of pairs none of which lies on a cycle has a proper
two-colouring. -/
theorem floresta_bicolor :
    ∀ E : List (Nat × Nat), (∀ u v, AdjL E u v → ¬ JoinedMinusL E u v u v) →
      ∃ c : Nat → Bool, ∀ u v, AdjL E u v → c u ≠ c v := by
  intro E
  induction E with
  | nil =>
    intro _
    refine ⟨fun _ => true, ?_⟩
    intro u v h
    rcases h with h | h <;> cases h
  | cons e E ih =>
    intro hac
    obtain ⟨u, v⟩ := e
    have hac2 : ∀ a b, AdjL E a b → ¬ JoinedMinusL E a b a b := by
      intro a b hab hj
      refine hac a b ?_ (JoinedMinusL_cons (u, v) E a b a b hj)
      rcases hab with h1 | h1
      · exact Or.inl (List.mem_cons_of_mem _ h1)
      · exact Or.inr (List.mem_cons_of_mem _ h1)
    obtain ⟨c, hc⟩ := ih hac2
    have huv : AdjL ((u, v) :: E) u v := Or.inl (List.mem_cons_self _ _)
    by_cases hin : AdjL E u v
    · refine ⟨c, ?_⟩
      intro a b hab
      have hab2 : AdjL E a b ∨ (a = u ∧ b = v) ∨ (a = v ∧ b = u) := by
        rcases hab with h1 | h1
        · rcases List.mem_cons.1 h1 with e1 | h1
          · exact Or.inr (Or.inl ⟨(Prod.mk.inj e1).1, (Prod.mk.inj e1).2⟩)
          · exact Or.inl (Or.inl h1)
        · rcases List.mem_cons.1 h1 with e1 | h1
          · exact Or.inr (Or.inr ⟨(Prod.mk.inj e1).2, (Prod.mk.inj e1).1⟩)
          · exact Or.inl (Or.inr h1)
      rcases hab2 with h1 | ⟨e1, e2⟩ | ⟨e1, e2⟩
      · exact hc a b h1
      · rw [e1, e2]
        exact hc u v hin
      · rw [e1, e2]
        exact hc v u (AdjL_symm E _ _ hin)
    · have hnj : ¬ JoinedL E u v := by
        intro hj
        exact hac u v huv
          (JoinedMinusL_cons (u, v) E u v u v (JoinedMinusL_of_absent E u v u v hin hj))
      classical
      refine ⟨fun x => if JoinedL E u x then c x else xor (c x) (c u == c v), ?_⟩
      intro a b hab
      have hab2 : AdjL E a b ∨ (a = u ∧ b = v) ∨ (a = v ∧ b = u) := by
        rcases hab with h1 | h1
        · rcases List.mem_cons.1 h1 with e1 | h1
          · exact Or.inr (Or.inl ⟨(Prod.mk.inj e1).1, (Prod.mk.inj e1).2⟩)
          · exact Or.inl (Or.inl h1)
        · rcases List.mem_cons.1 h1 with e1 | h1
          · exact Or.inr (Or.inr ⟨(Prod.mk.inj e1).2, (Prod.mk.inj e1).1⟩)
          · exact Or.inl (Or.inr h1)
      have hu : JoinedL E u u := Relation.ReflTransGen.refl
      rcases hab2 with h1 | ⟨e1, e2⟩ | ⟨e1, e2⟩
      · have hne := hc a b h1
        by_cases ha : JoinedL E u a
        · have hb : JoinedL E u b := Relation.ReflTransGen.tail ha h1
          simp only [ha, hb, if_true]
          exact hne
        · have hb : ¬ JoinedL E u b := fun hb =>
            ha (Relation.ReflTransGen.tail hb (AdjL_symm E _ _ h1))
          simp only [ha, hb, if_false]
          revert hne
          cases c a <;> cases c b <;> cases (c u == c v) <;> simp
      · rw [e1, e2]
        simp only [hu, hnj, if_true, if_false]
        cases c u <;> cases c v <;> simp
      · rw [e1, e2]
        simp only [hu, hnj, if_true, if_false]
        cases c u <;> cases c v <;> simp


theorem mem_pares (g : grafo) (x y : Nat) : (x, y) ∈ pares g ↔ Adj g x y := by
  unfold pares Adj
  rw [List.mem_flatten]
  constructor
  · rintro ⟨l, hl, hxy⟩
    obtain ⟨u, _, rfl⟩ := List.mem_map.1 hl
    obtain ⟨p, hp, e⟩ := List.mem_map.1 hxy
    obtain ⟨e1, e2⟩ := Prod.mk.inj e
    rw [← e1]
    exact ⟨p, hp, e2⟩
  · rintro ⟨p, hp, e⟩
    have hx : x < g.adj.length := by
      by_contra hn
      rw [List.getD_eq_default _ _ (Nat.le_of_not_lt hn)] at hp
      cases hp
    refine ⟨_, List.mem_map.2 ⟨x, List.mem_range.2 hx, rfl⟩, ?_⟩
    exact List.mem_map.2 ⟨p, hp, by rw [e]⟩

theorem AdjL_pares (g : grafo) (hs : SymAdj g) (x y : Nat) : AdjL (pares g) x y ↔ Adj g x y := by
  unfold AdjL
  rw [mem_pares, mem_pares]
  constructor
  · rintro (h | h)
    · exact h
    · exact Adj_symm g hs _ _ h
  · exact fun h => Or.inl h

theorem JoinedMinus_of_pares (g : grafo) (hs : SymAdj g) (u v a b : Nat)
    (h : JoinedMinusL (pares g) u v a b) : JoinedMinus g u v a b := by
  induction h with
  | refl => exact Relation.ReflTransGen.refl
  | tail _ hbc ih =>
    exact Relation.ReflTransGen.tail ih ⟨(AdjL_pares g hs _ _).1 hbc.1, hbc.2⟩

/-- A symmetric graph in which no edge lies on a cycle has a proper
two-colouring. -/
theorem TwoColorable_of_aciclico (g : grafo) (hs : SymAdj g)
    (hac : ∀ u v, Adj g u v → ¬ JoinedMinus g u v u v) : TwoColorable g := by
  obtain ⟨c, hc⟩ := floresta_bicolor (pares g)
    (fun u v huv hj =>
      hac u v ((AdjL_pares g hs u v).1 huv) (JoinedMinus_of_pares g hs u v u v hj))
  refine ⟨c, ?_⟩
  intro u p hp
  exact hc u p.v ((AdjL_pares g hs u p.v).2 ⟨p, hp, rfl⟩)

theorem TwoColorable_sem_arestas (g : grafo) (h : SemArestas g) : TwoColorable g := by
  refine ⟨fun _ => true, ?_⟩
  intro u p hp
  rw [SemArestas_getD g h u] at hp
  cases hp

theorem conexo_of_n_componentes (g : grafo) (hwf : WF g) (h : n_componentes g = some 1) :
    ∀ u v, u < g.n_vertices → v < g.n_vertices → Joined g u v := by
  obtain ⟨vis2, reps2, h2, hinv2, _, hall⟩ :=
    n_componentes_loop_spec g hwf (List.range g.n_vertices) _ []
      (fun i hi => List.mem_range.1 hi) (CompInv_init g)
  have h3 : n_componentes g = some reps2.length := by
    unfold n_componentes
    rw [List.length_nil] at h2
    rw [h2]
    rfl
  rw [h3] at h
  have hlen : reps2.length = 1 := Option.some.inj h
  intro u v hu hv
  obtain ⟨r1, hr1, hj1⟩ := hinv2.covered u (hall u (List.mem_range.2 hu))
  obtain ⟨r2, hr2, hj2⟩ := hinv2.covered v (hall v (List.mem_range.2 hv))
  obtain ⟨r, hr⟩ := List.length_eq_one.1 hlen
  rw [hr] at hr1 hr2
  rw [List.mem_singleton.1 hr1] at hj1
  rw [List.mem_singleton.1 hr2] at hj2
  exact Joined_trans g u r v (Joined_symm g hwf.sym r u hj1) hj2

theorem contains_nat (l : List Nat) (a : Nat) : l.contains a = true ↔ a ∈ l :=
  List.elem_iff

theorem aciclico_of_cert (g : grafo) (cert : Nat → Nat → List Nat)
    (h : aciclico_cert g cert = true) : ∀ u v, Adj g u v → ¬ JoinedMinus g u v u v := by
  intro u v huv hj
  unfold aciclico_cert at h
  rw [List.all_eq_true] at h
  have h1 := h (u, v) ((mem_pares g u v).2 huv)
  simp only [Bool.and_eq_true, Bool.not_eq_true', List.all_eq_true, Bool.or_eq_true,
    beq_iff_eq, contains_nat] at h1
  obtain ⟨⟨hu, hv⟩, hcl⟩ := h1
  have hv2 : v ∉ cert u v := by
    intro hm
    rw [(contains_nat _ _).2 hm] at hv
    cases hv
  apply hv2
  refine JoinedR_closed g _ (fun x => x ∈ cert u v) ?_ u v hu hj
  intro x y hx hxy hR
  obtain ⟨p, hp, rfl⟩ := hxy
  rcases hcl x hx p hp with (h3 | h3) | h3
  · exact absurd h3 hR.1
  · exact absurd h3 hR.2
  · exact h3

theorem bipartido_of_TwoColorable (g : grafo) (hwf : WF g) (h : TwoColorable g) :
    bipartido g = some true := by
  obtain ⟨b, hb, hbad, _⟩ :=
    bipartido_loop_spec g hwf (List.range g.n_vertices) _
      (fun i hi => List.mem_range.1 hi) (BipInv_init g hwf)
  have hb2 : bipartido g = some b := hb
  rw [hb2]
  cases b with
  | true => rfl
  | false => exact absurd h (hbad rfl)

/-- C14: `bipartido` returns 1 on every graph without edges and on every
tree. -/
theorem bipartido_sem_arestas_ou_arvore (g : grafo) (h : SemArestas g ∨ Arvore g) :
    bipartido g = some true := by
  rcases h with h | h
  · exact bipartido_loop_sem_arestas g h (List.range g.n_vertices) _
      (fun i hi => List.mem_range.1 hi)
  · exact bipartido_of_TwoColorable g h.wf (TwoColorable_of_aciclico g h.wf.sym h.aciclico)

theorem Arvore_estrela : Arvore (grafo_de exemplo_estrela) :=
  have hac := aciclico_of_cert (grafo_de exemplo_estrela)
    (fun u v => if u = 1 then [0, 1, 2, 3].filter (fun x => x != v) else [u]) (by decide)
  { wf := WF_grafo_de exemplo_estrela
    conexo := conexo_of_n_componentes _ (WF_grafo_de exemplo_estrela) (by decide)
    sem_laco := fun u h => hac u u h Relation.ReflTransGen.refl
    simples := NoParallel_of_check _ (by decide)
    aciclico := hac }

/-- C14 on a star whose centre is inserted after a leaf. -/
theorem bipartido_sem_arestas_ou_arvore_witness :
    ∃ g, le_grafo exemplo_estrela = some g ∧
      (Arvore g ∧ bipartido g = some true) :=
  ⟨grafo_de exemplo_estrela,
    le_grafo_grafo_de exemplo_estrela (by decide),
    (⟨Arvore_estrela, bipartido_sem_arestas_ou_arvore (grafo_de exemplo_estrela) (Or.inr Arvore_estrela)⟩)⟩

/-! ## The component loop of `diametros`, for any property of the diameters -/

theorem diametros_loop_gen (g : grafo) (hwf : WF g) (Q : Nat → Int → Prop)
    (hQ : ∀ i ms, i < g.n_vertices → (∀ v, v ∈ ms ↔ Joined g i v) →
      Q i (comp_maxdist g ms)) :
    ∀ (is : List Nat) (vis : List Bool) (reps : List Nat) (ds : List Int),
      (∀ i ∈ is, i < g.n_vertices) → CompInv g vis reps → List.Forall₂ Q reps ds →
      ∃ vis2 reps2 ds2, diametros_loop g is (vis, ds) = some (vis2, ds2) ∧
        CompInv g vis2 reps2 ∧ List.Forall₂ Q reps2 ds2 ∧
        (∀ v, Vis vis v → Vis vis2 v) ∧ ∀ i ∈ is, Vis vis2 i := by
  intro is
  induction is with
  | nil =>
    intro vis reps ds _ hinv hds
    exact ⟨vis, reps, ds, rfl, hinv, hds, fun v hv => hv, fun i hi => (by cases hi)⟩
  | cons i is ih =>
    intro vis reps ds hlt hinv hds
    have hlt2 : ∀ j ∈ is, j < g.n_vertices := fun j hj => hlt j (List.mem_cons_of_mem _ hj)
    have hi := hlt i (List.mem_cons_self _ _)
    unfold diametros_loop
    rw [List.foldlM_cons]
    by_cases hvi : vis.getD i false = true
    · obtain ⟨vis2, reps2, ds2, h2, hinv2, hds2, hmono, hall⟩ := ih vis reps ds hlt2 hinv hds
      refine ⟨vis2, reps2, ds2, ?_, hinv2, hds2, hmono, ?_⟩
      · simp only [hvi, if_true]
        exact h2
      · intro j hj
        rcases List.mem_cons.1 hj with rfl | hj
        · exact hmono _ hvi
        · exact hall j hj
    · obtain ⟨visa, ms, ha, hfl⟩ := flood_spec g hwf vis i g.n_vertices (vis.set i true) [i] [i]
        (FloodInv_init g vis i hinv.len hi hvi)
        (by rw [List.length_singleton]; omega)
      obtain ⟨hposta, hroota⟩ := FloodInv_post g vis i visa ms hinv.len hfl
      have hinva := CompInv_step g vis visa reps i hinv hvi hposta hroota
      have hq := hQ i ms hi (FloodInv_members g hwf vis reps i visa ms hinv hvi hfl)
      have hdsa : List.Forall₂ Q (reps ++ [i]) (ds ++ [comp_maxdist g ms]) :=
        List.rel_append hds (List.Forall₂.cons hq List.Forall₂.nil)
      obtain ⟨vis2, reps2, ds2, h2, hinv2, hds2, hmono, hall⟩ :=
        ih visa (reps ++ [i]) (ds ++ [comp_maxdist g ms]) hlt2 hinva hdsa
      refine ⟨vis2, reps2, ds2, ?_, hinv2, hds2, fun v hv => hmono v (hposta.mono v hv), ?_⟩
      · simp only [hvi, Bool.false_eq_true, if_false, ha, Option.map_some']
        exact h2
      · intro j hj
        rcases List.mem_cons.1 hj with rfl | hj
        · exact hmono _ hroota
        · exact hall j hj

/-- The result of `diametros` on a well-formed graph: the sorted list of one
value per component representative, each value satisfying any property `Q`
that `comp_maxdist` has on whole components. -/
theorem diametros_vals_gen (g : grafo) (hwf : WF g) (Q : Nat → Int → Prop)
    (hQ : ∀ i ms, i < g.n_vertices → (∀ v, v ∈ ms ↔ Joined g i v) →
      Q i (comp_maxdist g ms)) :
    ∃ (reps : List Nat) (dr : List Int),
      diametros_vals g = some (exchange_sort 0 (fun a b => decide (a > b)) dr) ∧
      diametros g = some (join_sp ((exchange_sort 0 (fun a b => decide (a > b)) dr).map itoa)) ∧
      Representantes g reps ∧ List.Forall₂ Q reps dr := by
  obtain ⟨vis2, reps, dr, h2, hinv, hdr, _, hall⟩ :=
    diametros_loop_gen g hwf Q hQ (List.range g.n_vertices) _ [] []
      (fun i hi => List.mem_range.1 hi) (CompInv_init g) List.Forall₂.nil
  have hrep : Representantes g reps :=
    ⟨fun r hr => hinv.len ▸ Vis_lt vis2 r (hinv.reps_vis r hr), hinv.apart,
      fun v hv => hinv.covered v (hall v (List.mem_range.2 hv))⟩
  have hvals : diametros_vals g = some (exchange_sort 0 (fun a b => decide (a > b)) dr) := by
    unfold diametros_vals
    rw [h2]
    rfl
  refine ⟨reps, dr, hvals, ?_, hrep, hdr⟩
  unfold diametros
  rw [hvals]
  rfl


/-! ## Walks -/

theorem WalkW_append (g : grafo) (u v w : Nat) (d1 d2 : Int) (h1 : WalkW g u v d1)
    (h2 : WalkW g v w d2) : WalkW g u w (d1 + d2) := by
  induction h2 with
  | nil =>
    rw [add_zero]
    exact h1
  | @snoc x d p _ hp ih =>
    rw [← add_assoc]
    exact WalkW.snoc p ih hp

theorem WalkW_symm (g : grafo) (hs : SymAdj g) (u v : Nat) (d : Int) (h : WalkW g u v d) :
    WalkW g v u d := by
  induction h with
  | nil => exact WalkW.nil u
  | @snoc x d p _ hp ih =>
    have hback : (⟨x, p.weight⟩ : adj_node) ∈ g.adj.getD p.v [] := hs x p.v p.weight hp
    have h1 : WalkW g p.v x (0 + p.weight) := WalkW.snoc ⟨x, p.weight⟩ (WalkW.nil p.v) hback
    have h2 := WalkW_append g p.v x u _ _ h1 ih
    have e : 0 + p.weight + d = d + p.weight := by omega
    rw [e] at h2
    exact h2

theorem WalkW_joined (g : grafo) (u v : Nat) (d : Int) (h : WalkW g u v d) : Joined g u v := by
  induction h with
  | nil => exact Relation.ReflTransGen.refl
  | snoc p _ hp ih => exact Relation.ReflTransGen.tail ih ⟨p, hp, rfl⟩

/-! ## Path graphs -/

theorem Caminho.len {g : grafo} {ord : List Nat} (h : Caminho g ord) :
    ord.length = g.n_vertices := by
  rw [h.perm.length_eq, List.length_range]

theorem Caminho.lt {g : grafo} {ord : List Nat} (h : Caminho g ord) (i : Nat)
    (hi : i < g.n_vertices) : ord.getD i 0 < g.n_vertices := by
  have hi2 : i < ord.length := h.len ▸ hi
  rw [List.getD_eq_getElem _ _ hi2]
  exact List.mem_range.1 (h.perm.subset (List.getElem_mem hi2))

theorem Caminho.inj {g : grafo} {ord : List Nat} (h : Caminho g ord) (i j : Nat)
    (hi : i < g.n_vertices) (hj : j < g.n_vertices) (e : ord.getD i 0 = ord.getD j 0) :
    i = j := by
  have hi2 : i < ord.length := h.len ▸ hi
  have hj2 : j < ord.length := h.len ▸ hj
  rw [List.getD_eq_getElem _ _ hi2, List.getD_eq_getElem _ _ hj2] at e
  have hnd : ord.Nodup := h.perm.nodup_iff.2 (List.nodup_range _)
  exact (List.Nodup.getElem_inj_iff hnd).1 e

theorem Caminho.surj {g : grafo} {ord : List Nat} (h : Caminho g ord) (x : Nat)
    (hx : x < g.n_vertices) : ∃ i, i < g.n_vertices ∧ ord.getD i 0 = x := by
  have hmem : x ∈ ord := h.perm.symm.subset (List.mem_range.2 hx)
  obtain ⟨i, hi, e⟩ := List.getElem_of_mem hmem
  exact ⟨i, h.len ▸ hi, by rw [List.getD_eq_getElem _ _ hi]; exact e⟩

theorem mem_vizinhos (ord : List Nat) (n i : Nat) (p : adj_node) :
    p ∈ vizinhos ord n i ↔
      (i + 1 < n ∧ p = ⟨ord.getD (i + 1) 0, 1⟩) ∨ (0 < i ∧ p = ⟨ord.getD (i - 1) 0, 1⟩) := by
  unfold vizinhos
  rw [List.mem_append]
  constructor
  · rintro (h | h)
    · left
      split at h
      · rename_i hc
        exact ⟨hc, List.mem_singleton.1 h⟩
      · cases h
    · right
      split at h
      · rename_i hc
        exact ⟨hc, List.mem_singleton.1 h⟩
      · cases h
  · rintro (⟨hc, e⟩ | ⟨hc, e⟩)
    · left
      rw [if_pos hc, e]
      exact List.mem_singleton_self _
    · right
      rw [if_pos hc, e]
      exact List.mem_singleton_self _

theorem Caminho.mem {g : grafo} {ord : List Nat} (h : Caminho g ord) (i : Nat)
    (hi : i < g.n_vertices) (p : adj_node) :
    p ∈ g.adj.getD (ord.getD i 0) [] ↔
      (i + 1 < g.n_vertices ∧ p = ⟨ord.getD (i + 1) 0, 1⟩) ∨
      (0 < i ∧ p = ⟨ord.getD (i - 1) 0, 1⟩) := by
  rw [(h.viz i hi).mem_iff, mem_vizinhos]

theorem Caminho.walk_up {g : grafo} {ord : List Nat} (h : Caminho g ord) (i : Nat) :
    ∀ m, i + m < g.n_vertices → WalkW g (ord.getD i 0) (ord.getD (i + m) 0) (m : Int) := by
  intro m
  induction m with
  | zero =>
    intro _
    exact WalkW.nil _
  | succ m ih =>
    intro hm
    have h1 := ih (by omega)
    have hp : (⟨ord.getD (i + m + 1) 0, 1⟩ : adj_node) ∈ g.adj.getD (ord.getD (i + m) 0) [] :=
      (h.mem (i + m) (by omega) _).2 (Or.inl ⟨by omega, rfl⟩)
    have h2 := WalkW.snoc _ h1 hp
    have e : ((m : Int) + (⟨ord.getD (i + m + 1) 0, 1⟩ : adj_node).weight) = ((m + 1 : Nat) : Int) := by
      push_cast
      rfl
    rw [e] at h2
    exact h2

theorem Caminho.sym {g : grafo} {ord : List Nat} (h : Caminho g ord) (hwf_adj : g.adj.length = g.n_vertices) :
    SymAdj g := by
  intro x y w hp
  have hx : x < g.n_vertices := by
    by_contra hn
    rw [List.getD_eq_default _ _ (by rw [hwf_adj]; exact Nat.le_of_not_lt hn)] at hp
    cases hp
  obtain ⟨i, hi, rfl⟩ := h.surj x hx
  rcases (h.mem i hi _).1 hp with ⟨hc, e⟩ | ⟨hc, e⟩
  · obtain ⟨e1, e2⟩ := adj_node.mk.inj e
    rw [e1, e2]
    refine (h.mem (i + 1) hc _).2 (Or.inr ⟨by omega, ?_⟩)
    rw [Nat.add_sub_cancel]
  · obtain ⟨e1, e2⟩ := adj_node.mk.inj e
    rw [e1, e2]
    refine (h.mem (i - 1) (by omega) _).2 (Or.inl ⟨by omega, ?_⟩)
    rw [Nat.sub_add_cancel hc]

theorem Caminho.peso {g : grafo} {ord : List Nat} (h : Caminho g ord)
    (hlen : g.adj.length = g.n_vertices) (x : Nat) (p : adj_node)
    (hp : p ∈ g.adj.getD x []) : p.weight = 1 := by
  have hx : x < g.n_vertices := by
    by_contra hn
    rw [List.getD_eq_default _ _ (by rw [hlen]; exact Nat.le_of_not_lt hn)] at hp
    cases hp
  obtain ⟨i, hi, rfl⟩ := h.surj x hx
  rcases (h.mem i hi _).1 hp with ⟨_, e⟩ | ⟨_, e⟩
  · rw [e]
  · rw [e]

/-- Every walk from position `i` ends at a position at most its weight
away. -/
theorem Caminho.walk_lower {g : grafo} {ord : List Nat} (h : Caminho g ord) (i : Nat)
    (hi : i < g.n_vertices) (v : Nat) (d : Int) (hw : WalkW g (ord.getD i 0) v d) :
    ∃ j, j < g.n_vertices ∧ v = ord.getD j 0 ∧ (i : Int) - j ≤ d ∧ (j : Int) - i ≤ d := by
  generalize hu : ord.getD i 0 = u at hw
  induction hw with
  | nil => exact ⟨i, hi, hu.symm, by omega, by omega⟩
  | @snoc x d p _ hp ih =>
    obtain ⟨j, hj, e, h1, h2⟩ := ih
    rw [e] at hp
    rcases (h.mem j hj _).1 hp with ⟨hc, e2⟩ | ⟨hc, e2⟩
    · refine ⟨j + 1, hc, by rw [e2], ?_, ?_⟩
      · rw [e2]
        push_cast
        show (i : Int) - (j + 1) ≤ d + 1
        omega
      · rw [e2]
        push_cast
        show (j : Int) + 1 - i ≤ d + 1
        omega
    · refine ⟨j - 1, by omega, by rw [e2], ?_, ?_⟩
      · rw [e2]
        show (i : Int) - ((j - 1 : Nat) : Int) ≤ d + 1
        omega
      · rw [e2]
        show ((j - 1 : Nat) : Int) - i ≤ d + 1
        omega


theorem Caminho.walk {g : grafo} {ord : List Nat} (h : Caminho g ord) (hs : SymAdj g)
    (i j : Nat) (hi : i < g.n_vertices) (hj : j < g.n_vertices) :
    ∃ d : Int, WalkW g (ord.getD i 0) (ord.getD j 0) d ∧ (i : Int) - j ≤ d ∧ (j : Int) - i ≤ d ∧
      (d = (i : Int) - j ∨ d = (j : Int) - i) := by
  rcases Nat.le_total i j with hij | hij
  · have h1 := h.walk_up i (j - i) (by omega)
    rw [Nat.add_sub_cancel' hij] at h1
    exact ⟨_, h1, by omega, by omega, Or.inr (by omega)⟩
  · have h1 := h.walk_up j (i - j) (by omega)
    rw [Nat.add_sub_cancel' hij] at h1
    exact ⟨_, WalkW_symm g hs _ _ _ h1, by omega, by omega, Or.inl (by omega)⟩

theorem Caminho.NonNeg {g : grafo} {ord : List Nat} (h : Caminho g ord)
    (hlen : g.adj.length = g.n_vertices) : NonNeg g := by
  intro u p hp
  rw [h.peso hlen u p hp]
  decide

theorem Caminho.peso_lt {g : grafo} {ord : List Nat} (h : Caminho g ord)
    (hlen : g.adj.length = g.n_vertices) : ∀ u p, p ∈ g.adj.getD u [] → p.weight < INF := by
  intro u p hp
  rw [h.peso hlen u p hp]
  decide

/-- Entry of the Dijkstra row of position `i` at position `j` of a path: the
difference of the positions, capped at `INF`. -/
theorem Caminho.dijkstra {g : grafo} {ord : List Nat} (h : Caminho g ord) (hwf : WF g)
    (i j : Nat) (hi : i < g.n_vertices) (hj : j < g.n_vertices) :
    ∃ d : Int, (d = (i : Int) - j ∨ d = (j : Int) - i) ∧ 0 ≤ d ∧
      (dijkstra g (ord.getD i 0)).getD (ord.getD j 0) 0 = min d INF := by
  have hpost := dijkstra_spec g hwf (h.NonNeg hwf.len_adj) (h.peso_lt hwf.len_adj)
    (ord.getD i 0) (h.lt i hi)
  obtain ⟨d, hwalk, h1, h2, h3⟩ := h.walk hwf.sym i j hi hj
  refine ⟨d, h3, by omega, ?_⟩
  have hle := hpost.lower _ d hwalk
  have hrange := hpost.range (ord.getD j 0)
  rcases hpost.real _ (h.lt j hj) with h4 | h4
  · rw [h4]
    rw [h4] at hle
    omega
  · obtain ⟨j2, hj2, e, h5, h6⟩ := h.walk_lower i hi _ _ h4
    have ej := h.inj j j2 hj hj2 e
    rw [← ej] at h5 h6
    omega

theorem Caminho.joined {g : grafo} {ord : List Nat} (h : Caminho g ord) (hs : SymAdj g)
    (x y : Nat) (hx : x < g.n_vertices) (hy : y < g.n_vertices) : Joined g x y := by
  obtain ⟨i, hi, rfl⟩ := h.surj x hx
  obtain ⟨j, hj, rfl⟩ := h.surj y hy
  obtain ⟨d, hwalk, _⟩ := h.walk hs i j hi hj
  exact WalkW_joined g _ _ d hwalk

theorem Caminho.comp_maxdist {g : grafo} {ord : List Nat} (h : Caminho g ord) (hwf : WF g)
    (r : Nat) (hr : r < g.n_vertices) (ms : List Nat) (hms : ∀ v, v ∈ ms ↔ Joined g r v) :
    comp_maxdist g ms = min ((g.n_vertices : Int) - 1) (INF - 1) := by
  have hINF := INF_val
  have hall : ∀ x, x < g.n_vertices → x ∈ ms :=
    fun x hx => (hms x).2 (h.joined hwf.sym r x hr hx)
  have hlt : ∀ x ∈ ms, x < g.n_vertices :=
    fun x hx => Joined_lt_right g hwf r x hr ((hms x).1 hx)
  obtain ⟨h1, h2, h3⟩ := comp_maxdist_spec g ms
  apply le_antisymm
  · rcases h3 with h3 | ⟨u, hu, v, hv, h4, h5⟩
    · rw [h3]
      omega
    · obtain ⟨i, hi, rfl⟩ := h.surj u (hlt u hu)
      obtain ⟨j, hj, rfl⟩ := h.surj v (hlt v hv)
      obtain ⟨d, hd, hd0, e⟩ := h.dijkstra hwf i j hi hj
      rw [h5, e]
      rw [e] at h4
      omega
  · have hm : (min ((g.n_vertices : Int) - 1) (INF - 1)).toNat < g.n_vertices := by omega
    obtain ⟨d, hd, hd0, e⟩ := h.dijkstra hwf 0 _ (by omega) hm
    have h4 := h2 _ (hall _ (h.lt 0 (by omega))) _ (hall _ (h.lt _ hm))
    rw [e] at h4
    have hd2 : d = min ((g.n_vertices : Int) - 1) (INF - 1) := by omega
    have := h4 (by omega)
    omega

theorem exchange_sort_singleton {α : Type} (d : α) (gt : α → α → Bool) (a : α) :
    exchange_sort d gt [a] = [a] := rfl

/-- On a path graph `diametros` prints one integer: the number of edges of
the path, capped at `INF - 1`. -/
theorem diametros_caminho (g : grafo) (ord : List Nat) (hwf : WF g) (hc : Caminho g ord)
    (hk : 1 ≤ g.n_vertices) :
    diametros g = some (itoa (min ((g.n_vertices : Int) - 1) (INF - 1))) := by
  obtain ⟨reps, dr, _, h2, hrep, hdr⟩ := diametros_vals_gen g hwf
    (fun _ d => d = min ((g.n_vertices : Int) - 1) (INF - 1))
    (fun i ms hi hms => hc.comp_maxdist hwf i hi ms hms)
  obtain ⟨hlt, hapart, hcov⟩ := hrep
  have hone : ∃ r, reps = [r] := by
    cases reps with
    | nil =>
      obtain ⟨r, hr, _⟩ := hcov 0 (by omega)
      cases hr
    | cons a t =>
      cases t with
      | nil => exact ⟨a, rfl⟩
      | cons b t =>
        exfalso
        have hab := (List.pairwise_cons.1 hapart).1 b (List.mem_cons_self _ _)
        exact hab (hc.joined hwf.sym a b (hlt a (List.mem_cons_self _ _))
          (hlt b (List.mem_cons_of_mem _ (List.mem_cons_self _ _))))
  obtain ⟨r, hr⟩ := hone
  rw [hr] at hdr
  cases hdr with
  | cons hd htl =>
    cases htl
    rw [h2, hd, exchange_sort_singleton]
    rfl


theorem WF_of_Caminho (g : grafo) (ord : List Nat) (hlv : g.vertices.length = g.n_vertices)
    (hla : g.adj.length = g.n_vertices) (hc : Caminho g ord) : WF g where
  len_vertices := hlv
  len_adj := hla
  in_range := by
    intro x p hp
    have hx : x < g.n_vertices := by
      by_contra hn
      rw [List.getD_eq_default _ _ (by rw [hla]; exact Nat.le_of_not_lt hn)] at hp
      cases hp
    obtain ⟨i, hi, rfl⟩ := hc.surj x hx
    rcases (hc.mem i hi _).1 hp with ⟨h1, e⟩ | ⟨h1, e⟩
    · rw [e]
      exact hc.lt (i + 1) h1
    · rw [e]
      exact hc.lt (i - 1) (by omega)
  sym := hc.sym hla

theorem getD_range (k i : Nat) (hi : i < k) : (List.range k).getD i 0 = i := by
  rw [List.getD_eq_getElem _ _ (by rw [List.length_range]; exact hi), List.getElem_range]

theorem Caminho_caminho (k : Nat) : Caminho (caminho k) (List.range k) where
  perm := List.Perm.refl _
  viz := by
    intro i hi
    have hi2 : i < k := hi
    rw [getD_range k i hi2]
    show (((List.range k).map (fun i => vizinhos (List.range k) k i)).getD i []).Perm _
    rw [List.getD_eq_getElem _ _ (by rw [List.length_map, List.length_range]; exact hi2),
      List.getElem_map, List.getElem_range]
    exact List.Perm.refl _

theorem WF_caminho (k : Nat) : WF (caminho k) :=
  WF_of_Caminho (caminho k) (List.range k)
    (by show ((List.range k).map _).length = k; rw [List.length_map, List.length_range])
    (by show ((List.range k).map _).length = k; rw [List.length_map, List.length_range])
    (Caminho_caminho k)

/-! ## Decimal output -/

theorem digitChar_lt_ten : ∀ m, m < 10 → Nat.digitChar m = Char.ofNat (48 + m) := by
  decide

theorem toDigitsCore_utoa : ∀ (f n : Nat) (ds : List Char), n < f →
    Nat.toDigitsCore 10 f n ds = utoa f n ++ ds := by
  intro f
  induction f with
  | zero =>
    intro n ds h
    exact absurd h (Nat.not_lt_zero _)
  | succ f ih =>
    intro n ds h
    rw [Nat.toDigitsCore, utoa]
    by_cases hn : n < 10
    · have h0 : n / 10 = 0 := Nat.div_eq_of_lt hn
      have hm : n % 10 = n := Nat.mod_eq_of_lt hn
      simp only [h0, if_true, hn, hm]
      rw [digitChar_lt_ten n hn]
      rfl
    · have h0 : n / 10 ≠ 0 := by omega
      simp only [h0, if_false, hn]
      rw [ih (n / 10) _ (by omega), digitChar_lt_ten (n % 10) (Nat.mod_lt _ (by decide)),
        List.append_assoc]
      rfl

/-- The model of `%d` agrees with the decimal numeral of a natural number. -/
theorem itoa_ofNat (n : Nat) : itoa (Int.ofNat n) = (Nat.repr n).toList := by
  unfold itoa
  rw [if_neg (by simp)]
  show utoa (n + 1) n = Nat.toDigits 10 n
  unfold Nat.toDigits
  rw [toDigitsCore_utoa (n + 1) n [] (Nat.lt_succ_self n), List.append_nil]


/-- C15 as stated fails: the path on 1073741824 vertices with unit weights is
well formed, and `diametros` prints 1073741822 for it, not 1073741823; the
farthest vertices are at distance `INF`, which `diametros` does not count as
a distance. -/
theorem diametros_caminho_longo :
    WF (caminho 1073741824) ∧ Caminho (caminho 1073741824) (List.range 1073741824) ∧
    diametros (caminho 1073741824) = some "1073741822".toList ∧
    diametros (caminho 1073741824) ≠ some "1073741823".toList := by
  have h := diametros_caminho (caminho 1073741824) _ (WF_caminho _) (Caminho_caminho _)
    (by decide)
  have e : itoa (min (((caminho 1073741824).n_vertices : Int) - 1) (INF - 1)) =
      "1073741822".toList := by decide
  rw [e] at h
  refine ⟨WF_caminho _, Caminho_caminho _, h, ?_⟩
  rw [h]
  decide

/-- C15 amended: on a simple path of `k` vertices with unit weights, where
`1 ≤ k ≤ 1073741823` (so that `k - 1` is below `INF`), `diametros` returns
the decimal numeral of `k - 1`. -/
theorem diametros_caminho_unitario (g : grafo) (ord : List Nat) (hwf : WF g)
    (hc : Caminho g ord) (hk : 1 ≤ g.n_vertices) (hlt : g.n_vertices ≤ 1073741823) :
    diametros g = some (Nat.repr (g.n_vertices - 1)).toList := by
  have hINF := INF_val
  rw [diametros_caminho g ord hwf hc hk, ← itoa_ofNat]
  have e : min ((g.n_vertices : Int) - 1) (INF - 1) = Int.ofNat (g.n_vertices - 1) := by
    show _ = ((g.n_vertices - 1 : Nat) : Int)
    omega
  rw [e]

/-- C15 amended, on the path A - B - C loaded with B first: the result is
the numeral 2. -/
theorem diametros_caminho_unitario_witness :
    ∃ g, le_grafo exemplo_caminho_bca = some g ∧
      (Caminho g [2, 0, 1] ∧
      diametros g = some "2".toList) :=
  ⟨grafo_de exemplo_caminho_bca,
    le_grafo_grafo_de exemplo_caminho_bca (by decide),
    (show _ from
      have hc : Caminho (grafo_de exemplo_caminho_bca) [2, 0, 1] :=
        { perm := by decide, viz := by decide }
      ⟨hc, diametros_caminho_unitario (grafo_de exemplo_caminho_bca) [2, 0, 1]
        (WF_grafo_de exemplo_caminho_bca) hc (by decide) (by decide)⟩)⟩

/-! ## The path A - B - C -/

theorem bridge_of_found (g : grafo) (hwf : WF g) (hnames : g.vertices.Nodup)
    (hsimple : NoParallel g) (t : Int) (B : List edge_pair)
    (hB : arestas_corte_found t g = some B) (u v : Nat) (hu : u < g.n_vertices)
    (hv : v < g.n_vertices) (hmem : mk_pair g u v ∈ B) : IsBridge g u v := by
  obtain ⟨B2, hB2, hsound, _, _⟩ := arestas_corte_found_spec g hwf t
  rw [hB] at hB2
  rw [← Option.some.inj hB2] at hsound
  obtain ⟨a, b, ha, hb, he, hadj, hne, hnj⟩ := hsound _ hmem
  rcases mk_pair_inj g hwf hnames u v a b hu hv ha hb he with ⟨e1, e2⟩ | ⟨e1, e2⟩
  · rw [e1, e2]
    exact ⟨hadj, (bridge_card_iff g hwf hsimple a b ha hb hne hadj).2 hnj⟩
  · rw [e1, e2]
    have hadj2 := Adj_symm g hwf.sym a b hadj
    exact ⟨hadj2, (bridge_card_iff g hwf hsimple b a hb ha (Ne.symm hne) hadj2).2
      (fun hj => hnj (JoinedMinus_flip g hwf.sym b a hj))⟩

theorem articulation_iff_flag (g : grafo) (hwf : WF g) (t : Int) (ap : List Bool)
    (hap : vertices_corte_ap t g = some ap) (u : Nat) (hu : u < g.n_vertices) :
    IsArticulation g u ↔ ap.getD u false = true := by
  obtain ⟨ap2, hap2, hcorrect⟩ := vertices_corte_ap_spec g hwf t
  rw [hap] at hap2
  rw [← Option.some.inj hap2] at hcorrect
  rw [articulation_iff_cut g hwf u, hcorrect u hu]

/-- C16: on the path loaded from the lines P, `A -- B`, `B -- C`, whatever the
counters held before, `vertices_corte` returns B and `arestas_corte` returns
`A B B C`; B is an articulation point, A and C are not, and both edges are
bridges. -/
theorem exemplo_caminho_cortes :
    ∃ g, le_grafo exemplo_caminho = some g ∧
      ((∀ t, vertices_corte t g = some "B".toList) ∧
      (∀ t, arestas_corte t g = some "A B B C".toList) ∧
      IsArticulation g 1 ∧
      ¬ IsArticulation g 0 ∧
      ¬ IsArticulation g 2 ∧
      IsBridge g 0 1 ∧
      IsBridge g 1 2) :=
  ⟨grafo_de exemplo_caminho,
    le_grafo_grafo_de exemplo_caminho (by decide),
    (by
      have hwf := WF_grafo_de exemplo_caminho
      have hap : vertices_corte_ap 0 (grafo_de exemplo_caminho) = some [false, true, false] := by
        decide
      have hB : arestas_corte_found 0 (grafo_de exemplo_caminho) =
          some [⟨"B".toList, "C".toList⟩, ⟨"A".toList, "B".toList⟩] := by decide
      have hnames : (grafo_de exemplo_caminho).vertices.Nodup := by decide
      have hsimple := NoParallel_of_check (grafo_de exemplo_caminho) (by decide)
      refine ⟨fun t => ?_, fun t => ?_, ?_, ?_, ?_, ?_, ?_⟩
      · rw [vertices_corte_time]
        decide
      · rw [arestas_corte_time]
        decide
      · exact (articulation_iff_flag _ hwf 0 _ hap 1 (by decide)).2 (by decide)
      · exact fun h => absurd ((articulation_iff_flag _ hwf 0 _ hap 0 (by decide)).1 h) (by decide)
      · exact fun h => absurd ((articulation_iff_flag _ hwf 0 _ hap 2 (by decide)).1 h) (by decide)
      · exact bridge_of_found _ hwf hnames hsimple 0 _ hB 0 1 (by decide) (by decide) (by decide)
      · exact bridge_of_found _ hwf hnames hsimple 0 _ hB 1 2 (by decide) (by decide) (by decide))⟩


/-! ## Cycle graphs -/

theorem Ciclo.ord_len {g : grafo} {ord : List Nat} (h : Ciclo g ord) :
    ord.length = g.n_vertices := by
  rw [h.perm.length_eq, List.length_range]

theorem Ciclo.ord_inj {g : grafo} {ord : List Nat} (h : Ciclo g ord) (i j : Nat)
    (hi : i < g.n_vertices) (hj : j < g.n_vertices) (e : ord.getD i 0 = ord.getD j 0) :
    i = j := by
  have hi2 : i < ord.length := h.ord_len ▸ hi
  have hj2 : j < ord.length := h.ord_len ▸ hj
  rw [List.getD_eq_getElem _ _ hi2, List.getD_eq_getElem _ _ hj2] at e
  have hnd : ord.Nodup := h.perm.nodup_iff.2 (List.nodup_range _)
  exact (List.Nodup.getElem_inj_iff hnd).1 e

theorem Ciclo.ord_surj {g : grafo} {ord : List Nat} (h : Ciclo g ord) (x : Nat)
    (hx : x < g.n_vertices) : ∃ i, i < g.n_vertices ∧ ord.getD i 0 = x := by
  have hmem : x ∈ ord := h.perm.symm.subset (List.mem_range.2 hx)
  obtain ⟨i, hi, e⟩ := List.getElem_of_mem hmem
  exact ⟨i, h.ord_len ▸ hi, by rw [List.getD_eq_getElem _ _ hi]; exact e⟩

theorem Ciclo.adj_iff {g : grafo} {ord : List Nat} (h : Ciclo g ord) (i : Nat)
    (hi : i < g.n_vertices) (y : Nat) :
    Adj g (ord.getD i 0) y ↔
      y = ord.getD ((i + 1) % g.n_vertices) 0 ∨
      y = ord.getD ((i + g.n_vertices - 1) % g.n_vertices) 0 := by
  have hm : Adj g (ord.getD i 0) y ↔ y ∈ (g.adj.getD (ord.getD i 0) []).map (fun p => p.v) := by
    unfold Adj
    rw [List.mem_map]
  rw [hm, (h.viz i hi).mem_iff]
  simp only [List.mem_cons, List.mem_singleton, List.not_mem_nil, or_false]

/-- The vertex `m` places after position `k` on the cycle. -/
theorem Ciclo.step {g : grafo} {ord : List Nat} (h : Ciclo g ord) (k m : Nat)
    (hn : 0 < g.n_vertices) :
    Adj g (ord.getD ((k + m) % g.n_vertices) 0) (ord.getD ((k + (m + 1)) % g.n_vertices) 0) := by
  rw [h.adj_iff _ (Nat.mod_lt _ hn)]
  left
  rw [Nat.mod_add_mod, Nat.add_assoc]

theorem mod_shift_inj (n k m1 m2 : Nat) (h1 : m1 < n) (h2 : m2 < n)
    (e : (k + m1) % n = (k + m2) % n) : m1 = m2 := by
  have h3 : m1 % n = m2 % n := Nat.ModEq.add_left_cancel' k e
  rw [Nat.mod_eq_of_lt h1, Nat.mod_eq_of_lt h2] at h3
  exact h3

theorem Ciclo.shift_inj {g : grafo} {ord : List Nat} (h : Ciclo g ord) (k m1 m2 : Nat)
    (h1 : m1 < g.n_vertices) (h2 : m2 < g.n_vertices)
    (e : ord.getD ((k + m1) % g.n_vertices) 0 = ord.getD ((k + m2) % g.n_vertices) 0) :
    m1 = m2 := by
  have hn : 0 < g.n_vertices := by omega
  exact mod_shift_inj _ k m1 m2 h1 h2 (h.ord_inj _ _ (Nat.mod_lt _ hn) (Nat.mod_lt _ hn) e)

theorem Ciclo.shift_surj {g : grafo} {ord : List Nat} (h : Ciclo g ord) (k : Nat)
    (hk : k < g.n_vertices) (x : Nat) (hx : x < g.n_vertices) :
    ∃ m, m < g.n_vertices ∧ x = ord.getD ((k + m) % g.n_vertices) 0 := by
  obtain ⟨i, hi, rfl⟩ := h.ord_surj x hx
  rcases Nat.lt_or_ge i k with hlt | hge
  · refine ⟨i + g.n_vertices - k, by omega, ?_⟩
    have e : k + (i + g.n_vertices - k) = i + g.n_vertices := by omega
    rw [e, Nat.add_mod_right, Nat.mod_eq_of_lt hi]
  · refine ⟨i - k, by omega, ?_⟩
    have e : k + (i - k) = i := by omega
    rw [e, Nat.mod_eq_of_lt hi]

/-- Along the cycle, the vertices strictly between two visits of position `k`
are joined without passing through it. -/
theorem Ciclo.avoid {g : grafo} {ord : List Nat} (h : Ciclo g ord) (k : Nat)
    (m1 : Nat) (h1 : 1 ≤ m1) :
    ∀ m2, m1 ≤ m2 → m2 < g.n_vertices →
      JoinedAvoid g (ord.getD ((k + 0) % g.n_vertices) 0)
        (ord.getD ((k + m1) % g.n_vertices) 0) (ord.getD ((k + m2) % g.n_vertices) 0) := by
  intro m2 h12
  induction m2, h12 using Nat.le_induction with
  | base =>
    intro _
    exact Relation.ReflTransGen.refl
  | succ m2 h12 ih =>
    intro hlt
    refine Relation.ReflTransGen.tail (ih (by omega)) ⟨h.step k m2 (by omega), ?_, ?_⟩
    · intro e
      have := h.shift_inj k m2 0 (by omega) (by omega) e
      omega
    · intro e
      have := h.shift_inj k (m2 + 1) 0 hlt (by omega) e
      omega

theorem Ciclo.not_cut {g : grafo} {ord : List Nat} (h : Ciclo g ord) (hwf : WF g)
    (u : Nat) (hu : u < g.n_vertices) : ¬ IsCutVertex g u := by
  rintro ⟨a, b, ha, hb, hj, hnj⟩
  apply hnj
  rcases Joined_lt g hwf a b hj with e | ⟨ha2, hb2⟩
  · rw [e]
    exact Relation.ReflTransGen.refl
  · obtain ⟨k, hk, rfl⟩ := h.ord_surj u hu
    obtain ⟨m1, hm1, rfl⟩ := h.shift_surj k hk a ha2
    obtain ⟨m2, hm2, rfl⟩ := h.shift_surj k hk b hb2
    have h0 : (k + 0) % g.n_vertices = k := by rw [Nat.add_zero, Nat.mod_eq_of_lt hk]
    have hm1p : 1 ≤ m1 := by
      by_contra hc
      have : m1 = 0 := by omega
      rw [this, h0] at ha
      exact ha rfl
    have hm2p : 1 ≤ m2 := by
      by_contra hc
      have : m2 = 0 := by omega
      rw [this, h0] at hb
      exact hb rfl
    rcases Nat.le_total m1 m2 with hle | hle
    · have := h.avoid k m1 hm1p m2 hle hm2
      rw [h0] at this
      exact this
    · have := h.avoid k m2 hm2p m1 hle hm1
      rw [h0] at this
      exact JoinedAvoid_symm g hwf.sym _ _ _ this

/-- The far end of an edge of the cycle is joined to its near end the other
way round, without using the edge. -/
theorem Ciclo.around {g : grafo} {ord : List Nat} (h : Ciclo g ord) (h3 : 3 ≤ g.n_vertices)
    (i : Nat) :
    ∀ m, 1 ≤ m → m ≤ g.n_vertices →
      JoinedMinus g (ord.getD ((i + 0) % g.n_vertices) 0) (ord.getD ((i + 1) % g.n_vertices) 0)
        (ord.getD ((i + 1) % g.n_vertices) 0) (ord.getD ((i + m) % g.n_vertices) 0) := by
  intro m h1
  induction m, h1 using Nat.le_induction with
  | base =>
    intro _
    exact Relation.ReflTransGen.refl
  | succ m h1 ih =>
    intro hlt
    refine Relation.ReflTransGen.tail (ih (by omega)) ⟨h.step i m (by omega), ?_, ?_⟩
    · rintro ⟨e, _⟩
      have := h.shift_inj i m 0 (by omega) (by omega) e
      omega
    · rintro ⟨e1, e2⟩
      have hm := h.shift_inj i m 1 (by omega) (by omega) e1
      rw [hm] at e2
      have := h.shift_inj i 2 0 (by omega) (by omega) e2
      omega

theorem Ciclo.not_bridge {g : grafo} {ord : List Nat} (h : Ciclo g ord) (hwf : WF g)
    (h3 : 3 ≤ g.n_vertices) (a b : Nat) (hab : Adj g a b) : JoinedMinus g a b a b := by
  have hn : 0 < g.n_vertices := by omega
  have key : ∀ i, i < g.n_vertices →
      JoinedMinus g (ord.getD i 0) (ord.getD ((i + 1) % g.n_vertices) 0)
        (ord.getD i 0) (ord.getD ((i + 1) % g.n_vertices) 0) := by
    intro i hi
    have h1 := h.around h3 i g.n_vertices (by omega) (le_refl _)
    rw [Nat.add_mod_right, Nat.add_zero, Nat.mod_eq_of_lt hi] at h1
    exact JoinedMinus_symm g hwf.sym _ _ _ _ h1
  have ha : a < g.n_vertices := by
    obtain ⟨p, hp, _⟩ := hab
    exact adj_getD_lt g hwf a p hp
  obtain ⟨i, hi, rfl⟩ := h.ord_surj a ha
  rcases (h.adj_iff i hi b).1 hab with e | e
  · rw [e]
    exact key i hi
  · have hj : (i + g.n_vertices - 1) % g.n_vertices < g.n_vertices := Nat.mod_lt _ hn
    have h1 := key _ hj
    have e2 : ((i + g.n_vertices - 1) % g.n_vertices + 1) % g.n_vertices = i := by
      rw [Nat.mod_add_mod]
      have : i + g.n_vertices - 1 + 1 = i + g.n_vertices := by omega
      rw [this, Nat.add_mod_right, Nat.mod_eq_of_lt hi]
    rw [e2] at h1
    rw [e]
    exact JoinedMinus_flip g hwf.sym _ _ h1

/-- Cycles within the capacity of `bridges`: on a well-formed simple cycle
with at least three vertices for which the cell count of `bridges` is not
negative, whatever the insertion order and the weights, `vertices_corte` and
`arestas_corte` return the empty string. -/
theorem ciclo_sem_cortes (g : grafo) (ord : List Nat) (hwf : WF g)
    (h3 : 3 ≤ g.n_vertices) (hc : Ciclo g ord) (hcap : 0 ≤ bridges_cap g.n_vertices) (t : Int) :
    vertices_corte t g = some [] ∧ arestas_corte t g = some [] := by
  constructor
  · obtain ⟨ap, hap, hcorrect⟩ := vertices_corte_ap_spec g hwf t
    have hnil : (List.range g.n_vertices).filter (fun i => ap.getD i false) = [] := by
      rw [List.filter_eq_nil_iff]
      intro i hi hflag
      exact hc.not_cut hwf i (List.mem_range.1 hi) ((hcorrect i (List.mem_range.1 hi)).1 hflag)
    unfold vertices_corte vertices_corte_names
    rw [hap, Option.map_some', Option.map_some', hnil]
    rfl
  · obtain ⟨B, hB, hsound, _, _⟩ := arestas_corte_found_spec g hwf t
    have hnil : B = [] := by
      cases B with
      | nil => rfl
      | cons e B =>
        obtain ⟨a, b, _, _, _, hadj, _, hnj⟩ := hsound e (List.mem_cons_self _ _)
        exact absurd (hc.not_bridge hwf h3 a b hadj) hnj
    rw [hnil] at hB
    unfold arestas_corte
    rw [arestas_corte_pairs_of_found g t [] hB hcap hcap]
    rfl

/-- The cut outputs of a four-cycle with mixed weights whose edges are not
given in cyclic order. -/
theorem ciclo_sem_cortes_witness :
    ∃ g, le_grafo exemplo_ciclo = some g ∧
      (Ciclo g [0, 2, 3, 1] ∧
      vertices_corte 0 g = some [] ∧
      arestas_corte 0 g = some []) :=
  ⟨grafo_de exemplo_ciclo,
    le_grafo_grafo_de exemplo_ciclo (by decide),
    (show _ from
      have hc : Ciclo (grafo_de exemplo_ciclo) [0, 2, 3, 1] :=
        { perm := by decide, viz := by decide }
      ⟨hc, ciclo_sem_cortes (grafo_de exemplo_ciclo) [0, 2, 3, 1] (WF_grafo_de exemplo_ciclo)
        (by decide) hc (by decide) 0⟩)⟩

/-! ## The exchange sort sorts -/

theorem getD_swap {α : Type} (d : α) (a : List α) (i j x : Nat) (hi : i < a.length)
    (hj : j < a.length) :
    (swap d a i j).getD x d =
      if x = j then a.getD i d else if x = i then a.getD j d else a.getD x d := by
  unfold swap
  rw [getD_set_list, getD_set_list, List.length_set]
  by_cases e1 : x = j
  · rw [if_pos ⟨e1.symm, hj⟩, if_pos e1]
  · rw [if_neg (fun h => e1 h.1.symm), if_neg e1]
    by_cases e2 : x = i
    · rw [if_pos ⟨e2.symm, hi⟩, if_pos e2]
    · rw [if_neg (fun h => e2 h.1.symm), if_neg e2]

theorem exchange_inner_sorted {α : Type} (d : α) (gt : α → α → Bool)
    (htot : ∀ a b, gt a b = true → gt b a = false)
    (htr : ∀ a b c, gt a b = false → gt b c = false → gt a c = false) (i : Nat) :
    ∀ (m s : Nat) (a : List α), i < s → s + m = a.length →
      (∀ p q, p < i → p < q → q < a.length → gt (a.getD p d) (a.getD q d) = false) →
      (∀ q, i < q → q < s → gt (a.getD i d) (a.getD q d) = false) →
      ((List.range' s m).foldl
          (fun a j => if gt (a.getD i d) (a.getD j d) then swap d a i j else a) a).length =
        a.length ∧
      (∀ p q, p < i → p < q → q < a.length →
        gt (((List.range' s m).foldl
          (fun a j => if gt (a.getD i d) (a.getD j d) then swap d a i j else a) a).getD p d)
          (((List.range' s m).foldl
          (fun a j => if gt (a.getD i d) (a.getD j d) then swap d a i j else a) a).getD q d) =
          false) ∧
      (∀ q, i < q → q < a.length →
        gt (((List.range' s m).foldl
          (fun a j => if gt (a.getD i d) (a.getD j d) then swap d a i j else a) a).getD i d)
          (((List.range' s m).foldl
          (fun a j => if gt (a.getD i d) (a.getD j d) then swap d a i j else a) a).getD q d) =
          false) := by
  intro m
  induction m with
  | zero =>
    intro s a _ hlen hP hI
    refine ⟨rfl, hP, ?_⟩
    intro q h1 h2
    exact hI q h1 (by omega)
  | succ m ih =>
    intro s a his hlen hP hI
    rw [List.range'_succ, List.foldl_cons]
    have hs : s < a.length := by omega
    have hi : i < a.length := by omega
    by_cases hc : gt (a.getD i d) (a.getD s d) = true
    · rw [if_pos hc]
      have hle : gt (a.getD s d) (a.getD i d) = false := htot _ _ hc
      have hl : (swap d a i s).length = a.length := swap_length d a i s
      obtain ⟨k1, k2, k3⟩ := ih (s + 1) (swap d a i s) (by omega) (by rw [hl]; omega)
        (by
          intro p q hp hpq hq
          rw [hl] at hq
          rw [getD_swap d a i s p hi hs, getD_swap d a i s q hi hs,
            if_neg (by omega), if_neg (by omega)]
          split
          · exact hP p i hp (by omega) hi
          · split
            · exact hP p s hp (by omega) hs
            · exact hP p q hp hpq hq)
        (by
          intro q h1 h2
          rw [getD_swap d a i s i hi hs, getD_swap d a i s q hi hs,
            if_neg (by omega), if_pos rfl]
          split
          · exact hle
          · rw [if_neg (by omega)]
            exact htr _ _ _ hle (hI q h1 (by omega)))
      rw [hl] at k1 k2 k3
      exact ⟨k1, k2, k3⟩
    · rw [if_neg hc]
      have hle : gt (a.getD i d) (a.getD s d) = false := by
        cases h : gt (a.getD i d) (a.getD s d) with
        | false => rfl
        | true => exact absurd h hc
      exact ih (s + 1) a (by omega) (by omega) hP
        (by
          intro q h1 h2
          by_cases e : q = s
          · rw [e]
            exact hle
          · exact hI q h1 (by omega))

theorem exchange_outer_sorted {α : Type} (d : α) (gt : α → α → Bool)
    (htot : ∀ a b, gt a b = true → gt b a = false)
    (htr : ∀ a b c, gt a b = false → gt b c = false → gt a c = false) :
    ∀ (k i0 : Nat) (a : List α), i0 + k < a.length ∨ k = 0 →
      (∀ p q, p < i0 → p < q → q < a.length → gt (a.getD p d) (a.getD q d) = false) →
      ((List.range' i0 k).foldl
          (fun a i =>
            (List.range' (i + 1) (a.length - (i + 1))).foldl
              (fun a j => if gt (a.getD i d) (a.getD j d) then swap d a i j else a) a)
          a).length = a.length ∧
      ∀ p q, p < i0 + k → p < q → q < a.length →
        gt (((List.range' i0 k).foldl
          (fun a i =>
            (List.range' (i + 1) (a.length - (i + 1))).foldl
              (fun a j => if gt (a.getD i d) (a.getD j d) then swap d a i j else a) a)
          a).getD p d)
          (((List.range' i0 k).foldl
          (fun a i =>
            (List.range' (i + 1) (a.length - (i + 1))).foldl
              (fun a j => if gt (a.getD i d) (a.getD j d) then swap d a i j else a) a)
          a).getD q d) = false := by
  intro k
  induction k with
  | zero =>
    intro i0 a _ hP
    exact ⟨rfl, hP⟩
  | succ k ih =>
    intro i0 a hk hP
    have hk2 : i0 + (k + 1) < a.length := by
      rcases hk with h | h
      · exact h
      · omega
    rw [List.range'_succ, List.foldl_cons]
    obtain ⟨k1, k2, k3⟩ := exchange_inner_sorted d gt htot htr i0 (a.length - (i0 + 1))
      (i0 + 1) a (by omega) (by omega) hP (fun q h1 h2 => by omega)
    obtain ⟨j1, j2⟩ := ih (i0 + 1) _ (by rw [k1]; left; omega)
      (by
        intro p q hp hpq hq
        rw [k1] at hq
        by_cases e : p = i0
        · rw [e]
          exact k3 q (by omega) hq
        · exact k2 p q (by omega) hpq hq)
    rw [k1] at j1 j2
    refine ⟨j1, ?_⟩
    intro p q hp hpq hq
    exact j2 p q (by omega) hpq hq

/-- The exchange sort leaves the array sorted, for any test `gt` whose
negation is a total preorder. -/
theorem exchange_sort_sorted {α : Type} (d : α) (gt : α → α → Bool)
    (htot : ∀ a b, gt a b = true → gt b a = false)
    (htr : ∀ a b c, gt a b = false → gt b c = false → gt a c = false) (a : List α) :
    (exchange_sort d gt a).Pairwise (fun x y => gt x y = false) := by
  unfold exchange_sort
  rw [List.range_eq_range']
  obtain ⟨h1, h2⟩ := exchange_outer_sorted d gt htot htr (a.length - 1) 0 a (by omega)
    (fun p q hp => absurd hp (Nat.not_lt_zero _))
  generalize (List.range' 0 (a.length - 1)).foldl
    (fun a i =>
      (List.range' (i + 1) (a.length - (i + 1))).foldl
        (fun a j => if gt (a.getD i d) (a.getD j d) then swap d a i j else a) a) a = r at h1 h2
  rw [List.pairwise_iff_get]
  intro i j hij
  have hj : j.1 < a.length := by
    have := j.2
    omega
  have hlt : i.1 < j.1 := hij
  have h3 := h2 i.1 j.1 (by omega) hlt hj
  rw [getD_eq_getElem_lt _ _ _ i.2, getD_eq_getElem_lt _ _ _ j.2] at h3
  exact h3


theorem br_after_child_cases (g : grafo) (u v : Nat) (s1 : br_state) :
    (br_after_child g u v s1).visited = s1.visited ∧
    ((br_after_child g u v s1).bridges = s1.bridges ∨
      (br_after_child g u v s1).bridges = s1.bridges ++ [mk_pair g u v]) := by
  unfold br_after_child
  simp only
  split
  · exact ⟨rfl, Or.inr rfl⟩
  · exact ⟨rfl, Or.inl rfl⟩

theorem BrAcc_refl (g : grafo) (s : br_state) : BrAcc g s.visited s.bridges s where
  len := rfl
  mono := fun _ h => h
  ext := ⟨[], (List.append_nil _).symm, List.nodup_nil, fun e he => (by cases he)⟩

theorem bridge_loop_acc (g : grafo) (hwf : WF g) (hn : g.vertices.Nodup)
    (rec : Nat → br_state → Option br_state)
    (hrec : ∀ (v : Nat) (s s2 : br_state), v < g.n_vertices → ¬ Vis s.visited v →
      s.visited.length = g.n_vertices → rec v s = some s2 →
      BrAcc g s.visited s.bridges s2 ∧ Vis s2.visited v)
    (vis0 : List Bool) (B0 : List edge_pair) (u : Nat) (hu : u < g.n_vertices)
    (hu0 : ¬ Vis vis0 u) (hlen0 : vis0.length = g.n_vertices) :
    ∀ (ps : List adj_node) (s s2 : br_state), (∀ p ∈ ps, p.v < g.n_vertices) →
      BrAcc g vis0 B0 s → Vis s.visited u → bridge_loop g rec u ps s = some s2 →
      BrAcc g vis0 B0 s2 ∧ Vis s2.visited u := by
  intro ps
  induction ps with
  | nil =>
    intro s s2 _ hacc hvu h
    rw [bridge_loop] at h
    rw [← Option.some.inj h]
    exact ⟨hacc, hvu⟩
  | cons p ps ih =>
    intro s s2 hps hacc hvu h
    have hp := hps p (List.mem_cons_self _ _)
    have hps2 : ∀ q ∈ ps, q.v < g.n_vertices := fun q hq => hps q (List.mem_cons_of_mem _ hq)
    by_cases hv : Vis s.visited p.v
    · by_cases hpar : Int.ofNat p.v ≠ s.parent.getD u 0
      · rw [bridge_loop_back g rec u p ps s hv hpar] at h
        exact ih { s with low := s.low.set u (imin (s.low.getD u 0) (s.disc.getD p.v 0)) } s2
          hps2 ⟨hacc.len, hacc.mono, hacc.ext⟩ hvu h
      · rw [bridge_loop_skip g rec u p ps s hv hpar] at h
        exact ih _ s2 hps2 hacc hvu h
    · rw [bridge_loop_new g rec u p ps s hv] at h
      cases hr : rec p.v { s with parent := s.parent.set p.v (Int.ofNat u) } with
      | none =>
        rw [hr] at h
        cases h
      | some s1 =>
        rw [hr] at h
        obtain ⟨hacc1, hv1⟩ := hrec p.v { s with parent := s.parent.set p.v (Int.ofNat u) } s1
          hp hv (by rw [hacc.len, hlen0]) hr
        have hmono1 : ∀ x, Vis s.visited x → Vis s1.visited x := hacc1.mono
        obtain ⟨new, e0, hnd, hnew⟩ := hacc.ext
        obtain ⟨new1, e1, hnd1, hnew1⟩ := hacc1.ext
        have e1b : s1.bridges = s.bridges ++ new1 := e1
        obtain ⟨cv, cb⟩ := br_after_child_cases g u p.v s1
        have hdisj : ∀ e, e ∈ new → e ∈ new1 → False := by
          intro e h1 h2
          obtain ⟨a, b, ha, hb, _, hva, _, hvb, _, ea⟩ := hnew e h1
          obtain ⟨a2, b2, ha2, hb2, _, _, hna2, _, _, ea2⟩ := hnew1 e h2
          rw [ea] at ea2
          rcases mk_pair_inj g hwf hn a b a2 b2 ha hb ha2 hb2 ea2 with ⟨x1, _⟩ | ⟨_, x2⟩
          · exact hna2 (x1 ▸ hva)
          · exact hna2 (x2 ▸ hvb)
        have hnd2 : (new ++ new1).Nodup :=
          List.nodup_append.2 ⟨hnd, hnd1, fun e h1 h2 => hdisj e h1 h2⟩
        have hnew2 : ∀ e ∈ new ++ new1, ∃ a b, a < g.n_vertices ∧ b < g.n_vertices ∧ a ≠ b ∧
            Vis s1.visited a ∧ ¬ Vis vis0 a ∧ Vis s1.visited b ∧ ¬ Vis vis0 b ∧
            e = mk_pair g a b := by
          intro e he
          rcases List.mem_append.1 he with he | he
          · obtain ⟨a, b, ha, hb, hab, hva, hna, hvb, hnb, ea⟩ := hnew e he
            exact ⟨a, b, ha, hb, hab, hmono1 a hva, hna, hmono1 b hvb, hnb, ea⟩
          · obtain ⟨a, b, ha, hb, hab, hva, hna, hvb, hnb, ea⟩ := hnew1 e he
            exact ⟨a, b, ha, hb, hab, hva, fun h0 => hna (hacc.mono a h0), hvb,
              fun h0 => hnb (hacc.mono b h0), ea⟩
        have hacc2 : BrAcc g vis0 B0 (br_after_child g u p.v s1) := by
          refine ⟨by rw [cv, hacc1.len]; exact hacc.len,
            fun x hx => by rw [cv]; exact hmono1 x (hacc.mono x hx), ?_⟩
          rcases cb with cb | cb
          · refine ⟨new ++ new1, by rw [cb, e1b, e0, List.append_assoc], hnd2, ?_⟩
            rw [cv]
            exact hnew2
          · refine ⟨new ++ new1 ++ [mk_pair g u p.v],
              by rw [cb, e1b, e0, List.append_assoc, List.append_assoc, List.append_assoc], ?_, ?_⟩
            · rw [List.nodup_append]
              refine ⟨hnd2, List.nodup_singleton _, ?_⟩
              intro e h1 h2
              rw [List.mem_singleton] at h2
              rcases List.mem_append.1 h1 with h1 | h1
              · obtain ⟨a, b, ha, hb, _, hva, _, hvb, _, ea⟩ := hnew e h1
                rw [h2] at ea
                rcases mk_pair_inj g hwf hn u p.v a b hu hp ha hb ea with ⟨_, x2⟩ | ⟨_, x2⟩
                · exact hv (x2 ▸ hvb)
                · exact hv (x2 ▸ hva)
              · obtain ⟨a, b, ha, hb, _, _, hna, _, hnb, ea⟩ := hnew1 e h1
                rw [h2] at ea
                rcases mk_pair_inj g hwf hn u p.v a b hu hp ha hb ea with ⟨x1, _⟩ | ⟨x1, _⟩
                · exact hna (x1 ▸ hvu)
                · exact hnb (x1 ▸ hvu)
            · rw [cv]
              intro e he
              rcases List.mem_append.1 he with he | he
              · exact hnew2 e he
              · rw [List.mem_singleton] at he
                refine ⟨u, p.v, hu, hp, fun e2 => hv (e2 ▸ hvu), hmono1 u hvu, hu0, hv1,
                  fun h0 => hv (hacc.mono _ h0), he⟩
        exact ih _ s2 hps2 hacc2 (by rw [cv]; exact hmono1 u hvu) h

theorem bridge_dfs_acc (g : grafo) (hwf : WF g) (hn : g.vertices.Nodup) (fuel : Nat) :
    ∀ (u : Nat) (s s2 : br_state), u < g.n_vertices → ¬ Vis s.visited u →
      s.visited.length = g.n_vertices → bridge_dfs g fuel u s = some s2 →
      BrAcc g s.visited s.bridges s2 ∧ Vis s2.visited u := by
  induction fuel with
  | zero =>
    intro u s s2 _ _ _ h
    rw [bridge_dfs] at h
    cases h
  | succ fuel ih =>
    intro u s s2 hu hnv hlen h
    rw [bridge_dfs_succ] at h
    have hvu : Vis (s.visited.set u true) u := (Vis_set s.visited u u).2 (Or.inl ⟨rfl, hlen ▸ hu⟩)
    refine bridge_loop_acc g hwf hn (bridge_dfs g fuel) ih s.visited s.bridges u hu hnv hlen
      (g.adj.getD u []) _ s2 (fun p hp => hwf.in_range u p hp) ?_ hvu h
    exact
      { len := List.length_set _ _ _
        mono := fun x hx => (Vis_set s.visited u x).2 (Or.inr hx)
        ext := ⟨[], (List.append_nil _).symm, List.nodup_nil, fun e he => (by cases he)⟩ }


theorem BrAcc_trans (g : grafo) (hwf : WF g) (hn : g.vertices.Nodup) (vis0 : List Bool)
    (B0 : List edge_pair) (s1 s2 : br_state) (h1 : BrAcc g vis0 B0 s1)
    (h2 : BrAcc g s1.visited s1.bridges s2) : BrAcc g vis0 B0 s2 := by
  obtain ⟨new1, e1, hnd1, hnew1⟩ := h1.ext
  obtain ⟨new2, e2, hnd2, hnew2⟩ := h2.ext
  refine ⟨by rw [h2.len, h1.len], fun x hx => h2.mono x (h1.mono x hx),
    new1 ++ new2, by rw [e2, e1, List.append_assoc], ?_, ?_⟩
  · rw [List.nodup_append]
    refine ⟨hnd1, hnd2, ?_⟩
    intro e k1 k2
    obtain ⟨a, b, ha, hb, _, hva, _, hvb, _, ea⟩ := hnew1 e k1
    obtain ⟨a2, b2, ha2, hb2, _, _, hna2, _, _, ea2⟩ := hnew2 e k2
    rw [ea] at ea2
    rcases mk_pair_inj g hwf hn a b a2 b2 ha hb ha2 hb2 ea2 with ⟨x1, _⟩ | ⟨_, x2⟩
    · exact hna2 (x1 ▸ hva)
    · exact hna2 (x2 ▸ hvb)
  · intro e he
    rcases List.mem_append.1 he with he | he
    · obtain ⟨a, b, ha, hb, hab, hva, hna, hvb, hnb, ea⟩ := hnew1 e he
      exact ⟨a, b, ha, hb, hab, h2.mono a hva, hna, h2.mono b hvb, hnb, ea⟩
    · obtain ⟨a, b, ha, hb, hab, hva, hna, hvb, hnb, ea⟩ := hnew2 e he
      exact ⟨a, b, ha, hb, hab, hva, fun h0 => hna (h1.mono a h0), hvb,
        fun h0 => hnb (h1.mono b h0), ea⟩

theorem br_roots_acc (g : grafo) (hwf : WF g) (hn : g.vertices.Nodup) :
    ∀ (is : List Nat) (s s2 : br_state), (∀ i ∈ is, i < g.n_vertices) →
      s.visited.length = g.n_vertices → br_roots g is s = some s2 →
      BrAcc g s.visited s.bridges s2 := by
  intro is
  induction is with
  | nil =>
    intro s s2 _ _ h
    have e : s = s2 := Option.some.inj h
    rw [← e]
    exact BrAcc_refl g s
  | cons i is ih =>
    intro s s2 hlt hlen h
    have hlt2 : ∀ j ∈ is, j < g.n_vertices := fun j hj => hlt j (List.mem_cons_of_mem _ hj)
    unfold br_roots at h
    rw [List.foldlM_cons] at h
    by_cases hvi : s.visited.getD i false = true
    · simp only [hvi, if_true] at h
      exact ih s s2 hlt2 hlen h
    · simp only [hvi, Bool.false_eq_true, if_false] at h
      cases hd : bridge_dfs g g.n_vertices i s with
      | none =>
        rw [hd] at h
        cases h
      | some s1 =>
        rw [hd] at h
        obtain ⟨hacc1, _⟩ := bridge_dfs_acc g hwf hn g.n_vertices i s s1
          (hlt i (List.mem_cons_self _ _)) hvi hlen hd
        have hacc2 := ih s1 s2 hlt2 (by rw [hacc1.len, hlen]) h
        exact BrAcc_trans g hwf hn _ _ s1 s2 hacc1 hacc2

/-- The pairs recorded by the search of `arestas_corte` are distinct, and each
joins two different vertices. -/
theorem arestas_corte_found_nodup (g : grafo) (hwf : WF g) (hn : g.vertices.Nodup) (t : Int)
    (B : List edge_pair) (hB : arestas_corte_found t g = some B) :
    B.Nodup ∧ ∀ e ∈ B, ∃ a b, a < g.n_vertices ∧ b < g.n_vertices ∧ a ≠ b ∧
      e = mk_pair g a b := by
  unfold arestas_corte_found at hB
  cases hr : br_roots g (List.range g.n_vertices) (br_init g t) with
  | none =>
    rw [hr] at hB
    cases hB
  | some s2 =>
    rw [hr] at hB
    have hacc := br_roots_acc g hwf hn (List.range g.n_vertices) (br_init g t) s2
      (fun i hi => List.mem_range.1 hi) (List.length_replicate _ _) hr
    obtain ⟨new, e, hnd, hnew⟩ := hacc.ext
    have e2 : B = new := by
      have h1 : s2.bridges = B := Option.some.inj hB
      rw [← h1, e]
      rfl
    rw [e2]
    refine ⟨hnd, ?_⟩
    intro x hx
    obtain ⟨a, b, ha, hb, hab, _, _, _, _, ea⟩ := hnew x hx
    exact ⟨a, b, ha, hb, hab, ea⟩

/-! ## `strcmp` is a total order -/

theorem strcmp_lt_trans (a b c : List Char) (h1 : strcmp a b = Ordering.lt)
    (h2 : strcmp b c = Ordering.lt) : strcmp a c = Ordering.lt := by
  induction a generalizing b c with
  | nil =>
    cases c with
    | nil =>
      cases b with
      | nil => cases h1
      | cons y ys => cases h2
    | cons z zs => rfl
  | cons x xs ih =>
    cases b with
    | nil => cases h1
    | cons y ys =>
      cases c with
      | nil => cases h2
      | cons z zs =>
        simp only [strcmp] at h1 h2 ⊢
        by_cases hxy : x.toNat < y.toNat
        · by_cases hyz : y.toNat < z.toNat
          · rw [if_pos (by omega)]
          · rw [if_neg hyz] at h2
            by_cases hzy : z.toNat < y.toNat
            · rw [if_pos hzy] at h2
              cases h2
            · rw [if_pos (by omega)]
        · rw [if_neg hxy] at h1
          by_cases hyx : y.toNat < x.toNat
          · rw [if_pos hyx] at h1
            cases h1
          · rw [if_neg hyx] at h1
            by_cases hyz : y.toNat < z.toNat
            · rw [if_pos (by omega)]
            · rw [if_neg hyz] at h2
              by_cases hzy : z.toNat < y.toNat
              · rw [if_pos hzy] at h2
                cases h2
              · rw [if_neg hzy] at h2
                rw [if_neg (by omega), if_neg (by omega)]
                exact ih ys zs h1 h2

theorem strcmp_not_gt_iff (a b : List Char) :
    strcmp a b ≠ Ordering.gt ↔ strcmp a b = Ordering.lt ∨ a = b := by
  rw [← strcmp_eq_iff]
  cases strcmp a b <;> simp

theorem strcmp_gt_swap (a b : List Char) (h : strcmp a b = Ordering.gt) :
    strcmp b a = Ordering.lt := by
  rw [strcmp_swap a b, h]
  rfl

theorem strcmp_le_trans (a b c : List Char) (h1 : strcmp a b ≠ Ordering.gt)
    (h2 : strcmp b c ≠ Ordering.gt) : strcmp a c ≠ Ordering.gt := by
  rw [strcmp_not_gt_iff] at h1 h2 ⊢
  rcases h1 with h1 | h1
  · rcases h2 with h2 | h2
    · exact Or.inl (strcmp_lt_trans a b c h1 h2)
    · rw [← h2]
      exact Or.inl h1
  · rw [h1]
    exact h2

theorem beq_gt_false (o : Ordering) : (o == Ordering.gt) = false ↔ o ≠ Ordering.gt := by
  cases o <;> decide

theorem beq_gt_true (o : Ordering) : (o == Ordering.gt) = true ↔ o = Ordering.gt := by
  cases o <;> decide

theorem edge_pair_gt_false (x y : edge_pair) :
    edge_pair_gt x y = false ↔
      strcmp x.u y.u = Ordering.lt ∨ (x.u = y.u ∧ strcmp x.v y.v ≠ Ordering.gt) := by
  unfold edge_pair_gt
  rw [← strcmp_eq_iff]
  cases strcmp x.u y.u <;> cases strcmp x.v y.v <;> decide

theorem edge_pair_gt_true (x y : edge_pair) :
    edge_pair_gt x y = true ↔
      strcmp x.u y.u = Ordering.gt ∨ (x.u = y.u ∧ strcmp x.v y.v = Ordering.gt) := by
  unfold edge_pair_gt
  rw [← strcmp_eq_iff]
  cases strcmp x.u y.u <;> cases strcmp x.v y.v <;> decide

theorem edge_pair_gt_asymm (x y : edge_pair) (h : edge_pair_gt x y = true) :
    edge_pair_gt y x = false := by
  rw [edge_pair_gt_true] at h
  rw [edge_pair_gt_false]
  rcases h with h | ⟨h1, h2⟩
  · exact Or.inl (strcmp_gt_swap _ _ h)
  · refine Or.inr ⟨h1.symm, ?_⟩
    rw [strcmp_gt_swap _ _ h2]
    decide

theorem edge_pair_le_trans (x y z : edge_pair) (h1 : edge_pair_gt x y = false)
    (h2 : edge_pair_gt y z = false) : edge_pair_gt x z = false := by
  rw [edge_pair_gt_false] at h1 h2 ⊢
  rcases h1 with h1 | ⟨h1, k1⟩
  · rcases h2 with h2 | ⟨h2, _⟩
    · exact Or.inl (strcmp_lt_trans _ _ _ h1 h2)
    · rw [← h2]
      exact Or.inl h1
  · rcases h2 with h2 | ⟨h2, k2⟩
    · rw [h1]
      exact Or.inl h2
    · exact Or.inr ⟨h1.trans h2, strcmp_le_trans _ _ _ k1 k2⟩


theorem mk_pair_lt (g : grafo) (hwf : WF g) (hn : g.vertices.Nodup) (a b : Nat)
    (ha : a < g.n_vertices) (hb : b < g.n_vertices) (hab : a ≠ b) :
    strcmp (mk_pair g a b).u (mk_pair g a b).v = Ordering.lt := by
  have hne : g.vertices.getD a [] ≠ g.vertices.getD b [] :=
    fun e => hab (names_inj g hwf hn a b ha hb e)
  unfold mk_pair
  cases h : strcmp (g.vertices.getD a []) (g.vertices.getD b []) with
  | lt => exact h
  | eq => exact absurd ((strcmp_eq_iff _ _).1 h) hne
  | gt => exact strcmp_gt_swap _ _ h

theorem nodup_filter_names (g : grafo) (hwf : WF g) (hn : g.vertices.Nodup) (ap : List Bool) :
    (((List.range g.n_vertices).filter (fun i => ap.getD i false)).map
      (fun i => g.vertices.getD i [])).Nodup := by
  apply List.Nodup.map_on
  · intro x hx y hy e
    exact names_inj g hwf hn x y (List.mem_range.1 (List.mem_filter.1 hx).1)
      (List.mem_range.1 (List.mem_filter.1 hy).1) e
  · exact (List.nodup_range _).filter _

/-- Order of the cut outputs within the capacity of `bridges`: on a
well-formed graph of at most 46341 vertices with distinct vertex names, the
names printed by `vertices_corte` are in strictly ascending `strcmp` order
(so each appears once); every pair printed by `arestas_corte` has its smaller
name first, and the pairs are in strictly ascending order by first name, then
by second name. -/
theorem cortes_ordenados (g : grafo) (hwf : WF g) (hnames : g.vertices.Nodup)
    (hcap : g.n_vertices ≤ 46341) (t : Int) :
    ∃ (names : List (List Char)) (pairs : List edge_pair),
      vertices_corte_names t g = some names ∧
      vertices_corte t g = some (join_sp names) ∧
      arestas_corte_pairs t g = some pairs ∧
      arestas_corte t g = some (join_sp (pairs.map (fun b => b.u ++ Char.ofNat 32 :: b.v))) ∧
      names.Pairwise (fun a b => strcmp a b = Ordering.lt) ∧
      (∀ e ∈ pairs, strcmp e.u e.v = Ordering.lt) ∧
      pairs.Pairwise (fun a b => strcmp a.u b.u = Ordering.lt ∨
        (strcmp a.u b.u = Ordering.eq ∧ strcmp a.v b.v = Ordering.lt)) := by
  obtain ⟨ap, hap, _⟩ := vertices_corte_ap_spec g hwf t
  obtain ⟨B, hB, _, _, _⟩ := arestas_corte_found_spec g hwf t
  obtain ⟨hBnd, hBpairs⟩ := arestas_corte_found_nodup g hwf hnames t B hB
  have hperm1 := exchange_sort_perm ([] : List Char) (fun a b => strcmp a b == Ordering.gt)
    (((List.range g.n_vertices).filter (fun i => ap.getD i false)).map
      (fun i => g.vertices.getD i []))
  have hsort1 := exchange_sort_sorted ([] : List Char) (fun a b => strcmp a b == Ordering.gt)
    (fun a b h => by
      rw [beq_gt_true] at h
      rw [beq_gt_false, strcmp_gt_swap a b h]
      decide)
    (fun a b c h1 h2 => by
      rw [beq_gt_false] at h1 h2 ⊢
      exact strcmp_le_trans a b c h1 h2)
    (((List.range g.n_vertices).filter (fun i => ap.getD i false)).map
      (fun i => g.vertices.getD i []))
  have hperm2 := exchange_sort_perm (⟨[], []⟩ : edge_pair) edge_pair_gt B
  have hsort2 := exchange_sort_sorted (⟨[], []⟩ : edge_pair) edge_pair_gt edge_pair_gt_asymm
    edge_pair_le_trans B
  refine ⟨exchange_sort ([] : List Char) (fun a b => strcmp a b == Ordering.gt)
      (((List.range g.n_vertices).filter (fun i => ap.getD i false)).map
        (fun i => g.vertices.getD i [])),
    exchange_sort ⟨[], []⟩ edge_pair_gt B, ?_, ?_, ?_, ?_, ?_, ?_, ?_⟩
  · unfold vertices_corte_names
    rw [hap]
    rfl
  · unfold vertices_corte vertices_corte_names
    rw [hap]
    rfl
  · exact arestas_corte_pairs_small g hwf hcap t B hB
  · unfold arestas_corte
    rw [arestas_corte_pairs_small g hwf hcap t B hB]
    rfl
  · have hnd : (exchange_sort ([] : List Char) (fun a b => strcmp a b == Ordering.gt)
        (((List.range g.n_vertices).filter (fun i => ap.getD i false)).map
          (fun i => g.vertices.getD i []))).Nodup :=
      hperm1.nodup_iff.2 (nodup_filter_names g hwf hnames ap)
    refine List.Pairwise.imp ?_ (List.Pairwise.and hsort1 hnd)
    intro a b hab
    obtain ⟨h1, h2⟩ := hab
    rw [beq_gt_false, strcmp_not_gt_iff] at h1
    rcases h1 with h1 | h1
    · exact h1
    · exact absurd h1 h2
  · intro e he
    obtain ⟨a, b, ha, hb, hab, ea⟩ := hBpairs e (hperm2.mem_iff.1 he)
    rw [ea]
    exact mk_pair_lt g hwf hnames a b ha hb hab
  · have hnd : (exchange_sort (⟨[], []⟩ : edge_pair) edge_pair_gt B).Nodup :=
      hperm2.nodup_iff.2 hBnd
    refine List.Pairwise.imp ?_ (List.Pairwise.and hsort2 hnd)
    intro x y hxy
    obtain ⟨h1, h2⟩ := hxy
    rw [edge_pair_gt_false] at h1
    rcases h1 with h1 | ⟨h1, h3⟩
    · exact Or.inl h1
    · right
      refine ⟨(strcmp_eq_iff _ _).2 h1, ?_⟩
      rw [strcmp_not_gt_iff] at h3
      rcases h3 with h3 | h3
      · exact h3
      · exfalso
        apply h2
        cases x
        cases y
        simp only at h1 h3
        rw [h1, h3]

/-- The cut outputs of the star with centre C: the centre is the only cut
vertex, and the three edges are printed as `A C B C C D`. -/
theorem cortes_ordenados_witness :
    ∃ g, le_grafo exemplo_estrela = some g ∧
      ((∃ (names : List (List Char)) (pairs : List edge_pair),
        vertices_corte_names 0 g = some names ∧
        vertices_corte 0 g = some (join_sp names) ∧
        arestas_corte_pairs 0 g = some pairs ∧
        arestas_corte 0 g =
          some (join_sp (pairs.map (fun b => b.u ++ Char.ofNat 32 :: b.v))) ∧
        names.Pairwise (fun a b => strcmp a b = Ordering.lt) ∧
        (∀ e ∈ pairs, strcmp e.u e.v = Ordering.lt) ∧
        pairs.Pairwise (fun a b => strcmp a.u b.u = Ordering.lt ∨
          (strcmp a.u b.u = Ordering.eq ∧ strcmp a.v b.v = Ordering.lt))) ∧
      vertices_corte 0 g = some "C".toList ∧
      arestas_corte 0 g = some "A C B C C D".toList) :=
  ⟨grafo_de exemplo_estrela,
    le_grafo_grafo_de exemplo_estrela (by decide),
    (⟨cortes_ordenados (grafo_de exemplo_estrela) (WF_grafo_de exemplo_estrela) (by decide)
        (by decide) 0, by decide, by decide⟩)⟩


/-! ## The counters do not leak between calls -/

theorem time_dfs_ap_final_time (g : grafo) (t : Int) :
    time_dfs_ap_final t g = time_dfs_ap_final 0 g := rfl

theorem time_dfs_br_final_time (g : grafo) (t : Int) :
    time_dfs_br_final t g = time_dfs_br_final 0 g := rfl

theorem chamada_vertices_corte_fst (c : contadores) (g : grafo) :
    (chamada_vertices_corte c g).map Prod.fst =
      (time_dfs_ap_final 0 g).bind (fun _ => vertices_corte 0 g) := by
  unfold chamada_vertices_corte
  rw [vertices_corte_time g c.time_dfs_ap, time_dfs_ap_final_time g c.time_dfs_ap]
  cases vertices_corte 0 g <;> cases time_dfs_ap_final 0 g <;> rfl

theorem chamada_arestas_corte_fst (c : contadores) (g : grafo) :
    (chamada_arestas_corte c g).map Prod.fst =
      (time_dfs_br_final 0 g).bind (fun _ => arestas_corte 0 g) := by
  unfold chamada_arestas_corte
  rw [arestas_corte_time g c.time_dfs_br, time_dfs_br_final_time g c.time_dfs_br]
  cases arestas_corte 0 g <;> cases time_dfs_br_final 0 g <;> rfl

theorem chamada_vertices_corte_twice (c : contadores) (g : grafo) (f : contadores → grafo →
    Option (List Char × contadores)) (hf : ∀ c2, (f c2 g).map Prod.fst = (f c g).map Prod.fst) :
    (chamada_vertices_corte c g).bind (fun x => (f x.2 g).map Prod.fst) =
      (chamada_vertices_corte c g).bind (fun _ => (f c g).map Prod.fst) := by
  cases chamada_vertices_corte c g with
  | none => rfl
  | some x => exact hf x.2

theorem chamada_arestas_corte_twice (c : contadores) (g : grafo) (f : contadores → grafo →
    Option (List Char × contadores)) (hf : ∀ c2, (f c2 g).map Prod.fst = (f c g).map Prod.fst) :
    (chamada_arestas_corte c g).bind (fun x => (f x.2 g).map Prod.fst) =
      (chamada_arestas_corte c g).bind (fun _ => (f c g).map Prod.fst) := by
  cases chamada_arestas_corte c g with
  | none => rfl
  | some x => exact hf x.2

/-- C20: the strings returned by `vertices_corte` and `arestas_corte` do not
depend on the values the module-level counters held before the call. Hence,
as steps on the module state, a call returns the same string from any two
counter states, and a second call, made after a call of either function has
changed the counters, returns what it would have returned before. -/
theorem contadores_nao_vazam :
    (∀ (g : grafo) (t1 t2 : Int),
      vertices_corte t1 g = vertices_corte t2 g ∧ arestas_corte t1 g = arestas_corte t2 g) ∧
    (∀ (g : grafo) (c1 c2 : contadores),
      (chamada_vertices_corte c1 g).map Prod.fst = (chamada_vertices_corte c2 g).map Prod.fst ∧
      (chamada_arestas_corte c1 g).map Prod.fst = (chamada_arestas_corte c2 g).map Prod.fst) ∧
    (∀ (g : grafo) (c : contadores),
      (chamada_vertices_corte c g).bind
          (fun x => (chamada_vertices_corte x.2 g).map Prod.fst) =
        (chamada_vertices_corte c g).map Prod.fst ∧
      (chamada_arestas_corte c g).bind
          (fun x => (chamada_arestas_corte x.2 g).map Prod.fst) =
        (chamada_arestas_corte c g).map Prod.fst ∧
      (chamada_vertices_corte c g).bind
          (fun x => (chamada_arestas_corte x.2 g).map Prod.fst) =
        (chamada_vertices_corte c g).bind (fun _ => (chamada_arestas_corte c g).map Prod.fst) ∧
      (chamada_arestas_corte c g).bind
          (fun x => (chamada_vertices_corte x.2 g).map Prod.fst) =
        (chamada_arestas_corte c g).bind
          (fun _ => (chamada_vertices_corte c g).map Prod.fst)) := by
  have hv : ∀ (g : grafo) (c1 c2 : contadores),
      (chamada_vertices_corte c1 g).map Prod.fst = (chamada_vertices_corte c2 g).map Prod.fst :=
    fun g c1 c2 => by rw [chamada_vertices_corte_fst, chamada_vertices_corte_fst]
  have ha : ∀ (g : grafo) (c1 c2 : contadores),
      (chamada_arestas_corte c1 g).map Prod.fst = (chamada_arestas_corte c2 g).map Prod.fst :=
    fun g c1 c2 => by rw [chamada_arestas_corte_fst, chamada_arestas_corte_fst]
  refine ⟨fun g t1 t2 => ⟨rfl, rfl⟩, fun g c1 c2 => ⟨hv g c1 c2, ha g c1 c2⟩, ?_⟩
  intro g c
  refine ⟨?_, ?_, ?_, ?_⟩
  · rw [chamada_vertices_corte_twice c g chamada_vertices_corte (fun c2 => hv g c2 c)]
    cases chamada_vertices_corte c g <;> rfl
  · rw [chamada_arestas_corte_twice c g chamada_arestas_corte (fun c2 => ha g c2 c)]
    cases chamada_arestas_corte c g <;> rfl
  · exact chamada_vertices_corte_twice c g chamada_arestas_corte (fun c2 => ha g c2 c)
  · exact chamada_arestas_corte_twice c g chamada_vertices_corte (fun c2 => hv g c2 c)

/-- A call on the path A - B - C from counters 7 and 9: the string is B, and
`time_dfs_ap` is left at 3. -/
theorem chamada_vertices_corte_exemplo :
    ∃ g, le_grafo exemplo_caminho = some g ∧
      (chamada_vertices_corte ⟨7, 9⟩ g = some ("B".toList, ⟨3, 9⟩)) :=
  ⟨grafo_de exemplo_caminho,
    le_grafo_grafo_de exemplo_caminho (by decide),
    (by
      decide)⟩

/-! ## The contract of `dijkstra` -/

/-- C21: on a well-formed graph with non-negative weights whose path weights
stay below `INF` (every edge weighs less than `INF` and joined vertices are
joined by a walk lighter than `INF`), for every vertex `src` the array
returned by `dijkstra` has `n_vertices` cells, holds 0 at `src`, holds at
every vertex joined to `src` the least weight of a walk from `src` (so at most
the weight of any entry, parallel ones included, that leads there from
`src`), and holds `INF = INT_MAX / 2` at every vertex not joined to `src`. -/
theorem dijkstra_correct (g : grafo) (hwf : WF g) (hnn : NonNeg g) (hb : BelowINF g)
    (src : Nat) (hsrc : src < g.n_vertices) :
    (dijkstra g src).length = g.n_vertices ∧
    (dijkstra g src).getD src 0 = 0 ∧
    (∀ v, Joined g src v →
      IsDist g src v ((dijkstra g src).getD v 0) ∧ (dijkstra g src).getD v 0 < INF) ∧
    (∀ p ∈ g.adj.getD src [], (dijkstra g src).getD p.v 0 ≤ p.weight) ∧
    (∀ v, v < g.n_vertices → ¬ Joined g src v → (dijkstra g src).getD v 0 = INF) ∧
    INF = 2147483647 / 2 := by
  have hpost := dijkstra_spec g hwf hnn hb.1 src hsrc
  refine ⟨hpost.len, ?_, ?_, ?_, ?_, rfl⟩
  · have h1 := hpost.lower src 0 (WalkW.nil src)
    have h2 := (hpost.range src).1
    omega
  · intro v hj
    have h := IsDist_dijkstra g hwf hnn hb src v hsrc hj
    exact ⟨h.2, h.1⟩
  · intro p hp
    have h := hpost.lower p.v (0 + p.weight) (WalkW.snoc p (WalkW.nil src) hp)
    omega
  · intro v hv hnj
    rcases hpost.real v hv with h | h
    · exact h
    · exact absurd (WalkW_joined g src v _ h) hnj

/-- C21 on the sample input, from A: B at 1, C at 1 (not 5 through B), and D,
which is not joined to A, at `INF`. -/
theorem dijkstra_correct_witness :
    ∃ g, le_grafo exemplo_g1 = some g ∧
      (NonNeg g ∧ BelowINF g ∧
      IsDist g 0 2 1 ∧
      dijkstra g 0 = [0, 1, 1, 1073741823]) :=
  ⟨grafo_de exemplo_g1,
    le_grafo_grafo_de exemplo_g1 (by decide),
    (show _ from
      have hw := pesos_entre_spec 0 5 (grafo_de exemplo_g1) (by decide)
      have hnn : NonNeg (grafo_de exemplo_g1) := fun u p hp => (hw u p hp).1
      have hb : BelowINF (grafo_de exemplo_g1) :=
        BelowINF_of_bound (grafo_de exemplo_g1) (WF_grafo_de exemplo_g1) 5 (by decide)
          (fun u p hp => (hw u p hp).2) (by decide)
      have hval : dijkstra (grafo_de exemplo_g1) 0 = [0, 1, 1, 1073741823] := by decide
      have h := dijkstra_correct (grafo_de exemplo_g1) (WF_grafo_de exemplo_g1) hnn hb 0 (by decide)
      have hj : Joined (grafo_de exemplo_g1) 0 2 :=
        Relation.ReflTransGen.single ⟨⟨2, 1⟩, by decide, rfl⟩
      have hd := (h.2.2.1 2 hj).1
      ⟨hnn, hb, by rw [hval] at hd; exact hd, hval⟩)⟩


/-! ## Decimal numerals are distinct -/

theorem digit_toNat : ∀ d, d < 10 → (Char.ofNat (48 + d)).toNat - 48 = d := by
  decide

theorem foldl_utoa : ∀ (f n : Nat), n < f →
    (utoa f n).foldl (fun acc c => acc * 10 + (c.toNat - 48)) 0 = n := by
  intro f
  induction f with
  | zero =>
    intro n h
    exact absurd h (Nat.not_lt_zero _)
  | succ f ih =>
    intro n h
    rw [utoa]
    by_cases hn : n < 10
    · rw [if_pos hn, List.foldl_cons, List.foldl_nil, digit_toNat n hn]
      omega
    · rw [if_neg hn, List.foldl_append, ih (n / 10) (by omega), List.foldl_cons,
        List.foldl_nil, digit_toNat (n % 10) (Nat.mod_lt _ (by decide))]
      omega

theorem itoa_ofNat_inj (n m : Nat) (h : itoa (Int.ofNat n) = itoa (Int.ofNat m)) : n = m := by
  have e : ∀ k : Nat, itoa (Int.ofNat k) = utoa (k + 1) k := by
    intro k
    unfold itoa
    rw [if_neg (by simp)]
    rfl
  rw [e n, e m] at h
  have h1 := foldl_utoa (n + 1) n (Nat.lt_succ_self n)
  have h2 := foldl_utoa (m + 1) m (Nat.lt_succ_self m)
  rw [h] at h1
  omega

/-! ## The star graphs -/

theorem estrela_adj_zero (k : Nat) :
    (estrela k).adj.getD 0 [] = (List.range' 1 k).reverse.map (fun i => (⟨i, 1⟩ : adj_node)) :=
  rfl

theorem estrela_adj_leaf (k i : Nat) (h1 : 1 ≤ i) (h2 : i ≤ k) :
    (estrela k).adj.getD i [] = [⟨0, 1⟩] := by
  obtain ⟨j, rfl⟩ : ∃ j, i = j + 1 := ⟨i - 1, by omega⟩
  show (List.replicate k [(⟨0, 1⟩ : adj_node)]).getD j [] = _
  rw [List.getD_eq_getElem?_getD, List.getElem?_replicate, if_pos (by omega)]
  rfl

theorem estrela_adj_out (k i : Nat) (h : k < i) : (estrela k).adj.getD i [] = [] := by
  apply List.getD_eq_default
  show (_ :: List.replicate k _).length ≤ i
  rw [List.length_cons, List.length_replicate]
  omega

theorem estrela_mem_zero (k : Nat) (p : adj_node) :
    p ∈ (estrela k).adj.getD 0 [] ↔ ∃ i, 1 ≤ i ∧ i ≤ k ∧ p = ⟨i, 1⟩ := by
  rw [estrela_adj_zero, List.mem_map]
  constructor
  · rintro ⟨i, hi, e⟩
    rw [List.mem_reverse, List.mem_range'_1] at hi
    exact ⟨i, hi.1, by omega, e.symm⟩
  · rintro ⟨i, h1, h2, e⟩
    exact ⟨i, by rw [List.mem_reverse, List.mem_range'_1]; omega, e.symm⟩

theorem estrela_mem (k x : Nat) (p : adj_node) :
    p ∈ (estrela k).adj.getD x [] ↔
      (x = 0 ∧ ∃ i, 1 ≤ i ∧ i ≤ k ∧ p = ⟨i, 1⟩) ∨ (1 ≤ x ∧ x ≤ k ∧ p = ⟨0, 1⟩) := by
  rcases Nat.eq_zero_or_pos x with e | hpos
  · rw [e, estrela_mem_zero]
    constructor
    · exact fun h => Or.inl ⟨rfl, h⟩
    · rintro (⟨_, h⟩ | ⟨h, _⟩)
      · exact h
      · omega
  · by_cases hk : x ≤ k
    · rw [estrela_adj_leaf k x hpos hk, List.mem_singleton]
      constructor
      · exact fun h => Or.inr ⟨hpos, hk, h⟩
      · rintro (⟨h, _⟩ | ⟨_, _, h⟩)
        · omega
        · exact h
    · rw [estrela_adj_out k x (by omega)]
      constructor
      · intro h
        cases h
      · rintro (⟨h, _⟩ | ⟨_, h, _⟩) <;> omega

theorem WF_estrela (k : Nat) : WF (estrela k) where
  len_vertices := by
    show ((List.range (k + 1)).map _).length = k + 1
    rw [List.length_map, List.length_range]
  len_adj := by
    show (_ :: List.replicate k _).length = k + 1
    rw [List.length_cons, List.length_replicate]
  in_range := by
    intro x p hp
    show p.v < k + 1
    rcases (estrela_mem k x p).1 hp with ⟨_, i, _, h2, e⟩ | ⟨_, _, e⟩
    · rw [e]
      show i < k + 1
      omega
    · rw [e]
      show 0 < k + 1
      omega
  sym := by
    intro x y w hp
    rcases (estrela_mem k x _).1 hp with ⟨e0, i, h1, h2, e⟩ | ⟨h1, h2, e⟩
    · obtain ⟨e1, e2⟩ := adj_node.mk.inj e
      rw [e0, e1, e2]
      exact (estrela_mem k i _).2 (Or.inr ⟨h1, h2, rfl⟩)
    · obtain ⟨e1, e2⟩ := adj_node.mk.inj e
      rw [e1, e2]
      exact (estrela_mem k 0 _).2 (Or.inl ⟨rfl, x, h1, h2, rfl⟩)

theorem nodup_estrela (k : Nat) : (estrela k).vertices.Nodup := by
  show ((List.range (k + 1)).map (fun i => itoa (Int.ofNat i))).Nodup
  exact List.Nodup.map (fun a b h => itoa_ofNat_inj a b h) (List.nodup_range _)

/-- In a star, a leaf is joined to the centre by its own edge only. -/
theorem estrela_bridge (k i : Nat) (h1 : 1 ≤ i) (h2 : i ≤ k) :
    ¬ JoinedMinus (estrela k) 0 i 0 i := by
  intro hj
  have hcl := JoinedR_closed (estrela k) _ (fun x => x ≠ i) (by
    intro x y hx hxy hR
    obtain ⟨p, hp, rfl⟩ := hxy
    rcases (estrela_mem k x p).1 hp with ⟨e0, j, _, _, e⟩ | ⟨k1, k2, e⟩
    · rw [e]
      intro ej
      exact hR.1 ⟨e0, by rw [e]; exact ej⟩
    · rw [e]
      show 0 ≠ i
      omega) 0 i (by omega) hj
  exact hcl rfl


theorem estrela_found (k : Nat) (t : Int) :
    ∃ B, arestas_corte_found t (estrela k) = some B ∧ B.length = k := by
  have hwf := WF_estrela k
  obtain ⟨B, hB, _, hcomplete, hcount⟩ := arestas_corte_found_spec (estrela k) hwf t
  refine ⟨B, hB, ?_⟩
  have hn : (estrela k).n_vertices = k + 1 := rfl
  rw [hn, if_neg (by omega)] at hcount
  apply le_antisymm
  · omega
  · have hnd : ((List.range' 1 k).map (fun i => mk_pair (estrela k) 0 i)).Nodup := by
      apply List.Nodup.map_on
      · intro a ha b hb e
        rw [List.mem_range'_1] at ha hb
        rcases mk_pair_inj (estrela k) hwf (nodup_estrela k) 0 a 0 b (by rw [hn]; omega)
          (by rw [hn]; omega) (by rw [hn]; omega) (by rw [hn]; omega) e with ⟨_, h⟩ | ⟨h, _⟩
        · exact h
        · omega
      · exact List.nodup_range' 1 k
    have hsub : (List.range' 1 k).map (fun i => mk_pair (estrela k) 0 i) ⊆ B := by
      intro e he
      obtain ⟨i, hi, rfl⟩ := List.mem_map.1 he
      rw [List.mem_range'_1] at hi
      exact hcomplete 0 i (by rw [hn]; omega) (by rw [hn]; omega)
        ⟨⟨i, 1⟩, (estrela_mem_zero k _).2 ⟨i, hi.1, by omega, rfl⟩, rfl⟩ (by omega)
        (estrela_bridge k i hi.1 (by omega))
    have hle := (List.subperm_of_subset hnd hsub).length_le
    rw [List.length_map, List.length_range'] at hle
    exact hle

/-- C22 fails on the code: for the star with 65537 vertices (centre 0, leaves
1 to 65536) the search of `arestas_corte` records 65536 pairs, while the
array `bridges` is given `n * (n - 1) / 2` cells computed in `int`, which is
32768 for `n = 65537` because the product overflows; the writes from index
32768 on are outside the array. -/
theorem arestas_corte_estouro :
    WF (estrela 65536) ∧ (estrela 65536).n_vertices = 65537 ∧
    (∀ t, ∃ B, arestas_corte_found t (estrela 65536) = some B ∧ B.length = 65536) ∧
    bridges_cap (estrela 65536).n_vertices = 32768 :=
  ⟨WF_estrela 65536, rfl, fun t => estrela_found 65536 t, by decide⟩

theorem NoParallel_estrela (k : Nat) : NoParallel (estrela k) := by
  intro u v _
  rcases Nat.eq_zero_or_pos u with e | hpos
  · rw [e, estrela_adj_zero]
    have hnd : ((List.range' 1 k).reverse.map (fun i => (⟨i, 1⟩ : adj_node))).map
        (fun p => p.v) = (List.range' 1 k).reverse := by
      rw [List.map_map]
      exact List.map_id _
    have hc := List.nodup_iff_count_le_one.1
      (List.nodup_reverse.2 (List.nodup_range' 1 k)) v
    rw [← hnd, List.count_eq_countP, List.countP_map] at hc
    have e2 : ((fun (x : Nat) => x == v) ∘ fun (p : adj_node) => p.v) =
        (fun p : adj_node => decide (p.v = v)) := by
      funext p
      show (p.v == v) = decide (p.v = v)
      rfl
    rw [e2] at hc
    exact hc
  · by_cases hk : u ≤ k
    · rw [estrela_adj_leaf k u hpos hk]
      exact List.countP_le_length _
    · rw [estrela_adj_out k u (by omega)]
      simp

theorem IsBridge_estrela (k i : Nat) (h1 : 1 ≤ i) (h2 : i ≤ k) : IsBridge (estrela k) 0 i := by
  have hadj : Adj (estrela k) 0 i :=
    ⟨⟨i, 1⟩, (estrela_mem_zero k _).2 ⟨i, h1, h2, rfl⟩, rfl⟩
  have hn : (estrela k).n_vertices = k + 1 := rfl
  exact ⟨hadj, (bridge_card_iff (estrela k) (WF_estrela k) (NoParallel_estrela k) 0 i
    (by rw [hn]; omega) (by rw [hn]; omega) (by omega) hadj).2 (estrela_bridge k i h1 h2)⟩

/-- C4 fails on the code: the star with 65537 vertices is well formed, has
distinct names and no parallel edges, each of its 65536 edges raises the
number of components when removed, and `arestas_corte` gives no result on
it, because the search stores 65536 pairs in an array of 32768 cells. -/
theorem arestas_corte_estrela_grande :
    WF (estrela 65536) ∧ (estrela 65536).vertices.Nodup ∧ NoParallel (estrela 65536) ∧
    (∀ i, 1 ≤ i → i ≤ 65536 → IsBridge (estrela 65536) 0 i) ∧
    bridges_cap (estrela 65536).n_vertices = 32768 ∧
    ∀ t, arestas_corte t (estrela 65536) = none := by
  refine ⟨WF_estrela _, nodup_estrela _, NoParallel_estrela _,
    fun i h1 h2 => IsBridge_estrela _ i h1 h2, by decide, fun t => ?_⟩
  obtain ⟨B, hB, hlen⟩ := estrela_found 65536 t
  refine arestas_corte_cap_lt _ t B hB ?_
  rw [hlen]
  decide

/-- C19 fails on the code: the star with 46342 vertices is well formed and
has distinct names, and `arestas_corte` gives no result on it, because the
cell count `n * (n - 1) / 2` computed in `int` is negative and the
allocation of `bridges` fails. -/
theorem cortes_estrela_sem_resultado :
    WF (estrela 46341) ∧ (estrela 46341).vertices.Nodup ∧
    (estrela 46341).n_vertices = 46342 ∧
    bridges_cap (estrela 46341).n_vertices = -1073716337 ∧
    ∀ t, arestas_corte_pairs t (estrela 46341) = none ∧ arestas_corte t (estrela 46341) = none := by
  have hc : bridges_cap (estrela 46341).n_vertices < 0 := by decide
  refine ⟨WF_estrela _, nodup_estrela _, rfl, by decide, fun t => ⟨?_, ?_⟩⟩
  · unfold arestas_corte_pairs
    exact if_pos hc
  · exact arestas_corte_cap_neg _ t hc
theorem succ_mod_eq (k i : Nat) (hi : i < k) :
    (i + 1) % k = if i + 1 = k then 0 else i + 1 := by
  split
  · rename_i h
    rw [h, Nat.mod_self]
  · exact Nat.mod_eq_of_lt (by omega)

theorem pred_mod_eq (k i : Nat) (hi : i < k) :
    (i + k - 1) % k = if i = 0 then k - 1 else i - 1 := by
  split
  · rename_i h
    rw [h, Nat.zero_add]
    exact Nat.mod_eq_of_lt (by omega)
  · have e : i + k - 1 = (i - 1) + k := by omega
    rw [e, Nat.add_mod_right]
    exact Nat.mod_eq_of_lt (by omega)

theorem anel_adj (k i : Nat) (hi : i < k) :
    (anel k).adj.getD i [] =
      if i = 0 then [(⟨k - 1, 1⟩ : adj_node), ⟨1, 1⟩] else [⟨(i + 1) % k, 1⟩, ⟨i - 1, 1⟩] := by
  show ((List.range k).map _).getD i [] = _
  rw [List.getD_eq_getElem?_getD, List.getElem?_map, List.getElem?_range hi]
  rfl

theorem anel_adj_out (k i : Nat) (hi : k ≤ i) : (anel k).adj.getD i [] = [] := by
  show ((List.range k).map _).getD i [] = _
  rw [List.getD_eq_default]
  rw [List.length_map, List.length_range]
  exact hi

theorem anel_mem (k i : Nat) (hk : 2 ≤ k) (p : adj_node) :
    p ∈ (anel k).adj.getD i [] ↔
      i < k ∧ (p = ⟨(i + 1) % k, 1⟩ ∨ p = ⟨(i + k - 1) % k, 1⟩) := by
  by_cases hi : i < k
  · rw [anel_adj k i hi, succ_mod_eq k i hi, pred_mod_eq k i hi]
    by_cases h0 : i = 0
    · rw [if_pos h0, if_pos h0, if_neg (by omega)]
      rw [h0]
      simp only [List.mem_cons, List.mem_singleton, List.not_mem_nil, or_false, true_and, hi,
        Nat.zero_add]
      constructor
      · rintro (h | h)
        · exact ⟨by omega, Or.inr h⟩
        · exact ⟨by omega, Or.inl h⟩
      · rintro ⟨_, h | h⟩
        · exact Or.inr h
        · exact Or.inl h
    · rw [if_neg h0, if_neg h0]
      simp only [List.mem_cons, List.mem_singleton, List.not_mem_nil, or_false]
      constructor
      · exact fun h => ⟨hi, h⟩
      · exact fun h => h.2
  · rw [anel_adj_out k i (by omega)]
    constructor
    · intro h
      cases h
    · exact fun h => absurd h.1 hi

theorem WF_anel (k : Nat) (hk : 2 ≤ k) : WF (anel k) where
  len_vertices := by
    show ((List.range k).map _).length = k
    rw [List.length_map, List.length_range]
  len_adj := by
    show ((List.range k).map _).length = k
    rw [List.length_map, List.length_range]
  in_range := by
    intro i p hp
    show p.v < k
    obtain ⟨hi, h | h⟩ := (anel_mem k i hk p).1 hp
    · rw [h]
      exact Nat.mod_lt _ (by omega)
    · rw [h]
      exact Nat.mod_lt _ (by omega)
  sym := by
    intro i j w hp
    obtain ⟨hi, h | h⟩ := (anel_mem k i hk _).1 hp
    · obtain ⟨e1, e2⟩ := adj_node.mk.inj h
      have hj : j < k := by rw [e1]; exact Nat.mod_lt _ (by omega)
      refine (anel_mem k j hk _).2 ⟨hj, Or.inr ?_⟩
      rw [e2]
      congr 1
      rw [pred_mod_eq k j hj, e1, succ_mod_eq k i hi]
      split <;> split <;> omega
    · obtain ⟨e1, e2⟩ := adj_node.mk.inj h
      have hj : j < k := by rw [e1]; exact Nat.mod_lt _ (by omega)
      refine (anel_mem k j hk _).2 ⟨hj, Or.inl ?_⟩
      rw [e2]
      congr 1
      rw [succ_mod_eq k j hj, e1, pred_mod_eq k i hi]
      split <;> split <;> omega

theorem nodup_anel (k : Nat) : (anel k).vertices.Nodup := by
  show ((List.range k).map (fun i => itoa (Int.ofNat i))).Nodup
  exact List.Nodup.map (fun a b h => itoa_ofNat_inj a b h) (List.nodup_range _)

theorem Ciclo_anel (k : Nat) (hk : 2 ≤ k) : Ciclo (anel k) (List.range k) where
  perm := List.Perm.refl _
  viz := by
    intro i hi
    have hi2 : i < k := hi
    have hn : (anel k).n_vertices = k := rfl
    have g1 : (List.range k).getD i 0 = i := by
      rw [List.getD_eq_getElem?_getD, List.getElem?_range hi2]
      rfl
    have g2 : ∀ j, j < k → (List.range k).getD j 0 = j := by
      intro j hj
      rw [List.getD_eq_getElem?_getD, List.getElem?_range hj]
      rfl
    rw [hn, g1, g2 _ (Nat.mod_lt _ (by omega)), g2 _ (Nat.mod_lt _ (by omega)),
      anel_adj k i hi2, pred_mod_eq k i hi2]
    by_cases h0 : i = 0
    · rw [if_pos h0, if_pos h0, h0, Nat.zero_add, Nat.mod_eq_of_lt (by omega : 1 < k)]
      exact List.Perm.swap _ _ _
    · rw [if_neg h0, if_neg h0]
      exact List.Perm.refl _

/-- On a well-formed simple cycle no vertex is a cut vertex, and
`vertices_corte` returns the empty string. -/
theorem ciclo_vertices_corte (g : grafo) (ord : List Nat) (hwf : WF g) (hc : Ciclo g ord)
    (t : Int) : vertices_corte t g = some [] := by
  obtain ⟨ap, hap, hcorrect⟩ := vertices_corte_ap_spec g hwf t
  have hnil : (List.range g.n_vertices).filter (fun i => ap.getD i false) = [] := by
    rw [List.filter_eq_nil_iff]
    intro i hi hflag
    exact hc.not_cut hwf i (List.mem_range.1 hi) ((hcorrect i (List.mem_range.1 hi)).1 hflag)
  unfold vertices_corte vertices_corte_names
  rw [hap, Option.map_some', Option.map_some', hnil]
  rfl

/-- C17 fails on the code: the cycle with 46342 vertices is well formed, its
vertices have distinct names, `vertices_corte` returns the empty string on
it, and `arestas_corte` gives no result, because the cell count
`n * (n - 1) / 2` computed in `int` is negative and the allocation of
`bridges` fails. -/
theorem ciclo_grande_sem_resultado :
    WF (anel 46342) ∧ 3 ≤ (anel 46342).n_vertices ∧ (anel 46342).vertices.Nodup ∧
    Ciclo (anel 46342) (List.range 46342) ∧
    bridges_cap (anel 46342).n_vertices = -1073716337 ∧
    ∀ t, vertices_corte t (anel 46342) = some [] ∧ arestas_corte t (anel 46342) = none := by
  have hwf := WF_anel 46342 (by decide)
  have hc := Ciclo_anel 46342 (by decide)
  have hneg : bridges_cap (anel 46342).n_vertices < 0 := by decide
  exact ⟨hwf, by decide, nodup_anel _, hc, by decide,
    fun t => ⟨ciclo_vertices_corte _ _ hwf hc t, arestas_corte_cap_neg _ t hneg⟩⟩

end Grafo
